import Mathlib

/-!
# Disk-based B+ tree (`src/main.cpp`): shallow embedding and verified properties

The backing file is a list of whole 4096-byte pages.  A page is kept in decoded
form (superblock, leaf or internal page); a write replaces the whole page, as
`Pager::writePage` does.  Only the occupied prefix `slots[0..count)` of a page is
kept: the source keeps every slot at or beyond `count` zeroed, so a page is
determined by that prefix and `count` is the length of the list.

Keys are `int32_t` in the source and are modelled as `Int` (no arithmetic is ever
done on a key, only comparisons); page ids (`uint64_t`) and counts are `Nat`.

An operation returns `none` when the source would not complete normally: a read
past the end of the file (`readPage` throws), a descent that never reaches a
leaf, or a page read through the wrong view (e.g. `readLeaf` on an internal
page), which lies outside the typed page model.
-/

namespace BPTree

/-! ## Constants and page layout (lines 8, 88-131) -/

/-- `using PageId = uint64_t`: page ids are natural numbers; the definitions below
write `Nat` for them. -/
abbrev PageId := Nat
abbrev Bytes := List UInt8

def PAGE_SIZE : Nat := 4096
/-- Packed header: `uint8_t is_leaf; uint16_t count; PageId parent; PageId next`. -/
def LEAF_HDR_SZ : Nat := 1 + 2 + 8 + 8
/-- Packed header: `uint8_t is_leaf; uint16_t count; PageId parent; PageId leftmost`. -/
def INTERNAL_HDR_SZ : Nat := 1 + 2 + 8 + 8
/-- Packed entry: `int32_t key; char value[8]`. -/
def LEAF_ENTRY_SZ : Nat := 4 + 8
/-- Packed entry: `int32_t key; PageId right_child`. -/
def INT_ENTRY_SZ : Nat := 4 + 8

def LEAF_CAPACITY : Nat := (PAGE_SIZE - LEAF_HDR_SZ) / LEAF_ENTRY_SZ
def INTERNAL_CAPACITY : Nat := (PAGE_SIZE - INTERNAL_HDR_SZ) / INT_ENTRY_SZ

def MAGIC : Nat := 0x4250545245453133

structure SuperBlock where
  magic : Nat := MAGIC
  root : Nat := 0
  free_list_head : Nat := 0
  page_count : Nat := 1
deriving DecidableEq, Repr

structure LeafEntry where
  key : Int
  value : Bytes
deriving DecidableEq, Repr, Inhabited

structure InternalEntry where
  key : Int
  right_child : Nat
deriving DecidableEq, Repr, Inhabited

/-- Leaf page: header fields and the occupied slots `slots[0..count)`. -/
structure LeafPage where
  parent : Nat := 0
  next : Nat := 0
  slots : List LeafEntry := []
deriving DecidableEq, Repr

/-- Internal page: header fields and the occupied slots `slots[0..count)`. -/
structure InternalPage where
  parent : Nat := 0
  leftmost : Nat := 0
  slots : List InternalEntry := []
deriving DecidableEq, Repr

/-- The header field `count` of a leaf page. -/
def LeafPage.count (p : LeafPage) : Nat := p.slots.length
/-- The header field `count` of an internal page. -/
def InternalPage.count (p : InternalPage) : Nat := p.slots.length

inductive Page where
  | super (sb : SuperBlock)
  | leaf (p : LeafPage)
  | internal (p : InternalPage)
deriving DecidableEq, Repr

/-- A zero-filled page: `is_leaf = 0`, `count = 0`, `parent = 0`, `leftmost = 0`,
so it decodes as an empty internal page. -/
def zeroPage : Page := Page.internal {}

/-- The tree object: the in-memory superblock `sb` and the backing file of the pager. -/
structure Tree where
  sb : SuperBlock
  disk : List Page
deriving DecidableEq, Repr

/-! ## Pager (lines 11-86) -/

/-- `Pager::open`: a file shorter than one page gets a zero-filled first page. -/
def Pager.open (d : List Page) : List Page :=
  if d.length < 1 then [zeroPage] else d

/-- `Pager::allocatePage`: append a zero page, return its id. -/
def allocatePage (d : List Page) : Nat × List Page :=
  (d.length, d ++ [zeroPage])

/-- `Pager::readPage`: fails past the end of the file. -/
def readPage (d : List Page) (pid : Nat) : Option Page := d[pid]?

/-- `Pager::writePage`.  Every write of the program targets a page that was
allocated or read just before, so the target is inside the file. -/
def writePage (d : List Page) (pid : Nat) (p : Page) : List Page := d.set pid p

def readLeaf (d : List Page) (pid : Nat) : Option LeafPage :=
  match readPage d pid with
  | some (Page.leaf p) => some p
  | _ => none

def writeLeaf (d : List Page) (pid : Nat) (p : LeafPage) : List Page :=
  writePage d pid (Page.leaf p)

def readInternal (d : List Page) (pid : Nat) : Option InternalPage :=
  match readPage d pid with
  | some (Page.internal p) => some p
  | _ => none

def writeInternal (d : List Page) (pid : Nat) (p : InternalPage) : List Page :=
  writePage d pid (Page.internal p)

/-- `readSuper`: page 0 seen as a superblock.  A leaf or internal page starts with
the byte `is_leaf` (0 or 1), which is not the first byte of the magic, so such a
page never carries the magic: it is reported as `none`. -/
def readSuper (d : List Page) : Option SuperBlock :=
  match readPage d 0 with
  | some (Page.super sb) => some sb
  | _ => none

def writeSuper (d : List Page) (sb : SuperBlock) : List Page :=
  writePage d 0 (Page.super sb)

/-! ## Helpers (lines 133-155) -/

/-- `pad8`: truncate to 8 bytes, then right-pad with zero bytes to 8. -/
def pad8 (s : Bytes) : Bytes :=
  let s1 := if s.length > 8 then s.take 8 else s
  if s1.length < 8 then s1 ++ List.replicate (8 - s1.length) 0 else s1

/-- Loop of `lower_bound_leaf`; the first argument bounds the number of iterations. -/
def lowerBoundLoop (slots : List LeafEntry) (key : Int) : Nat → Nat → Nat → Nat
  | 0, lo, _ => lo
  | fuel + 1, lo, hi =>
    if lo < hi then
      let m := (lo + hi) / 2
      if (slots.getD m default).key < key then lowerBoundLoop slots key fuel (m + 1) hi
      else lowerBoundLoop slots key fuel lo m
    else lo

/-- `lower_bound_leaf`: the interval `hi - lo` shrinks at every iteration, so
`count` iterations are enough. -/
def lower_bound_leaf (leaf : LeafPage) (key : Int) : Nat :=
  lowerBoundLoop leaf.slots key leaf.count 0 leaf.count

/-- Loop of `child_index`. -/
def childIndexLoop (slots : List InternalEntry) (key : Int) : Nat → Nat → Nat → Nat
  | 0, lo, _ => lo
  | fuel + 1, lo, hi =>
    if lo < hi then
      let m := (lo + hi) / 2
      if key ≤ (slots.getD m default).key then childIndexLoop slots key fuel lo m
      else childIndexLoop slots key fuel (m + 1) hi
    else lo

/-- `child_index`. -/
def child_index (n : InternalPage) (key : Int) : Nat :=
  childIndexLoop n.slots key n.count 0 n.count

/-! ## Tree operations (lines 157-335) -/

/-- `newLeaf`. -/
def newLeaf (t : Tree) (parent : Nat) : Nat × Tree :=
  let a := allocatePage t.disk
  (a.1, { sb := { t.sb with page_count := t.sb.page_count + 1 },
          disk := writeLeaf a.2 a.1 { parent := parent, next := 0, slots := [] } })

/-- `newInternal`. -/
def newInternal (t : Tree) (parent : Nat) : Nat × Tree :=
  let a := allocatePage t.disk
  (a.1, { sb := { t.sb with page_count := t.sb.page_count + 1 },
          disk := writeInternal a.2 a.1 { parent := parent, leftmost := 0, slots := [] } })

/-- The child an internal page sends `key` to (line 187-188). -/
def childFor (n : InternalPage) (key : Int) : Nat :=
  let idx := child_index n key
  if idx = 0 then n.leftmost else (n.slots.getD (idx - 1) default).right_child

/-- Loop of `findLeaf`; the first argument bounds the number of pages visited. -/
def findLeafLoop (d : List Page) (key : Int) : Nat → Nat → Option Nat
  | 0, _ => none
  | fuel + 1, pid =>
    match readPage d pid with
    | some (Page.leaf _) => some pid
    | some (Page.internal n) => findLeafLoop d key fuel (childFor n key)
    | _ => none

/-- `findLeaf`: a descent that ends visits each page at most once, hence no more
pages than the file has. -/
def findLeaf (t : Tree) (key : Int) : Option Nat :=
  findLeafLoop t.disk key t.disk.length t.sb.root

/-- The lambdas `fixp` / `set_parent` and the equivalent inline code of
`insertIntoParent`: read page `c`, set its `parent`, write it back. -/
def setParent (d : List Page) (c : Nat) (par : Nat) : Option (List Page) :=
  match readPage d c with
  | some (Page.leaf p) => some (writeLeaf d c { p with parent := par })
  | some (Page.internal p) => some (writeInternal d c { p with parent := par })
  | _ => none

/-- The loop `for i in 0..count: fixp(slots[i].right_child)`. -/
def setParents (d : List Page) (par : Nat) : List InternalEntry → Option (List Page)
  | [] => some d
  | e :: es => (setParent d e.right_child par).bind (fun d1 => setParents d1 par es)

/-- The scan `while(pos<count && slots[pos].key<sep_key) pos++` (line 217). -/
def scanPos (sep_key : Int) : List InternalEntry → Nat
  | [] => 0
  | e :: es => if e.key < sep_key then scanPos sep_key es + 1 else 0

/-- `insertIntoParent`; the first argument bounds the recursion depth. -/
def insertIntoParent : Nat → Tree → Nat → Int → Nat → Option Tree
  | 0, _, _, _, _ => none
  | fuel + 1, t, left_pid, sep_key, right_pid =>
    match readPage t.disk left_pid with
    | none => none
    | some (Page.super _) => none
    | some b =>
      let parent_id : Nat :=
        match b with
        | Page.leaf L => L.parent
        | Page.internal L => L.parent
        | Page.super _ => 0
      if parent_id = 0 ∧ t.sb.root = left_pid then
        let nr := newInternal t 0
        let root_id := nr.1
        (readInternal nr.2.disk root_id).bind fun r =>
        let r1 : InternalPage := { r with leftmost := left_pid, slots := [⟨sep_key, right_pid⟩] }
        let d1 := writeInternal nr.2.disk root_id r1
        (setParent d1 left_pid root_id).bind fun d2 =>
        (setParent d2 right_pid root_id).bind fun d3 =>
        let sb1 : SuperBlock := { nr.2.sb with root := root_id }
        some { sb := sb1, disk := writeSuper d3 sb1 }
      else
        (readInternal t.disk parent_id).bind fun parent =>
        let pos := scanPos sep_key parent.slots
        if parent.count = INTERNAL_CAPACITY then
          let tmp := parent.slots.take pos ++ ⟨sep_key, right_pid⟩ :: parent.slots.drop pos
          let total := tmp.length
          let leftCount := total / 2
          let promoteKey := (tmp.getD leftCount default).key
          let leftP : InternalPage := { parent with slots := tmp.take leftCount }
          let nr := newInternal t parent.parent
          let rightNodeId := nr.1
          (readInternal nr.2.disk rightNodeId).bind fun rightP =>
          let rightCount := total - leftCount - 1
          let rightP1 : InternalPage :=
            { rightP with leftmost := (tmp.getD leftCount default).right_child,
                          slots := (tmp.drop (leftCount + 1)).take rightCount }
          let d1 := writeInternal nr.2.disk parent_id leftP
          let d2 := writeInternal d1 rightNodeId rightP1
          (setParent d2 rightP1.leftmost rightNodeId).bind fun d3 =>
          (setParents d3 rightNodeId rightP1.slots).bind fun d4 =>
          insertIntoParent fuel { nr.2 with disk := d4 } parent_id promoteKey rightNodeId
        else
          let parent1 : InternalPage :=
            { parent with slots := parent.slots.take pos ++ ⟨sep_key, right_pid⟩ :: parent.slots.drop pos }
          let d1 := writeInternal t.disk parent_id parent1
          (setParent d1 right_pid parent_id).bind fun d2 =>
          some { t with disk := d2 }

/-- `splitLeafAndInsert`.  The cascade of `insertIntoParent` climbs one level per
call, so the number of pages of the file bounds its depth. -/
def splitLeafAndInsert (t : Tree) (leaf_id : Nat) (key : Int) (v8 : Bytes) : Option Tree :=
  (readLeaf t.disk leaf_id).bind fun leaf =>
  let pos := lower_bound_leaf leaf key
  let tmp := leaf.slots.take pos ++ ⟨key, v8⟩ :: leaf.slots.drop pos
  let total := tmp.length
  let leftCount := total / 2
  let rightCount := total - leftCount
  let leaf1 : LeafPage := { leaf with slots := tmp.take leftCount }
  let nl := newLeaf t leaf1.parent
  let right_id := nl.1
  (readLeaf nl.2.disk right_id).bind fun right =>
  let right1 : LeafPage := { right with slots := (tmp.drop leftCount).take rightCount }
  let right2 : LeafPage := { right1 with next := leaf1.next }
  let leaf2 : LeafPage := { leaf1 with next := right_id }
  let d1 := writeLeaf nl.2.disk leaf_id leaf2
  let d2 := writeLeaf d1 right_id right2
  let sep_key := (right2.slots.getD 0 default).key
  insertIntoParent d2.length { nl.2 with disk := d2 } leaf_id sep_key right_id

/-- `BPlusTree::open` on the file content `d`. -/
def BPlusTree.open (d : List Page) : Tree :=
  let d0 := Pager.open d
  let fresh : Tree :=
    let nl := newLeaf { sb := {}, disk := d0 } 0
    let sb1 : SuperBlock := { nl.2.sb with root := nl.1 }
    { sb := sb1, disk := writeSuper nl.2.disk sb1 }
  match readSuper d0 with
  | some sb => if sb.magic ≠ MAGIC then fresh else { sb := sb, disk := d0 }
  | none => fresh

/-- `BPlusTree::get`: `some (some v)` is a hit with value `v`, `some none` is
NotFound (`return false`). -/
def get (t : Tree) (key : Int) : Option (Option Bytes) :=
  (findLeaf t key).bind fun leaf_id =>
  (readLeaf t.disk leaf_id).bind fun leaf =>
  let pos := lower_bound_leaf leaf key
  if pos < leaf.count ∧ (leaf.slots.getD pos default).key = key then
    some (some (leaf.slots.getD pos default).value)
  else some none

/-- `BPlusTree::insert`. -/
def insert (t : Tree) (key : Int) (val : Bytes) : Option Tree :=
  let v8 := pad8 val
  (findLeaf t key).bind fun leaf_id =>
  (readLeaf t.disk leaf_id).bind fun leaf =>
  let pos := lower_bound_leaf leaf key
  if pos < leaf.count ∧ (leaf.slots.getD pos default).key = key then
    let leaf1 : LeafPage :=
      { leaf with slots := leaf.slots.set pos ⟨(leaf.slots.getD pos default).key, v8⟩ }
    some { t with disk := writeLeaf t.disk leaf_id leaf1 }
  else if leaf.count < LEAF_CAPACITY then
    let leaf1 : LeafPage :=
      { leaf with slots := leaf.slots.take pos ++ ⟨key, v8⟩ :: leaf.slots.drop pos }
    some { t with disk := writeLeaf t.disk leaf_id leaf1 }
  else splitLeafAndInsert t leaf_id key v8

/-! ## Bulk load (lines 348-491)

The CSV tokenizer is outside the core: the input of `bulkLoadCSV` is the list of
records that `parse_csv_line` accepts, in file order. -/

/-- How `bulkLoadCSV` ends. -/
inductive BulkResult where
  /-- Normal return, with the tree it leaves. -/
  | ok (t : Tree)
  /-- The exception "input not sorted by key" (line 417), with the tree at the throw. -/
  | unsortedInput (t : Tree)
  /-- Any other abnormal end. -/
  | failed
deriving DecidableEq, Repr

/-- The local variables of the leaf pass; `leafFill` always equals `leaf.count`. -/
structure BulkState where
  disk : List Page
  child_list : List (Int × Nat) := []
  leaf : LeafPage := {}
  prevLeafPid : Nat := 0
  firstKeySet : Bool := false
  prevKey : Int := -2147483648
deriving DecidableEq, Repr

/-- The lambda `flush_leaf`. -/
def flush_leaf (b : BulkState) (firstKey : Int) : Option BulkState :=
  let a := allocatePage b.disk
  let pid := a.1
  let d1 := writeLeaf a.2 pid b.leaf
  let d2 : Option (List Page) :=
    if b.prevLeafPid ≠ 0 then
      (readLeaf d1 b.prevLeafPid).bind fun prev =>
      some (writeLeaf d1 b.prevLeafPid { prev with next := pid })
    else some d1
  d2.bind fun d3 =>
  some { b with disk := d3, prevLeafPid := pid,
                child_list := b.child_list ++ [(firstKey, pid)], leaf := {} }

/-- The leaf pass (lines 411-434): `none` for an abnormal end, `some (Sum.inl b)` for
the unsorted-input exception raised in state `b`, `some (Sum.inr b)` at end of input. -/
def leafPass : BulkState → List (Int × Bytes) → Option (BulkState ⊕ BulkState)
  | b, [] => some (Sum.inr b)
  | b, (key, val) :: rest =>
    if b.firstKeySet = true ∧ key < b.prevKey then some (Sum.inl b)
    else
      let leaf1 : LeafPage := { b.leaf with slots := b.leaf.slots ++ [⟨key, pad8 val⟩] }
      let b1 : BulkState := { b with firstKeySet := true, prevKey := key, leaf := leaf1 }
      if b1.leaf.count = LEAF_CAPACITY then
        (flush_leaf b1 (b1.leaf.slots.getD 0 default).key).bind fun b2 => leafPass b2 rest
      else leafPass b1 rest

/-- The lambda `build_level`; the first argument bounds the iterations of its outer
loop, each of which consumes at least one entry of `lower`. -/
def build_level : Nat → List Page → List (Int × Nat) →
    Option (List Page × List (Int × Nat))
  | 0, d, _ => some (d, [])
  | _ + 1, d, [] => some (d, [])
  | fuel + 1, d, first :: rest =>
    let a := allocatePage d
    let nodeId := a.1
    let slots : List InternalEntry :=
      (rest.take INTERNAL_CAPACITY).map fun e => ⟨e.1, e.2⟩
    let node : InternalPage := { parent := 0, leftmost := first.2, slots := slots }
    (setParent a.2 node.leftmost nodeId).bind fun d1 =>
    (setParents d1 nodeId node.slots).bind fun d2 =>
    let d3 := writeInternal d2 nodeId node
    let promote_key := if node.count > 0 then (node.slots.getD 0 default).key else first.1
    (build_level fuel d3 (rest.drop INTERNAL_CAPACITY)).bind fun r =>
    some (r.1, (promote_key, nodeId) :: r.2)

/-- The loop `while(level.size() > 1) level = build_level(level)`; the first argument
bounds its iterations. -/
def upperPass : Nat → List Page → List (Int × Nat) →
    Option (List Page × List (Int × Nat))
  | 0, _, _ => none
  | fuel + 1, d, level =>
    if level.length > 1 then
      (build_level level.length d level).bind fun r => upperPass fuel r.1 r.2
    else some (d, level)

/-- `BPlusTree::bulkLoadCSV` on the parsed records `input`. -/
def bulkLoadCSV (t : Tree) (input : List (Int × Bytes)) : BulkResult :=
  match leafPass { disk := t.disk } input with
  | none => BulkResult.failed
  | some (Sum.inl b) => BulkResult.unsortedInput { t with disk := b.disk }
  | some (Sum.inr b) =>
    let b1 : Option BulkState :=
      if b.leaf.count > 0 then flush_leaf b (b.leaf.slots.getD 0 default).key else some b
    match b1 with
    | none => BulkResult.failed
    | some b2 =>
      if b2.child_list.isEmpty then
        let nl := newLeaf { t with disk := b2.disk } 0
        let sb1 : SuperBlock := { nl.2.sb with root := nl.1 }
        BulkResult.ok { sb := sb1, disk := writeSuper nl.2.disk sb1 }
      else
        match upperPass b2.child_list.length b2.disk b2.child_list with
        | none => BulkResult.failed
        | some r =>
          let sb1 : SuperBlock := { t.sb with root := (r.2.getD 0 default).2 }
          BulkResult.ok { sb := sb1, disk := writeSuper r.1 sb1 }

/-! ## Specification-level definitions -/

/-- Number of leading keys below `key`: the result of a linear lower-bound scan. -/
def rank (key : Int) : List Int → Nat
  | [] => 0
  | a :: as => if a < key then rank key as + 1 else 0

/-- The binary-search loop shared by `lower_bound_leaf` and `child_index`, on the keys. -/
def searchLoop (keys : List Int) (key : Int) : Nat → Nat → Nat → Nat
  | 0, lo, _ => lo
  | fuel + 1, lo, hi =>
    if lo < hi then
      if keys.getD ((lo + hi) / 2) 0 < key then searchLoop keys key fuel ((lo + hi) / 2 + 1) hi
      else searchLoop keys key fuel lo ((lo + hi) / 2)
    else lo

/-- A sequence of `insert` calls, in list order. -/
def insertAll : Tree → List (Int × Bytes) → Option Tree
  | t, [] => some t
  | t, (k, v) :: rest => (insert t k v).bind fun t1 => insertAll t1 rest

/-- The records `(first, v), (first + 1, v), ..., (first + n - 1, v)`. -/
def ascending (first : Int) (n : Nat) (v : Bytes) : List (Int × Bytes) :=
  (List.range n).map fun (i : Nat) => (first + (i : Int), v)

/-- The leaf entries `(first, v), ..., (first + n - 1, v)`. -/
def ascendingSlots (first : Int) (n : Nat) (v : Bytes) : List LeafEntry :=
  (List.range n).map fun (i : Nat) => ⟨first + (i : Int), v⟩

/-- The answer of `get` on the tree a bulk load leaves; `none` when the load did not
return normally. -/
def getAfterBulk (r : BulkResult) (key : Int) : Option (Option Bytes) :=
  match r with
  | BulkResult.ok t => get t key
  | _ => none

/-- The tree after inserting the keys 0, 1, ..., 339 in ascending order with value "v"
into a fresh file: the root leaf has split once, page 3 is the root. -/
def afterFirstSplit : Tree :=
  ⟨⟨MAGIC, 3, 0, 4⟩,
    [Page.super ⟨MAGIC, 3, 0, 4⟩,
     Page.leaf ⟨3, 2, ascendingSlots 0 170 [0x76, 0, 0, 0, 0, 0, 0, 0]⟩,
     Page.leaf ⟨3, 0, ascendingSlots 170 170 [0x76, 0, 0, 0, 0, 0, 0, 0]⟩,
     Page.internal ⟨0, 1, [⟨170, 2⟩]⟩]⟩

/-! ## Page observations -/

/-- The page is the superblock. -/
def Page.isSuper : Page → Bool
  | Page.super _ => true
  | _ => false

/-- The page with its header field `parent` replaced (the superblock has none). -/
def Page.withParent : Page → Nat → Page
  | Page.leaf p, par => Page.leaf { p with parent := par }
  | Page.internal p, par => Page.internal { p with parent := par }
  | Page.super sb, _ => Page.super sb

/-- Page `pid` exists and is a leaf or an internal page. -/
def isNode (d : List Page) (pid : Nat) : Prop :=
  ∃ pg, d[pid]? = some pg ∧ pg.isSuper = false

/-- Some key of the list is strictly smaller than the key immediately before it. -/
def hasDescent (input : List (Int × Bytes)) : Prop :=
  ∃ i, i + 1 < input.length ∧ (input.getD (i + 1) default).1 < (input.getD i default).1

/-- Reading `input` after a record with key `prev` (if any) meets a key that is strictly
smaller than its predecessor. -/
def descentFrom : Option Int → List (Int × Bytes) → Prop
  | _, [] => False
  | none, r :: rest => descentFrom (some r.1) rest
  | some prev, r :: rest => r.1 < prev ∨ descentFrom (some r.1) rest

/-- The key the leaf pass compares the next record with, if any. -/
def BulkState.prev (b : BulkState) : Option Int :=
  if b.firstKeySet = true then some b.prevKey else none

/-- What the leaf pass keeps true: the last flushed leaf and every entry of `child_list`
are pages of the file that are not the superblock. -/
def BulkState.Valid (b : BulkState) : Prop :=
  (b.prevLeafPid ≠ 0 → ∃ p, b.disk[b.prevLeafPid]? = some (Page.leaf p)) ∧
  (∀ e ∈ b.child_list, isNode b.disk e.2)

/-- The header field `parent` of a page (the superblock has none). -/
def Page.parent : Page → Nat
  | Page.leaf p => p.parent
  | Page.internal p => p.parent
  | Page.super _ => 0

/-- The list `l` with `e` put in at position `pos`. -/
def insertAt {α : Type} (pos : Nat) (e : α) (l : List α) : List α :=
  l.take pos ++ e :: l.drop pos

/-- Page 0 holds a superblock with the magic and the same `root` as the in-memory
superblock, which carries the magic too. -/
def SuperOK (t : Tree) : Prop :=
  t.sb.magic = MAGIC ∧
  ∃ sb0, t.disk[0]? = some (Page.super sb0) ∧ sb0.magic = MAGIC ∧ sb0.root = t.sb.root

/-- What the program can reach: `open` of any file, then completed inserts and bulk
loads; the command loop catches the unsorted-input exception of a bulk load and goes on
with the tree as the load left it. -/
inductive Reachable : Tree → Prop
  | opened (d : List Page) : Reachable (BPlusTree.open d)
  | insert {t t1 : Tree} (k : Int) (v : Bytes) :
      Reachable t → insert t k v = some t1 → Reachable t1
  | bulk {t t1 : Tree} (input : List (Int × Bytes)) :
      Reachable t → bulkLoadCSV t input = BulkResult.ok t1 → Reachable t1
  | bulkUnsorted {t t1 : Tree} (input : List (Int × Bytes)) :
      Reachable t → bulkLoadCSV t input = BulkResult.unsortedInput t1 → Reachable t1

/-! ## Tree invariants -/

/-- The content of a page apart from its `parent` field. -/
inductive Body where
  | super
  | leaf (next : Nat) (slots : List LeafEntry)
  | internal (leftmost : Nat) (slots : List InternalEntry)

/-- The content of a page apart from its `parent` field. -/
def Page.body : Page → Body
  | Page.super _ => Body.super
  | Page.leaf p => Body.leaf p.next p.slots
  | Page.internal p => Body.internal p.leftmost p.slots

/-- The body of page `pid`, if the file has that page. -/
def bodyAt (d : List Page) (pid : Nat) : Option Body := (d[pid]?).map Page.body

/-- The `parent` field of page `pid` (0 when there is none). -/
def parentAt (d : List Page) (pid : Nat) : Nat :=
  match d[pid]? with
  | some pg => pg.parent
  | none => 0

/-- The children of an internal page: `leftmost`, then each `right_child`. -/
def kids (leftmost : Nat) (slots : List InternalEntry) : List Nat :=
  leftmost :: slots.map InternalEntry.right_child

/-- The children of an internal page. -/
def InternalPage.children (n : InternalPage) : List Nat := kids n.leftmost n.slots

/-- Pages reachable from the root through child pointers. -/
inductive PageReachable (t : Tree) : Nat → Prop
  | root : PageReachable t t.sb.root
  | child {pid c : Nat} {n : InternalPage} :
      PageReachable t pid → t.disk[pid]? = some (Page.internal n) → c ∈ n.children →
      PageReachable t c

/-- Smallest and largest `int32_t`. -/
def KEY_MIN : Int := -2147483648
def KEY_MAX : Int := 2147483647

/-- The key is an `int32_t`. -/
def inRange (k : Int) : Prop := KEY_MIN ≤ k ∧ k ≤ KEY_MAX

/-- States reached from a fresh file by inserts of `int32_t` keys. -/
inductive ReachableByInserts : Tree → Prop
  | fresh : ReachableByInserts (BPlusTree.open [])
  | insert {t t1 : Tree} (k : Int) (v : Bytes) :
      ReachableByInserts t → inRange k → insert t k v = some t1 → ReachableByInserts t1

/-- Proof-side bookkeeping for the pages of the tree: which pages belong to it, their
height above the leaves, and the key interval `(lo, hi]` that the descent routes to each
page. -/
structure Ghost where
  live : Nat → Prop
  lvl : Nat → Nat
  lo : Nat → Int
  hi : Nat → Int

/-- The children `c, slots[0].right_child, ...` of an internal page tile the interval from
`l` to `h`: each child starts where the separator on its left says and ends (in the view
`hv`) at the separator on its right, and the bounds and separators increase strictly. -/
def Chain (lo hv : Nat → Int) : Nat → Int → List InternalEntry → Int → Prop
  | c, l, [], h => lo c = l ∧ hv c = h ∧ l < h
  | c, l, e :: es, h => lo c = l ∧ hv c = e.key ∧ l < e.key ∧ Chain lo hv e.right_child e.key es h

/-- What holds of a leaf of the tree. -/
def LeafOK (g : Ghost) (pid : Nat) (slots : List LeafEntry) : Prop :=
  g.lvl pid = 0 ∧ slots.length ≤ LEAF_CAPACITY ∧
  (slots.map LeafEntry.key).Pairwise (· < ·) ∧
  ∀ e ∈ slots, g.lo pid ≤ e.key ∧ e.key ≤ g.hi pid

/-- What holds of an internal page of the tree. -/
def IntOK (d : List Page) (g : Ghost) (hv : Nat → Int) (pid : Nat) (leftmost : Nat)
    (slots : List InternalEntry) : Prop :=
  slots.length ≤ INTERNAL_CAPACITY ∧ (kids leftmost slots).Nodup ∧
  (∀ c ∈ kids leftmost slots, g.live c ∧ parentAt d c = pid ∧ g.lvl c + 1 = g.lvl pid) ∧
  Chain g.lo hv leftmost (g.lo pid) slots (g.hi pid)

/-- What holds of page `pid` of the tree. -/
def PageOK (d : List Page) (g : Ghost) (hv : Nat → Int) (pid : Nat) : Prop :=
  match bodyAt d pid with
  | some (Body.leaf _ slots) => LeafOK g pid slots
  | some (Body.internal leftmost slots) => IntOK d g hv pid leftmost slots
  | _ => False

/-- The invariant of the tree up to the attachment of pages to their parents; `hv` is
the view of the upper bounds that parents have of their children. -/
structure Core (t : Tree) (g : Ghost) (hv : Nat → Int) : Prop where
  super0 : ∃ sb0, t.disk[0]? = some (Page.super sb0)
  rootLive : g.live t.sb.root
  rootParent : parentAt t.disk t.sb.root = 0
  rootLo : g.lo t.sb.root = KEY_MIN - 1
  rootHi : hv t.sb.root = KEY_MAX
  height : g.lvl t.sb.root + 2 ≤ t.disk.length
  lvlLe : ∀ pid, g.live pid → g.lvl pid ≤ g.lvl t.sb.root
  pages : ∀ pid, g.live pid → PageOK t.disk g hv pid

/-- Page `pid` is a child of the page its `parent` field names. -/
def Attached (t : Tree) (g : Ghost) (pid : Nat) : Prop :=
  ∃ lm slots, bodyAt t.disk (parentAt t.disk pid) = some (Body.internal lm slots) ∧
    g.live (parentAt t.disk pid) ∧ pid ∈ kids lm slots

/-- The invariant of the tree between operations. -/
structure Inv (t : Tree) (g : Ghost) : Prop where
  core : Core t g g.hi
  attached : ∀ pid, g.live pid → pid ≠ t.sb.root → Attached t g pid

/-- The state in which `insertIntoParent(l, s, r)` is called: page `l` has been split,
its upper half lives on the new page `r`, which no parent refers to yet, and the parent
of `l` still sees `l` ending where `r` ends now. -/
structure Pending (t : Tree) (g : Ghost) (l : Nat) (s : Int) (r : Nat) : Prop where
  core : Core t g (fun c => if c = l then g.hi r else g.hi c)
  attached : ∀ pid, g.live pid → pid ≠ t.sb.root → pid ≠ r → Attached t g pid
  liveL : g.live l
  liveR : g.live r
  neRoot : r ≠ t.sb.root
  ne : l ≠ r
  parentR : parentAt t.disk r = parentAt t.disk l
  lvlR : g.lvl r = g.lvl l
  hiL : g.hi l = s
  loR : g.lo r = s
  loL : g.lo l < s
  hiR : s < g.hi r
  fresh : ∀ pid lm slots, g.live pid → bodyAt t.disk pid = some (Body.internal lm slots) →
    r ∉ kids lm slots

/-- The child a linear scan of the separators sends `key` to: the child on the left of
the first separator that is not below `key`. -/
def route (key : Int) : Nat → List InternalEntry → Nat
  | c, [] => c
  | c, e :: es => if key ≤ e.key then c else route key e.right_child es

/-- The bookkeeping of a fresh file: page 1 is the only page of the tree and it is routed
every `int32_t` key. -/
def Ghost.fresh : Ghost where
  live := fun pid => pid = 1
  lvl := fun _ => 0
  lo := fun _ => KEY_MIN - 1
  hi := fun _ => KEY_MAX

/-- The bookkeeping with a new page `N` added. -/
def Ghost.add (g : Ghost) (N : Nat) (lv : Nat) (l h : Int) : Ghost where
  live := fun pid => pid = N ∨ g.live pid
  lvl := fun pid => if pid = N then lv else g.lvl pid
  lo := fun pid => if pid = N then l else g.lo pid
  hi := fun pid => if pid = N then h else g.hi pid

/-- The bookkeeping with the upper bound of page `pid` replaced. -/
def Ghost.setHi (g : Ghost) (pid : Nat) (h : Int) : Ghost where
  live := g.live
  lvl := g.lvl
  lo := g.lo
  hi := fun x => if x = pid then h else g.hi x

/-- What a cascade of parent updates keeps of the tree it starts from: the pages of the
tree and their bookkeeping (the upper bounds only up to height `lv`), and every leaf. -/
structure Grows (t : Tree) (g : Ghost) (lv : Nat) (t1 : Tree) (g1 : Ghost) : Prop where
  live : ∀ pid, g.live pid → g1.live pid
  lvl : ∀ pid, g.live pid → g1.lvl pid = g.lvl pid
  lo : ∀ pid, g.live pid → g1.lo pid = g.lo pid
  hi : ∀ pid, g.live pid → g.lvl pid ≤ lv → g1.hi pid = g.hi pid
  leaf : ∀ pid nxt slots, bodyAt t.disk pid = some (Body.leaf nxt slots) →
    bodyAt t1.disk pid = some (Body.leaf nxt slots)

/-! ## Walks over the tree -/

/-- The descent through `leftmost` fields from page `pid` to a leaf (as in `stats`);
`none` when a page cannot be read or the fuel runs out. -/
def leftmostLeaf (d : List Page) : Nat → Nat → Option Nat
  | 0, _ => none
  | fuel + 1, pid =>
    match d[pid]? with
    | some (Page.leaf _) => some pid
    | some (Page.internal n) => leftmostLeaf d fuel n.leftmost
    | _ => none

/-- The leaves met by following `next` from the leaf `pid` until `next = 0`; `none` when
a page met is not a leaf or the fuel runs out. -/
def leafWalk (d : List Page) : Nat → Nat → Option (List Nat)
  | 0, _ => none
  | fuel + 1, pid =>
    match d[pid]? with
    | some (Page.leaf p) =>
      if p.next = 0 then some [pid] else (leafWalk d fuel p.next).map (pid :: ·)
    | _ => none

/-- The entries of the leaves met by following `next` from the leaf `pid` until
`next = 0`, in the order met. -/
def leafChain (d : List Page) : Nat → Nat → Option (List LeafEntry)
  | 0, _ => none
  | fuel + 1, pid =>
    match d[pid]? with
    | some (Page.leaf p) =>
      if p.next = 0 then some p.slots else (leafChain d fuel p.next).map (p.slots ++ ·)
    | _ => none

/-- The entries `slots` with `e` put in at the position its key has in key order. -/
def insertSorted (e : LeafEntry) (slots : List LeafEntry) : List LeafEntry :=
  insertAt (rank e.key (slots.map LeafEntry.key)) e slots

/-- The tree after inserting the keys 0, 1, ..., 338 in ascending order with value "v"
into a fresh file: the root leaf on page 1 is full. -/
def fullRootLeaf : Tree :=
  ⟨⟨MAGIC, 1, 0, 2⟩,
    [Page.super ⟨MAGIC, 1, 0, 2⟩,
     Page.leaf ⟨0, 0, ascendingSlots 0 339 [0x76, 0, 0, 0, 0, 0, 0, 0]⟩]⟩

/-- The value the entries `slots` hold for `key`, if any. -/
def lookup (slots : List LeafEntry) (key : Int) : Option Bytes :=
  (slots.find? (fun e => decide (e.key = key))).map LeafEntry.value

/-- The value passed to the most recent `insert` at `key` in the sequence `ops`, if any. -/
def lastInsert (ops : List (Int × Bytes)) (key : Int) : Option Bytes :=
  (ops.reverse.find? (fun kv => decide (kv.1 = key))).map Prod.snd

/-- The leaf entry a record of the input is stored as. -/
def entryOf (r : Int × Bytes) : LeafEntry := ⟨r.1, pad8 r.2⟩

/-- The leaves the leaf pass has written when it has read the entries `E` and flushed `q`
leaves into a file that was `d0` before: the old pages are as before, the new pages hold
consecutive runs of `LEAF_CAPACITY` entries of `E` and are chained through `next`. -/
structure Written (d0 : List Page) (b : BulkState) (E : List LeafEntry) (q : Nat) : Prop where
  len : b.disk.length = d0.length + q
  old : ∀ j, j < d0.length → b.disk[j]? = d0[j]?
  leafAt : ∀ i, i < q → b.disk[d0.length + i]? = some (Page.leaf
    ⟨0, if i + 1 < q then d0.length + i + 1 else 0,
      (E.drop (LEAF_CAPACITY * i)).take LEAF_CAPACITY⟩)
  children : b.child_list =
    (List.range q).map fun i => ((E.getD (LEAF_CAPACITY * i) default).key, d0.length + i)
  prev : b.prevLeafPid = if q = 0 then 0 else d0.length + q - 1

/-- The entries of a level from the first child of its `j`-th group on; a group is
`INTERNAL_CAPACITY + 1` consecutive entries. -/
def fromGroup (lower : List (Int × Nat)) (j : Nat) : List (Int × Nat) :=
  lower.drop ((INTERNAL_CAPACITY + 1) * j)

/-- The internal node `build_level` makes of the entries at the head of `g`: the first
is `leftmost`, the next `INTERNAL_CAPACITY` (or fewer) are the slots. -/
def nodeBody (g : List (Int × Nat)) : Body :=
  Body.internal (g.getD 0 default).2
    (((g.drop 1).take INTERNAL_CAPACITY).map fun e => ⟨e.1, e.2⟩)

/-- The key `build_level` promotes for the node made of the entries at the head of `g`:
the key of the second entry if there is one, else the key of the first (line 476). -/
def promoteKey (g : List (Int × Nat)) : Int :=
  if 1 < g.length then (g.getD 1 default).1 else (g.getD 0 default).1

/-! ## Balance: definitions -/

/-- Proof-side bookkeeping for balance: which pages belong to the tree and their height
above the leaves. Nothing is recorded about keys. -/
structure Levels where
  live : Nat → Prop
  lvl : Nat → Nat

/-- The bookkeeping with a new page `N` of height `lv` added. -/
def Levels.add (g : Levels) (N : Nat) (lv : Nat) : Levels where
  live := fun pid => pid = N ∨ g.live pid
  lvl := fun pid => if pid = N then lv else g.lvl pid

/-- The bookkeeping of a fresh file: page 1 is the only page of the tree, a leaf. -/
def Levels.fresh : Levels where
  live := fun pid => pid = 1
  lvl := fun _ => 0

/-- What balance needs of page `pid`: a leaf has height 0 and at most `LEAF_CAPACITY`
entries; an internal page has at most `INTERNAL_CAPACITY` entries and distinct children,
each a page of the tree one level below whose `parent` field names this page. -/
def BalPageOK (d : List Page) (g : Levels) (pid : Nat) : Prop :=
  match bodyAt d pid with
  | some (Body.leaf _ slots) => g.lvl pid = 0 ∧ slots.length ≤ LEAF_CAPACITY
  | some (Body.internal leftmost slots) =>
    slots.length ≤ INTERNAL_CAPACITY ∧ (kids leftmost slots).Nodup ∧
    ∀ c ∈ kids leftmost slots, g.live c ∧ parentAt d c = pid ∧ g.lvl c + 1 = g.lvl pid
  | _ => False

/-- The shape invariant of the tree up to the attachment of pages to their parents. -/
structure BalCore (t : Tree) (g : Levels) : Prop where
  super0 : ∃ sb0, t.disk[0]? = some (Page.super sb0)
  rootLive : g.live t.sb.root
  rootParent : parentAt t.disk t.sb.root = 0
  height : g.lvl t.sb.root + 2 ≤ t.disk.length
  lvlLe : ∀ pid, g.live pid → g.lvl pid ≤ g.lvl t.sb.root
  pages : ∀ pid, g.live pid → BalPageOK t.disk g pid

/-- Page `pid` is a child of the page its `parent` field names. -/
def BalAttached (t : Tree) (g : Levels) (pid : Nat) : Prop :=
  ∃ lm slots, bodyAt t.disk (parentAt t.disk pid) = some (Body.internal lm slots) ∧
    g.live (parentAt t.disk pid) ∧ pid ∈ kids lm slots

/-- The shape invariant of the tree between operations: it implies that every leaf is at
the same depth, the height of the root. -/
structure Balanced (t : Tree) (g : Levels) : Prop where
  core : BalCore t g
  attached : ∀ pid, g.live pid → pid ≠ t.sb.root → BalAttached t g pid

/-- The shape of the tree when `insertIntoParent(l, _, r)` is called: page `l` has been
split and its upper half lives on the new page `r`, which no parent refers to yet. -/
structure BalPending (t : Tree) (g : Levels) (l r : Nat) : Prop where
  core : BalCore t g
  attached : ∀ pid, g.live pid → pid ≠ t.sb.root → pid ≠ r → BalAttached t g pid
  liveL : g.live l
  liveR : g.live r
  neRoot : r ≠ t.sb.root
  ne : l ≠ r
  parentR : parentAt t.disk r = parentAt t.disk l
  lvlR : g.lvl r = g.lvl l
  fresh : ∀ pid lm slots, g.live pid → bodyAt t.disk pid = some (Body.internal lm slots) →
    r ∉ kids lm slots

/-- What an operation keeps of the shape it starts from: the pages of the tree and their
heights, and either the root, or the root has been replaced by an internal page one level
higher whose leftmost child is the old root and which has one entry; that page and the
right child of its entry are pages numbered `N` or more. -/
structure BalGrows (N : Nat) (t : Tree) (g : Levels) (t1 : Tree) (g1 : Levels) : Prop where
  live : ∀ pid, g.live pid → g1.live pid
  lvl : ∀ pid, g.live pid → g1.lvl pid = g.lvl pid
  len : t.disk.length ≤ t1.disk.length
  root : t1.sb.root = t.sb.root ∨
    (N ≤ t1.sb.root ∧ g1.lvl t1.sb.root = g.lvl t.sb.root + 1 ∧
      ∃ s r, N ≤ r ∧ bodyAt t1.disk t1.sb.root = some (Body.internal t.sb.root [⟨s, r⟩]))

/-- Pages reachable from the root, with the number of child pointers followed. -/
inductive ReachAt (t : Tree) : Nat → Nat → Prop
  | root : ReachAt t 0 t.sb.root
  | child {dep pid c : Nat} {n : InternalPage} :
      ReachAt t dep pid → t.disk[pid]? = some (Page.internal n) → c ∈ n.children →
      ReachAt t (dep + 1) c

/-- The loop of `stats` (lines 338-345): from page `pid` down through `leftmost` to a
leaf, counting the pages; the first argument bounds the number of pages visited. -/
def statsLoop (d : List Page) : Nat → Nat → Nat → Option Nat
  | 0, _, _ => none
  | fuel + 1, pid, height =>
    if pid = 0 then some height
    else
      match readPage d pid with
      | some (Page.leaf _) => some (height + 1)
      | some (Page.internal n) => statsLoop d fuel n.leftmost (height + 1)
      | _ => none

/-- The value of `height` at the end of `stats`: the number of pages on the path from
the root to the leftmost leaf. -/
def stats (t : Tree) : Option Nat := statsLoop t.disk t.disk.length t.sb.root 0

/-- What the program can reach from a fresh file: completed inserts and bulk loads, and
bulk loads that end with the unsorted-input exception, after which the command loop goes
on with the tree as the load left it. -/
inductive ReachableByOps : Tree → Prop
  | fresh : ReachableByOps (BPlusTree.open [])
  | insert {t t1 : Tree} (k : Int) (v : Bytes) :
      ReachableByOps t → insert t k v = some t1 → ReachableByOps t1
  | bulk {t t1 : Tree} (input : List (Int × Bytes)) :
      ReachableByOps t → bulkLoadCSV t input = BulkResult.ok t1 → ReachableByOps t1
  | bulkUnsorted {t t1 : Tree} (input : List (Int × Bytes)) :
      ReachableByOps t → bulkLoadCSV t input = BulkResult.unsortedInput t1 →
      ReachableByOps t1

/-- No page yet. -/
def Levels.empty : Levels where
  live := fun _ => False
  lvl := fun _ => 0

/-- The shape of the pages a bulk load has written so far: the pages of `R` are the tops of
separate subtrees, every page written has the shape of `BalPageOK`, and every page written
that is not in `R` is a child of the page its `parent` field names. -/
structure Forest (d : List Page) (g : Levels) (R : List Nat) : Prop where
  super0 : ∃ sb0, d[0]? = some (Page.super sb0)
  nodup : R.Nodup
  rootLive : ∀ r ∈ R, g.live r
  rootParent : ∀ r ∈ R, parentAt d r = 0
  pages : ∀ pid, g.live pid → BalPageOK d g pid
  attached : ∀ pid, g.live pid → pid ∉ R →
    ∃ lm slots, bodyAt d (parentAt d pid) = some (Body.internal lm slots) ∧
      g.live (parentAt d pid) ∧ pid ∈ kids lm slots

/-- What the leaf pass of a bulk load keeps true of the pages it has written: they are
separate leaves, listed in `child_list`; the leaf being filled has `parent = 0`; the last
leaf written, if any, is a leaf page of the file. -/
structure LeafForest (b : BulkState) (g : Levels) : Prop where
  forest : Forest b.disk g (b.child_list.map Prod.snd)
  flat : ∀ pid, g.live pid → g.lvl pid = 0
  parent0 : b.leaf.parent = 0
  prev : b.prevLeafPid ≠ 0 → ∃ p, b.disk[b.prevLeafPid]? = some (Page.leaf p)

/-- What the leaf pass keeps of a file that was `d0` before it: the old pages. -/
structure LeafFrame (d0 : List Page) (b : BulkState) : Prop where
  len : d0.length ≤ b.disk.length
  old : ∀ j, j < d0.length → b.disk[j]? = d0[j]?
  prev : b.prevLeafPid = 0 ∨ d0.length ≤ b.prevLeafPid

/-- Every leaf page of the file has its keys in non-decreasing order. -/
def LeavesSorted (d : List Page) : Prop :=
  ∀ pid nxt slots, bodyAt d pid = some (Body.leaf nxt slots) →
    (slots.map LeafEntry.key).Pairwise (· ≤ ·)

/-- Every leaf page of `d1` holds the entries that a leaf page of `d` holds at the same
place. -/
def LeafSlotsKept (d d1 : List Page) : Prop :=
  ∀ pid nxt slots, bodyAt d1 pid = some (Body.leaf nxt slots) →
    ∃ nxt0, bodyAt d pid = some (Body.leaf nxt0 slots)

/-- The tree after a bulk load of the records (1,"a"), ..., (339,"a") into a fresh file:
the old root leaf on page 1 is left behind, the new root is the full leaf on page 2. -/
def bulkFullLeaf : Tree :=
  ⟨⟨MAGIC, 2, 0, 2⟩,
    [Page.super ⟨MAGIC, 2, 0, 2⟩,
     Page.leaf ⟨0, 0, []⟩,
     Page.leaf ⟨0, 0, ascendingSlots 1 339 [0x61, 0, 0, 0, 0, 0, 0, 0]⟩]⟩

/-- The call of `insertIntoParent` that ends `splitLeafAndInsert` (lines 264-290), for
the leaf `leaf` read from page `leaf_id`: the state at the call, the separator and the new
page it passes. -/
def splitLeafCall (t : Tree) (leaf_id : Nat) (leaf : LeafPage) (key : Int) (v8 : Bytes) :
    Option (Tree × Int × Nat) :=
  let pos := lower_bound_leaf leaf key
  let tmp := leaf.slots.take pos ++ ⟨key, v8⟩ :: leaf.slots.drop pos
  let total := tmp.length
  let leftCount := total / 2
  let rightCount := total - leftCount
  let leaf1 : LeafPage := { leaf with slots := tmp.take leftCount }
  let nl := newLeaf t leaf1.parent
  let right_id := nl.1
  (readLeaf nl.2.disk right_id).bind fun right =>
  let right1 : LeafPage := { right with slots := (tmp.drop leftCount).take rightCount }
  let right2 : LeafPage := { right1 with next := leaf1.next }
  let leaf2 : LeafPage := { leaf1 with next := right_id }
  let d1 := writeLeaf nl.2.disk leaf_id leaf2
  let d2 := writeLeaf d1 right_id right2
  let sep_key := (right2.slots.getD 0 default).key
  some ({ nl.2 with disk := d2 }, sep_key, right_id)

/-- The recursive call of `insertIntoParent` after the split of the full parent `parent`
read from page `parent_id` (lines 219-251): the state at the call, the promoted key and
the new page it passes. -/
def splitParentCall (t : Tree) (parent_id : Nat) (parent : InternalPage) (sep_key : Int)
    (right_pid : Nat) : Option (Tree × Int × Nat) :=
  let pos := scanPos sep_key parent.slots
  let tmp := parent.slots.take pos ++ ⟨sep_key, right_pid⟩ :: parent.slots.drop pos
  let total := tmp.length
  let leftCount := total / 2
  let promote := (tmp.getD leftCount default).key
  let leftP : InternalPage := { parent with slots := tmp.take leftCount }
  let nr := newInternal t parent.parent
  let rightNodeId := nr.1
  (readInternal nr.2.disk rightNodeId).bind fun rightP =>
  let rightCount := total - leftCount - 1
  let rightP1 : InternalPage :=
    { rightP with leftmost := (tmp.getD leftCount default).right_child,
                  slots := (tmp.drop (leftCount + 1)).take rightCount }
  let d1 := writeInternal nr.2.disk parent_id leftP
  let d2 := writeInternal d1 rightNodeId rightP1
  (setParent d2 rightP1.leftmost rightNodeId).bind fun d3 =>
  (setParents d3 rightNodeId rightP1.slots).bind fun d4 =>
  some ({ nr.2 with disk := d4 }, promote, rightNodeId)

/-- The calls of `insertIntoParent` that `insert(k, v)` on `t` makes, each with the state
at the call and its arguments `(left_pid, sep_key, right_pid)`: the call from
`splitLeafAndInsert` when the leaf that `findLeaf` reaches is full and lacks `k`, and
after a call that finds its parent full, the recursive call one level up. -/
inductive ParentCall (t : Tree) (k : Int) (v : Bytes) : Tree → Nat → Int → Nat → Prop
  | leaf {L : Nat} {leaf : LeafPage} {c : Tree × Int × Nat} :
      findLeaf t k = some L → readLeaf t.disk L = some leaf →
      ¬ (lower_bound_leaf leaf k < leaf.count ∧
          (leaf.slots.getD (lower_bound_leaf leaf k) default).key = k) →
      ¬ leaf.count < LEAF_CAPACITY →
      splitLeafCall t L leaf k (pad8 v) = some c →
      ParentCall t k v c.1 L c.2.1 c.2.2
  | up {tm : Tree} {l : Nat} {s : Int} {r : Nat} {pg : Page} {parent : InternalPage}
      {c : Tree × Int × Nat} :
      ParentCall t k v tm l s r → readPage tm.disk l = some pg → pg.isSuper = false →
      ¬ (pg.parent = 0 ∧ tm.sb.root = l) →
      readInternal tm.disk pg.parent = some parent → parent.count = INTERNAL_CAPACITY →
      splitParentCall tm pg.parent parent s r = some c →
      ParentCall t k v c.1 pg.parent c.2.1 c.2.2

/-! ## Binary search -/

theorem leafKey_getD (slots : List LeafEntry) (m : Nat) :
    (slots.getD m default).key = (slots.map LeafEntry.key).getD m 0 := by
  induction slots generalizing m with
  | nil => rfl
  | cons a as ih =>
    cases m with
    | zero => rfl
    | succ m => simpa using ih m

theorem intKey_getD (slots : List InternalEntry) (m : Nat) :
    (slots.getD m default).key = (slots.map InternalEntry.key).getD m 0 := by
  induction slots generalizing m with
  | nil => rfl
  | cons a as ih =>
    cases m with
    | zero => rfl
    | succ m => simpa using ih m

theorem lowerBoundLoop_eq (slots : List LeafEntry) (key : Int) (fuel lo hi : Nat) :
    lowerBoundLoop slots key fuel lo hi = searchLoop (slots.map LeafEntry.key) key fuel lo hi := by
  induction fuel generalizing lo hi with
  | zero => rfl
  | succ f ih =>
    simp only [lowerBoundLoop, searchLoop, leafKey_getD, ih]

theorem childIndexLoop_eq (slots : List InternalEntry) (key : Int) (fuel lo hi : Nat) :
    childIndexLoop slots key fuel lo hi
      = searchLoop (slots.map InternalEntry.key) key fuel lo hi := by
  induction fuel generalizing lo hi with
  | zero => rfl
  | succ f ih =>
    simp only [childIndexLoop, searchLoop, intKey_getD, ih]
    split_ifs <;> first | rfl | omega

theorem rank_le_length (key : Int) (keys : List Int) : rank key keys ≤ keys.length := by
  induction keys with
  | nil => simp [rank]
  | cons a as ih => by_cases h : a < key <;> simp [rank, h]; omega

theorem rank_gt_of_lt (key : Int) (keys : List Int) (hs : keys.Pairwise (· ≤ ·)) (m : Nat)
    (hm : m < keys.length) (h : keys.getD m 0 < key) : m < rank key keys := by
  induction keys generalizing m with
  | nil => simp at hm
  | cons a as ih =>
    rw [List.pairwise_cons] at hs
    cases m with
    | zero =>
      have : a < key := by simpa using h
      simp [rank, this]
    | succ m =>
      have hm2 : m < as.length := by simpa using hm
      have h2 : as.getD m 0 < key := by simpa using h
      have hmem : as.getD m 0 ∈ as := by
        rw [List.getD_eq_getElem _ _ hm2]; exact List.getElem_mem _
      have : a < key := lt_of_le_of_lt (hs.1 _ hmem) h2
      simp only [rank, this, if_true]
      have := ih hs.2 m hm2 h2
      omega

theorem rank_le_of_not_lt (key : Int) (keys : List Int) (m : Nat)
    (hm : m < keys.length) (h : ¬ keys.getD m 0 < key) : rank key keys ≤ m := by
  induction keys generalizing m with
  | nil => simp [rank]
  | cons a as ih =>
    cases m with
    | zero =>
      have : ¬ a < key := by simpa using h
      simp [rank, this]
    | succ m =>
      have hm2 : m < as.length := by simpa using hm
      have h2 : ¬ as.getD m 0 < key := by simpa using h
      by_cases ha : a < key
      · simp only [rank, ha, if_true]
        have := ih m hm2 h2
        omega
      · simp [rank, ha]

theorem searchLoop_eq_rank (keys : List Int) (key : Int) (hs : keys.Pairwise (· ≤ ·))
    (fuel lo hi : Nat) (hlo : lo ≤ rank key keys) (hhi : rank key keys ≤ hi)
    (hlen : hi ≤ keys.length) (hf : hi - lo ≤ fuel) :
    searchLoop keys key fuel lo hi = rank key keys := by
  induction fuel generalizing lo hi with
  | zero => simp only [searchLoop]; omega
  | succ f ih =>
    simp only [searchLoop]
    by_cases h : lo < hi
    · simp only [h, if_true]
      have hm1 : lo ≤ (lo + hi) / 2 := by omega
      have hm2 : (lo + hi) / 2 < hi := by omega
      by_cases h2 : keys.getD ((lo + hi) / 2) 0 < key
      · simp only [h2, if_true]
        have := rank_gt_of_lt key keys hs _ (by omega) h2
        exact ih _ _ (by omega) hhi hlen (by omega)
      · simp only [h2, if_false]
        have := rank_le_of_not_lt key keys _ (by omega) h2
        exact ih _ _ hlo (by omega) (by omega) (by omega)
    · simp only [h, if_false]; omega

theorem lower_bound_leaf_eq_rank (leaf : LeafPage) (key : Int)
    (hs : (leaf.slots.map LeafEntry.key).Pairwise (· ≤ ·)) :
    lower_bound_leaf leaf key = rank key (leaf.slots.map LeafEntry.key) := by
  unfold lower_bound_leaf LeafPage.count
  rw [lowerBoundLoop_eq]
  have := rank_le_length key (leaf.slots.map LeafEntry.key)
  apply searchLoop_eq_rank _ _ hs <;> simp_all

theorem child_index_eq_rank (n : InternalPage) (key : Int)
    (hs : (n.slots.map InternalEntry.key).Pairwise (· ≤ ·)) :
    child_index n key = rank key (n.slots.map InternalEntry.key) := by
  unfold child_index InternalPage.count
  rw [childIndexLoop_eq]
  have := rank_le_length key (n.slots.map InternalEntry.key)
  apply searchLoop_eq_rank _ _ hs <;> simp_all

/-! ## `pad8` and a fresh file -/

theorem pad8_eq (s : Bytes) :
    pad8 s = s.take 8 ++ List.replicate (8 - min s.length 8) 0 := by
  unfold pad8
  by_cases h : s.length > 8
  · have h1 : (s.take 8).length = 8 := by simp; omega
    simp only [h, if_true, h1, lt_irrefl, if_false]
    have : 8 - min s.length 8 = 0 := by omega
    simp [this]
  · simp only [h, if_false]
    have ht : s.take 8 = s := List.take_of_length_le (by omega)
    by_cases h2 : s.length < 8
    · simp only [h2, if_true, ht]
      congr 2; omega
    · simp only [h2, if_false, ht]
      have : 8 - min s.length 8 = 0 := by omega
      simp [this]

theorem pad8_length (s : Bytes) : (pad8 s).length = 8 := by
  rw [pad8_eq]; simp; omega

/-- C7: `pad8 s` has length exactly 8, starts with the first `min |s| 8` bytes of `s`,
is zero at every later position, and `pad8` is idempotent; on "hello" it gives
`h e l l o \0 \0 \0` and on "abcdefghXYZ" it gives "abcdefgh". -/
theorem C7_pad8_normalizes :
    (∀ s : Bytes,
      (pad8 s).length = 8 ∧
      (pad8 s).take (min s.length 8) = s.take (min s.length 8) ∧
      (∀ i, min s.length 8 ≤ i → i < 8 → (pad8 s)[i]? = some 0) ∧
      pad8 (pad8 s) = pad8 s) ∧
    pad8 [0x68, 0x65, 0x6c, 0x6c, 0x6f] = [0x68, 0x65, 0x6c, 0x6c, 0x6f, 0, 0, 0] ∧
    pad8 [0x61, 0x62, 0x63, 0x64, 0x65, 0x66, 0x67, 0x68, 0x58, 0x59, 0x5a]
      = [0x61, 0x62, 0x63, 0x64, 0x65, 0x66, 0x67, 0x68] := by
  refine ⟨fun s => ⟨pad8_length s, ?_, ?_, ?_⟩, by decide, by decide⟩
  · rw [pad8_eq]
    have h1 : (s.take 8).length = min s.length 8 := by simp [Nat.min_comm]
    rw [List.take_append_of_le_length (by omega)]
    rw [List.take_take]
    simp
  · intro i h1 h2
    rw [pad8_eq]
    have h3 : (s.take 8).length = min s.length 8 := by simp [Nat.min_comm]
    rw [List.getElem?_append_right (by omega)]
    rw [List.getElem?_replicate]
    have : i - (s.take 8).length < 8 - min s.length 8 := by omega
    rw [if_pos this]
  · have h := pad8_length s
    rw [pad8_eq (pad8 s), h]
    simp only [Nat.min_self, Nat.sub_self, List.replicate_zero, List.append_nil]
    exact List.take_of_length_le (by omega)

theorem open_empty :
    BPlusTree.open [] =
      { sb := { magic := MAGIC, root := 1, free_list_head := 0, page_count := 2 },
        disk := [Page.super { magic := MAGIC, root := 1, free_list_head := 0, page_count := 2 },
                 Page.leaf { parent := 0, next := 0, slots := [] }] } := by
  decide

/-- C6: opening an empty (or missing) backing file yields exactly two pages, that is
8192 bytes: page 0 is a superblock with the magic, `root = 1`, `free_list_head = 0`,
`page_count = 2`; page 1 is a leaf with `count = 0`, `parent = 0`, `next = 0`; and
`get` answers NotFound for every key. -/
theorem C6_open_fresh_file :
    (BPlusTree.open []).disk.length = 2 ∧
    (BPlusTree.open []).disk.length * PAGE_SIZE = 8192 ∧
    (BPlusTree.open []).disk[0]? =
      some (Page.super { magic := MAGIC, root := 1, free_list_head := 0, page_count := 2 }) ∧
    (∃ p : LeafPage, (BPlusTree.open []).disk[1]? = some (Page.leaf p) ∧
      p.count = 0 ∧ p.parent = 0 ∧ p.next = 0) ∧
    (BPlusTree.open []).sb.root = 1 ∧
    ∀ k : Int, get (BPlusTree.open []) k = some none := by
  rw [open_empty]
  refine ⟨rfl, rfl, rfl, ⟨_, rfl, rfl, rfl, rfl⟩, rfl, ?_⟩
  intro k
  simp [get, findLeaf, findLeafLoop, readPage, readLeaf, lower_bound_leaf, LeafPage.count,
    lowerBoundLoop]

/-! ## Ascending inserts into a fresh file -/

theorem insertAll_append (t : Tree) (l1 l2 : List (Int × Bytes)) :
    insertAll t (l1 ++ l2) = (insertAll t l1).bind fun t1 => insertAll t1 l2 := by
  induction l1 generalizing t with
  | nil => simp [insertAll]
  | cons a as ih =>
    obtain ⟨k, v⟩ := a
    simp only [List.cons_append, insertAll]
    cases h : insert t k v with
    | none => simp
    | some t1 => simp [ih]

theorem rank_eq_length (key : Int) (keys : List Int) (h : ∀ a ∈ keys, a < key) :
    rank key keys = keys.length := by
  induction keys with
  | nil => rfl
  | cons a as ih =>
    have ha : a < key := h a (by simp)
    simp only [rank, ha, if_true, List.length_cons]
    rw [ih (fun b hb => h b (by simp [hb]))]

/-- Appending a key above all keys of a root leaf that has room. -/
theorem insert_root_leaf_append (t : Tree) (p : LeafPage) (k : Int) (v : Bytes)
    (hr : t.disk[t.sb.root]? = some (Page.leaf p))
    (hs : (p.slots.map LeafEntry.key).Pairwise (· ≤ ·))
    (hk : ∀ e ∈ p.slots, e.key < k) (hc : p.slots.length < LEAF_CAPACITY) :
    insert t k v = some ⟨t.sb,
      t.disk.set t.sb.root (Page.leaf { p with slots := p.slots ++ [⟨k, pad8 v⟩] })⟩ := by
  have hlen : t.sb.root < t.disk.length := by
    by_contra hcon
    rw [List.getElem?_eq_none (Nat.le_of_not_lt hcon)] at hr
    cases hr
  have hn : t.disk.length = (t.disk.length - 1) + 1 := by omega
  have hf : findLeaf t k = some t.sb.root := by
    unfold findLeaf
    rw [hn]
    simp [findLeafLoop, readPage, hr]
  have hrl : readLeaf t.disk t.sb.root = some p := by simp [readLeaf, readPage, hr]
  have hrank : lower_bound_leaf p k = p.slots.length := by
    rw [lower_bound_leaf_eq_rank p k hs, rank_eq_length]
    · simp
    · intro a ha
      obtain ⟨e, he, rfl⟩ := List.mem_map.1 ha
      exact hk e he
  simp only [insert, hf, hrl, Option.some_bind, hrank, LeafPage.count, lt_irrefl, false_and,
    if_false, hc, if_true, List.take_length, List.drop_length, writeLeaf, writePage]

theorem ascendingSlots_succ (first : Int) (n : Nat) (v : Bytes) :
    ascendingSlots first (n + 1) v = ascendingSlots first n v ++ [⟨first + (n : Int), v⟩] := by
  simp [ascendingSlots, List.range_succ]

theorem ascending_succ (first : Int) (n : Nat) (v : Bytes) :
    ascending first (n + 1) v = ascending first n v ++ [(first + (n : Int), v)] := by
  simp [ascending, List.range_succ]

theorem ascendingSlots_keys_lt (first : Int) (n : Nat) (v : Bytes) :
    ∀ e ∈ ascendingSlots first n v, e.key < first + (n : Int) := by
  intro e he
  obtain ⟨i, hi, rfl⟩ := List.mem_map.1 he
  have := List.mem_range.1 hi
  simp; omega

theorem ascendingSlots_sorted (first : Int) (n : Nat) (v : Bytes) :
    ((ascendingSlots first n v).map LeafEntry.key).Pairwise (· < ·) := by
  induction n with
  | zero => simp [ascendingSlots]
  | succ n ih =>
    rw [ascendingSlots_succ, List.map_append, List.pairwise_append]
    refine ⟨ih, by simp, ?_⟩
    intro a ha b hb
    obtain ⟨e, he, rfl⟩ := List.mem_map.1 ha
    have := ascendingSlots_keys_lt first n v e he
    simp at hb
    omega

/-- The tree after `n ≤ LEAF_CAPACITY` ascending inserts into a fresh file: one root
leaf holding all entries. -/
theorem insertAll_ascending_fresh (first : Int) (n : Nat) (v : Bytes) (hn : n ≤ LEAF_CAPACITY) :
    insertAll (BPlusTree.open []) (ascending first n v) =
      some { sb := { magic := MAGIC, root := 1, free_list_head := 0, page_count := 2 },
             disk := [Page.super { magic := MAGIC, root := 1, free_list_head := 0, page_count := 2 },
                      Page.leaf { parent := 0, next := 0,
                                  slots := ascendingSlots first n (pad8 v) }] } := by
  induction n with
  | zero => rw [open_empty]; rfl
  | succ n ih =>
    rw [ascending_succ, insertAll_append, ih (by omega)]
    simp only [Option.some_bind, insertAll]
    rw [insert_root_leaf_append _ { parent := 0, next := 0, slots := ascendingSlots first n (pad8 v) }]
    · simp [ascendingSlots_succ]
    · rfl
    · exact (ascendingSlots_sorted first n (pad8 v)).imp (fun h => le_of_lt h)
    · exact ascendingSlots_keys_lt first n (pad8 v)
    · simp [ascendingSlots]; omega

/-! ## Evaluation at the boundary key of a split -/

/-- The tree after inserting the keys 0, 1, ..., 339 in ascending order, each with value
"v": one split has happened, page 3 is the root with separator 170 between leaves 1 and 2. -/
theorem insertAll_ascending_340 :
    insertAll (BPlusTree.open []) (ascending 0 340 [0x76]) =
      some ⟨⟨MAGIC, 3, 0, 4⟩,
        [Page.super ⟨MAGIC, 3, 0, 4⟩,
         Page.leaf ⟨3, 2, ascendingSlots 0 170 [0x76, 0, 0, 0, 0, 0, 0, 0]⟩,
         Page.leaf ⟨3, 0, ascendingSlots 170 170 [0x76, 0, 0, 0, 0, 0, 0, 0]⟩,
         Page.internal ⟨0, 1, [⟨170, 2⟩]⟩]⟩ := by
  have h : (340 : Nat) = 339 + 1 := rfl
  rw [h, ascending_succ, insertAll_append, insertAll_ascending_fresh 0 339 _ (by decide)]
  simp only [Option.some_bind, insertAll]
  decide!

/-- C1 (evaluation at the failing input): after inserting the keys 0, 1, ..., 339
(= `LEAF_CAPACITY`) in ascending order with value "v" into a fresh tree, `get 170`
answers NotFound, although 170 was inserted. -/
theorem C1_get_misses_separator_key :
    (insertAll (BPlusTree.open []) (ascending 0 (LEAF_CAPACITY + 1) [0x76])).bind
      (fun t => get t 170) = some none := by
  have h : LEAF_CAPACITY + 1 = 340 := by decide
  rw [h, insertAll_ascending_340]
  decide!

/-- C3 (evaluation at the failing input): after a bulk load of the strictly increasing
records (1,"a"), (2,"a"), ..., (340,"a") into a fresh tree, `get 340` answers NotFound,
although 340 is a key of the input. -/
theorem C3_bulk_get_misses_first_key_of_leaf :
    getAfterBulk (bulkLoadCSV (BPlusTree.open []) (ascending 1 340 [0x61])) 340 = some none := by
  decide!

set_option maxRecDepth 100000 in
/-- C4 (evaluation at the failing input): on the strictly increasing records
(1,"a"), ..., (340,"a"), the bulk-loaded tree answers NotFound for key 340 and the tree
built by inserting the records in order answers with the stored value. -/
theorem C4_bulk_and_insert_disagree :
    getAfterBulk (bulkLoadCSV (BPlusTree.open []) (ascending 1 340 [0x61])) 340 = some none ∧
    (insertAll (BPlusTree.open []) (ascending 1 340 [0x61])).bind (fun t => get t 340)
      = some (some [0x61, 0, 0, 0, 0, 0, 0, 0]) := by
  refine ⟨by decide!, ?_⟩
  have h : (340 : Nat) = 339 + 1 := rfl
  rw [h, ascending_succ, insertAll_append, insertAll_ascending_fresh 1 339 _ (by decide)]
  simp only [Option.some_bind, insertAll]
  decide!

/-- C10 (evaluation at the failing input): after inserting 0, 1, ..., 339 in ascending
order and then 170 once more, the root is an internal page whose entry 0 is `(170, 2)`
and whose preceding child, the leaf on page 1, stores the key 170, which is not below
the separator. -/
theorem C10_left_child_holds_separator_key :
    ∃ t n p, insertAll (BPlusTree.open []) (ascending 0 340 [0x76] ++ [(170, [0x76])]) = some t ∧
      t.disk[t.sb.root]? = some (Page.internal n) ∧
      n.leftmost = 1 ∧ n.slots[0]? = some ⟨170, 2⟩ ∧
      t.disk[1]? = some (Page.leaf p) ∧
      (170 : Int) ∈ p.slots.map LeafEntry.key := by
  rw [insertAll_append, insertAll_ascending_340]
  simp only [Option.some_bind, insertAll]
  refine ⟨⟨⟨MAGIC, 3, 0, 4⟩,
        [Page.super ⟨MAGIC, 3, 0, 4⟩,
         Page.leaf ⟨3, 2, ascendingSlots 0 171 [0x76, 0, 0, 0, 0, 0, 0, 0]⟩,
         Page.leaf ⟨3, 0, ascendingSlots 170 170 [0x76, 0, 0, 0, 0, 0, 0, 0]⟩,
         Page.internal ⟨0, 1, [⟨170, 2⟩]⟩]⟩, ⟨0, 1, [⟨170, 2⟩]⟩,
         ⟨3, 2, ascendingSlots 0 171 [0x76, 0, 0, 0, 0, 0, 0, 0]⟩, by decide!, rfl, rfl, rfl, rfl, by decide!⟩

/-! ## Reading and writing pages -/

theorem setParent_eq (d : List Page) (c par : Nat) (pg : Page)
    (h : d[c]? = some pg) (hs : pg.isSuper = false) :
    setParent d c par = some (d.set c (pg.withParent par)) := by
  cases pg with
  | super sb => simp [Page.isSuper] at hs
  | leaf p => simp [setParent, readPage, h, writeLeaf, writePage, Page.withParent]
  | internal p => simp [setParent, readPage, h, writeInternal, writePage, Page.withParent]

theorem setParent_some (d d1 : List Page) (c par : Nat) (h : setParent d c par = some d1) :
    ∃ pg, d[c]? = some pg ∧ pg.isSuper = false ∧ d1 = d.set c (pg.withParent par) := by
  unfold setParent readPage at h
  cases hc : d[c]? with
  | none => simp [hc] at h
  | some pg =>
    cases pg with
    | super sb => simp [hc] at h
    | leaf p =>
      simp [hc, writeLeaf, writePage] at h
      exact ⟨_, rfl, rfl, by simp [Page.withParent, h]⟩
    | internal p =>
      simp [hc, writeInternal, writePage] at h
      exact ⟨_, rfl, rfl, by simp [Page.withParent, h]⟩

theorem withParent_isSuper (pg : Page) (par : Nat) :
    (pg.withParent par).isSuper = pg.isSuper := by
  cases pg <;> rfl

theorem isNode_set (d : List Page) (i pid : Nat) (pg : Page) (hpg : pg.isSuper = false)
    (h : isNode d pid) : isNode (d.set i pg) pid := by
  obtain ⟨q, hq, hs⟩ := h
  by_cases hi : i = pid
  · subst hi
    have hlt : i < d.length := (List.getElem?_eq_some_iff.1 hq).1
    exact ⟨pg, by simp [List.getElem?_set, hlt], hpg⟩
  · exact ⟨q, by simp [List.getElem?_set_ne hi, hq], hs⟩

theorem isNode_append (d : List Page) (pid : Nat) (pg : Page) (h : isNode d pid) :
    isNode (d ++ [pg]) pid := by
  obtain ⟨q, hq, hs⟩ := h
  have hlt : pid < d.length := (List.getElem?_eq_some_iff.1 hq).1
  exact ⟨q, by rw [List.getElem?_append_left hlt]; exact hq, hs⟩

theorem isNode_lt (d : List Page) (pid : Nat) (h : isNode d pid) : pid < d.length := by
  obtain ⟨q, hq, _⟩ := h
  exact (List.getElem?_eq_some_iff.1 hq).1

theorem alloc_write (d : List Page) (pg : Page) :
    writePage (allocatePage d).2 (allocatePage d).1 pg = d ++ [pg] := by
  simp [writePage, allocatePage]

theorem isNode_setParent (d d1 : List Page) (c par pid : Nat)
    (h : setParent d c par = some d1) (hn : isNode d pid) : isNode d1 pid := by
  obtain ⟨pg, _, hs, rfl⟩ := setParent_some d d1 c par h
  exact isNode_set d c pid _ (by rw [withParent_isSuper]; exact hs) hn

theorem setParent_length (d d1 : List Page) (c par : Nat)
    (h : setParent d c par = some d1) : d1.length = d.length := by
  obtain ⟨pg, _, _, rfl⟩ := setParent_some d d1 c par h
  simp

theorem setParents_some (d : List Page) (par : Nat) (es : List InternalEntry)
    (h : ∀ e ∈ es, isNode d e.right_child) :
    ∃ d1, setParents d par es = some d1 ∧ d1.length = d.length ∧
      ∀ pid, isNode d pid → isNode d1 pid := by
  induction es generalizing d with
  | nil => exact ⟨d, rfl, rfl, fun _ h => h⟩
  | cons e es ih =>
    obtain ⟨pg, hpg, hs⟩ := h e (by simp)
    have h1 := setParent_eq d e.right_child par pg hpg hs
    have hmono : ∀ pid, isNode d pid → isNode (d.set e.right_child (pg.withParent par)) pid :=
      fun pid hn => isNode_setParent d _ _ par pid h1 hn
    obtain ⟨d2, h2, hl, hm⟩ := ih (d.set e.right_child (pg.withParent par))
      (fun e' he' => hmono _ (h e' (by simp [he'])))
    refine ⟨d2, by simp [setParents, h1, h2], by simpa using hl, fun pid hn => hm pid (hmono pid hn)⟩

/-! ## Bulk load: when it fails -/

theorem INTERNAL_CAPACITY_eq : INTERNAL_CAPACITY = 339 := by decide
theorem LEAF_CAPACITY_eq : LEAF_CAPACITY = 339 := by decide

theorem allocatePage_fst (d : List Page) : (allocatePage d).1 = d.length := rfl

theorem writeLeaf_alloc (d : List Page) (p : LeafPage) :
    writeLeaf (allocatePage d).2 d.length p = d ++ [Page.leaf p] := alloc_write _ _

theorem writeInternal_alloc (d : List Page) (p : InternalPage) :
    writeInternal (allocatePage d).2 d.length p = d ++ [Page.internal p] := alloc_write _ _

theorem flush_leaf_first (b : BulkState) (firstKey : Int) (h0 : b.prevLeafPid = 0) :
    flush_leaf b firstKey = some
      { b with disk := b.disk ++ [Page.leaf b.leaf], prevLeafPid := b.disk.length,
               child_list := b.child_list ++ [(firstKey, b.disk.length)], leaf := {} } := by
  simp only [flush_leaf, allocatePage_fst, writeLeaf_alloc, h0, ne_eq, not_true_eq_false,
    if_false, Option.some_bind]

theorem flush_leaf_next (b : BulkState) (firstKey : Int) (p : LeafPage)
    (h0 : b.prevLeafPid ≠ 0) (hp : b.disk[b.prevLeafPid]? = some (Page.leaf p)) :
    flush_leaf b firstKey = some
      { b with disk := (b.disk ++ [Page.leaf b.leaf]).set b.prevLeafPid
                         (Page.leaf { p with next := b.disk.length }),
               prevLeafPid := b.disk.length,
               child_list := b.child_list ++ [(firstKey, b.disk.length)], leaf := {} } := by
  have hlt : b.prevLeafPid < b.disk.length := (List.getElem?_eq_some_iff.1 hp).1
  have hp2 : (b.disk ++ [Page.leaf b.leaf])[b.prevLeafPid]? = some (Page.leaf p) := by
    rw [List.getElem?_append_left hlt]; exact hp
  have hr : readLeaf (b.disk ++ [Page.leaf b.leaf]) b.prevLeafPid = some p := by
    simp [readLeaf, readPage, hp2]
  simp only [flush_leaf, allocatePage_fst, writeLeaf_alloc, h0, ne_eq, not_false_eq_true,
    if_true, hr, Option.some_bind]
  rfl

theorem flush_leaf_valid (b : BulkState) (firstKey : Int) (hb : b.Valid) :
    ∃ b2, flush_leaf b firstKey = some b2 ∧ b2.Valid ∧ b2.leaf = {} ∧
      b2.firstKeySet = b.firstKeySet ∧ b2.prevKey = b.prevKey ∧ b2.child_list ≠ [] := by
  obtain ⟨hprev, hcl⟩ := hb
  have hnew : isNode (b.disk ++ [Page.leaf b.leaf]) b.disk.length :=
    ⟨_, List.getElem?_concat_length _ _, rfl⟩
  by_cases h0 : b.prevLeafPid = 0
  · refine ⟨_, flush_leaf_first b firstKey h0, ⟨?_, ?_⟩, rfl, rfl, rfl, by simp⟩
    · intro _
      exact ⟨b.leaf, by simp⟩
    · intro e he
      simp only [List.mem_append, List.mem_singleton] at he
      rcases he with he | rfl
      · exact isNode_append _ _ _ (hcl e he)
      · exact hnew
  · obtain ⟨p, hp⟩ := hprev h0
    have hlt : b.prevLeafPid < b.disk.length := (List.getElem?_eq_some_iff.1 hp).1
    refine ⟨_, flush_leaf_next b firstKey p h0 hp, ⟨?_, ?_⟩, rfl, rfl, rfl, by simp⟩
    · intro _
      refine ⟨b.leaf, ?_⟩
      show ((b.disk ++ [Page.leaf b.leaf]).set b.prevLeafPid _)[b.disk.length]? = _
      rw [List.getElem?_set_ne (by omega)]
      exact List.getElem?_concat_length _ _
    · intro e he
      simp only [List.mem_append, List.mem_singleton] at he
      refine isNode_set _ _ _ (Page.leaf _) rfl ?_
      rcases he with he | rfl
      · exact isNode_append _ _ _ (hcl e he)
      · exact hnew

theorem leafPass_spec (input : List (Int × Bytes)) (b : BulkState) (hb : b.Valid) :
    (descentFrom b.prev input → ∃ b1, leafPass b input = some (Sum.inl b1)) ∧
    (¬ descentFrom b.prev input → ∃ b1, leafPass b input = some (Sum.inr b1) ∧ b1.Valid) := by
  induction input generalizing b with
  | nil =>
    cases hp : b.prev <;> simp [descentFrom, leafPass, hb]
  | cons r rest ih =>
    obtain ⟨key, val⟩ := r
    by_cases hd : b.firstKeySet = true ∧ key < b.prevKey
    · have hprev : b.prev = some b.prevKey := by simp [BulkState.prev, hd.1]
      simp [leafPass, hd, hprev, descentFrom]
    · -- the record is accepted
      have hstep : descentFrom b.prev ((key, val) :: rest) ↔ descentFrom (some key) rest := by
        by_cases hf : b.firstKeySet = true
        · have hprev : b.prev = some b.prevKey := by simp [BulkState.prev, hf]
          have : ¬ key < b.prevKey := fun h => hd ⟨hf, h⟩
          simp [hprev, descentFrom, this]
        · have hprev : b.prev = none := by simp [BulkState.prev, hf]
          simp [hprev, descentFrom]
      rw [hstep]
      simp only [leafPass, hd, if_false]
      split
      · -- the leaf is full: flush
        rename_i hfull
        have hv : BulkState.Valid
            { b with firstKeySet := true, prevKey := key,
                     leaf := { b.leaf with slots := b.leaf.slots ++ [⟨key, pad8 val⟩] } } := hb
        obtain ⟨b2, h2, hv2, _, hfk, hpk, _⟩ := flush_leaf_valid _
          (({ b.leaf with slots := b.leaf.slots ++ [⟨key, pad8 val⟩] } : LeafPage).slots.getD 0
            default).key hv
        rw [h2]
        simp only [Option.some_bind]
        have hprev2 : b2.prev = some key := by simp [BulkState.prev, hfk, hpk]
        have := ih b2 hv2
        rw [hprev2] at this
        exact this
      · have hv : BulkState.Valid
            { b with firstKeySet := true, prevKey := key,
                     leaf := { b.leaf with slots := b.leaf.slots ++ [⟨key, pad8 val⟩] } } := hb
        have := ih _ hv
        simpa [BulkState.prev] using this

theorem build_level_spec (fuel : Nat) (d : List Page) (lower : List (Int × Nat))
    (hf : lower.length ≤ fuel) (hn : ∀ e ∈ lower, isNode d e.2) :
    ∃ d1 upper, build_level fuel d lower = some (d1, upper) ∧
      (∀ e ∈ upper, isNode d1 e.2) ∧ (∀ pid, isNode d pid → isNode d1 pid) ∧
      upper.length = (lower.length + INTERNAL_CAPACITY) / (INTERNAL_CAPACITY + 1) := by
  induction fuel generalizing d lower with
  | zero =>
    have : lower = [] := List.length_eq_zero.1 (by omega)
    subst this
    exact ⟨d, [], rfl, by simp, fun _ h => h, by simp [INTERNAL_CAPACITY_eq]⟩
  | succ f ih =>
    cases lower with
    | nil => exact ⟨d, [], rfl, by simp, fun _ h => h, by simp [INTERNAL_CAPACITY_eq]⟩
    | cons first rest =>
      -- the children of the new node are pages of the file
      have hmono0 : ∀ pid, isNode d pid → isNode (allocatePage d).2 pid :=
        fun pid h => isNode_append d pid zeroPage h
      obtain ⟨pg, hpg, hs⟩ := hmono0 _ (hn first (by simp))
      have h1 := setParent_eq (allocatePage d).2 first.2 d.length pg hpg hs
      have hmono1 : ∀ pid, isNode d pid →
          isNode ((allocatePage d).2.set first.2 (pg.withParent d.length)) pid :=
        fun pid h => isNode_setParent _ _ _ _ pid h1 (hmono0 pid h)
      obtain ⟨d2, h2, hl2, hmono2⟩ := setParents_some
        ((allocatePage d).2.set first.2 (pg.withParent d.length)) d.length
        ((rest.take INTERNAL_CAPACITY).map fun e => ⟨e.1, e.2⟩)
        (by
          intro e he
          obtain ⟨e0, he0, rfl⟩ := List.mem_map.1 he
          exact hmono1 _ (hn e0 (by simp [List.mem_of_mem_take he0])))
      have hlen2 : d2.length = d.length + 1 := by
        rw [hl2]; simp [allocatePage]
      have hmono3 : ∀ pid, isNode d pid → isNode (writeInternal d2 d.length
          { parent := 0, leftmost := first.2,
            slots := (rest.take INTERNAL_CAPACITY).map fun e => ⟨e.1, e.2⟩ }) pid :=
        fun pid h => isNode_set _ _ _ (Page.internal _) rfl (hmono2 pid (hmono1 pid h))
      have hnew : isNode (writeInternal d2 d.length
          { parent := 0, leftmost := first.2,
            slots := (rest.take INTERNAL_CAPACITY).map fun e => ⟨e.1, e.2⟩ }) d.length :=
        ⟨Page.internal _, by
          unfold writeInternal writePage
          rw [List.getElem?_set, if_pos rfl, if_pos (by omega)], rfl⟩
      obtain ⟨d4, upper, h4, hu, hmono4, hlen⟩ := ih (writeInternal d2 d.length
          { parent := 0, leftmost := first.2,
            slots := (rest.take INTERNAL_CAPACITY).map fun e => ⟨e.1, e.2⟩ })
        (rest.drop INTERNAL_CAPACITY)
        (by simp at hf ⊢; omega)
        (fun e he => hmono3 _ (hn e (by simp [List.mem_of_mem_drop he])))
      refine ⟨d4, _, (by simp only [build_level, allocatePage_fst, h1, h2, h4, Option.some_bind]; rfl),
        ?_, fun pid h => hmono4 pid (hmono3 pid h), ?_⟩
      · intro e he
        simp only [List.mem_cons] at he
        rcases he with rfl | he
        · exact hmono4 _ hnew
        · exact hu e he
      · simp only [List.length_cons, hlen, List.length_drop, INTERNAL_CAPACITY_eq]
        omega

theorem upperPass_some (fuel : Nat) (d : List Page) (level : List (Int × Nat))
    (hf : level.length ≤ fuel) (h0 : level ≠ []) (hn : ∀ e ∈ level, isNode d e.2) :
    ∃ r, upperPass fuel d level = some r := by
  induction fuel generalizing d level with
  | zero =>
    exact absurd (List.length_eq_zero.1 (by omega)) h0
  | succ f ih =>
    simp only [upperPass]
    split
    · rename_i h1
      obtain ⟨d1, upper, hb, hu, _, hlen⟩ := build_level_spec level.length d level le_rfl hn
      rw [hb]
      simp only [Option.some_bind]
      rw [INTERNAL_CAPACITY_eq] at hlen
      apply ih
      · omega
      · intro hc
        rw [hc] at hlen
        simp at hlen
        omega
      · exact hu
    · exact ⟨_, rfl⟩

theorem descentFrom_cons_index (r : Int × Bytes) (rest : List (Int × Bytes)) :
    descentFrom (some r.1) rest ↔
      ∃ i, i < rest.length ∧ (rest.getD i default).1 < ((r :: rest).getD i default).1 := by
  induction rest generalizing r with
  | nil => simp [descentFrom]
  | cons r2 rest ih =>
    simp only [descentFrom, ih]
    constructor
    · rintro (h | ⟨i, hi, h⟩)
      · exact ⟨0, by simp, by simpa using h⟩
      · exact ⟨i + 1, by simpa using hi, by simpa using h⟩
    · rintro ⟨i, hi, h⟩
      cases i with
      | zero => left; simpa using h
      | succ i => right; exact ⟨i, by simpa using hi, by simpa using h⟩

theorem hasDescent_iff (input : List (Int × Bytes)) :
    hasDescent input ↔ descentFrom none input := by
  cases input with
  | nil => simp [hasDescent, descentFrom]
  | cons r rest =>
    simp only [descentFrom, descentFrom_cons_index, hasDescent]
    constructor
    · rintro ⟨i, hi, h⟩
      exact ⟨i, by simpa using hi, by simpa using h⟩
    · rintro ⟨i, hi, h⟩
      exact ⟨i, by simpa using hi, by simpa using h⟩

theorem bulkLoadCSV_descent (t : Tree) (input : List (Int × Bytes)) (h : hasDescent input) :
    ∃ t1, bulkLoadCSV t input = BulkResult.unsortedInput t1 := by
  have hv : BulkState.Valid { disk := t.disk } := ⟨fun h => absurd rfl h, by simp⟩
  obtain ⟨b1, hb1⟩ := (leafPass_spec input { disk := t.disk } hv).1
    (by simpa [BulkState.prev, hasDescent_iff] using h)
  exact ⟨_, by simp only [bulkLoadCSV, hb1]; rfl⟩

theorem bulkLoadCSV_sorted (t : Tree) (input : List (Int × Bytes)) (h : ¬ hasDescent input) :
    ∃ t1, bulkLoadCSV t input = BulkResult.ok t1 := by
  have hv : BulkState.Valid { disk := t.disk } := ⟨fun h => absurd rfl h, by simp⟩
  obtain ⟨b1, hb1, hv1⟩ := (leafPass_spec input { disk := t.disk } hv).2
    (by simpa [BulkState.prev, hasDescent_iff] using h)
  -- the final flush
  have hfl : ∃ b2, (if b1.leaf.count > 0 then flush_leaf b1 (b1.leaf.slots.getD 0 default).key
      else some b1) = some b2 ∧ b2.Valid := by
    split
    · obtain ⟨b2, h2, hv2, _⟩ := flush_leaf_valid b1 (b1.leaf.slots.getD 0 default).key hv1
      exact ⟨b2, h2, hv2⟩
    · exact ⟨b1, rfl, hv1⟩
  obtain ⟨b2, h2, hv2⟩ := hfl
  by_cases he : b2.child_list.isEmpty = true
  · exact ⟨_, by simp only [bulkLoadCSV, hb1, h2, he, if_true]; rfl⟩
  · have hne : b2.child_list ≠ [] := by
      intro hc; rw [hc] at he; simp at he
    obtain ⟨r, hr⟩ := upperPass_some b2.child_list.length b2.disk b2.child_list le_rfl hne hv2.2
    exact ⟨_, by simp only [bulkLoadCSV, hb1, h2, he, hr]; rfl⟩

/-- C5: `bulk_load` ends with the unsorted-input error exactly when some key of the input
is strictly smaller than the key immediately before it, and returns normally exactly when
there is no such key; so an input with equal adjacent keys is accepted, and the input
(1,"a"), (3,"c"), (2,"b") is rejected. -/
theorem C5_bulk_load_unsorted_iff_descent :
    (∀ (t : Tree) (input : List (Int × Bytes)),
      ((∃ t1, bulkLoadCSV t input = BulkResult.unsortedInput t1) ↔ hasDescent input) ∧
      ((∃ t1, bulkLoadCSV t input = BulkResult.ok t1) ↔ ¬ hasDescent input)) ∧
    (∃ t1, bulkLoadCSV (BPlusTree.open []) [(1, [0x61]), (3, [0x63]), (2, [0x62])]
      = BulkResult.unsortedInput t1) ∧
    (∃ t1, bulkLoadCSV (BPlusTree.open []) [(1, [0x61]), (1, [0x63]), (2, [0x62])]
      = BulkResult.ok t1) := by
  refine ⟨fun t input => ⟨⟨?_, bulkLoadCSV_descent t input⟩, ⟨?_, bulkLoadCSV_sorted t input⟩⟩,
    ?_, ?_⟩
  · rintro ⟨t1, h1⟩
    by_contra hd
    obtain ⟨t2, h2⟩ := bulkLoadCSV_sorted t input hd
    rw [h1] at h2
    cases h2
  · rintro ⟨t1, h1⟩ hd
    obtain ⟨t2, h2⟩ := bulkLoadCSV_descent t input hd
    rw [h1] at h2
    cases h2
  · exact bulkLoadCSV_descent _ _ ⟨1, by decide, by decide⟩
  · apply bulkLoadCSV_sorted
    rintro ⟨i, hi, h⟩
    have : i = 0 ∨ i = 1 := by simp at hi; omega
    rcases this with rfl | rfl <;> revert h <;> decide

/-! ## The branches of `insertIntoParent`, `splitLeafAndInsert` and `insert` -/

theorem newInternal_fst (t : Tree) (par : Nat) : (newInternal t par).1 = t.disk.length := rfl

theorem newInternal_disk (t : Tree) (par : Nat) :
    (newInternal t par).2.disk = t.disk ++ [Page.internal ⟨par, 0, []⟩] := by
  simp only [newInternal, allocatePage_fst, writeInternal_alloc]

theorem newInternal_sb (t : Tree) (par : Nat) :
    (newInternal t par).2.sb = { t.sb with page_count := t.sb.page_count + 1 } := rfl

theorem newLeaf_fst (t : Tree) (par : Nat) : (newLeaf t par).1 = t.disk.length := rfl

theorem newLeaf_disk (t : Tree) (par : Nat) :
    (newLeaf t par).2.disk = t.disk ++ [Page.leaf ⟨par, 0, []⟩] := by
  simp only [newLeaf, allocatePage_fst, writeLeaf_alloc]

theorem newLeaf_sb (t : Tree) (par : Nat) :
    (newLeaf t par).2.sb = { t.sb with page_count := t.sb.page_count + 1 } := rfl

theorem readInternal_eq (d : List Page) (pid : Nat) (p : InternalPage)
    (h : d[pid]? = some (Page.internal p)) : readInternal d pid = some p := by
  simp [readInternal, readPage, h]

theorem readLeaf_eq (d : List Page) (pid : Nat) (p : LeafPage)
    (h : d[pid]? = some (Page.leaf p)) : readLeaf d pid = some p := by
  simp [readLeaf, readPage, h]

theorem readInternal_some (d : List Page) (pid : Nat) (p : InternalPage)
    (h : readInternal d pid = some p) : d[pid]? = some (Page.internal p) := by
  unfold readInternal readPage at h
  split at h
  · rename_i q hq; cases h; exact hq
  · cases h

theorem readLeaf_some (d : List Page) (pid : Nat) (p : LeafPage)
    (h : readLeaf d pid = some p) : d[pid]? = some (Page.leaf p) := by
  unfold readLeaf readPage at h
  split at h
  · rename_i q hq; cases h; exact hq
  · cases h

theorem set_concat_last {α : Type} (d : List α) (a b : α) :
    (d ++ [a]).set d.length b = d ++ [b] := by
  simp

/-- `insertIntoParent` when `left_pid` is the root (lines 199-214). -/
theorem insertIntoParent_root (f : Nat) (t : Tree) (l : Nat) (s : Int) (r : Nat) (pg : Page)
    (h : t.disk[l]? = some pg) (hs : pg.isSuper = false) (hp : pg.parent = 0)
    (hr : t.sb.root = l) :
    insertIntoParent (f + 1) t l s r =
      (setParent (t.disk ++ [Page.internal ⟨0, l, [⟨s, r⟩]⟩]) l t.disk.length).bind fun d2 =>
      (setParent d2 r t.disk.length).bind fun d3 =>
      some ⟨⟨t.sb.magic, t.disk.length, t.sb.free_list_head, t.sb.page_count + 1⟩,
        writeSuper d3 ⟨t.sb.magic, t.disk.length, t.sb.free_list_head, t.sb.page_count + 1⟩⟩ := by
  have hri : readInternal (t.disk ++ [Page.internal ⟨0, 0, []⟩]) t.disk.length
      = some ⟨0, 0, []⟩ := readInternal_eq _ _ _ (List.getElem?_concat_length _ _)
  cases pg with
  | super sb => simp [Page.isSuper] at hs
  | leaf p =>
    have hp' : p.parent = 0 := hp
    simp only [insertIntoParent, readPage, h, hp', hr, and_self, if_true, newInternal_fst,
      newInternal_disk, newInternal_sb, hri, Option.some_bind, writeInternal, writePage,
      set_concat_last]
  | internal p =>
    have hp' : p.parent = 0 := hp
    simp only [insertIntoParent, readPage, h, hp', hr, and_self, if_true, newInternal_fst,
      newInternal_disk, newInternal_sb, hri, Option.some_bind, writeInternal, writePage,
      set_concat_last]

/-- `insertIntoParent` when the parent has room (lines 253-260). -/
theorem insertIntoParent_room (f : Nat) (t : Tree) (l : Nat) (s : Int) (r : Nat) (pg : Page)
    (P : InternalPage)
    (h : t.disk[l]? = some pg) (hs : pg.isSuper = false)
    (hnr : ¬ (pg.parent = 0 ∧ t.sb.root = l))
    (hP : t.disk[pg.parent]? = some (Page.internal P)) (hc : P.count ≠ INTERNAL_CAPACITY) :
    insertIntoParent (f + 1) t l s r =
      (setParent (t.disk.set pg.parent
          (Page.internal ⟨P.parent, P.leftmost, insertAt (scanPos s P.slots) ⟨s, r⟩ P.slots⟩))
        r pg.parent).bind fun d2 => some ⟨t.sb, d2⟩ := by
  cases pg with
  | super sb => simp [Page.isSuper] at hs
  | leaf p =>
    have hnr' : ¬ (p.parent = 0 ∧ t.sb.root = l) := hnr
    have hP' : t.disk[p.parent]? = some (Page.internal P) := hP
    simp only [insertIntoParent, readPage, h, hnr', if_false, readInternal, hP',
      Option.some_bind, hc, writeInternal, writePage, insertAt, Page.parent]
  | internal p =>
    have hnr' : ¬ (p.parent = 0 ∧ t.sb.root = l) := hnr
    have hP' : t.disk[p.parent]? = some (Page.internal P) := hP
    simp only [insertIntoParent, readPage, h, hnr', if_false, readInternal, hP',
      Option.some_bind, hc, writeInternal, writePage, insertAt, Page.parent]

/-- `insertIntoParent` when the parent is full (lines 219-251). -/
theorem insertIntoParent_full (f : Nat) (t : Tree) (l : Nat) (s : Int) (r : Nat) (pg : Page)
    (P : InternalPage)
    (h : t.disk[l]? = some pg) (hs : pg.isSuper = false)
    (hnr : ¬ (pg.parent = 0 ∧ t.sb.root = l))
    (hP : t.disk[pg.parent]? = some (Page.internal P)) (hc : P.count = INTERNAL_CAPACITY) :
    insertIntoParent (f + 1) t l s r =
      let tmp := insertAt (scanPos s P.slots) ⟨s, r⟩ P.slots
      let leftCount := tmp.length / 2
      let rightSlots := (tmp.drop (leftCount + 1)).take (tmp.length - leftCount - 1)
      let rightLeftmost := (tmp.getD leftCount default).right_child
      (setParent (((t.disk ++ [Page.internal ⟨P.parent, 0, []⟩]).set pg.parent
            (Page.internal ⟨P.parent, P.leftmost, tmp.take leftCount⟩)).set t.disk.length
            (Page.internal ⟨P.parent, rightLeftmost, rightSlots⟩))
          rightLeftmost t.disk.length).bind fun d3 =>
      (setParents d3 t.disk.length rightSlots).bind fun d4 =>
      insertIntoParent f ⟨⟨t.sb.magic, t.sb.root, t.sb.free_list_head, t.sb.page_count + 1⟩, d4⟩
        pg.parent (tmp.getD leftCount default).key t.disk.length := by
  have hri : readInternal (t.disk ++ [Page.internal ⟨P.parent, 0, []⟩]) t.disk.length
      = some ⟨P.parent, 0, []⟩ := readInternal_eq _ _ _ (List.getElem?_concat_length _ _)
  cases pg with
  | super sb => simp [Page.isSuper] at hs
  | leaf p =>
    have hnr' : ¬ (p.parent = 0 ∧ t.sb.root = l) := hnr
    have hP' : t.disk[p.parent]? = some (Page.internal P) := hP
    simp only [insertIntoParent, readPage, h, hnr', if_false, readInternal_eq _ _ _ hP',
      Option.some_bind, hc, if_true, writeInternal, writePage, insertAt, Page.parent,
      newInternal_fst, newInternal_disk, newInternal_sb, hri]
  | internal p =>
    have hnr' : ¬ (p.parent = 0 ∧ t.sb.root = l) := hnr
    have hP' : t.disk[p.parent]? = some (Page.internal P) := hP
    simp only [insertIntoParent, readPage, h, hnr', if_false, readInternal_eq _ _ _ hP',
      Option.some_bind, hc, if_true, writeInternal, writePage, insertAt, Page.parent,
      newInternal_fst, newInternal_disk, newInternal_sb, hri]

/-- `insertIntoParent` ends abnormally when `left_pid` is no leaf or internal page, or
when its parent is no internal page. -/
theorem insertIntoParent_some (f : Nat) (t t1 : Tree) (l : Nat) (s : Int) (r : Nat)
    (h : insertIntoParent f t l s r = some t1) :
    ∃ pg, t.disk[l]? = some pg ∧ pg.isSuper = false ∧
      ((pg.parent = 0 ∧ t.sb.root = l) ∨ ∃ P, t.disk[pg.parent]? = some (Page.internal P)) := by
  cases f with
  | zero => simp [insertIntoParent] at h
  | succ f =>
    unfold insertIntoParent readPage at h
    cases hl : t.disk[l]? with
    | none => simp [hl] at h
    | some pg =>
      refine ⟨pg, rfl, ?_⟩
      cases pg with
      | super sb => simp [hl] at h
      | leaf p =>
        refine ⟨rfl, ?_⟩
        by_cases hc : p.parent = 0 ∧ t.sb.root = l
        · exact Or.inl hc
        · right
          simp only [hl, hc, if_false] at h
          cases hP : readInternal t.disk p.parent with
          | none => simp [hP] at h
          | some P => exact ⟨P, readInternal_some _ _ _ hP⟩
      | internal p =>
        refine ⟨rfl, ?_⟩
        by_cases hc : p.parent = 0 ∧ t.sb.root = l
        · exact Or.inl hc
        · right
          simp only [hl, hc, if_false] at h
          cases hP : readInternal t.disk p.parent with
          | none => simp [hP] at h
          | some P => exact ⟨P, readInternal_some _ _ _ hP⟩

/-- `splitLeafAndInsert` up to the call of `insertIntoParent` (lines 264-290). -/
theorem splitLeafAndInsert_eq (t : Tree) (L : Nat) (k : Int) (v8 : Bytes) (p : LeafPage)
    (h : t.disk[L]? = some (Page.leaf p)) :
    splitLeafAndInsert t L k v8 =
      let tmp := insertAt (lower_bound_leaf p k) ⟨k, v8⟩ p.slots
      let leftCount := tmp.length / 2
      let rightSlots := (tmp.drop leftCount).take (tmp.length - leftCount)
      insertIntoParent (t.disk.length + 1)
        ⟨⟨t.sb.magic, t.sb.root, t.sb.free_list_head, t.sb.page_count + 1⟩,
          ((t.disk ++ [Page.leaf ⟨p.parent, 0, []⟩]).set L
            (Page.leaf ⟨p.parent, t.disk.length, tmp.take leftCount⟩)).set t.disk.length
            (Page.leaf ⟨p.parent, p.next, rightSlots⟩)⟩
        L (rightSlots.getD 0 default).key t.disk.length := by
  have hrl : readLeaf (t.disk ++ [Page.leaf ⟨p.parent, 0, []⟩]) t.disk.length
      = some ⟨p.parent, 0, []⟩ := readLeaf_eq _ _ _ (List.getElem?_concat_length _ _)
  simp only [splitLeafAndInsert, readLeaf_eq _ _ _ h, Option.some_bind, newLeaf_fst,
    newLeaf_disk, newLeaf_sb, hrl, writeLeaf, writePage, insertAt, List.length_set,
    List.length_append, List.length_singleton]

theorem insert_eq (t : Tree) (k : Int) (v : Bytes) (L : Nat) (p : LeafPage)
    (hf : findLeaf t k = some L) (hL : t.disk[L]? = some (Page.leaf p)) :
    insert t k v =
      if lower_bound_leaf p k < p.count ∧ (p.slots.getD (lower_bound_leaf p k) default).key = k
      then some ⟨t.sb, t.disk.set L (Page.leaf ⟨p.parent, p.next,
        p.slots.set (lower_bound_leaf p k)
          ⟨(p.slots.getD (lower_bound_leaf p k) default).key, pad8 v⟩⟩)⟩
      else if p.count < LEAF_CAPACITY
      then some ⟨t.sb, t.disk.set L (Page.leaf ⟨p.parent, p.next,
        insertAt (lower_bound_leaf p k) ⟨k, pad8 v⟩ p.slots⟩)⟩
      else splitLeafAndInsert t L k (pad8 v) := by
  simp only [insert, hf, readLeaf_eq _ _ _ hL, Option.some_bind, writeLeaf, writePage, insertAt]

theorem insert_some (t t1 : Tree) (k : Int) (v : Bytes) (h : insert t k v = some t1) :
    ∃ L p, findLeaf t k = some L ∧ t.disk[L]? = some (Page.leaf p) := by
  unfold insert at h
  obtain ⟨L, hL, h⟩ := Option.bind_eq_some.1 h
  obtain ⟨p, hp, _⟩ := Option.bind_eq_some.1 h
  exact ⟨L, p, hL, readLeaf_some _ _ _ hp⟩

/-! ## The superblock on disk follows the root -/

theorem page0_set (d : List Page) (sb0 : SuperBlock) (i : Nat) (pg : Page)
    (h : d[0]? = some (Page.super sb0)) (hne : i ≠ 0) :
    (d.set i pg)[0]? = some (Page.super sb0) := by
  rw [List.getElem?_set_ne hne]; exact h

theorem node_ne_zero (d : List Page) (sb0 : SuperBlock) (c : Nat) (pg : Page)
    (h : d[0]? = some (Page.super sb0)) (hc : d[c]? = some pg) (hs : pg.isSuper = false) :
    c ≠ 0 := by
  rintro rfl
  rw [h] at hc
  cases hc
  simp [Page.isSuper] at hs

theorem page0_append (d : List Page) (sb0 : SuperBlock) (pg : Page)
    (h : d[0]? = some (Page.super sb0)) : (d ++ [pg])[0]? = some (Page.super sb0) := by
  have hlt : 0 < d.length := (List.getElem?_eq_some_iff.1 h).1
  rw [List.getElem?_append_left hlt]; exact h

theorem page0_setParent (d d1 : List Page) (sb0 : SuperBlock) (c par : Nat)
    (h : d[0]? = some (Page.super sb0)) (hsp : setParent d c par = some d1) :
    d1[0]? = some (Page.super sb0) := by
  obtain ⟨pg, hpg, hs, rfl⟩ := setParent_some d d1 c par hsp
  rw [List.getElem?_set_ne (node_ne_zero d sb0 c pg h hpg hs)]; exact h

theorem page0_setParents (es : List InternalEntry) (d d1 : List Page) (sb0 : SuperBlock)
    (par : Nat) (h : d[0]? = some (Page.super sb0)) (hsp : setParents d par es = some d1) :
    d1[0]? = some (Page.super sb0) := by
  induction es generalizing d with
  | nil => simp [setParents] at hsp; subst hsp; exact h
  | cons e es ih =>
    simp only [setParents] at hsp
    cases h1 : setParent d e.right_child par with
    | none => simp [h1] at hsp
    | some d2 =>
      simp only [h1, Option.some_bind] at hsp
      exact ih d2 (page0_setParent d d2 sb0 _ par h h1) hsp

theorem writeSuper_page0 (d : List Page) (sb sb0 : SuperBlock)
    (h : d[0]? = some (Page.super sb0)) : (writeSuper d sb)[0]? = some (Page.super sb) := by
  have hlt : 0 < d.length := (List.getElem?_eq_some_iff.1 h).1
  simp [writeSuper, writePage, List.getElem?_set, hlt]

theorem insertIntoParent_superOK (f : Nat) (t t1 : Tree) (l : Nat) (s : Int) (r : Nat)
    (hok : SuperOK t) (h : insertIntoParent f t l s r = some t1) : SuperOK t1 := by
  induction f generalizing t l s r with
  | zero => simp [insertIntoParent] at h
  | succ f ih =>
    obtain ⟨hm, sb0, h0, hm0, hr0⟩ := hok
    obtain ⟨pg, hl, hs, hcase⟩ := insertIntoParent_some _ _ _ _ _ _ h
    have hlen : 0 < t.disk.length := (List.getElem?_eq_some_iff.1 h0).1
    by_cases hroot : pg.parent = 0 ∧ t.sb.root = l
    · rw [insertIntoParent_root f t l s r pg hl hs hroot.1 hroot.2] at h
      obtain ⟨d2, h1, h⟩ := Option.bind_eq_some.1 h
      obtain ⟨d3, h2, h⟩ := Option.bind_eq_some.1 h
      cases h
      have h3 := page0_setParent _ _ sb0 _ _
        (page0_setParent _ _ sb0 _ _ (page0_append _ sb0 _ h0) h1) h2
      exact ⟨hm, _, writeSuper_page0 _ _ _ h3, hm, rfl⟩
    · rcases hcase with hc | ⟨P, hP⟩
      · exact absurd hc hroot
      · have hPne : pg.parent ≠ 0 := node_ne_zero _ sb0 _ _ h0 hP rfl
        by_cases hfull : P.count = INTERNAL_CAPACITY
        · rw [insertIntoParent_full f t l s r pg P hl hs hroot hP hfull] at h
          obtain ⟨d3, h1, h⟩ := Option.bind_eq_some.1 h
          obtain ⟨d4, h2, h⟩ := Option.bind_eq_some.1 h
          refine ih _ _ _ _ ?_ h
          refine ⟨hm, sb0, ?_, hm0, hr0⟩
          refine page0_setParents _ _ _ sb0 _ (page0_setParent _ _ sb0 _ _ ?_ h1) h2
          rw [List.getElem?_set_ne (by omega), List.getElem?_set_ne hPne]
          exact page0_append _ sb0 _ h0
        · rw [insertIntoParent_room f t l s r pg P hl hs hroot hP hfull] at h
          obtain ⟨d2, h1, h⟩ := Option.bind_eq_some.1 h
          cases h
          refine ⟨hm, sb0, ?_, hm0, hr0⟩
          refine page0_setParent _ _ sb0 _ _ ?_ h1
          rw [List.getElem?_set_ne hPne]; exact h0

theorem leaf_ne_zero (d : List Page) (sb0 : SuperBlock) (L : Nat) (p : LeafPage)
    (h0 : d[0]? = some (Page.super sb0)) (hL : d[L]? = some (Page.leaf p)) : L ≠ 0 :=
  node_ne_zero d sb0 L _ h0 hL rfl

theorem insert_superOK (t t1 : Tree) (k : Int) (v : Bytes)
    (hok : SuperOK t) (h : insert t k v = some t1) : SuperOK t1 := by
  obtain ⟨L, p, hf, hL⟩ := insert_some t t1 k v h
  rw [insert_eq t k v L p hf hL] at h
  obtain ⟨hm, sb0, h0, hm0, hr0⟩ := hok
  have hne := leaf_ne_zero _ sb0 L p h0 hL
  have hlen : 0 < t.disk.length := (List.getElem?_eq_some_iff.1 h0).1
  split at h
  · cases h
    exact ⟨hm, sb0, page0_set _ sb0 L _ h0 hne, hm0, hr0⟩
  · split at h
    · cases h
      exact ⟨hm, sb0, page0_set _ sb0 L _ h0 hne, hm0, hr0⟩
    · rw [splitLeafAndInsert_eq t L k _ p hL] at h
      refine insertIntoParent_superOK _ _ _ _ _ _ ?_ h
      refine ⟨hm, sb0, ?_, hm0, hr0⟩
      show (((t.disk ++ _).set L _).set t.disk.length _)[0]? = _
      rw [List.getElem?_set_ne (by omega), List.getElem?_set_ne hne]
      exact page0_append _ sb0 _ h0

/-! ### Bulk load keeps page 0 until it writes the new root -/

theorem flush_leaf_page0 (b b2 : BulkState) (fk : Int) (sb0 : SuperBlock)
    (h0 : b.disk[0]? = some (Page.super sb0)) (h : flush_leaf b fk = some b2) :
    b2.disk[0]? = some (Page.super sb0) := by
  by_cases hp : b.prevLeafPid = 0
  · rw [flush_leaf_first b fk hp] at h
    cases h
    exact page0_append _ sb0 _ h0
  · unfold flush_leaf at h
    simp only [allocatePage_fst, writeLeaf_alloc, hp, ne_eq, not_false_eq_true, if_true] at h
    obtain ⟨d3, h1, h⟩ := Option.bind_eq_some.1 h
    obtain ⟨prev, h2, h1⟩ := Option.bind_eq_some.1 h1
    cases h; cases h1
    show (writeLeaf _ _ _)[0]? = _
    unfold writeLeaf writePage
    rw [List.getElem?_set_ne hp]
    exact page0_append _ sb0 _ h0

theorem leafPass_page0 (input : List (Int × Bytes)) (b : BulkState) (sb0 : SuperBlock)
    (h0 : b.disk[0]? = some (Page.super sb0)) :
    ∀ r, leafPass b input = some r →
      (∀ b1, r = Sum.inl b1 → b1.disk[0]? = some (Page.super sb0)) ∧
      (∀ b1, r = Sum.inr b1 → b1.disk[0]? = some (Page.super sb0)) := by
  induction input generalizing b with
  | nil =>
    intro r hr
    simp only [leafPass, Option.some.injEq] at hr
    subst hr
    exact ⟨fun _ h => (by cases h), fun _ h => (by cases h; exact h0)⟩
  | cons r0 rest ih =>
    obtain ⟨key, val⟩ := r0
    intro r hr
    simp only [leafPass] at hr
    split at hr
    · simp only [Option.some.injEq] at hr
      subst hr
      exact ⟨fun _ h => (by cases h; exact h0), fun _ h => (by cases h)⟩
    · split at hr
      · obtain ⟨b2, h2, hr⟩ := Option.bind_eq_some.1 hr
        exact ih b2 (flush_leaf_page0 _ b2 _ sb0 (by exact h0) h2) r hr
      · exact ih _ (by exact h0) r hr

theorem build_level_page0 (fuel : Nat) (d : List Page) (lower : List (Int × Nat))
    (sb0 : SuperBlock) (h0 : d[0]? = some (Page.super sb0)) :
    ∀ r, build_level fuel d lower = some r → r.1[0]? = some (Page.super sb0) := by
  induction fuel generalizing d lower with
  | zero =>
    intro r hr
    simp only [build_level, Option.some.injEq] at hr
    subst hr; exact h0
  | succ f ih =>
    intro r hr
    cases lower with
    | nil =>
      simp only [build_level, Option.some.injEq] at hr
      subst hr; exact h0
    | cons first rest =>
      simp only [build_level, allocatePage_fst] at hr
      obtain ⟨d1, h1, hr⟩ := Option.bind_eq_some.1 hr
      obtain ⟨d2, h2, hr⟩ := Option.bind_eq_some.1 hr
      obtain ⟨r2, h3, hr⟩ := Option.bind_eq_some.1 hr
      cases hr
      have hlen : 0 < d.length := (List.getElem?_eq_some_iff.1 h0).1
      refine ih _ _ ?_ r2 h3
      unfold writeInternal writePage
      rw [List.getElem?_set_ne (by omega)]
      exact page0_setParents _ _ _ sb0 _
        (page0_setParent _ _ sb0 _ _ (page0_append _ sb0 _ h0) h1) h2

theorem upperPass_page0 (fuel : Nat) (d : List Page) (level : List (Int × Nat))
    (sb0 : SuperBlock) (h0 : d[0]? = some (Page.super sb0)) :
    ∀ r, upperPass fuel d level = some r → r.1[0]? = some (Page.super sb0) := by
  induction fuel generalizing d level with
  | zero => intro r hr; simp [upperPass] at hr
  | succ f ih =>
    intro r hr
    simp only [upperPass] at hr
    split at hr
    · obtain ⟨r1, h1, hr⟩ := Option.bind_eq_some.1 hr
      exact ih _ _ (build_level_page0 _ _ _ sb0 h0 r1 h1) r hr
    · cases hr; exact h0

theorem bulkLoadCSV_superOK (t : Tree) (input : List (Int × Bytes)) (hok : SuperOK t) :
    (∀ t1, bulkLoadCSV t input = BulkResult.ok t1 → SuperOK t1) ∧
    (∀ t1, bulkLoadCSV t input = BulkResult.unsortedInput t1 → SuperOK t1) := by
  obtain ⟨hm, sb0, h0, hm0, hr0⟩ := hok
  unfold bulkLoadCSV
  cases hlp : leafPass { disk := t.disk } input with
  | none => simp
  | some r =>
    obtain ⟨hl, hrr⟩ := leafPass_page0 input { disk := t.disk } sb0 h0 r hlp
    cases r with
    | inl b =>
      refine ⟨fun t1 h => (by cases h), fun t1 h => ?_⟩
      simp only [BulkResult.unsortedInput.injEq] at h
      subst h
      exact ⟨hm, sb0, hl b rfl, hm0, hr0⟩
    | inr b =>
      refine ⟨fun t1 h => ?_, fun t1 h => ?_⟩
      · simp only at h
        have hb0 := hrr b rfl
        split at h
        · cases h
        · rename_i b2 hb2
          have hb20 : b2.disk[0]? = some (Page.super sb0) := by
            split at hb2
            · exact flush_leaf_page0 _ _ _ sb0 hb0 hb2
            · cases hb2; exact hb0
          split at h
          · simp only [BulkResult.ok.injEq] at h
            subst h
            refine ⟨hm, _, writeSuper_page0 _ _ sb0 ?_, hm, rfl⟩
            rw [newLeaf_disk]
            exact page0_append _ sb0 _ hb20
          · split at h
            · cases h
            · rename_i r hr
              simp only [BulkResult.ok.injEq] at h
              subst h
              exact ⟨hm, _, writeSuper_page0 _ _ sb0 (upperPass_page0 _ _ _ sb0 hb20 r hr), hm, rfl⟩
      · simp only at h
        split at h
        · cases h
        · split at h
          · cases h
          · split at h <;> cases h

theorem readSuper_some (d : List Page) (sb : SuperBlock) (h : readSuper d = some sb) :
    d[0]? = some (Page.super sb) := by
  unfold readSuper readPage at h
  split at h
  · rename_i q hq; cases h; exact hq
  · cases h

theorem readSuper_eq (d : List Page) (sb : SuperBlock) (h : d[0]? = some (Page.super sb)) :
    readSuper d = some sb := by
  simp [readSuper, readPage, h]

theorem open_fresh_superOK (d0 : List Page) :
    SuperOK ⟨⟨MAGIC, d0.length, 0, 2⟩,
      writeSuper (d0 ++ [Page.leaf ⟨0, 0, []⟩]) ⟨MAGIC, d0.length, 0, 2⟩⟩ := by
  refine ⟨rfl, _, ?_, rfl, rfl⟩
  simp [writeSuper, writePage, List.getElem?_set]

theorem open_superOK (d : List Page) : SuperOK (BPlusTree.open d) := by
  unfold BPlusTree.open
  simp only [newLeaf_fst, newLeaf_disk, newLeaf_sb]
  cases h : readSuper (Pager.open d) with
  | none => exact open_fresh_superOK _
  | some sb =>
    simp only
    split
    · exact open_fresh_superOK _
    · rename_i hm
      exact ⟨by simpa using hm, sb, readSuper_some _ _ h, by simpa using hm, rfl⟩

theorem reachable_superOK (t : Tree) (h : Reachable t) : SuperOK t := by
  induction h with
  | opened d => exact open_superOK d
  | insert k v _ hi ih => exact insert_superOK _ _ k v ih hi
  | bulk input _ hb ih => exact (bulkLoadCSV_superOK _ input ih).1 _ hb
  | bulkUnsorted input _ hb ih => exact (bulkLoadCSV_superOK _ input ih).2 _ hb

theorem open_of_superOK (t : Tree) (h : SuperOK t) :
    ∃ sb0, BPlusTree.open t.disk = ⟨sb0, t.disk⟩ ∧ sb0.root = t.sb.root := by
  obtain ⟨_, sb0, h0, hm0, hr0⟩ := h
  have hlen : 0 < t.disk.length := (List.getElem?_eq_some_iff.1 h0).1
  have hp : Pager.open t.disk = t.disk := by
    unfold Pager.open
    rw [if_neg (by omega)]
  refine ⟨sb0, ?_, hr0⟩
  unfold BPlusTree.open
  simp only [hp, readSuper_eq _ _ h0, hm0, ne_eq, not_true_eq_false, if_false]

theorem get_eq_of_root (sb1 sb2 : SuperBlock) (d : List Page) (k : Int)
    (h : sb1.root = sb2.root) : get ⟨sb1, d⟩ k = get ⟨sb2, d⟩ k := by
  simp only [get, findLeaf, h]

/-- C8: in every state the program reaches by `open`, `insert` and `bulk_load`, page 0
holds a superblock with the magic whose `root` equals the in-memory root; hence opening
the same page store again gives a tree with the same pages and root, on which `get`
answers every key as before. -/
theorem C8_reopen_gives_same_answers (t : Tree) (h : Reachable t) :
    (∃ sb0, t.disk[0]? = some (Page.super sb0) ∧ sb0.magic = MAGIC ∧ sb0.root = t.sb.root) ∧
    (BPlusTree.open t.disk).disk = t.disk ∧
    (BPlusTree.open t.disk).sb.root = t.sb.root ∧
    ∀ k, get (BPlusTree.open t.disk) k = get t k := by
  have hok := reachable_superOK t h
  obtain ⟨sb0, ho, hr⟩ := open_of_superOK t hok
  refine ⟨hok.2, by rw [ho], by rw [ho]; exact hr, fun k => ?_⟩
  rw [ho]
  exact get_eq_of_root sb0 t.sb t.disk k hr

/-- C8 at a concrete state: a fresh file, then `insert(42, "hello")` and a bulk load of
(1,"a"), (2,"b"): the state is reachable, and reopening its pages gives the same root and
the same answers. -/
theorem C8_reopen_witness :
    Reachable ⟨⟨MAGIC, 2, 0, 2⟩,
        [Page.super ⟨MAGIC, 2, 0, 2⟩,
         Page.leaf ⟨0, 0, [⟨42, [0x68, 0x65, 0x6c, 0x6c, 0x6f, 0, 0, 0]⟩]⟩,
         Page.leaf ⟨0, 0, [⟨1, [0x61, 0, 0, 0, 0, 0, 0, 0]⟩, ⟨2, [0x62, 0, 0, 0, 0, 0, 0, 0]⟩]⟩]⟩ ∧
    (BPlusTree.open
        [Page.super ⟨MAGIC, 2, 0, 2⟩,
         Page.leaf ⟨0, 0, [⟨42, [0x68, 0x65, 0x6c, 0x6c, 0x6f, 0, 0, 0]⟩]⟩,
         Page.leaf ⟨0, 0, [⟨1, [0x61, 0, 0, 0, 0, 0, 0, 0]⟩, ⟨2, [0x62, 0, 0, 0, 0, 0, 0, 0]⟩]⟩]).sb.root
      = 2 ∧
    ∀ k, get (BPlusTree.open
        [Page.super ⟨MAGIC, 2, 0, 2⟩,
         Page.leaf ⟨0, 0, [⟨42, [0x68, 0x65, 0x6c, 0x6c, 0x6f, 0, 0, 0]⟩]⟩,
         Page.leaf ⟨0, 0, [⟨1, [0x61, 0, 0, 0, 0, 0, 0, 0]⟩, ⟨2, [0x62, 0, 0, 0, 0, 0, 0, 0]⟩]⟩]) k
      = get ⟨⟨MAGIC, 2, 0, 2⟩,
        [Page.super ⟨MAGIC, 2, 0, 2⟩,
         Page.leaf ⟨0, 0, [⟨42, [0x68, 0x65, 0x6c, 0x6c, 0x6f, 0, 0, 0]⟩]⟩,
         Page.leaf ⟨0, 0, [⟨1, [0x61, 0, 0, 0, 0, 0, 0, 0]⟩, ⟨2, [0x62, 0, 0, 0, 0, 0, 0, 0]⟩]⟩]⟩ k :=
  have h1 : insert (BPlusTree.open []) 42 [0x68, 0x65, 0x6c, 0x6c, 0x6f] =
      some ⟨⟨MAGIC, 1, 0, 2⟩,
        [Page.super ⟨MAGIC, 1, 0, 2⟩,
         Page.leaf ⟨0, 0, [⟨42, [0x68, 0x65, 0x6c, 0x6c, 0x6f, 0, 0, 0]⟩]⟩]⟩ := by decide
  have h2 : bulkLoadCSV ⟨⟨MAGIC, 1, 0, 2⟩,
        [Page.super ⟨MAGIC, 1, 0, 2⟩,
         Page.leaf ⟨0, 0, [⟨42, [0x68, 0x65, 0x6c, 0x6c, 0x6f, 0, 0, 0]⟩]⟩]⟩
        [(1, [0x61]), (2, [0x62])] =
      BulkResult.ok ⟨⟨MAGIC, 2, 0, 2⟩,
        [Page.super ⟨MAGIC, 2, 0, 2⟩,
         Page.leaf ⟨0, 0, [⟨42, [0x68, 0x65, 0x6c, 0x6c, 0x6f, 0, 0, 0]⟩]⟩,
         Page.leaf ⟨0, 0, [⟨1, [0x61, 0, 0, 0, 0, 0, 0, 0]⟩, ⟨2, [0x62, 0, 0, 0, 0, 0, 0, 0]⟩]⟩]⟩ := by
    decide
  have hr := Reachable.bulk _ (Reachable.insert 42 _ (Reachable.opened []) h1) h2
  ⟨hr, (C8_reopen_gives_same_answers _ hr).2.2.1, (C8_reopen_gives_same_answers _ hr).2.2.2⟩

/-! ## Observing pages: body and parent -/

theorem bodyAt_eq (d : List Page) (pid : Nat) (pg : Page) (h : d[pid]? = some pg) :
    bodyAt d pid = some pg.body := by
  simp [bodyAt, h]

theorem parentAt_eq (d : List Page) (pid : Nat) (pg : Page) (h : d[pid]? = some pg) :
    parentAt d pid = pg.parent := by
  simp [parentAt, h]

theorem bodyAt_some (d : List Page) (pid : Nat) (b : Body) (h : bodyAt d pid = some b) :
    ∃ pg, d[pid]? = some pg ∧ pg.body = b := by
  unfold bodyAt at h
  cases hp : d[pid]? with
  | none => simp [hp] at h
  | some pg => exact ⟨pg, rfl, by simpa [hp] using h⟩

theorem bodyAt_lt (d : List Page) (pid : Nat) (b : Body) (h : bodyAt d pid = some b) :
    pid < d.length := by
  obtain ⟨pg, hpg, _⟩ := bodyAt_some d pid b h
  exact (List.getElem?_eq_some_iff.1 hpg).1

theorem bodyAt_leaf (d : List Page) (pid : Nat) (p : LeafPage)
    (h : d[pid]? = some (Page.leaf p)) : bodyAt d pid = some (Body.leaf p.next p.slots) :=
  bodyAt_eq d pid _ h

theorem bodyAt_internal (d : List Page) (pid : Nat) (p : InternalPage)
    (h : d[pid]? = some (Page.internal p)) :
    bodyAt d pid = some (Body.internal p.leftmost p.slots) :=
  bodyAt_eq d pid _ h

theorem bodyAt_leaf_some (d : List Page) (pid nxt : Nat) (slots : List LeafEntry)
    (h : bodyAt d pid = some (Body.leaf nxt slots)) :
    ∃ p : LeafPage, d[pid]? = some (Page.leaf p) ∧ p.next = nxt ∧ p.slots = slots := by
  obtain ⟨pg, hpg, hb⟩ := bodyAt_some d pid _ h
  cases pg with
  | super sb => cases hb
  | leaf p => cases hb; exact ⟨p, hpg, rfl, rfl⟩
  | internal p => cases hb

theorem bodyAt_internal_some (d : List Page) (pid lm : Nat) (slots : List InternalEntry)
    (h : bodyAt d pid = some (Body.internal lm slots)) :
    ∃ p : InternalPage, d[pid]? = some (Page.internal p) ∧ p.leftmost = lm ∧ p.slots = slots := by
  obtain ⟨pg, hpg, hb⟩ := bodyAt_some d pid _ h
  cases pg with
  | super sb => cases hb
  | leaf p => cases hb
  | internal p => cases hb; exact ⟨p, hpg, rfl, rfl⟩

theorem bodyAt_set (d : List Page) (i j : Nat) (pg : Page) (hi : i < d.length) :
    bodyAt (d.set i pg) j = if j = i then some pg.body else bodyAt d j := by
  unfold bodyAt
  by_cases h : j = i
  · subst h; simp [List.getElem?_set, hi]
  · rw [List.getElem?_set_ne (fun hh => h hh.symm), if_neg h]

theorem parentAt_set (d : List Page) (i j : Nat) (pg : Page) (hi : i < d.length) :
    parentAt (d.set i pg) j = if j = i then pg.parent else parentAt d j := by
  unfold parentAt
  by_cases h : j = i
  · subst h; simp [List.getElem?_set, hi]
  · rw [List.getElem?_set_ne (fun hh => h hh.symm), if_neg h]

theorem bodyAt_append (d : List Page) (j : Nat) (pg : Page) :
    bodyAt (d ++ [pg]) j = if j = d.length then some pg.body else bodyAt d j := by
  unfold bodyAt
  by_cases h : j = d.length
  · subst h; simp
  · rw [if_neg h]
    by_cases h2 : j < d.length
    · rw [List.getElem?_append_left h2]
    · rw [List.getElem?_eq_none (by simp; omega), List.getElem?_eq_none (by omega)]

theorem parentAt_append (d : List Page) (j : Nat) (pg : Page) :
    parentAt (d ++ [pg]) j = if j = d.length then pg.parent else parentAt d j := by
  unfold parentAt
  by_cases h : j = d.length
  · subst h; simp
  · rw [if_neg h]
    by_cases h2 : j < d.length
    · rw [List.getElem?_append_left h2]
    · rw [List.getElem?_eq_none (by simp; omega), List.getElem?_eq_none (by omega)]

theorem withParent_body (pg : Page) (par : Nat) : (pg.withParent par).body = pg.body := by
  cases pg <;> rfl

theorem withParent_parent (pg : Page) (par : Nat) (hs : pg.isSuper = false) :
    (pg.withParent par).parent = par := by
  cases pg with
  | super sb => simp [Page.isSuper] at hs
  | leaf p => rfl
  | internal p => rfl

theorem isSuper_iff_body (pg : Page) : pg.isSuper = false ↔ pg.body ≠ Body.super := by
  cases pg <;> simp [Page.isSuper, Page.body]

/-- A page that is a leaf or an internal page, seen through its body. -/
theorem isNode_of_body (d : List Page) (c : Nat) (b : Body) (h : bodyAt d c = some b)
    (hb : b ≠ Body.super) : isNode d c := by
  obtain ⟨pg, hpg, rfl⟩ := bodyAt_some d c b h
  exact ⟨pg, hpg, (isSuper_iff_body pg).2 hb⟩

/-- The effect of `fixp(c)`: only the `parent` field of page `c` changes. -/
theorem setParent_obs (d : List Page) (c par : Nat) (hn : isNode d c) :
    ∃ d1, setParent d c par = some d1 ∧ d1.length = d.length ∧
      (∀ j, bodyAt d1 j = bodyAt d j) ∧
      (∀ j, parentAt d1 j = if j = c then par else parentAt d j) := by
  obtain ⟨pg, hpg, hs⟩ := hn
  have hlt : c < d.length := (List.getElem?_eq_some_iff.1 hpg).1
  refine ⟨_, setParent_eq d c par pg hpg hs, by simp, fun j => ?_, fun j => ?_⟩
  · rw [bodyAt_set _ _ _ _ hlt]
    by_cases h : j = c
    · subst h; rw [if_pos rfl, withParent_body, bodyAt_eq _ _ _ hpg]
    · rw [if_neg h]
  · rw [parentAt_set _ _ _ _ hlt, withParent_parent _ _ hs]

/-- The effect of the loop over `fixp`: the `parent` fields of the listed children change. -/
theorem setParents_obs (es : List InternalEntry) (d : List Page) (par : Nat)
    (hn : ∀ e ∈ es, isNode d e.right_child) :
    ∃ d1, setParents d par es = some d1 ∧ d1.length = d.length ∧
      (∀ j, bodyAt d1 j = bodyAt d j) ∧
      (∀ j, parentAt d1 j =
        if j ∈ es.map InternalEntry.right_child then par else parentAt d j) := by
  induction es generalizing d with
  | nil => exact ⟨d, rfl, rfl, fun _ => rfl, fun j => by simp⟩
  | cons e es ih =>
    obtain ⟨d1, h1, hl1, hb1, hp1⟩ := setParent_obs d e.right_child par (hn e (by simp))
    have hn1 : ∀ e' ∈ es, isNode d1 e'.right_child :=
      fun e' he' => isNode_setParent d d1 _ par _ h1 (hn e' (by simp [he']))
    obtain ⟨d2, h2, hl2, hb2, hp2⟩ := ih d1 hn1
    refine ⟨d2, by simp [setParents, h1, h2], by omega, fun j => by rw [hb2, hb1], fun j => ?_⟩
    rw [hp2, hp1]
    simp only [List.map_cons, List.mem_cons]
    by_cases hj : j ∈ es.map InternalEntry.right_child
    · simp [hj]
    · by_cases hj2 : j = e.right_child
      · simp [hj2]
      · simp [hj, hj2]

/-! ## Chains of children -/

theorem Chain_congr (lo hv lo1 hv1 : Nat → Int) (slots : List InternalEntry) (c : Nat)
    (l h : Int) (hc : ∀ x ∈ kids c slots, lo1 x = lo x ∧ hv1 x = hv x)
    (hch : Chain lo hv c l slots h) : Chain lo1 hv1 c l slots h := by
  induction slots generalizing c l with
  | nil =>
    obtain ⟨h1, h2, h3⟩ := hch
    have := hc c (by simp [kids])
    exact ⟨by rw [this.1]; exact h1, by rw [this.2]; exact h2, h3⟩
  | cons e es ih =>
    obtain ⟨h1, h2, h3, h4⟩ := hch
    have := hc c (by simp [kids])
    refine ⟨by rw [this.1]; exact h1, by rw [this.2]; exact h2, h3, ?_⟩
    exact ih e.right_child e.key (fun x hx => hc x (by simp [kids] at hx ⊢; tauto)) h4

theorem Chain_lt (lo hv : Nat → Int) (slots : List InternalEntry) (c : Nat) (l h : Int)
    (hch : Chain lo hv c l slots h) : l < h := by
  induction slots generalizing c l with
  | nil => exact hch.2.2
  | cons e es ih => exact lt_trans hch.2.2.1 (ih _ _ hch.2.2.2)

theorem Chain_keys (lo hv : Nat → Int) (slots : List InternalEntry) (c : Nat) (l h : Int)
    (hch : Chain lo hv c l slots h) : ∀ e ∈ slots, l < e.key ∧ e.key < h := by
  induction slots generalizing c l with
  | nil => simp
  | cons e es ih =>
    intro x hx
    simp only [List.mem_cons] at hx
    rcases hx with rfl | hx
    · exact ⟨hch.2.2.1, Chain_lt _ _ _ _ _ _ hch.2.2.2⟩
    · have := ih _ _ hch.2.2.2 x hx
      exact ⟨lt_trans hch.2.2.1 this.1, this.2⟩

theorem Chain_sorted (lo hv : Nat → Int) (slots : List InternalEntry) (c : Nat) (l h : Int)
    (hch : Chain lo hv c l slots h) : (slots.map InternalEntry.key).Pairwise (· < ·) := by
  induction slots generalizing c l with
  | nil => simp
  | cons e es ih =>
    simp only [List.map_cons, List.pairwise_cons]
    refine ⟨?_, ih _ _ hch.2.2.2⟩
    intro k hk
    obtain ⟨x, hx, rfl⟩ := List.mem_map.1 hk
    exact (Chain_keys _ _ _ _ _ _ hch.2.2.2 x hx).1

theorem Chain_kid_bounds (lo hv : Nat → Int) (slots : List InternalEntry) (c : Nat) (l h : Int)
    (hch : Chain lo hv c l slots h) :
    ∀ x ∈ kids c slots, l ≤ lo x ∧ hv x ≤ h ∧ lo x < hv x := by
  induction slots generalizing c l with
  | nil =>
    intro x hx
    simp only [kids, List.map_nil, List.mem_singleton] at hx
    subst hx
    obtain ⟨h1, h2, h3⟩ := hch
    omega
  | cons e es ih =>
    intro x hx
    obtain ⟨h1, h2, h3, h4⟩ := hch
    have hlt := Chain_lt _ _ _ _ _ _ h4
    simp only [kids, List.map_cons, List.mem_cons] at hx
    rcases hx with rfl | hx
    · omega
    · have := ih _ _ h4 x (by simp only [kids, List.mem_cons]; exact hx)
      omega

theorem Chain_append (lo hv : Nat → Int) (l1 : List InternalEntry) (e : InternalEntry)
    (l2 : List InternalEntry) (c : Nat) (l h : Int) :
    Chain lo hv c l (l1 ++ e :: l2) h ↔
      Chain lo hv c l l1 e.key ∧ Chain lo hv e.right_child e.key l2 h := by
  induction l1 generalizing c l with
  | nil => simp [Chain, and_assoc]
  | cons a as ih => simp [Chain, ih, and_assoc]

theorem insertAt_zero {α : Type} (x : α) (l : List α) : insertAt 0 x l = x :: l := by
  simp [insertAt]

theorem insertAt_succ {α : Type} (n : Nat) (x a : α) (l : List α) :
    insertAt (n + 1) x (a :: l) = a :: insertAt n x l := by
  simp [insertAt]

theorem insertAt_length {α : Type} (n : Nat) (x : α) (l : List α) :
    (insertAt n x l).length = l.length + 1 := by
  simp [insertAt]; omega

theorem insertAt_perm {α : Type} (n : Nat) (x : α) (l : List α) :
    (insertAt n x l).Perm (x :: l) := by
  unfold insertAt
  exact List.perm_middle.trans (List.Perm.cons _ (by rw [List.take_append_drop]))

theorem mem_insertAt {α : Type} (n : Nat) (x y : α) (l : List α) :
    y ∈ insertAt n x l ↔ y = x ∨ y ∈ l := by
  rw [(insertAt_perm n x l).mem_iff]; simp

/-- Putting the pending pair `(s, r)` at the position the scan finds repairs the chain:
the child `l`, seen by the parent as ending at `hr`, ends at `s` and `r` covers the rest. -/
theorem Chain_insert (lo hi : Nat → Int) (lc : Nat) (s : Int) (r : Nat) (hr : Int)
    (slots : List InternalEntry) (c : Nat) (l h : Int)
    (hch : Chain lo (fun x => if x = lc then hr else hi x) c l slots h)
    (hmem : lc ∈ kids c slots) (hnd : (kids c slots).Nodup)
    (h1 : lo lc < s) (h2 : s < hr) (h3 : hi lc = s) (h4 : lo r = s) (h5 : hi r = hr) :
    Chain lo hi c l (insertAt (scanPos s slots) ⟨s, r⟩ slots) h := by
  induction slots generalizing c l with
  | nil =>
    simp only [kids, List.map_nil, List.mem_singleton] at hmem
    subst hmem
    obtain ⟨c1, c2, c3⟩ := hch
    simp only [if_true] at c2
    simp only [scanPos, insertAt_zero, Chain]
    omega
  | cons e es ih =>
    obtain ⟨c1, c2, c3, c4⟩ := hch
    simp only [kids, List.map_cons, List.nodup_cons] at hnd
    by_cases hc : c = lc
    · subst hc
      simp only [if_true] at c2
      have hpos : ¬ e.key < s := by omega
      simp only [scanPos, hpos, if_false, insertAt_zero, Chain]
      refine ⟨c1, h3, by omega, h4, by omega, by omega, ?_⟩
      apply Chain_congr _ _ _ _ _ _ _ _ _ c4
      intro x hx
      have : x ≠ c := by
        rintro rfl
        exact hnd.1 (by simpa [kids] using hx)
      simp [this]
    · have hmem2 : lc ∈ kids e.right_child es := by
        simp only [kids, List.map_cons, List.mem_cons] at hmem ⊢
        rcases hmem with h | h
        · exact absurd h.symm hc
        · exact h
      have hb := Chain_kid_bounds _ _ _ _ _ _ c4 lc hmem2
      have hpos : e.key < s := by omega
      have c2' : hi c = e.key := by simpa [hc] using c2
      simp only [scanPos, hpos, if_true, insertAt_succ, Chain]
      exact ⟨c1, c2', c3, ih _ _ c4 hmem2 (by simpa [kids] using hnd.2)⟩

/-! ## Routing -/

theorem route_mem (key : Int) (slots : List InternalEntry) (c : Nat) :
    route key c slots ∈ kids c slots := by
  induction slots generalizing c with
  | nil => simp [route, kids]
  | cons e es ih =>
    simp only [route]
    split
    · simp [kids]
    · have := ih e.right_child
      simp only [kids, List.map_cons, List.mem_cons] at this ⊢
      tauto

/-- The scan sends a key to the child whose interval `(lo, hv]` holds it. -/
theorem route_bounds (lo hv : Nat → Int) (key : Int) (slots : List InternalEntry) (c : Nat)
    (l h : Int) (hch : Chain lo hv c l slots h) (hl : l < key) (hh : key ≤ h) :
    lo (route key c slots) < key ∧ key ≤ hv (route key c slots) := by
  induction slots generalizing c l with
  | nil =>
    obtain ⟨h1, h2, _⟩ := hch
    simp only [route]; omega
  | cons e es ih =>
    obtain ⟨h1, h2, h3, h4⟩ := hch
    simp only [route]
    split
    · omega
    · exact ih _ _ h4 (by omega)

/-- The child whose interval holds the key is the one the scan picks. -/
theorem route_unique (lo hv : Nat → Int) (key : Int) (slots : List InternalEntry) (c : Nat)
    (l h : Int) (hch : Chain lo hv c l slots h) (x : Nat) (hx : x ∈ kids c slots)
    (hl : lo x < key) (hh : key ≤ hv x) : route key c slots = x := by
  induction slots generalizing c l with
  | nil =>
    simp only [kids, List.map_nil, List.mem_singleton] at hx
    simp [route, hx]
  | cons e es ih =>
    obtain ⟨h1, h2, h3, h4⟩ := hch
    simp only [kids, List.map_cons, List.mem_cons] at hx
    simp only [route]
    rcases hx with rfl | hx
    · rw [if_pos (by omega)]
    · have hx' : x ∈ kids e.right_child es := by simpa [kids] using hx
      have hb := Chain_kid_bounds _ _ _ _ _ _ h4 x hx'
      rw [if_neg (by omega)]
      exact ih _ _ h4 hx'

/-- On strictly increasing separators the binary search of `child_index` picks the same
child as the linear scan. -/
theorem childFor_eq_route (n : InternalPage) (key : Int)
    (hs : (n.slots.map InternalEntry.key).Pairwise (· < ·)) :
    childFor n key = route key n.leftmost n.slots := by
  unfold childFor
  rw [child_index_eq_rank n key (hs.imp (fun h => le_of_lt h))]
  generalize n.leftmost = c
  generalize n.slots = slots
  clear hs
  induction slots generalizing c with
  | nil => simp [rank, route]
  | cons e es ih =>
    simp only [List.map_cons, rank, route]
    by_cases h : e.key < key
    · have h2 : ¬ key ≤ e.key := by omega
      simp only [h, if_true, h2, if_false]
      rw [← ih e.right_child]
      simp only [Nat.add_one_ne_zero, if_false, Nat.add_sub_cancel]
      cases hr : rank key (es.map InternalEntry.key) with
      | zero => simp
      | succ m => simp
    · have h2 : key ≤ e.key := by omega
      simp [h, h2]

/-! ## Consequences of the invariant -/

theorem PageOK_leaf (d : List Page) (g : Ghost) (hv : Nat → Int) (pid nxt : Nat)
    (slots : List LeafEntry) (hb : bodyAt d pid = some (Body.leaf nxt slots)) :
    PageOK d g hv pid ↔ LeafOK g pid slots := by
  simp [PageOK, hb]

theorem PageOK_internal (d : List Page) (g : Ghost) (hv : Nat → Int) (pid lm : Nat)
    (slots : List InternalEntry) (hb : bodyAt d pid = some (Body.internal lm slots)) :
    PageOK d g hv pid ↔ IntOK d g hv pid lm slots := by
  simp [PageOK, hb]

/-- A page of the tree is a leaf or an internal page. -/
theorem PageOK_cases (d : List Page) (g : Ghost) (hv : Nat → Int) (pid : Nat)
    (h : PageOK d g hv pid) :
    (∃ nxt slots, bodyAt d pid = some (Body.leaf nxt slots) ∧ LeafOK g pid slots) ∨
    (∃ lm slots, bodyAt d pid = some (Body.internal lm slots) ∧ IntOK d g hv pid lm slots) := by
  unfold PageOK at h
  split at h
  · rename_i nxt slots hb; exact Or.inl ⟨nxt, slots, hb, h⟩
  · rename_i lm slots hb; exact Or.inr ⟨lm, slots, hb, h⟩
  · exact absurd h id

theorem PageOK_isNode (d : List Page) (g : Ghost) (hv : Nat → Int) (pid : Nat)
    (h : PageOK d g hv pid) : isNode d pid := by
  rcases PageOK_cases d g hv pid h with ⟨nxt, slots, hb, _⟩ | ⟨lm, slots, hb, _⟩
  · exact isNode_of_body d pid _ hb (by simp)
  · exact isNode_of_body d pid _ hb (by simp)

theorem Core.isNode {t : Tree} {g : Ghost} {hv : Nat → Int} (h : Core t g hv) (pid : Nat)
    (hl : g.live pid) : isNode t.disk pid :=
  PageOK_isNode _ _ _ _ (h.pages pid hl)

theorem Core.lt {t : Tree} {g : Ghost} {hv : Nat → Int} (h : Core t g hv) (pid : Nat)
    (hl : g.live pid) : pid < t.disk.length :=
  isNode_lt _ _ (h.isNode pid hl)

theorem Core.ne_zero {t : Tree} {g : Ghost} {hv : Nat → Int} (h : Core t g hv) (pid : Nat)
    (hl : g.live pid) : pid ≠ 0 := by
  obtain ⟨sb0, h0⟩ := h.super0
  obtain ⟨pg, hpg, hs⟩ := h.isNode pid hl
  exact node_ne_zero _ sb0 pid pg h0 hpg hs

theorem Core.kid {t : Tree} {g : Ghost} {hv : Nat → Int} (h : Core t g hv) (pid lm : Nat)
    (slots : List InternalEntry) (hl : g.live pid)
    (hb : bodyAt t.disk pid = some (Body.internal lm slots)) (c : Nat)
    (hc : c ∈ kids lm slots) :
    g.live c ∧ parentAt t.disk c = pid ∧ g.lvl c + 1 = g.lvl pid :=
  ((PageOK_internal _ _ _ _ _ _ hb).1 (h.pages pid hl)).2.2.1 c hc

/-- The root is nobody's child. -/
theorem Core.root_not_kid {t : Tree} {g : Ghost} {hv : Nat → Int} (h : Core t g hv)
    (pid lm : Nat) (slots : List InternalEntry) (hl : g.live pid)
    (hb : bodyAt t.disk pid = some (Body.internal lm slots)) :
    t.sb.root ∉ kids lm slots := by
  intro hc
  have := (h.kid pid lm slots hl hb _ hc).2.1
  rw [h.rootParent] at this
  exact h.ne_zero pid hl this.symm

/-- A page keeps its invariant when its body, its bookkeeping and the facts about its
children are kept. -/
theorem PageOK_transfer (d d1 : List Page) (g g1 : Ghost) (hv hv1 : Nat → Int) (pid : Nat)
    (hb : bodyAt d1 pid = bodyAt d pid)
    (hlvl : g1.lvl pid = g.lvl pid) (hlo : g1.lo pid = g.lo pid) (hhi : g1.hi pid = g.hi pid)
    (hkids : ∀ lm slots, bodyAt d pid = some (Body.internal lm slots) →
      ∀ c ∈ kids lm slots, g.live c → parentAt d c = pid →
        g1.live c ∧ parentAt d1 c = pid ∧ g1.lvl c = g.lvl c ∧ g1.lo c = g.lo c ∧ hv1 c = hv c)
    (h : PageOK d g hv pid) : PageOK d1 g1 hv1 pid := by
  rcases PageOK_cases d g hv pid h with ⟨nxt, slots, hbd, hok⟩ | ⟨lm, slots, hbd, hok⟩
  · rw [PageOK_leaf d1 g1 hv1 pid nxt slots (by rw [hb, hbd])]
    obtain ⟨h1, h2, h3, h4⟩ := hok
    exact ⟨by rw [hlvl]; exact h1, h2, h3, fun e he => by rw [hlo, hhi]; exact h4 e he⟩
  · rw [PageOK_internal d1 g1 hv1 pid lm slots (by rw [hb, hbd])]
    obtain ⟨h1, h2, h3, h4⟩ := hok
    refine ⟨h1, h2, fun c hc => ?_, ?_⟩
    · obtain ⟨k1, k2, k3⟩ := h3 c hc
      obtain ⟨m1, m2, m3, _, _⟩ := hkids lm slots hbd c hc k1 k2
      exact ⟨m1, m2, by rw [m3, hlvl]; exact k3⟩
    · rw [hlo, hhi]
      apply Chain_congr _ _ _ _ _ _ _ _ _ h4
      intro c hc
      obtain ⟨k1, k2, _⟩ := h3 c hc
      obtain ⟨_, _, _, m4, m5⟩ := hkids lm slots hbd c hc k1 k2
      exact ⟨m4, m5⟩

/-! ## The invariant of a fresh file -/

theorem Inv_fresh : Inv (BPlusTree.open []) Ghost.fresh := by
  rw [open_empty]
  refine ⟨⟨⟨_, rfl⟩, rfl, rfl, rfl, rfl, by simp [Ghost.fresh], fun _ _ => le_rfl, ?_⟩, ?_⟩
  · intro pid hl
    have : pid = 1 := hl
    subst this
    refine (PageOK_leaf _ _ _ 1 0 [] ?_).2 ⟨rfl, by simp, by simp, by simp⟩
    rfl
  · intro pid hl hne
    exact absurd hl hne

/-! ## Writing a leaf in place -/

/-- Rewriting a leaf of the tree with new entries that satisfy the leaf invariant keeps
the invariant. -/
theorem Inv_write_leaf (t : Tree) (g : Ghost) (L nxt : Nat) (slots : List LeafEntry)
    (p1 : LeafPage) (hinv : Inv t g) (hl : g.live L)
    (hb : bodyAt t.disk L = some (Body.leaf nxt slots))
    (hpar : p1.parent = parentAt t.disk L) (hok : LeafOK g L p1.slots) :
    Inv ⟨t.sb, t.disk.set L (Page.leaf p1)⟩ g := by
  have hlt : L < t.disk.length := bodyAt_lt _ _ _ hb
  have hL0 : L ≠ 0 := hinv.core.ne_zero L hl
  have hB : ∀ j, j ≠ L → bodyAt (t.disk.set L (Page.leaf p1)) j = bodyAt t.disk j := by
    intro j hj; rw [bodyAt_set _ _ _ _ hlt, if_neg hj]
  have hP : ∀ j, parentAt (t.disk.set L (Page.leaf p1)) j = parentAt t.disk j := by
    intro j
    rw [parentAt_set _ _ _ _ hlt]
    split
    · rename_i h; subst h; exact hpar
    · rfl
  obtain ⟨sb0, h0⟩ := hinv.core.super0
  refine ⟨⟨⟨sb0, ?_⟩, hinv.core.rootLive, ?_, hinv.core.rootLo, hinv.core.rootHi, ?_,
    hinv.core.lvlLe, ?_⟩, ?_⟩
  · show (t.disk.set L _)[0]? = _
    rw [List.getElem?_set_ne hL0]; exact h0
  · show parentAt (t.disk.set L _) t.sb.root = 0
    rw [hP]; exact hinv.core.rootParent
  · show g.lvl t.sb.root + 2 ≤ (t.disk.set L _).length
    rw [List.length_set]; exact hinv.core.height
  · intro pid hpl
    show PageOK (t.disk.set L _) g g.hi pid
    by_cases hpid : pid = L
    · subst hpid
      rw [PageOK_leaf _ _ _ pid p1.next p1.slots (by rw [bodyAt_set _ _ _ _ hlt, if_pos rfl]; rfl)]
      exact hok
    · refine PageOK_transfer t.disk _ g g g.hi g.hi pid (hB pid hpid) rfl rfl rfl ?_
        (hinv.core.pages pid hpl)
      intro lm sl _ c _ hcl hcp
      exact ⟨hcl, by rw [hP]; exact hcp, rfl, rfl, rfl⟩
  · intro pid hpl hne
    obtain ⟨lm, sl, h1, h2, h3⟩ := hinv.attached pid hpl hne
    refine ⟨lm, sl, ?_, ?_, h3⟩
    · show bodyAt (t.disk.set L _) (parentAt (t.disk.set L _) pid) = _
      rw [hP, hB _ ?_]
      · exact h1
      · intro hc
        rw [hc, hb] at h1
        cases h1
    · show g.live (parentAt (t.disk.set L _) pid)
      rw [hP]; exact h2

/-! ## `insertIntoParent` at the root -/

theorem Inv_new_root (t t1 : Tree) (g : Ghost) (l : Nat) (s : Int) (r : Nat)
    (hp : Pending t g l s r) (hl : t.sb.root = l)
    (hroot : t1.sb.root = t.disk.length) (hlen : t1.disk.length = t.disk.length + 1)
    (h0 : ∃ sb0, t1.disk[0]? = some (Page.super sb0))
    (hB : ∀ j, bodyAt t1.disk j =
      if j = t.disk.length then some (Body.internal l [⟨s, r⟩]) else bodyAt t.disk j)
    (hP : ∀ j, parentAt t1.disk j =
      if j = l ∨ j = r then t.disk.length
      else if j = t.disk.length then 0 else parentAt t.disk j) :
    Inv t1 (g.add t.disk.length (g.lvl l + 1) (KEY_MIN - 1) KEY_MAX) := by
  have hlt : ∀ pid, g.live pid → pid ≠ t.disk.length :=
    fun pid h => Nat.ne_of_lt (hp.core.lt pid h)
  have hlN := hlt l hp.liveL
  have hrN := hlt r hp.liveR
  have hrootHi : g.hi r = KEY_MAX := by
    have := hp.core.rootHi
    simpa [hl] using this
  have hrootLo : g.lo l = KEY_MIN - 1 := by
    have := hp.core.rootLo
    rwa [hl] at this
  have hs1 := hp.loL
  have hs2 := hp.hiR
  have hheight := hp.core.height
  rw [hl] at hheight
  refine ⟨⟨h0, ?_, ?_, ?_, ?_, ?_, ?_, ?_⟩, ?_⟩
  · rw [hroot]; exact Or.inl rfl
  · rw [hroot, hP]
    rw [if_neg (by intro h; rcases h with h | h; exact hlN h.symm; exact hrN h.symm), if_pos rfl]
  · rw [hroot]; simp [Ghost.add]
  · rw [hroot]; simp [Ghost.add]
  · rw [hroot, hlen]; simp only [Ghost.add, if_true]; omega
  · intro pid hpl
    rw [hroot]
    rcases hpl with rfl | hpl
    · exact le_rfl
    · have := hp.core.lvlLe pid hpl
      rw [hl] at this
      simp only [Ghost.add, hlt pid hpl, if_false, if_true]
      omega
  · intro pid hpl
    by_cases hN : pid = t.disk.length
    · subst hN
      refine (PageOK_internal _ _ _ _ l [⟨s, r⟩] (by rw [hB, if_pos rfl])).2 ?_
      refine ⟨by simp [INTERNAL_CAPACITY_eq], ?_, ?_, ?_⟩
      · simp [kids, hp.ne]
      · intro c hc
        simp only [kids, List.map_cons, List.map_nil, List.mem_cons, List.mem_singleton,
          List.not_mem_nil, or_false] at hc
        rcases hc with rfl | rfl
        · refine ⟨Or.inr hp.liveL, by rw [hP]; simp, ?_⟩
          simp [Ghost.add, hlN]
        · refine ⟨Or.inr hp.liveR, by rw [hP]; simp, ?_⟩
          simp [Ghost.add, hrN, hp.lvlR]
      · simp only [Chain, Ghost.add, hlN, hrN, if_false, if_true]
        have := hp.hiL
        have := hp.loR
        omega
    · have hpl' : g.live pid := by
        rcases hpl with h | h
        · exact absurd h hN
        · exact h
      refine PageOK_transfer t.disk t1.disk g _ _ _ pid (by rw [hB, if_neg hN])
        (by simp [Ghost.add, hN]) (by simp [Ghost.add, hN]) (by simp [Ghost.add, hN]) ?_
        (hp.core.pages pid hpl')
      intro lm slots hb c hc hcl hcp
      have hcl' : c ≠ l := by
        rintro rfl
        exact hp.core.root_not_kid pid lm slots hpl' hb (by rw [hl]; exact hc)
      have hcr : c ≠ r := by
        rintro rfl
        exact hp.fresh pid lm slots hpl' hb hc
      have hcN := hlt c hcl
      refine ⟨Or.inr hcl, ?_, ?_, ?_, ?_⟩
      · rw [hP, if_neg (by tauto), if_neg hcN]; exact hcp
      · simp [Ghost.add, hcN]
      · simp [Ghost.add, hcN]
      · simp [Ghost.add, hcN, hcl']
  · intro pid hpl hne
    rw [hroot] at hne
    have hpl' : g.live pid := by
      rcases hpl with h | h
      · exact absurd h hne
      · exact h
    by_cases hlr : pid = l ∨ pid = r
    · refine ⟨l, [⟨s, r⟩], ?_, ?_, ?_⟩
      · rw [hP, if_pos hlr, hB, if_pos rfl]
      · rw [hP, if_pos hlr]; exact Or.inl rfl
      · simp only [kids, List.map_cons, List.map_nil, List.mem_cons, List.mem_singleton,
          List.not_mem_nil, or_false]
        exact hlr
    · have h1 : pid ≠ t.sb.root := by rw [hl]; tauto
      obtain ⟨lm, slots, a1, a2, a3⟩ := hp.attached pid hpl' h1 (by tauto)
      have hpar : parentAt t1.disk pid = parentAt t.disk pid := by
        rw [hP, if_neg hlr, if_neg hne]
      refine ⟨lm, slots, ?_, ?_, a3⟩
      · rw [hpar, hB, if_neg (hlt _ a2)]; exact a1
      · rw [hpar]; exact Or.inr a2

theorem kids_insertAt_perm (lm n : Nat) (e : InternalEntry) (slots : List InternalEntry) :
    (kids lm (insertAt n e slots)).Perm (e.right_child :: kids lm slots) := by
  unfold kids
  have h1 : ((insertAt n e slots).map InternalEntry.right_child).Perm
      (e.right_child :: slots.map InternalEntry.right_child) := by
    have := (insertAt_perm n e slots).map InternalEntry.right_child
    simpa using this
  exact (List.Perm.cons lm h1).trans (List.Perm.swap _ _ _)

theorem mem_kids_insertAt (lm n : Nat) (e : InternalEntry) (slots : List InternalEntry)
    (c : Nat) : c ∈ kids lm (insertAt n e slots) ↔ c = e.right_child ∨ c ∈ kids lm slots := by
  rw [(kids_insertAt_perm lm n e slots).mem_iff]; simp

/-! ## `insertIntoParent` into a parent with room -/

theorem Inv_parent_room (t t1 : Tree) (g : Ghost) (l : Nat) (s : Int) (r : Nat)
    (lm : Nat) (slots : List InternalEntry)
    (hp : Pending t g l s r) (hne : t.sb.root ≠ l)
    (hPb : bodyAt t.disk (parentAt t.disk l) = some (Body.internal lm slots))
    (hc : slots.length < INTERNAL_CAPACITY)
    (hroot : t1.sb.root = t.sb.root) (hlen : t1.disk.length = t.disk.length)
    (h0 : ∃ sb0, t1.disk[0]? = some (Page.super sb0))
    (hB : ∀ j, bodyAt t1.disk j =
      if j = parentAt t.disk l
      then some (Body.internal lm (insertAt (scanPos s slots) ⟨s, r⟩ slots))
      else bodyAt t.disk j)
    (hP : ∀ j, parentAt t1.disk j = parentAt t.disk j) :
    Inv t1 g := by
  obtain ⟨lm1, slots1, a1, hPl, hlmem⟩ := hp.attached l hp.liveL (fun h => hne h.symm) hp.ne
  rw [hPb] at a1
  cases a1
  have hPok := (PageOK_internal _ _ _ _ _ _ hPb).1 (hp.core.pages _ hPl)
  obtain ⟨k1, k2, k3, k4⟩ := hPok
  have hrfresh := hp.fresh _ lm slots hPl hPb
  have hrootHi : g.hi t.sb.root = KEY_MAX := by
    have := hp.core.rootHi
    simpa [hne] using this
  refine ⟨⟨h0, ?_, ?_, ?_, ?_, ?_, ?_, ?_⟩, ?_⟩
  · rw [hroot]; exact hp.core.rootLive
  · rw [hroot, hP]; exact hp.core.rootParent
  · rw [hroot]; exact hp.core.rootLo
  · rw [hroot]; exact hrootHi
  · rw [hroot, hlen]; exact hp.core.height
  · rw [hroot]; exact hp.core.lvlLe
  · intro pid hpl
    by_cases hpid : pid = parentAt t.disk l
    · subst hpid
      refine (PageOK_internal _ _ _ _ lm _ (by rw [hB, if_pos rfl])).2 ⟨?_, ?_, ?_, ?_⟩
      · rw [insertAt_length]; omega
      · rw [(kids_insertAt_perm _ _ _ _).nodup_iff]
        exact List.nodup_cons.2 ⟨hrfresh, k2⟩
      · intro c hc
        rw [mem_kids_insertAt] at hc
        rcases hc with rfl | hc
        · refine ⟨hp.liveR, by rw [hP]; exact hp.parentR, ?_⟩
          rw [hp.lvlR]; exact (k3 l hlmem).2.2
        · obtain ⟨m1, m2, m3⟩ := k3 c hc
          exact ⟨m1, by rw [hP]; exact m2, m3⟩
      · exact Chain_insert g.lo g.hi l s r (g.hi r) slots lm _ _ k4 hlmem k2 hp.loL hp.hiR
          hp.hiL hp.loR rfl
    · refine PageOK_transfer t.disk t1.disk g g _ g.hi pid (by rw [hB, if_neg hpid])
        rfl rfl rfl ?_ (hp.core.pages pid hpl)
      intro lm2 slots2 _ c _ hcl hcp
      have hcl' : c ≠ l := by
        rintro rfl
        exact hpid hcp.symm
      exact ⟨hcl, by rw [hP]; exact hcp, rfl, rfl, by simp [hcl']⟩
  · intro pid hpl hner
    rw [hroot] at hner
    by_cases hr : pid = r
    · rw [hr]
      refine ⟨lm, insertAt (scanPos s slots) ⟨s, r⟩ slots, ?_, ?_, ?_⟩
      · rw [hP, hp.parentR, hB, if_pos rfl]
      · rw [hP, hp.parentR]; exact hPl
      · rw [mem_kids_insertAt]; exact Or.inl rfl
    · obtain ⟨lm2, slots2, b1, b2, b3⟩ := hp.attached pid hpl hner hr
      by_cases hq : parentAt t.disk pid = parentAt t.disk l
      · rw [hq, hPb] at b1
        cases b1
        refine ⟨lm, insertAt (scanPos s slots) ⟨s, r⟩ slots, ?_, ?_, ?_⟩
        · rw [hP, hq, hB, if_pos rfl]
        · rw [hP]; exact b2
        · rw [mem_kids_insertAt]; exact Or.inr b3
      · refine ⟨lm2, slots2, ?_, ?_, b3⟩
        · rw [hP, hB, if_neg hq]; exact b1
        · rw [hP]; exact b2

theorem kids_append (lm : Nat) (l1 : List InternalEntry) (e : InternalEntry)
    (l2 : List InternalEntry) :
    kids lm (l1 ++ e :: l2) = kids lm l1 ++ kids e.right_child l2 := by
  simp [kids]

/-! ## `insertIntoParent` into a full parent -/

theorem Pending_parent_split (t t1 : Tree) (g : Ghost) (l : Nat) (s : Int) (r : Nat)
    (P lm : Nat) (slots lslots : List InternalEntry) (mid : InternalEntry)
    (rslots : List InternalEntry)
    (hp : Pending t g l s r) (hne : t.sb.root ≠ l) (hPar : parentAt t.disk l = P)
    (hPb : bodyAt t.disk P = some (Body.internal lm slots))
    (hsplit : insertAt (scanPos s slots) ⟨s, r⟩ slots = lslots ++ mid :: rslots)
    (hl1 : lslots.length ≤ INTERNAL_CAPACITY) (hl2 : rslots.length ≤ INTERNAL_CAPACITY)
    (hroot : t1.sb.root = t.sb.root) (hlen : t1.disk.length = t.disk.length + 1)
    (h0 : ∃ sb0, t1.disk[0]? = some (Page.super sb0))
    (hB : ∀ j, bodyAt t1.disk j =
      if j = t.disk.length then some (Body.internal mid.right_child rslots)
      else if j = P then some (Body.internal lm lslots) else bodyAt t.disk j)
    (hP : ∀ j, parentAt t1.disk j =
      if j ∈ kids mid.right_child rslots then t.disk.length
      else if j = t.disk.length then parentAt t.disk P else parentAt t.disk j) :
    Pending t1 ((g.setHi P mid.key).add t.disk.length (g.lvl P) mid.key (g.hi P))
      P mid.key t.disk.length := by
  obtain ⟨lm1, slots1, a1, hPl, hlmem⟩ := hp.attached l hp.liveL (fun h => hne h.symm) hp.ne
  rw [hPar] at a1 hPl
  rw [hPb] at a1
  cases a1
  obtain ⟨k1, k2, k3, k4⟩ := (PageOK_internal _ _ _ _ _ _ hPb).1 (hp.core.pages _ hPl)
  have hrfresh := hp.fresh _ lm slots hPl hPb
  have hlt : ∀ pid, g.live pid → pid ≠ t.disk.length :=
    fun pid h => Nat.ne_of_lt (hp.core.lt pid h)
  have hPQ : P ≠ t.disk.length := hlt P hPl
  have hrootQ : t.sb.root ≠ t.disk.length := hlt _ hp.core.rootLive
  -- the provisional list of entries and its chain
  have hch : Chain g.lo g.hi lm (g.lo P) (lslots ++ mid :: rslots) (g.hi P) := by
    rw [← hsplit]
    exact Chain_insert g.lo g.hi l s r (g.hi r) slots lm _ _ k4 hlmem k2 hp.loL hp.hiR
      hp.hiL hp.loR rfl
  obtain ⟨hchL, hchR⟩ := (Chain_append _ _ _ _ _ _ _ _).1 hch
  have hmidk := Chain_keys _ _ _ _ _ _ hch mid (by simp)
  -- the children of the provisional list
  have hkmem : ∀ c, c ∈ kids lm lslots ∨ c ∈ kids mid.right_child rslots ↔
      c = r ∨ c ∈ kids lm slots := by
    intro c
    rw [← List.mem_append, ← kids_append, ← hsplit, mem_kids_insertAt]
  have hknd : (kids lm lslots ++ kids mid.right_child rslots).Nodup := by
    rw [← kids_append, ← hsplit, (kids_insertAt_perm _ _ _ _).nodup_iff]
    exact List.nodup_cons.2 ⟨hrfresh, k2⟩
  obtain ⟨hndL, hndR, hdisj⟩ := List.nodup_append.1 hknd
  have hkid : ∀ c, c = r ∨ c ∈ kids lm slots →
      g.live c ∧ parentAt t.disk c = P ∧ g.lvl c + 1 = g.lvl P := by
    intro c hc
    rcases hc with rfl | hc
    · exact ⟨hp.liveR, by rw [hp.parentR, hPar], by rw [hp.lvlR]; exact (k3 l hlmem).2.2⟩
    · exact k3 c hc
  have hkidP : ∀ c, c = r ∨ c ∈ kids lm slots → c ≠ P := by
    intro c hc h
    have := (hkid c hc).2.2
    rw [h] at this
    omega
  have hrootkid : ¬ (t.sb.root = r ∨ t.sb.root ∈ kids lm slots) := by
    intro h
    rcases h with h | h
    · exact hp.neRoot h.symm
    · exact hp.core.root_not_kid P lm slots hPl hPb h
  -- the new bookkeeping on old pages
  have glvl : ∀ c, c ≠ t.disk.length →
      ((g.setHi P mid.key).add t.disk.length (g.lvl P) mid.key (g.hi P)).lvl c = g.lvl c := by
    intro c hc; simp [Ghost.add, Ghost.setHi, hc]
  have glo : ∀ c, c ≠ t.disk.length →
      ((g.setHi P mid.key).add t.disk.length (g.lvl P) mid.key (g.hi P)).lo c = g.lo c := by
    intro c hc; simp [Ghost.add, Ghost.setHi, hc]
  have ghi : ∀ c, c ≠ t.disk.length → c ≠ P →
      ((g.setHi P mid.key).add t.disk.length (g.lvl P) mid.key (g.hi P)).hi c = g.hi c := by
    intro c hc hc2; simp [Ghost.add, Ghost.setHi, hc, hc2]
  have ghv : ∀ c, c ≠ t.disk.length →
      (if c = P then ((g.setHi P mid.key).add t.disk.length (g.lvl P) mid.key (g.hi P)).hi
          t.disk.length
        else ((g.setHi P mid.key).add t.disk.length (g.lvl P) mid.key (g.hi P)).hi c)
        = g.hi c := by
    intro c hc
    by_cases hcP : c = P
    · subst hcP; simp [Ghost.add, Ghost.setHi]
    · simp [Ghost.add, Ghost.setHi, hc, hcP]
  have hrootHi : g.hi t.sb.root = KEY_MAX := by
    have := hp.core.rootHi
    simpa [hne] using this
  refine ⟨⟨h0, ?_, ?_, ?_, ?_, ?_, ?_, ?_⟩, ?_, ?_, ?_, ?_, ?_, ?_, ?_, ?_, ?_, ?_, ?_, ?_⟩
  · rw [hroot]; exact Or.inr hp.core.rootLive
  · rw [hroot, hP, if_neg, if_neg hrootQ]
    · exact hp.core.rootParent
    · intro h; exact hrootkid ((hkmem _).1 (Or.inr h))
  · rw [hroot, glo _ hrootQ]; exact hp.core.rootLo
  · rw [hroot, ghv _ hrootQ]; exact hrootHi
  · rw [hroot, hlen, glvl _ hrootQ]; have := hp.core.height; omega
  · intro pid hpl
    rw [hroot, glvl _ hrootQ]
    rcases hpl with rfl | hpl
    · simp only [Ghost.add, if_true]; exact hp.core.lvlLe P hPl
    · rw [glvl _ (hlt pid hpl)]; exact hp.core.lvlLe pid hpl
  · -- pages
    intro pid hpl
    by_cases hQ : pid = t.disk.length
    · subst hQ
      refine (PageOK_internal _ _ _ _ mid.right_child rslots (by rw [hB, if_pos rfl])).2
        ⟨hl2, hndR, ?_, ?_⟩
      · intro c hc
        have hc' := (hkmem c).1 (Or.inr hc)
        obtain ⟨m1, m2, m3⟩ := hkid c hc'
        refine ⟨Or.inr m1, by rw [hP, if_pos hc], ?_⟩
        rw [glvl _ (hlt c m1)]
        simp only [Ghost.add, if_true]; exact m3
      · have e1 : ((g.setHi P mid.key).add t.disk.length (g.lvl P) mid.key (g.hi P)).lo
            t.disk.length = mid.key := by simp [Ghost.add]
        have e2 : ((g.setHi P mid.key).add t.disk.length (g.lvl P) mid.key (g.hi P)).hi
            t.disk.length = g.hi P := by simp [Ghost.add]
        rw [e1, e2]
        apply Chain_congr _ _ _ _ _ _ _ _ _ hchR
        intro c hc
        have hc' := (hkmem c).1 (Or.inr hc)
        have m1 := (hkid c hc').1
        have hh := ghv _ (hlt c m1)
        rw [e2] at hh
        exact ⟨glo _ (hlt c m1), hh⟩
    · have hpl' : g.live pid := by
        rcases hpl with h | h
        · exact absurd h hQ
        · exact h
      by_cases hPp : pid = P
      · subst hPp
        refine (PageOK_internal _ _ _ _ lm lslots (by rw [hB, if_neg hQ, if_pos rfl])).2
          ⟨hl1, hndL, ?_, ?_⟩
        · intro c hc
          have hc' := (hkmem c).1 (Or.inl hc)
          obtain ⟨m1, m2, m3⟩ := hkid c hc'
          refine ⟨Or.inr m1, ?_, ?_⟩
          · rw [hP, if_neg (fun h => hdisj hc h), if_neg (hlt c m1)]; exact m2
          · rw [glvl _ (hlt c m1), glvl _ hQ]; exact m3
        · have e2 : ((g.setHi pid mid.key).add t.disk.length (g.lvl pid) mid.key (g.hi pid)).hi
              pid = mid.key := by simp [Ghost.add, Ghost.setHi, hQ]
          rw [glo _ hQ, e2]
          apply Chain_congr _ _ _ _ _ _ _ _ _ hchL
          intro c hc
          have hc' := (hkmem c).1 (Or.inl hc)
          have m1 := (hkid c hc').1
          exact ⟨glo _ (hlt c m1), ghv _ (hlt c m1)⟩
      · refine PageOK_transfer t.disk t1.disk g _ _ _ pid
          (by rw [hB, if_neg hQ, if_neg hPp]) (glvl _ hQ) (glo _ hQ) (ghi _ hQ hPp) ?_
          (hp.core.pages pid hpl')
        intro lm2 slots2 hb2 c hc hcl hcp
        have hcl' : c ≠ l := by
          rintro rfl
          exact hPp (by rw [← hcp, hPar])
        have hnk : c ∉ kids mid.right_child rslots := by
          intro h
          rcases (hkmem c).1 (Or.inr h) with h | h
          · subst h; exact hp.fresh pid lm2 slots2 hpl' hb2 hc
          · exact hPp (by rw [← hcp]; exact (k3 c h).2.1)
        refine ⟨Or.inr hcl, ?_, glvl _ (hlt c hcl), glo _ (hlt c hcl), ?_⟩
        · rw [hP, if_neg hnk, if_neg (hlt c hcl)]; exact hcp
        · rw [ghv _ (hlt c hcl)]; simp [hcl']
  · -- attached
    intro pid hpl hner hneQ
    rw [hroot] at hner
    have hpl' : g.live pid := by
      rcases hpl with h | h
      · exact absurd h hneQ
      · exact h
    by_cases hkR : pid ∈ kids mid.right_child rslots
    · refine ⟨mid.right_child, rslots, ?_, ?_, hkR⟩
      · rw [hP, if_pos hkR, hB, if_pos rfl]
      · rw [hP, if_pos hkR]; exact Or.inl rfl
    · by_cases hkL : pid ∈ kids lm lslots
      · have hpp : parentAt t1.disk pid = P := by
          rw [hP, if_neg hkR, if_neg hneQ]
          exact (hkid pid ((hkmem pid).1 (Or.inl hkL))).2.1
        refine ⟨lm, lslots, ?_, ?_, hkL⟩
        · rw [hpp, hB, if_neg hPQ, if_pos rfl]
        · rw [hpp]; exact Or.inr hPl
      · have hnk : ¬ (pid = r ∨ pid ∈ kids lm slots) := by
          intro h
          rcases (hkmem pid).2 h with h | h
          · exact hkL h
          · exact hkR h
        obtain ⟨lm2, slots2, b1, b2, b3⟩ := hp.attached pid hpl' hner (fun h => hnk (Or.inl h))
        have hqP : parentAt t.disk pid ≠ P := by
          intro h
          rw [h, hPb] at b1
          cases b1
          exact hnk (Or.inr b3)
        have hpp : parentAt t1.disk pid = parentAt t.disk pid := by
          rw [hP, if_neg hkR, if_neg hneQ]
        refine ⟨lm2, slots2, ?_, ?_, b3⟩
        · rw [hpp, hB, if_neg (hlt _ b2), if_neg hqP]; exact b1
        · rw [hpp]; exact Or.inr b2
  · exact Or.inr hPl
  · exact Or.inl rfl
  · rw [hroot]; exact fun h => hrootQ h.symm
  · exact hPQ
  · -- the two halves name the same parent
    have hQk : t.disk.length ∉ kids mid.right_child rslots := by
      intro h
      exact hlt _ (hkid _ ((hkmem _).1 (Or.inr h))).1 rfl
    have hPk : P ∉ kids mid.right_child rslots := by
      intro h
      exact hkidP _ ((hkmem _).1 (Or.inr h)) rfl
    rw [hP, if_neg hQk, if_pos rfl, hP, if_neg hPk, if_neg hPQ]
  · rw [glvl _ hPQ]; simp [Ghost.add]
  · simp [Ghost.add, Ghost.setHi, hPQ]
  · simp [Ghost.add]
  · rw [glo _ hPQ]; exact hmidk.1
  · simp only [Ghost.add, if_true]; exact hmidk.2
  · -- nobody refers to the new page yet
    intro pid lm2 slots2 hpl hb2 hmem
    have hold : ∀ c, c = r ∨ c ∈ kids lm slots → c ≠ t.disk.length :=
      fun c hc => hlt c (hkid c hc).1
    rw [hB] at hb2
    by_cases hQ : pid = t.disk.length
    · rw [if_pos hQ] at hb2
      cases hb2
      exact hold _ ((hkmem _).1 (Or.inr hmem)) rfl
    · rw [if_neg hQ] at hb2
      have hpl' : g.live pid := by
        rcases hpl with h | h
        · exact absurd h hQ
        · exact h
      by_cases hPp : pid = P
      · rw [if_pos hPp] at hb2
        cases hb2
        exact hold _ ((hkmem _).1 (Or.inl hmem)) rfl
      · rw [if_neg hPp] at hb2
        exact hlt _ (hp.core.kid pid lm2 slots2 hpl' hb2 _ hmem).1 rfl

/-! ## What the page writes of `insertIntoParent` do -/

theorem writeSuper_obs (d : List Page) (sb sb0 : SuperBlock)
    (h0 : d[0]? = some (Page.super sb0)) :
    (writeSuper d sb).length = d.length ∧
    (writeSuper d sb)[0]? = some (Page.super sb) ∧
    (∀ j, bodyAt (writeSuper d sb) j = bodyAt d j) ∧
    (∀ j, parentAt (writeSuper d sb) j = parentAt d j) := by
  have hlt : 0 < d.length := (List.getElem?_eq_some_iff.1 h0).1
  refine ⟨by simp [writeSuper, writePage], writeSuper_page0 d sb sb0 h0, fun j => ?_, fun j => ?_⟩
  · unfold writeSuper writePage
    rw [bodyAt_set _ _ _ _ hlt]
    split
    · rename_i h; subst h; rw [bodyAt_eq _ _ _ h0]; rfl
    · rfl
  · unfold writeSuper writePage
    rw [parentAt_set _ _ _ _ hlt]
    split
    · rename_i h; subst h; rw [parentAt_eq _ _ _ h0]; rfl
    · rfl

theorem obs_new_root (d : List Page) (sb0 : SuperBlock) (l r : Nat) (s : Int)
    (h0 : d[0]? = some (Page.super sb0)) (hl : isNode d l) (hr : isNode d r) :
    ∃ d3, ((setParent (d ++ [Page.internal ⟨0, l, [⟨s, r⟩]⟩]) l d.length).bind fun d2 =>
        setParent d2 r d.length) = some d3 ∧
      d3.length = d.length + 1 ∧ d3[0]? = some (Page.super sb0) ∧
      (∀ j, bodyAt d3 j =
        if j = d.length then some (Body.internal l [⟨s, r⟩]) else bodyAt d j) ∧
      (∀ j, parentAt d3 j =
        if j = l ∨ j = r then d.length else if j = d.length then 0 else parentAt d j) := by
  obtain ⟨d2, e2, l2, b2, p2⟩ := setParent_obs (d ++ [Page.internal ⟨0, l, [⟨s, r⟩]⟩]) l d.length
    (isNode_append _ _ _ hl)
  obtain ⟨d3, e3, l3, b3, p3⟩ := setParent_obs d2 r d.length
    (isNode_setParent _ _ _ _ _ e2 (isNode_append _ _ _ hr))
  refine ⟨d3, by rw [e2]; exact e3, by rw [l3, l2]; simp, ?_, fun j => ?_, fun j => ?_⟩
  · exact page0_setParent _ _ sb0 _ _ (page0_setParent _ _ sb0 _ _ (page0_append _ sb0 _ h0) e2) e3
  · rw [b3, b2, bodyAt_append]; rfl
  · rw [p3, p2, parentAt_append]
    by_cases h1 : j = r
    · simp [h1]
    · by_cases h2 : j = l
      · simp [h2]
      · simp [h1, h2]; rfl

theorem obs_room (d : List Page) (sb0 : SuperBlock) (P r : Nat) (Pp : InternalPage)
    (slots1 : List InternalEntry)
    (h0 : d[0]? = some (Page.super sb0)) (hP : d[P]? = some (Page.internal Pp))
    (hr : isNode d r) (hrp : parentAt d r = P) :
    ∃ d2, setParent (d.set P (Page.internal ⟨Pp.parent, Pp.leftmost, slots1⟩)) r P = some d2 ∧
      d2.length = d.length ∧ d2[0]? = some (Page.super sb0) ∧
      (∀ j, bodyAt d2 j =
        if j = P then some (Body.internal Pp.leftmost slots1) else bodyAt d j) ∧
      (∀ j, parentAt d2 j = parentAt d j) := by
  have hlt : P < d.length := (List.getElem?_eq_some_iff.1 hP).1
  have hPne : P ≠ 0 := node_ne_zero d sb0 P _ h0 hP rfl
  obtain ⟨d2, e2, l2, b2, p2⟩ := setParent_obs
    (d.set P (Page.internal ⟨Pp.parent, Pp.leftmost, slots1⟩)) r P
    (isNode_set _ _ _ _ rfl hr)
  refine ⟨d2, e2, by rw [l2]; simp, ?_, fun j => ?_, fun j => ?_⟩
  · refine page0_setParent _ _ sb0 _ _ ?_ e2
    rw [List.getElem?_set_ne hPne]; exact h0
  · rw [b2, bodyAt_set _ _ _ _ hlt]; rfl
  · rw [p2, parentAt_set _ _ _ _ hlt]
    by_cases h1 : j = r
    · rw [if_pos h1, h1, hrp]
    · rw [if_neg h1]
      split
      · rename_i h; subst h; rw [parentAt_eq _ _ _ hP]; rfl
      · rfl

theorem obs_split (d : List Page) (sb0 : SuperBlock) (P : Nat) (Pp : InternalPage)
    (lslots rslots : List InternalEntry) (rl : Nat)
    (h0 : d[0]? = some (Page.super sb0)) (hP : d[P]? = some (Page.internal Pp))
    (hrl : isNode d rl) (hrs : ∀ e ∈ rslots, isNode d e.right_child) :
    ∃ d4, ((setParent (((d ++ [Page.internal ⟨Pp.parent, 0, []⟩]).set P
              (Page.internal ⟨Pp.parent, Pp.leftmost, lslots⟩)).set d.length
              (Page.internal ⟨Pp.parent, rl, rslots⟩)) rl d.length).bind fun d3 =>
        setParents d3 d.length rslots) = some d4 ∧
      d4.length = d.length + 1 ∧ d4[0]? = some (Page.super sb0) ∧
      (∀ j, bodyAt d4 j =
        if j = d.length then some (Body.internal rl rslots)
        else if j = P then some (Body.internal Pp.leftmost lslots) else bodyAt d j) ∧
      (∀ j, parentAt d4 j =
        if j ∈ kids rl rslots then d.length
        else if j = d.length then parentAt d P else parentAt d j) := by
  have hlt : P < d.length := (List.getElem?_eq_some_iff.1 hP).1
  have hPne : P ≠ 0 := node_ne_zero d sb0 P _ h0 hP rfl
  have hlen0 : 0 < d.length := (List.getElem?_eq_some_iff.1 h0).1
  have hmono : ∀ c, isNode d c → isNode (((d ++ [Page.internal ⟨Pp.parent, 0, []⟩]).set P
      (Page.internal ⟨Pp.parent, Pp.leftmost, lslots⟩)).set d.length
      (Page.internal ⟨Pp.parent, rl, rslots⟩)) c :=
    fun c hc => isNode_set _ _ _ _ rfl (isNode_set _ _ _ _ rfl (isNode_append _ _ _ hc))
  obtain ⟨d3, e3, l3, b3, p3⟩ := setParent_obs _ rl d.length (hmono rl hrl)
  obtain ⟨d4, e4, l4, b4, p4⟩ := setParents_obs rslots d3 d.length
    (fun e he => isNode_setParent _ _ _ _ _ e3 (hmono _ (hrs e he)))
  have hl1 : P < (d ++ [Page.internal ⟨Pp.parent, 0, []⟩]).length := by simp; omega
  have hl2 : d.length < ((d ++ [Page.internal ⟨Pp.parent, 0, []⟩]).set P
      (Page.internal ⟨Pp.parent, Pp.leftmost, lslots⟩)).length := by simp
  refine ⟨d4, by rw [e3]; exact e4, by rw [l4, l3]; simp, ?_, fun j => ?_, fun j => ?_⟩
  · refine page0_setParents _ _ _ sb0 _ (page0_setParent _ _ sb0 _ _ ?_ e3) e4
    rw [List.getElem?_set_ne (by omega), List.getElem?_set_ne hPne]
    exact page0_append _ sb0 _ h0
  · rw [b4, b3, bodyAt_set _ _ _ _ hl2, bodyAt_set _ _ _ _ hl1, bodyAt_append]
    by_cases h1 : j = d.length
    · simp [h1, Page.body]
    · simp [h1, Page.body]
  · rw [p4, p3, parentAt_set _ _ _ _ hl2, parentAt_set _ _ _ _ hl1, parentAt_append]
    simp only [kids, List.mem_cons]
    by_cases h1 : j ∈ rslots.map InternalEntry.right_child
    · simp [h1]
    · by_cases h2 : j = rl
      · simp [h2]
      · simp only [h1, h2, if_false, false_or, Page.parent]
        by_cases h3 : j = d.length
        · simp [h3, parentAt_eq _ _ _ hP, Page.parent]
        · simp only [h3, if_false]
          by_cases h4 : j = P
          · simp [h4, parentAt_eq _ _ _ hP, Page.parent]
          · simp [h4]

theorem split_at_index (l : List InternalEntry) (i : Nat) (h : i < l.length) :
    l = l.take i ++ l.getD i default :: l.drop (i + 1) := by
  rw [List.getD_eq_getElem _ _ h, ← List.drop_eq_getElem_cons h, List.take_append_drop]

theorem Grows.trans {t t1 t2 : Tree} {g g1 g2 : Ghost} {lv lv1 : Nat}
    (h1 : Grows t g lv t1 g1) (h2 : Grows t1 g1 lv1 t2 g2) (hlv : lv ≤ lv1) :
    Grows t g lv t2 g2 where
  live := fun pid h => h2.live pid (h1.live pid h)
  lvl := fun pid h => by rw [h2.lvl pid (h1.live pid h), h1.lvl pid h]
  lo := fun pid h => by rw [h2.lo pid (h1.live pid h), h1.lo pid h]
  hi := fun pid h hl => by
    rw [h2.hi pid (h1.live pid h) (by rw [h1.lvl pid h]; omega), h1.hi pid h hl]
  leaf := fun pid nxt slots h => h2.leaf pid nxt slots (h1.leaf pid nxt slots h)

/-- `insertIntoParent`, called in the state a split leaves, completes and restores the
invariant. -/
theorem insertIntoParent_inv (f : Nat) :
    ∀ (t : Tree) (g : Ghost) (l : Nat) (s : Int) (r : Nat),
      Pending t g l s r → g.lvl t.sb.root - g.lvl l < f →
      ∃ t1 g1, insertIntoParent f t l s r = some t1 ∧ Inv t1 g1 ∧ Grows t g (g.lvl l) t1 g1 := by
  induction f with
  | zero => intro t g l s r _ hf; omega
  | succ f ih =>
    intro t g l s r hp hf
    obtain ⟨sb0, h0⟩ := hp.core.super0
    obtain ⟨pg, hpg, hs⟩ := hp.core.isNode l hp.liveL
    have hpar : parentAt t.disk l = pg.parent := parentAt_eq _ _ _ hpg
    have hlt : ∀ pid, g.live pid → pid ≠ t.disk.length :=
      fun pid h => Nat.ne_of_lt (hp.core.lt pid h)
    by_cases hroot : t.sb.root = l
    · -- a new root
      have hp0 : pg.parent = 0 := by rw [← hpar, ← hroot]; exact hp.core.rootParent
      rw [insertIntoParent_root f t l s r pg hpg hs hp0 hroot]
      obtain ⟨d3, e3, l3, z3, b3, p3⟩ := obs_new_root t.disk sb0 l r s h0
        (hp.core.isNode l hp.liveL) (hp.core.isNode r hp.liveR)
      obtain ⟨d2, h1, h2⟩ := Option.bind_eq_some.1 e3
      simp only [h1, h2, Option.some_bind]
      obtain ⟨w1, w2, w3, w4⟩ := writeSuper_obs d3
        ⟨t.sb.magic, t.disk.length, t.sb.free_list_head, t.sb.page_count + 1⟩ sb0 z3
      refine ⟨_, g.add t.disk.length (g.lvl l + 1) (KEY_MIN - 1) KEY_MAX, rfl, ?_, ?_⟩
      · exact Inv_new_root t _ g l s r hp hroot rfl (by rw [w1, l3]) ⟨_, w2⟩
          (fun j => by rw [w3, b3]) (fun j => by rw [w4, p3])
      · refine ⟨fun pid h => Or.inr h, fun pid h => ?_, fun pid h => ?_, fun pid h _ => ?_,
          fun pid nxt slots h => ?_⟩
        · simp [Ghost.add, hlt pid h]
        · simp [Ghost.add, hlt pid h]
        · simp [Ghost.add, hlt pid h]
        · show bodyAt (writeSuper d3 _) pid = _
          rw [w3, b3, if_neg (Nat.ne_of_lt (bodyAt_lt _ _ _ h))]; exact h
    · obtain ⟨lm, slots, a1, hPl, hlmem⟩ :=
        hp.attached l hp.liveL (fun h => hroot h.symm) hp.ne
      obtain ⟨Pp, hPp, hlm, hsl⟩ := bodyAt_internal_some _ _ _ _ a1
      rw [hpar] at hPp
      have hnr : ¬ (pg.parent = 0 ∧ t.sb.root = l) := fun h => hroot h.2
      have hkid := hp.core.kid _ lm slots hPl a1
      by_cases hfull : Pp.count = INTERNAL_CAPACITY
      · -- the parent splits
        rw [insertIntoParent_full f t l s r pg Pp hpg hs hnr hPp hfull]
        have hlen : (insertAt (scanPos s Pp.slots) ⟨s, r⟩ Pp.slots).length
            = INTERNAL_CAPACITY + 1 := by
          rw [insertAt_length]; exact congrArg (· + 1) hfull
        rw [INTERNAL_CAPACITY_eq] at hlen
        have hlc : (insertAt (scanPos s Pp.slots) ⟨s, r⟩ Pp.slots).length / 2
            < (insertAt (scanPos s Pp.slots) ⟨s, r⟩ Pp.slots).length := by omega
        have hdec := split_at_index _ _ hlc
        have htake : ((insertAt (scanPos s Pp.slots) ⟨s, r⟩ Pp.slots).drop
            ((insertAt (scanPos s Pp.slots) ⟨s, r⟩ Pp.slots).length / 2 + 1)).take
            ((insertAt (scanPos s Pp.slots) ⟨s, r⟩ Pp.slots).length -
              (insertAt (scanPos s Pp.slots) ⟨s, r⟩ Pp.slots).length / 2 - 1)
            = (insertAt (scanPos s Pp.slots) ⟨s, r⟩ Pp.slots).drop
              ((insertAt (scanPos s Pp.slots) ⟨s, r⟩ Pp.slots).length / 2 + 1) := by
          apply List.take_of_length_le
          rw [List.length_drop]; omega
        simp only [htake]
        generalize htmp : insertAt (scanPos s Pp.slots) ⟨s, r⟩ Pp.slots = tmp at hlen hlc hdec
        -- every child of the provisional list is a page of the tree
        have hmem : ∀ c, c ∈ kids Pp.leftmost tmp → g.live c := by
          intro c hc
          rw [← htmp, mem_kids_insertAt] at hc
          rcases hc with rfl | hc
          · exact hp.liveR
          · rw [hlm, hsl] at hc; exact (hkid c hc).1
        have hkidsR : ∀ c, c ∈ kids (tmp.getD (tmp.length / 2) default).right_child
            (tmp.drop (tmp.length / 2 + 1)) → c ∈ kids Pp.leftmost tmp := by
          intro c hc
          rw [hdec, kids_append]
          exact List.mem_append_right _ hc
        obtain ⟨d4, e4, l4, z4, b4, p4⟩ := obs_split t.disk sb0 pg.parent Pp
          (tmp.take (tmp.length / 2)) (tmp.drop (tmp.length / 2 + 1))
          (tmp.getD (tmp.length / 2) default).right_child h0 hPp
          (hp.core.isNode _ (hmem _ (hkidsR _ (by simp [kids]))))
          (fun e he => hp.core.isNode _ (hmem _ (hkidsR _ (by
            simp only [kids, List.mem_cons, List.mem_map]
            exact Or.inr ⟨e, he, rfl⟩))))
        obtain ⟨d3, h1, h2⟩ := Option.bind_eq_some.1 e4
        simp only [h1, h2, Option.some_bind]
        have hpend := Pending_parent_split t
          ⟨⟨t.sb.magic, t.sb.root, t.sb.free_list_head, t.sb.page_count + 1⟩, d4⟩ g l s r
          pg.parent lm slots (tmp.take (tmp.length / 2)) (tmp.getD (tmp.length / 2) default)
          (tmp.drop (tmp.length / 2 + 1)) hp hroot hpar (by rw [← hpar]; exact a1)
          (by rw [← hsl, htmp]; exact hdec)
          (by rw [List.length_take, INTERNAL_CAPACITY_eq]; omega)
          (by rw [List.length_drop, INTERNAL_CAPACITY_eq]; omega)
          rfl l4 ⟨_, z4⟩ (fun j => by rw [b4, hlm]) (fun j => by rw [p4])
        have hlvP : g.lvl pg.parent = g.lvl l + 1 := by
          have := (hkid l hlmem).2.2
          rw [hpar] at this
          omega
        have hPlive : g.live pg.parent := by rw [← hpar]; exact hPl
        have hPQ : pg.parent ≠ t.disk.length := hlt _ hPlive
        have hrootQ : t.sb.root ≠ t.disk.length := hlt _ hp.core.rootLive
        have hlvroot := hp.core.lvlLe _ hPlive
        obtain ⟨t1, g1, e1, hinv, hgr⟩ := ih _ _ _ _ _ hpend (by
          simp only [Ghost.add, Ghost.setHi, hrootQ, hPQ, if_false]
          omega)
        refine ⟨t1, g1, e1, hinv, Grows.trans ?_ hgr (by
          simp only [Ghost.add, Ghost.setHi, hPQ, if_false]; omega)⟩
        refine ⟨fun pid h => Or.inr h, fun pid h => ?_, fun pid h => ?_, fun pid h hl => ?_,
          fun pid nxt sl h => ?_⟩
        · simp [Ghost.add, Ghost.setHi, hlt pid h]
        · simp [Ghost.add, Ghost.setHi, hlt pid h]
        · have : pid ≠ pg.parent := by rintro rfl; omega
          simp [Ghost.add, Ghost.setHi, hlt pid h, this]
        · show bodyAt d4 pid = _
          have hne : pid ≠ pg.parent := by
            rintro rfl
            rw [← hpar, a1] at h
            cases h
          rw [b4, if_neg (Nat.ne_of_lt (bodyAt_lt _ _ _ h)), if_neg hne]; exact h
      · -- the parent has room
        rw [insertIntoParent_room f t l s r pg Pp hpg hs hnr hPp hfull]
        obtain ⟨d2, e2, l2, z2, b2, p2⟩ := obs_room t.disk sb0 pg.parent r Pp
          (insertAt (scanPos s Pp.slots) ⟨s, r⟩ Pp.slots) h0 hPp
          (hp.core.isNode r hp.liveR) (by rw [hp.parentR, hpar])
        simp only [e2, Option.some_bind]
        have hcap : slots.length < INTERNAL_CAPACITY := by
          have := ((PageOK_internal _ _ _ _ _ _ a1).1 (hp.core.pages _ hPl)).1
          have h2 : slots.length ≠ INTERNAL_CAPACITY := by rw [← hsl]; exact hfull
          omega
        refine ⟨_, g, rfl, ?_, ?_⟩
        · exact Inv_parent_room t _ g l s r lm slots hp hroot a1 hcap rfl l2 ⟨_, z2⟩
            (fun j => by rw [b2, hpar, hlm, hsl]) p2
        · refine ⟨fun pid h => h, fun pid h => rfl, fun pid h => rfl, fun pid h _ => rfl,
            fun pid nxt sl h => ?_⟩
          show bodyAt d2 pid = _
          have hne : pid ≠ pg.parent := by
            rintro rfl
            rw [← hpar, a1] at h
            cases h
          rw [b2, if_neg hne]; exact h

/-! ## Descending to a leaf -/

theorem findLeafLoop_mono (d : List Page) (k : Int) (f : Nat) :
    ∀ pid X, findLeafLoop d k f pid = some X → ∀ f1, f ≤ f1 → findLeafLoop d k f1 pid = some X := by
  induction f with
  | zero => intro pid X h; simp [findLeafLoop] at h
  | succ f ih =>
    intro pid X h f1 hf
    obtain ⟨f2, rfl⟩ : ∃ f2, f1 = f2 + 1 := ⟨f1 - 1, by omega⟩
    simp only [findLeafLoop] at h ⊢
    cases hp : readPage d pid with
    | none => simp [hp] at h
    | some pg =>
      cases pg with
      | super sb => simp [hp] at h
      | leaf p => simpa [hp] using h
      | internal n =>
        simp only [hp] at h ⊢
        exact ih _ _ h f2 (by omega)

theorem findLeafLoop_leaf (d : List Page) (k : Int) (f pid nxt : Nat) (slots : List LeafEntry)
    (hb : bodyAt d pid = some (Body.leaf nxt slots)) :
    findLeafLoop d k (f + 1) pid = some pid := by
  obtain ⟨p, hp, _, _⟩ := bodyAt_leaf_some d pid nxt slots hb
  simp [findLeafLoop, readPage, hp]

theorem findLeafLoop_internal (d : List Page) (k : Int) (f pid lm : Nat)
    (slots : List InternalEntry) (hb : bodyAt d pid = some (Body.internal lm slots))
    (hs : (slots.map InternalEntry.key).Pairwise (· < ·)) :
    findLeafLoop d k (f + 1) pid = findLeafLoop d k f (route k lm slots) := by
  obtain ⟨p, hp, rfl, rfl⟩ := bodyAt_internal_some d pid lm slots hb
  simp [findLeafLoop, readPage, hp, childFor_eq_route p k hs]

/-- Under the invariant the descent from a page of the tree that is routed `k` ends in a
leaf of the tree that is routed `k`. -/
theorem findLeafLoop_inv (t : Tree) (g : Ghost) (hinv : Inv t g) (k : Int) (f : Nat) :
    ∀ pid, g.live pid → g.lvl pid < f → g.lo pid < k → k ≤ g.hi pid →
      ∃ L nxt slots, findLeafLoop t.disk k f pid = some L ∧ g.live L ∧
        bodyAt t.disk L = some (Body.leaf nxt slots) ∧ g.lo L < k ∧ k ≤ g.hi L := by
  induction f with
  | zero => intro pid _ h; omega
  | succ f ih =>
    intro pid hl hf h1 h2
    rcases PageOK_cases _ _ _ _ (hinv.core.pages pid hl) with
      ⟨nxt, slots, hb, _⟩ | ⟨lm, slots, hb, hok⟩
    · exact ⟨pid, nxt, slots, findLeafLoop_leaf _ _ _ _ _ _ hb, hl, hb, h1, h2⟩
    · obtain ⟨_, _, k3, k4⟩ := hok
      rw [findLeafLoop_internal _ _ _ _ _ _ hb (Chain_sorted _ _ _ _ _ _ k4)]
      obtain ⟨m1, _, m3⟩ := k3 _ (route_mem k slots lm)
      obtain ⟨b1, b2⟩ := route_bounds _ _ k _ _ _ _ k4 h1 h2
      exact ih _ m1 (by omega) b1 b2

theorem findLeaf_inv (t : Tree) (g : Ghost) (hinv : Inv t g) (k : Int) (hk : inRange k) :
    ∃ L nxt slots, findLeaf t k = some L ∧ g.live L ∧
      bodyAt t.disk L = some (Body.leaf nxt slots) ∧ g.lo L < k ∧ k ≤ g.hi L := by
  unfold findLeaf
  apply findLeafLoop_inv t g hinv k _ _ hinv.core.rootLive
  · have := hinv.core.height; omega
  · rw [hinv.core.rootLo]; have := hk.1; omega
  · rw [hinv.core.rootHi]; exact hk.2

/-- The descent from the root passes through every page of the tree that is routed `k`. -/
theorem findLeafLoop_through (t : Tree) (g : Ghost) (hinv : Inv t g) (k : Int) (n : Nat) :
    ∀ pid, g.live pid → g.lvl t.sb.root - g.lvl pid = n → g.lo pid < k → k ≤ g.hi pid →
      ∀ f, findLeafLoop t.disk k (f + n) t.sb.root = findLeafLoop t.disk k f pid := by
  induction n with
  | zero =>
    intro pid hl hn _ _ f
    have hle := hinv.core.lvlLe pid hl
    by_cases hr : pid = t.sb.root
    · rw [hr]; rfl
    · obtain ⟨lm, slots, a1, a2, a3⟩ := hinv.attached pid hl hr
      have := (hinv.core.kid _ lm slots a2 a1 pid a3).2.2
      have := hinv.core.lvlLe _ a2
      omega
  | succ n ih =>
    intro pid hl hn h1 h2 f
    have hr : pid ≠ t.sb.root := by rintro rfl; omega
    obtain ⟨lm, slots, a1, a2, a3⟩ := hinv.attached pid hl hr
    have hlv := (hinv.core.kid _ lm slots a2 a1 pid a3).2.2
    obtain ⟨_, _, _, k4⟩ := (PageOK_internal _ _ _ _ _ _ a1).1 (hinv.core.pages _ a2)
    have hb := Chain_kid_bounds _ _ _ _ _ _ k4 pid a3
    have hstep := ih _ a2 (by omega) (by omega) (by omega) (f + 1)
    rw [show f + (n + 1) = f + 1 + n by omega, hstep,
      findLeafLoop_internal _ _ _ _ _ _ a1 (Chain_sorted _ _ _ _ _ _ k4),
      route_unique _ _ k _ _ _ _ k4 pid a3 h1 h2]

/-- Under the invariant `findLeaf k` is the leaf of the tree that is routed `k`. -/
theorem findLeaf_unique (t : Tree) (g : Ghost) (hinv : Inv t g) (k : Int) (X nxt : Nat)
    (slots : List LeafEntry) (hl : g.live X)
    (hb : bodyAt t.disk X = some (Body.leaf nxt slots)) (h1 : g.lo X < k) (h2 : k ≤ g.hi X) :
    findLeaf t k = some X := by
  have hle := hinv.core.lvlLe X hl
  have hth := findLeafLoop_through t g hinv k _ X hl rfl h1 h2 1
  rw [findLeafLoop_leaf _ _ 0 _ _ _ hb] at hth
  have hh := hinv.core.height
  exact findLeafLoop_mono _ _ _ _ _ hth _ (by omega)

/-! ## Sorted leaves -/

theorem map_key_insertAt (n : Nat) (e : LeafEntry) (slots : List LeafEntry) :
    (insertAt n e slots).map LeafEntry.key = insertAt n e.key (slots.map LeafEntry.key) := by
  simp [insertAt, List.map_take, List.map_drop]

theorem rank_lt_of_mem_take (k : Int) (keys : List Int) :
    ∀ a ∈ keys.take (rank k keys), a < k := by
  induction keys with
  | nil => simp
  | cons b bs ih =>
    intro a ha
    by_cases hb : b < k
    · simp only [rank, hb, if_true, List.take_succ_cons, List.mem_cons] at ha
      rcases ha with rfl | ha
      · exact hb
      · exact ih a ha
    · simp [rank, hb] at ha

/-- The position the search finds holds `k` or a larger key. -/
theorem rank_getD_ge (k : Int) (keys : List Int) (h : rank k keys < keys.length) :
    k ≤ keys.getD (rank k keys) 0 := by
  induction keys with
  | nil => simp at h
  | cons b bs ih =>
    by_cases hb : b < k
    · simp only [rank, hb, if_true, List.length_cons] at h ⊢
      simpa using ih (by omega)
    · simp only [rank, hb, if_false]
      simpa using hb

/-- Inserting an absent key at the position the search finds keeps the keys strictly
increasing. -/
theorem insertAt_rank_sorted (k : Int) (keys : List Int) (hs : keys.Pairwise (· < ·))
    (hnf : ¬ (rank k keys < keys.length ∧ keys.getD (rank k keys) 0 = k)) :
    (insertAt (rank k keys) k keys).Pairwise (· < ·) := by
  induction keys with
  | nil => simp [insertAt, rank]
  | cons b bs ih =>
    rw [List.pairwise_cons] at hs
    by_cases hb : b < k
    · simp only [rank, hb, if_true, insertAt_succ, List.pairwise_cons]
      refine ⟨?_, ih hs.2 ?_⟩
      · intro a ha
        rw [mem_insertAt] at ha
        rcases ha with rfl | ha
        · exact hb
        · exact hs.1 a ha
      · intro h
        apply hnf
        simp only [rank, hb, if_true, List.length_cons]
        exact ⟨by omega, by simpa using h.2⟩
    · simp only [rank, hb, if_false, insertAt_zero, List.pairwise_cons]
      have hne : b ≠ k := by
        intro h
        apply hnf
        simp [rank, hb, h]
      have hlt : k < b := by omega
      refine ⟨?_, hs.1, hs.2⟩
      intro a ha
      simp only [List.mem_cons] at ha
      rcases ha with rfl | ha
      · exact hlt
      · exact lt_trans hlt (hs.1 a ha)

/-- In a strictly increasing list everything before position `i` is below the key at `i`
and everything from `i` on is at least that key. -/
theorem sorted_split (l : List LeafEntry) (i : Nat)
    (hs : (l.map LeafEntry.key).Pairwise (· < ·)) (hi : i < l.length) :
    (∀ e ∈ l.take i, e.key < (l.getD i default).key) ∧
    (∀ e ∈ l.drop i, (l.getD i default).key ≤ e.key) ∧
    (∀ e ∈ l.drop (i + 1), (l.getD i default).key < e.key) := by
  have hdec : l = l.take i ++ l.getD i default :: l.drop (i + 1) := by
    rw [List.getD_eq_getElem _ _ hi, ← List.drop_eq_getElem_cons hi, List.take_append_drop]
  have hdrop : l.drop i = l.getD i default :: l.drop (i + 1) := by
    rw [List.getD_eq_getElem _ _ hi, ← List.drop_eq_getElem_cons hi]
  rw [hdec, List.map_append, List.map_cons, List.pairwise_append, List.pairwise_cons] at hs
  obtain ⟨_, ⟨h2, _⟩, h3⟩ := hs
  have hlast : ∀ e ∈ l.drop (i + 1), (l.getD i default).key < e.key :=
    fun e he => h2 _ (List.mem_map.2 ⟨e, he, rfl⟩)
  refine ⟨fun e he => ?_, fun e he => ?_, hlast⟩
  · exact h3 _ (List.mem_map.2 ⟨e, he, rfl⟩) _ (by simp)
  · rw [hdrop] at he
    simp only [List.mem_cons] at he
    rcases he with rfl | he
    · exact le_rfl
    · exact le_of_lt (hlast e he)

theorem sorted_take (l : List LeafEntry) (i : Nat)
    (hs : (l.map LeafEntry.key).Pairwise (· < ·)) :
    ((l.take i).map LeafEntry.key).Pairwise (· < ·) := by
  rw [List.map_take]
  exact hs.sublist (List.take_sublist _ _)

theorem sorted_drop (l : List LeafEntry) (i : Nat)
    (hs : (l.map LeafEntry.key).Pairwise (· < ·)) :
    ((l.drop i).map LeafEntry.key).Pairwise (· < ·) := by
  rw [List.map_drop]
  exact hs.sublist (List.drop_sublist _ _)

/-! ## Splitting a leaf -/

theorem Pending_leaf_split (t t1 : Tree) (g : Ghost) (L nxt : Nat)
    (slots left right : List LeafEntry) (sep : Int)
    (hinv : Inv t g) (hl : g.live L) (hb : bodyAt t.disk L = some (Body.leaf nxt slots))
    (hleft : left.length ≤ LEAF_CAPACITY ∧ (left.map LeafEntry.key).Pairwise (· < ·) ∧
      ∀ e ∈ left, g.lo L ≤ e.key ∧ e.key ≤ sep)
    (hright : right.length ≤ LEAF_CAPACITY ∧ (right.map LeafEntry.key).Pairwise (· < ·) ∧
      ∀ e ∈ right, sep ≤ e.key ∧ e.key ≤ g.hi L)
    (hsep1 : g.lo L < sep) (hsep2 : sep < g.hi L)
    (hroot : t1.sb.root = t.sb.root) (hlen : t1.disk.length = t.disk.length + 1)
    (h0 : ∃ sb0, t1.disk[0]? = some (Page.super sb0))
    (hB : ∀ j, bodyAt t1.disk j =
      if j = t.disk.length then some (Body.leaf nxt right)
      else if j = L then some (Body.leaf t.disk.length left) else bodyAt t.disk j)
    (hP : ∀ j, parentAt t1.disk j =
      if j = t.disk.length then parentAt t.disk L else parentAt t.disk j) :
    Pending t1 ((g.setHi L sep).add t.disk.length 0 sep (g.hi L)) L sep t.disk.length := by
  have hlt : ∀ pid, g.live pid → pid ≠ t.disk.length :=
    fun pid h => Nat.ne_of_lt (hinv.core.lt pid h)
  have hLN := hlt L hl
  have hrootN := hlt _ hinv.core.rootLive
  have hLlvl : g.lvl L = 0 := ((PageOK_leaf _ _ _ _ _ _ hb).1 (hinv.core.pages L hl)).1
  have glvl : ∀ c, c ≠ t.disk.length →
      ((g.setHi L sep).add t.disk.length 0 sep (g.hi L)).lvl c = g.lvl c := by
    intro c hc; simp [Ghost.add, Ghost.setHi, hc]
  have glo : ∀ c, c ≠ t.disk.length →
      ((g.setHi L sep).add t.disk.length 0 sep (g.hi L)).lo c = g.lo c := by
    intro c hc; simp [Ghost.add, Ghost.setHi, hc]
  have ghi : ∀ c, c ≠ t.disk.length → c ≠ L →
      ((g.setHi L sep).add t.disk.length 0 sep (g.hi L)).hi c = g.hi c := by
    intro c hc hc2; simp [Ghost.add, Ghost.setHi, hc, hc2]
  have ghv : ∀ c, c ≠ t.disk.length →
      (if c = L then ((g.setHi L sep).add t.disk.length 0 sep (g.hi L)).hi t.disk.length
        else ((g.setHi L sep).add t.disk.length 0 sep (g.hi L)).hi c) = g.hi c := by
    intro c hc
    by_cases hcL : c = L
    · subst hcL; simp [Ghost.add, Ghost.setHi]
    · simp [Ghost.add, Ghost.setHi, hc, hcL]
  refine ⟨⟨h0, ?_, ?_, ?_, ?_, ?_, ?_, ?_⟩, ?_, ?_, ?_, ?_, ?_, ?_, ?_, ?_, ?_, ?_, ?_, ?_⟩
  · rw [hroot]; exact Or.inr hinv.core.rootLive
  · rw [hroot, hP, if_neg hrootN]; exact hinv.core.rootParent
  · rw [hroot, glo _ hrootN]; exact hinv.core.rootLo
  · rw [hroot, ghv _ hrootN]; exact hinv.core.rootHi
  · rw [hroot, hlen, glvl _ hrootN]; have := hinv.core.height; omega
  · intro pid hpl
    rw [hroot, glvl _ hrootN]
    rcases hpl with rfl | hpl
    · simp [Ghost.add]
    · rw [glvl _ (hlt pid hpl)]; exact hinv.core.lvlLe pid hpl
  · intro pid hpl
    by_cases hN : pid = t.disk.length
    · subst hN
      refine (PageOK_leaf _ _ _ _ nxt right (by rw [hB, if_pos rfl])).2
        ⟨by simp [Ghost.add], hright.1, hright.2.1, ?_⟩
      intro e he
      simpa [Ghost.add] using hright.2.2 e he
    · have hpl' : g.live pid := by
        rcases hpl with h | h
        · exact absurd h hN
        · exact h
      by_cases hLp : pid = L
      · subst hLp
        refine (PageOK_leaf _ _ _ _ t.disk.length left (by rw [hB, if_neg hN, if_pos rfl])).2
          ⟨by rw [glvl _ hN]; exact hLlvl, hleft.1, hleft.2.1, ?_⟩
        intro e he
        have := hleft.2.2 e he
        rw [glo _ hN]
        simpa [Ghost.add, Ghost.setHi, hN] using this
      · refine PageOK_transfer t.disk t1.disk g _ _ _ pid
          (by rw [hB, if_neg hN, if_neg hLp]) (glvl _ hN) (glo _ hN) (ghi _ hN hLp) ?_
          (hinv.core.pages pid hpl')
        intro lm2 slots2 _ c _ hcl hcp
        refine ⟨Or.inr hcl, ?_, glvl _ (hlt c hcl), glo _ (hlt c hcl), ghv _ (hlt c hcl)⟩
        rw [hP, if_neg (hlt c hcl)]; exact hcp
  · intro pid hpl hner hneN
    rw [hroot] at hner
    have hpl' : g.live pid := by
      rcases hpl with h | h
      · exact absurd h hneN
      · exact h
    obtain ⟨lm2, slots2, b1, b2, b3⟩ := hinv.attached pid hpl' hner
    have hqL : parentAt t.disk pid ≠ L := by
      intro h
      rw [h, hb] at b1
      cases b1
    have hpp : parentAt t1.disk pid = parentAt t.disk pid := by rw [hP, if_neg hneN]
    refine ⟨lm2, slots2, ?_, ?_, b3⟩
    · rw [hpp, hB, if_neg (hlt _ b2), if_neg hqL]; exact b1
    · rw [hpp]; exact Or.inr b2
  · exact Or.inr hl
  · exact Or.inl rfl
  · rw [hroot]; exact fun h => hrootN h.symm
  · exact hLN
  · rw [hP, if_pos rfl, hP, if_neg hLN]
  · rw [glvl _ hLN, hLlvl]; simp [Ghost.add]
  · simp [Ghost.add, Ghost.setHi, hLN]
  · simp [Ghost.add]
  · rw [glo _ hLN]; exact hsep1
  · simpa [Ghost.add] using hsep2
  · intro pid lm2 slots2 hpl hb2 hmem
    rw [hB] at hb2
    by_cases hN : pid = t.disk.length
    · rw [if_pos hN] at hb2; cases hb2
    · rw [if_neg hN] at hb2
      by_cases hLp : pid = L
      · rw [if_pos hLp] at hb2; cases hb2
      · rw [if_neg hLp] at hb2
        have hpl' : g.live pid := by
          rcases hpl with h | h
          · exact absurd h hN
          · exact h
        exact hlt _ (hinv.core.kid pid lm2 slots2 hpl' hb2 _ hmem).1 rfl

/-! ## Looking a key up in a sorted leaf -/

theorem rank_of_mem (k : Int) (keys : List Int) (hs : keys.Pairwise (· < ·)) (hm : k ∈ keys) :
    rank k keys < keys.length ∧ keys.getD (rank k keys) 0 = k := by
  induction keys with
  | nil => simp at hm
  | cons b bs ih =>
    rw [List.pairwise_cons] at hs
    by_cases hb : b < k
    · have hm2 : k ∈ bs := by
        simp only [List.mem_cons] at hm
        rcases hm with h | h
        · omega
        · exact h
      obtain ⟨h1, h2⟩ := ih hs.2 hm2
      simp only [rank, hb, if_true, List.length_cons]
      exact ⟨by omega, by simpa using h2⟩
    · have : k = b := by
        simp only [List.mem_cons] at hm
        rcases hm with h | h
        · exact h
        · have := hs.1 k h; omega
      simp [rank, hb, this]

theorem rank_insertAt_self (k : Int) (keys : List Int) :
    rank k (insertAt (rank k keys) k keys) = rank k keys := by
  induction keys with
  | nil => simp [rank, insertAt]
  | cons b bs ih =>
    by_cases hb : b < k
    · simp only [rank, hb, if_true, insertAt_succ, ih]
    · simp [rank, hb, insertAt_zero]

theorem getD_insertAt (n : Nat) (e : LeafEntry) (slots : List LeafEntry)
    (h : n ≤ slots.length) : (insertAt n e slots).getD n default = e := by
  unfold insertAt
  rw [List.getD_eq_getElem?_getD, List.getElem?_append_right (by rw [List.length_take]; omega)]
  simp [Nat.min_eq_left h]

theorem map_key_set (slots : List LeafEntry) (pos : Nat) (v : Bytes) :
    (slots.set pos ⟨(slots.getD pos default).key, v⟩).map LeafEntry.key
      = slots.map LeafEntry.key := by
  induction slots generalizing pos with
  | nil => simp
  | cons a as ih =>
    cases pos with
    | zero => simp
    | succ n => simpa using ih n

theorem LeafOK_of_keys (g : Ghost) (pid : Nat) (slots slots1 : List LeafEntry)
    (hk : slots1.map LeafEntry.key = slots.map LeafEntry.key) (h : LeafOK g pid slots) :
    LeafOK g pid slots1 := by
  obtain ⟨h1, h2, h3, h4⟩ := h
  refine ⟨h1, ?_, by rw [hk]; exact h3, ?_⟩
  · have := congrArg List.length hk
    simp only [List.length_map] at this
    omega
  · intro e he
    have : e.key ∈ slots.map LeafEntry.key := by
      rw [← hk]; exact List.mem_map.2 ⟨e, he, rfl⟩
    obtain ⟨e0, he0, hk0⟩ := List.mem_map.1 this
    rw [← hk0]; exact h4 e0 he0

theorem get_eq (t : Tree) (k : Int) (X : Nat) (p : LeafPage) (hf : findLeaf t k = some X)
    (hX : t.disk[X]? = some (Page.leaf p)) :
    get t k =
      if lower_bound_leaf p k < p.count ∧ (p.slots.getD (lower_bound_leaf p k) default).key = k
      then some (some (p.slots.getD (lower_bound_leaf p k) default).value) else some none := by
  simp only [get, hf, readLeaf_eq _ _ _ hX, Option.some_bind]

/-- The key is present in the leaf (sorted): the search position holds it. -/
theorem hit_iff_mem (p : LeafPage) (k : Int)
    (hs : (p.slots.map LeafEntry.key).Pairwise (· < ·)) :
    (lower_bound_leaf p k < p.count ∧ (p.slots.getD (lower_bound_leaf p k) default).key = k)
      ↔ ∃ e ∈ p.slots, e.key = k := by
  rw [lower_bound_leaf_eq_rank p k (hs.imp (fun h => le_of_lt h)), leafKey_getD]
  unfold LeafPage.count
  constructor
  · rintro ⟨h1, h2⟩
    have hlt : rank k (p.slots.map LeafEntry.key) < (p.slots.map LeafEntry.key).length := by
      simpa using h1
    have hmem : k ∈ p.slots.map LeafEntry.key := by
      rw [List.getD_eq_getElem _ _ hlt] at h2
      rw [← h2]; exact List.getElem_mem _
    obtain ⟨e, he, hk⟩ := List.mem_map.1 hmem
    exact ⟨e, he, hk⟩
  · rintro ⟨e, he, hk⟩
    have := rank_of_mem k _ hs (List.mem_map.2 ⟨e, he, hk⟩)
    exact ⟨by simpa using this.1, this.2⟩

/-! ## An insert that does not split -/

/-- An insert into a leaf that holds the key or has room rewrites that leaf only, keeps the
invariant, and a following `get` of the key returns the padded value. -/
theorem insert_no_split (t : Tree) (g : Ghost) (k : Int) (v : Bytes) (X nxt : Nat)
    (slots : List LeafEntry) (hinv : Inv t g) (hl : g.live X)
    (hb : bodyAt t.disk X = some (Body.leaf nxt slots)) (h1 : g.lo X < k) (h2 : k ≤ g.hi X)
    (hroom : (∃ e ∈ slots, e.key = k) ∨ slots.length < LEAF_CAPACITY) :
    ∃ t1, insert t k v = some t1 ∧ Inv t1 g ∧ get t1 k = some (some (pad8 v)) := by
  obtain ⟨p, hp, hnx, hsl⟩ := bodyAt_leaf_some _ _ _ _ hb
  have hf := findLeaf_unique t g hinv k X nxt slots hl hb h1 h2
  have hok := (PageOK_leaf _ _ _ _ _ _ hb).1 (hinv.core.pages X hl)
  rw [← hsl] at hok hroom
  obtain ⟨o1, o2, o3, o4⟩ := hok
  have hrank := lower_bound_leaf_eq_rank p k (o3.imp (fun h => le_of_lt h))
  have hlt : X < t.disk.length := bodyAt_lt _ _ _ hb
  rw [insert_eq t k v X p hf hp]
  by_cases hhit : lower_bound_leaf p k < p.count ∧
      (p.slots.getD (lower_bound_leaf p k) default).key = k
  · -- overwrite in place
    rw [if_pos hhit]
    have hkeys := map_key_set p.slots (lower_bound_leaf p k) (pad8 v)
    have hinv1 : Inv ⟨t.sb, t.disk.set X (Page.leaf ⟨p.parent, p.next,
        p.slots.set (lower_bound_leaf p k)
          ⟨(p.slots.getD (lower_bound_leaf p k) default).key, pad8 v⟩⟩)⟩ g :=
      Inv_write_leaf t g X nxt slots _ hinv hl hb (parentAt_eq _ _ _ hp).symm
        (LeafOK_of_keys g X p.slots _ hkeys ⟨o1, o2, o3, o4⟩)
    refine ⟨_, rfl, hinv1, ?_⟩
    have hX1 : ∀ pg, (t.disk.set X pg)[X]? = some pg := fun pg => by
      rw [List.getElem?_set, if_pos rfl, if_pos hlt]
    have hf1 := findLeaf_unique _ g hinv1 k X _ _ hl (bodyAt_leaf _ _ _ (hX1 _)) h1 h2
    rw [get_eq _ k X _ hf1 (hX1 _)]
    have hlb : lower_bound_leaf ⟨p.parent, p.next,
        p.slots.set (lower_bound_leaf p k)
          ⟨(p.slots.getD (lower_bound_leaf p k) default).key, pad8 v⟩⟩ k
        = lower_bound_leaf p k := by
      rw [lower_bound_leaf_eq_rank _ k (by rw [hkeys]; exact o3.imp (fun h => le_of_lt h)),
        hkeys, hrank]
    have hcnt : (p.slots.set (lower_bound_leaf p k)
        ⟨(p.slots.getD (lower_bound_leaf p k) default).key, pad8 v⟩).length = p.slots.length := by
      simp
    have hget : (p.slots.set (lower_bound_leaf p k)
        ⟨(p.slots.getD (lower_bound_leaf p k) default).key, pad8 v⟩).getD
          (lower_bound_leaf p k) default
        = ⟨(p.slots.getD (lower_bound_leaf p k) default).key, pad8 v⟩ := by
      rw [List.getD_eq_getElem?_getD, List.getElem?_set, if_pos rfl,
        if_pos (show _ < p.slots.length from hhit.1)]
      rfl
    simp only [hlb, LeafPage.count, hcnt, hget]
    rw [if_pos ⟨hhit.1, hhit.2⟩]
  · -- insert into the leaf
    rw [if_neg hhit]
    have hnm : ¬ ∃ e ∈ p.slots, e.key = k := fun h => hhit ((hit_iff_mem p k o3).2 h)
    have hcap : p.count < LEAF_CAPACITY := by
      rcases hroom with h | h
      · exact absurd h hnm
      · exact h
    rw [if_pos hcap]
    have hnf : ¬ (rank k (p.slots.map LeafEntry.key) < (p.slots.map LeafEntry.key).length ∧
        (p.slots.map LeafEntry.key).getD (rank k (p.slots.map LeafEntry.key)) 0 = k) := by
      intro h
      apply hhit
      rw [hrank, leafKey_getD]
      exact ⟨by simpa [LeafPage.count] using h.1, h.2⟩
    have hsorted := insertAt_rank_sorted k _ o3 hnf
    have hkeys : (insertAt (lower_bound_leaf p k) ⟨k, pad8 v⟩ p.slots).map LeafEntry.key
        = insertAt (rank k (p.slots.map LeafEntry.key)) k (p.slots.map LeafEntry.key) := by
      rw [map_key_insertAt, hrank]
    have hok1 : LeafOK g X (insertAt (lower_bound_leaf p k) ⟨k, pad8 v⟩ p.slots) := by
      refine ⟨o1, ?_, by rw [hkeys]; exact hsorted, ?_⟩
      · rw [insertAt_length]; exact hcap
      · intro e he
        rw [mem_insertAt] at he
        rcases he with rfl | he
        · exact ⟨le_of_lt h1, h2⟩
        · exact o4 e he
    have hinv1 : Inv ⟨t.sb, t.disk.set X (Page.leaf ⟨p.parent, p.next,
        insertAt (lower_bound_leaf p k) ⟨k, pad8 v⟩ p.slots⟩)⟩ g :=
      Inv_write_leaf t g X nxt slots _ hinv hl hb (parentAt_eq _ _ _ hp).symm hok1
    refine ⟨_, rfl, hinv1, ?_⟩
    have hX1 : ∀ pg, (t.disk.set X pg)[X]? = some pg := fun pg => by
      rw [List.getElem?_set, if_pos rfl, if_pos hlt]
    have hf1 := findLeaf_unique _ g hinv1 k X _ _ hl (bodyAt_leaf _ _ _ (hX1 _)) h1 h2
    rw [get_eq _ k X _ hf1 (hX1 _)]
    have hlb : lower_bound_leaf ⟨p.parent, p.next,
        insertAt (lower_bound_leaf p k) ⟨k, pad8 v⟩ p.slots⟩ k = lower_bound_leaf p k := by
      rw [lower_bound_leaf_eq_rank _ k (by
        show List.Pairwise _ ((insertAt _ _ _).map _)
        rw [hkeys]; exact hsorted.imp (fun h => le_of_lt h))]
      show rank k ((insertAt _ _ _).map _) = _
      rw [hkeys, rank_insertAt_self, hrank]
    have hle : lower_bound_leaf p k ≤ p.slots.length := by
      rw [hrank]
      simpa using rank_le_length k (p.slots.map LeafEntry.key)
    have hget := getD_insertAt (lower_bound_leaf p k) ⟨k, pad8 v⟩ p.slots hle
    simp only [hlb, LeafPage.count, hget, insertAt_length]
    rw [if_pos ⟨by omega, trivial⟩]

/-! ## An insert that splits the leaf -/

theorem obs_leaf_split (d : List Page) (sb0 : SuperBlock) (L : Nat) (p : LeafPage)
    (left right : List LeafEntry)
    (h0 : d[0]? = some (Page.super sb0)) (hL : d[L]? = some (Page.leaf p)) :
    (((d ++ [Page.leaf ⟨p.parent, 0, []⟩]).set L (Page.leaf ⟨p.parent, d.length, left⟩)).set
        d.length (Page.leaf ⟨p.parent, p.next, right⟩)).length = d.length + 1 ∧
    (((d ++ [Page.leaf ⟨p.parent, 0, []⟩]).set L (Page.leaf ⟨p.parent, d.length, left⟩)).set
        d.length (Page.leaf ⟨p.parent, p.next, right⟩))[0]? = some (Page.super sb0) ∧
    (∀ j, bodyAt (((d ++ [Page.leaf ⟨p.parent, 0, []⟩]).set L
        (Page.leaf ⟨p.parent, d.length, left⟩)).set d.length
        (Page.leaf ⟨p.parent, p.next, right⟩)) j =
      if j = d.length then some (Body.leaf p.next right)
      else if j = L then some (Body.leaf d.length left) else bodyAt d j) ∧
    (∀ j, parentAt (((d ++ [Page.leaf ⟨p.parent, 0, []⟩]).set L
        (Page.leaf ⟨p.parent, d.length, left⟩)).set d.length
        (Page.leaf ⟨p.parent, p.next, right⟩)) j =
      if j = d.length then parentAt d L else parentAt d j) := by
  have hlt : L < d.length := (List.getElem?_eq_some_iff.1 hL).1
  have hLne : L ≠ 0 := node_ne_zero d sb0 L _ h0 hL rfl
  have hl1 : L < (d ++ [Page.leaf ⟨p.parent, 0, []⟩]).length := by simp; omega
  have hl2 : d.length < ((d ++ [Page.leaf ⟨p.parent, 0, []⟩]).set L
      (Page.leaf ⟨p.parent, d.length, left⟩)).length := by simp
  refine ⟨by simp, ?_, fun j => ?_, fun j => ?_⟩
  · rw [List.getElem?_set_ne (by omega), List.getElem?_set_ne hLne]
    exact page0_append _ sb0 _ h0
  · rw [bodyAt_set _ _ _ _ hl2, bodyAt_set _ _ _ _ hl1, bodyAt_append]
    by_cases h1 : j = d.length
    · simp [h1, Page.body]
    · simp [h1, Page.body]
  · rw [parentAt_set _ _ _ _ hl2, parentAt_set _ _ _ _ hl1, parentAt_append]
    by_cases h1 : j = d.length
    · simp [h1, parentAt_eq _ _ _ hL, Page.parent]
    · simp only [h1, if_false]
      by_cases h2 : j = L
      · simp [h2, parentAt_eq _ _ _ hL, Page.parent]
      · simp [h2]

theorem getD_drop_zero (l : List LeafEntry) (i : Nat) :
    (l.drop i).getD 0 default = l.getD i default := by
  simp [List.getD_eq_getElem?_getD, List.getElem?_drop]

/-- An insert into a full leaf that lacks the key completes, restores the invariant, and
leaves the key routed to a leaf that has room. -/
theorem split_inv (t : Tree) (g : Ghost) (k : Int) (v8 : Bytes) (L nxt : Nat)
    (slots : List LeafEntry) (hinv : Inv t g) (hl : g.live L)
    (hb : bodyAt t.disk L = some (Body.leaf nxt slots)) (h1 : g.lo L < k) (h2 : k ≤ g.hi L)
    (hfull : slots.length = LEAF_CAPACITY) (hnm : ¬ ∃ e ∈ slots, e.key = k) :
    ∃ t1 g1 X nxt1 slots1, splitLeafAndInsert t L k v8 = some t1 ∧ Inv t1 g1 ∧ g1.live X ∧
      bodyAt t1.disk X = some (Body.leaf nxt1 slots1) ∧ g1.lo X < k ∧ k ≤ g1.hi X ∧
      slots1.length < LEAF_CAPACITY := by
  obtain ⟨p, hp, hnx, hsl⟩ := bodyAt_leaf_some _ _ _ _ hb
  obtain ⟨sb0, h0⟩ := hinv.core.super0
  have hok := (PageOK_leaf _ _ _ _ _ _ hb).1 (hinv.core.pages L hl)
  rw [← hsl] at hok hnm hfull
  obtain ⟨o1, o2, o3, o4⟩ := hok
  have hrank := lower_bound_leaf_eq_rank p k (o3.imp (fun h => le_of_lt h))
  have hnf : ¬ (rank k (p.slots.map LeafEntry.key) < (p.slots.map LeafEntry.key).length ∧
      (p.slots.map LeafEntry.key).getD (rank k (p.slots.map LeafEntry.key)) 0 = k) := by
    intro h
    apply hnm
    refine (hit_iff_mem p k o3).1 ?_
    rw [hrank, leafKey_getD]
    exact ⟨by simpa [LeafPage.count] using h.1, h.2⟩
  rw [splitLeafAndInsert_eq t L k v8 p hp]
  simp only []
  have htsorted : ((insertAt (lower_bound_leaf p k) ⟨k, v8⟩ p.slots).map LeafEntry.key).Pairwise
      (· < ·) := by
    rw [map_key_insertAt, hrank]; exact insertAt_rank_sorted k _ o3 hnf
  have htb : ∀ e ∈ insertAt (lower_bound_leaf p k) ⟨k, v8⟩ p.slots,
      g.lo L ≤ e.key ∧ e.key ≤ g.hi L := by
    intro e he
    rw [mem_insertAt] at he
    rcases he with rfl | he
    · exact ⟨le_of_lt h1, h2⟩
    · exact o4 e he
  have htlen : (insertAt (lower_bound_leaf p k) ⟨k, v8⟩ p.slots).length = 340 := by
    rw [insertAt_length, hfull, LEAF_CAPACITY_eq]
  generalize insertAt (lower_bound_leaf p k) ⟨k, v8⟩ p.slots = tmp at htsorted htb htlen
  have hlc : tmp.length / 2 = 170 := by rw [htlen]
  have htake : (tmp.drop (tmp.length / 2)).take (tmp.length - tmp.length / 2)
      = tmp.drop (tmp.length / 2) := by
    apply List.take_of_length_le
    rw [List.length_drop]
  rw [htake, getD_drop_zero]
  obtain ⟨s1, s2, s3⟩ := sorted_split tmp (tmp.length / 2) htsorted (by omega)
  -- the separator lies strictly inside the interval of the leaf
  have hsep1 : g.lo L < (tmp.getD (tmp.length / 2) default).key := by
    have hm : tmp.getD 0 default ∈ tmp.take (tmp.length / 2) := by
      rw [List.getD_eq_getElem _ _ (by omega), List.mem_take_iff_getElem]
      exact ⟨0, by rw [hlc, htlen]; omega, rfl⟩
    have := s1 _ hm
    have := (htb _ (List.mem_of_mem_take hm)).1
    omega
  have hsep2 : (tmp.getD (tmp.length / 2) default).key < g.hi L := by
    have hm : tmp.getD (tmp.length / 2 + 1) default ∈ tmp.drop (tmp.length / 2 + 1) := by
      rw [List.getD_eq_getElem _ _ (by omega), List.mem_drop_iff_getElem]
      exact ⟨0, by omega, rfl⟩
    have := s3 _ hm
    have := (htb _ (List.mem_of_mem_drop hm)).2
    omega
  obtain ⟨q1, q2, q3, q4⟩ := obs_leaf_split t.disk sb0 L p (tmp.take (tmp.length / 2))
    (tmp.drop (tmp.length / 2)) h0 hp
  have hpend := Pending_leaf_split t
    ⟨⟨t.sb.magic, t.sb.root, t.sb.free_list_head, t.sb.page_count + 1⟩,
      ((t.disk ++ [Page.leaf ⟨p.parent, 0, []⟩]).set L
        (Page.leaf ⟨p.parent, t.disk.length, tmp.take (tmp.length / 2)⟩)).set t.disk.length
        (Page.leaf ⟨p.parent, p.next, tmp.drop (tmp.length / 2)⟩)⟩ g L nxt slots
    (tmp.take (tmp.length / 2)) (tmp.drop (tmp.length / 2))
    (tmp.getD (tmp.length / 2) default).key hinv hl hb
    ⟨by rw [List.length_take, LEAF_CAPACITY_eq]; omega, sorted_take _ _ htsorted,
      fun e he => ⟨(htb e (List.mem_of_mem_take he)).1, le_of_lt (s1 e he)⟩⟩
    ⟨by rw [List.length_drop, LEAF_CAPACITY_eq]; omega, sorted_drop _ _ htsorted,
      fun e he => ⟨s2 e he, (htb e (List.mem_of_mem_drop he)).2⟩⟩
    hsep1 hsep2 rfl q1 ⟨_, q2⟩ (fun j => by rw [q3, hnx]) q4
  have hLN : L ≠ t.disk.length := Nat.ne_of_lt (hinv.core.lt L hl)
  have hrootN : t.sb.root ≠ t.disk.length := Nat.ne_of_lt (hinv.core.lt _ hinv.core.rootLive)
  have hheight := hinv.core.height
  obtain ⟨t1, g1, e1, hinv1, hgr⟩ := insertIntoParent_inv (t.disk.length + 1) _ _ _ _ _ hpend (by
    simp only [Ghost.add, Ghost.setHi, hrootN, hLN, if_false]
    omega)
  have hlvl0 : ((g.setHi L (tmp.getD (tmp.length / 2) default).key).add t.disk.length 0
      (tmp.getD (tmp.length / 2) default).key (g.hi L)).lvl L = 0 := by
    simp [Ghost.add, Ghost.setHi, hLN, o1]
  by_cases hk : k ≤ (tmp.getD (tmp.length / 2) default).key
  · refine ⟨t1, g1, L, t.disk.length, tmp.take (tmp.length / 2), e1, hinv1,
      hgr.live L (Or.inr hl), ?_, ?_, ?_, ?_⟩
    · exact hgr.leaf L _ _ (by rw [q3, if_neg hLN, if_pos rfl])
    · rw [hgr.lo L (Or.inr hl)]; simpa [Ghost.add, Ghost.setHi, hLN] using h1
    · rw [hgr.hi L (Or.inr hl) le_rfl]; simpa [Ghost.add, Ghost.setHi, hLN] using hk
    · rw [List.length_take, LEAF_CAPACITY_eq]; omega
  · refine ⟨t1, g1, t.disk.length, nxt, tmp.drop (tmp.length / 2), e1, hinv1,
      hgr.live _ (Or.inl rfl), ?_, ?_, ?_, ?_⟩
    · exact hgr.leaf _ _ _ (by rw [q3, if_pos rfl, hnx])
    · rw [hgr.lo _ (Or.inl rfl)]; simp only [Ghost.add, if_true]; omega
    · rw [hgr.hi _ (Or.inl rfl) (by rw [hlvl0]; simp [Ghost.add])]
      simpa [Ghost.add] using h2
    · rw [List.length_drop, LEAF_CAPACITY_eq]; omega

/-! ## Every insert keeps the invariant -/

/-- An insert of an `int32_t` key completes and keeps the invariant; afterwards the key is
routed to a leaf that holds it or has room. -/
theorem insert_inv (t : Tree) (g : Ghost) (k : Int) (v : Bytes) (hinv : Inv t g)
    (hk : inRange k) :
    ∃ t1 g1 X nxt slots, insert t k v = some t1 ∧ Inv t1 g1 ∧ g1.live X ∧
      bodyAt t1.disk X = some (Body.leaf nxt slots) ∧ g1.lo X < k ∧ k ≤ g1.hi X ∧
      ((∃ e ∈ slots, e.key = k) ∨ slots.length < LEAF_CAPACITY) := by
  obtain ⟨L, nxt, slots, hf, hl, hb, h1, h2⟩ := findLeaf_inv t g hinv k hk
  by_cases hroom : (∃ e ∈ slots, e.key = k) ∨ slots.length < LEAF_CAPACITY
  · obtain ⟨t1, e1, hinv1, hget⟩ := insert_no_split t g k v L nxt slots hinv hl hb h1 h2 hroom
    obtain ⟨X, nxt1, slots1, hf1, hl1, hb1, b1, b2⟩ := findLeaf_inv t1 g hinv1 k hk
    refine ⟨t1, g, X, nxt1, slots1, e1, hinv1, hl1, hb1, b1, b2, Or.inl ?_⟩
    obtain ⟨p1, hp1, _, hsl1⟩ := bodyAt_leaf_some _ _ _ _ hb1
    have hok := (PageOK_leaf _ _ _ _ _ _ hb1).1 (hinv1.core.pages X hl1)
    rw [get_eq t1 k X p1 hf1 hp1] at hget
    rw [← hsl1] at hok ⊢
    refine (hit_iff_mem p1 k hok.2.2.1).1 ?_
    by_contra hc
    rw [if_neg hc] at hget
    cases hget
  · have hnm : ¬ ∃ e ∈ slots, e.key = k := fun h => hroom (Or.inl h)
    have hok := (PageOK_leaf _ _ _ _ _ _ hb).1 (hinv.core.pages L hl)
    have hfull : slots.length = LEAF_CAPACITY := by
      have := hok.2.1
      have : ¬ slots.length < LEAF_CAPACITY := fun h => hroom (Or.inr h)
      omega
    obtain ⟨t1, g1, X, nxt1, slots1, e1, hinv1, hl1, hb1, b1, b2, hlen⟩ :=
      split_inv t g k (pad8 v) L nxt slots hinv hl hb h1 h2 hfull hnm
    refine ⟨t1, g1, X, nxt1, slots1, ?_, hinv1, hl1, hb1, b1, b2, Or.inr hlen⟩
    obtain ⟨p, hp, _, hsl⟩ := bodyAt_leaf_some _ _ _ _ hb
    rw [insert_eq t k v L p hf hp]
    have hnhit : ¬ (lower_bound_leaf p k < p.count ∧
        (p.slots.getD (lower_bound_leaf p k) default).key = k) := by
      intro h
      apply hnm
      rw [← hsl]
      rw [← hsl] at hok
      exact (hit_iff_mem p k hok.2.2.1).1 h
    have hncap : ¬ p.count < LEAF_CAPACITY := by
      unfold LeafPage.count
      rw [hsl, hfull]
      omega
    rw [if_neg hnhit, if_neg hncap]
    exact e1

theorem reachable_inv (t : Tree) (h : ReachableByInserts t) : ∃ g, Inv t g := by
  induction h with
  | fresh => exact ⟨_, Inv_fresh⟩
  | insert k v _ hk hi ih =>
    obtain ⟨g, hg⟩ := ih
    obtain ⟨t1, g1, _, _, _, e1, hinv1, _⟩ := insert_inv _ g k v hg hk
    rw [hi] at e1
    cases e1
    exact ⟨g1, hinv1⟩

/-- Every insert of an `int32_t` key into a tree reached by inserts completes. -/
theorem insert_completes (t : Tree) (h : ReachableByInserts t) (k : Int) (hk : inRange k)
    (v : Bytes) : ∃ t1, insert t k v = some t1 := by
  obtain ⟨g, hinv⟩ := reachable_inv t h
  obtain ⟨t1, _, _, _, _, e1, _⟩ := insert_inv t g k v hinv hk
  exact ⟨t1, e1⟩

theorem PageReachable_live (t : Tree) (g : Ghost) (hinv : Inv t g) (pid : Nat)
    (h : PageReachable t pid) : g.live pid := by
  induction h with
  | root => exact hinv.core.rootLive
  | child _ hn hc ih => exact (hinv.core.kid _ _ _ ih (bodyAt_internal _ _ _ hn) _ hc).1

/-- C9: in every state reached from a fresh file by inserts, every leaf page reachable from
the root has strictly increasing keys in `slots[0..count)`, and every internal page
reachable from the root has strictly increasing separator keys in `slots[0..count)`. -/
theorem C9_keys_strictly_increasing_in_page (t : Tree) (h : ReachableByInserts t) (pid : Nat)
    (hr : PageReachable t pid) :
    (∀ p : LeafPage, t.disk[pid]? = some (Page.leaf p) →
      (p.slots.map LeafEntry.key).Pairwise (· < ·)) ∧
    (∀ n : InternalPage, t.disk[pid]? = some (Page.internal n) →
      (n.slots.map InternalEntry.key).Pairwise (· < ·)) := by
  obtain ⟨g, hinv⟩ := reachable_inv t h
  have hl := PageReachable_live t g hinv pid hr
  have hok := hinv.core.pages pid hl
  constructor
  · intro p hp
    exact ((PageOK_leaf _ _ _ _ _ _ (bodyAt_leaf _ _ _ hp)).1 hok).2.2.1
  · intro n hn
    exact Chain_sorted _ _ _ _ _ _ ((PageOK_internal _ _ _ _ _ _ (bodyAt_internal _ _ _ hn)).1 hok).2.2.2

/-- C2: in every state reached from a fresh file by inserts, for every `int32_t` key `k`
and all values `v1`, `v2`, the two inserts `insert(k, v1)`, `insert(k, v2)` complete and
`get(k)` then returns the 8-byte normalization of `v2`. -/
theorem C2_second_insert_overwrites (t : Tree) (h : ReachableByInserts t) (k : Int)
    (hk : inRange k) (v1 v2 : Bytes) :
    ∃ t1 t2, insert t k v1 = some t1 ∧ insert t1 k v2 = some t2 ∧
      get t2 k = some (some (pad8 v2)) := by
  obtain ⟨g, hinv⟩ := reachable_inv t h
  obtain ⟨t1, g1, X, nxt, slots, e1, hinv1, hl1, hb1, b1, b2, hroom⟩ :=
    insert_inv t g k v1 hinv hk
  obtain ⟨t2, e2, _, hget⟩ := insert_no_split t1 g1 k v2 X nxt slots hinv1 hl1 hb1 b1 b2 hroom
  exact ⟨t1, t2, e1, e2, hget⟩

/-! ## The claims at a concrete tree -/

theorem reachable_insertAll (l : List (Int × Bytes)) (t t1 : Tree)
    (h : ReachableByInserts t) (hr : ∀ kv ∈ l, inRange kv.1) (hi : insertAll t l = some t1) :
    ReachableByInserts t1 := by
  induction l generalizing t with
  | nil => simp only [insertAll, Option.some.injEq] at hi; subst hi; exact h
  | cons kv rest ih =>
    obtain ⟨k, v⟩ := kv
    simp only [insertAll] at hi
    obtain ⟨t2, h2, hi⟩ := Option.bind_eq_some.1 hi
    exact ih t2 (ReachableByInserts.insert k v h (hr (k, v) (by simp)) h2)
      (fun kv hkv => hr kv (by simp [hkv])) hi

theorem reachable_afterFirstSplit : ReachableByInserts afterFirstSplit := by
  refine reachable_insertAll (ascending 0 340 [0x76]) _ _ ReachableByInserts.fresh ?_
    insertAll_ascending_340
  intro kv hkv
  obtain ⟨i, hi, rfl⟩ := List.mem_map.1 hkv
  have := List.mem_range.1 hi
  simp only [inRange, KEY_MIN, KEY_MAX]
  omega

/-- C9 at the tree after the first split: page 1 is a leaf reachable from the root (it is
the leftmost child of the root, page 3) and holds the 170 keys 0..169, which are strictly
increasing; the separator keys of the root are strictly increasing too. -/
theorem C9_witness :
    PageReachable afterFirstSplit 1 ∧
    afterFirstSplit.disk[1]? =
      some (Page.leaf ⟨3, 2, ascendingSlots 0 170 [0x76, 0, 0, 0, 0, 0, 0, 0]⟩) ∧
    (ascendingSlots 0 170 [0x76, 0, 0, 0, 0, 0, 0, 0]).length = 170 ∧
    ((ascendingSlots 0 170 [0x76, 0, 0, 0, 0, 0, 0, 0]).map LeafEntry.key).Pairwise (· < ·) ∧
    (∀ n : InternalPage, afterFirstSplit.disk[3]? = some (Page.internal n) →
      (n.slots.map InternalEntry.key).Pairwise (· < ·)) := by
  have hr : PageReachable afterFirstSplit 1 :=
    PageReachable.child PageReachable.root
      (rfl : afterFirstSplit.disk[3]? = some (Page.internal ⟨0, 1, [⟨170, 2⟩]⟩))
      (List.mem_cons_self _ _)
  exact ⟨hr, rfl, by simp [ascendingSlots],
    (C9_keys_strictly_increasing_in_page afterFirstSplit reachable_afterFirstSplit 1 hr).1
      ⟨3, 2, ascendingSlots 0 170 [0x76, 0, 0, 0, 0, 0, 0, 0]⟩ rfl,
    (C9_keys_strictly_increasing_in_page afterFirstSplit reachable_afterFirstSplit 3
      PageReachable.root).2⟩

/-- C2 at the tree after the first split and the separator key 170: after
`insert(170, "a")`, `insert(170, "b")`, `get(170)` returns "b" padded to 8 bytes. -/
theorem C2_witness :
    ∃ t1 t2, insert afterFirstSplit 170 [0x61] = some t1 ∧ insert t1 170 [0x62] = some t2 ∧
      get t2 170 = some (some (pad8 [0x62])) :=
  C2_second_insert_overwrites afterFirstSplit reachable_afterFirstSplit 170
    ⟨by decide, by decide⟩ [0x61] [0x62]

/-! ## Parent pointers -/

/-- C11: in every state reached from a fresh file by inserts, the page named by the root
field of the superblock has `parent = 0`, and every other page reachable from the root has
a non-zero `parent` that names an internal page listing it exactly once among `leftmost`
and the `right_child` fields of its slots. -/
theorem C11_parent_pointers (t : Tree) (h : ReachableByInserts t) :
    (∃ pg, t.disk[t.sb.root]? = some pg ∧ pg.isSuper = false ∧ pg.parent = 0) ∧
    ∀ pid, PageReachable t pid → pid ≠ t.sb.root →
      ∃ pg n, t.disk[pid]? = some pg ∧ pg.isSuper = false ∧ pg.parent ≠ 0 ∧
        t.disk[pg.parent]? = some (Page.internal n) ∧ n.children.count pid = 1 := by
  obtain ⟨g, hinv⟩ := reachable_inv t h
  refine ⟨?_, ?_⟩
  · obtain ⟨pg, hpg, hs⟩ := hinv.core.isNode _ hinv.core.rootLive
    refine ⟨pg, hpg, hs, ?_⟩
    rw [← parentAt_eq _ _ _ hpg]
    exact hinv.core.rootParent
  · intro pid hr hne
    have hl := PageReachable_live t g hinv pid hr
    obtain ⟨pg, hpg, hs⟩ := hinv.core.isNode _ hl
    obtain ⟨lm, slots, hb, hlp, hmem⟩ := hinv.attached pid hl hne
    rw [parentAt_eq _ _ _ hpg] at hb hlp
    obtain ⟨n, hn, hlm, hsl⟩ := bodyAt_internal_some _ _ _ _ hb
    refine ⟨pg, n, hpg, hs, hinv.core.ne_zero _ hlp, hn, ?_⟩
    have hok := (PageOK_internal _ _ _ _ _ _ hb).1 (hinv.core.pages _ hlp)
    unfold InternalPage.children
    rw [hlm, hsl]
    exact List.count_eq_one_of_mem hok.2.1 hmem

/-- C11 at the tree after the first split: the root (page 3) has `parent = 0`; the leaf on
page 2 is reachable from the root, and its `parent` names a page that lists it once. -/
theorem C11_witness :
    (∃ pg, afterFirstSplit.disk[afterFirstSplit.sb.root]? = some pg ∧ pg.isSuper = false ∧
      pg.parent = 0) ∧
    ∀ pid, PageReachable afterFirstSplit pid → pid ≠ afterFirstSplit.sb.root →
      ∃ pg n, afterFirstSplit.disk[pid]? = some pg ∧ pg.isSuper = false ∧ pg.parent ≠ 0 ∧
        afterFirstSplit.disk[pg.parent]? = some (Page.internal n) ∧ n.children.count pid = 1 :=
  C11_parent_pointers afterFirstSplit reachable_afterFirstSplit

/-- C12 (evaluation at the failing input): after inserting 0, 1, ..., 339 in ascending
order and then 170 once more, the leftmost leaf is page 1, following `next` from it visits
the leaves 1 and 2 and ends there, and the key 170 is stored in both, so not every key of
leaf 1 is smaller than every key of the leaf visited after it. -/
theorem C12_chain_repeats_separator_key :
    ∃ t p1 p2, insertAll (BPlusTree.open []) (ascending 0 340 [0x76] ++ [(170, [0x76])]) = some t ∧
      leftmostLeaf t.disk t.disk.length t.sb.root = some 1 ∧
      leafWalk t.disk t.disk.length 1 = some [1, 2] ∧
      t.disk[1]? = some (Page.leaf p1) ∧ t.disk[2]? = some (Page.leaf p2) ∧
      (170 : Int) ∈ p1.slots.map LeafEntry.key ∧ (170 : Int) ∈ p2.slots.map LeafEntry.key := by
  rw [insertAll_append, insertAll_ascending_340]
  simp only [Option.some_bind, insertAll]
  refine ⟨⟨⟨MAGIC, 3, 0, 4⟩,
        [Page.super ⟨MAGIC, 3, 0, 4⟩,
         Page.leaf ⟨3, 2, ascendingSlots 0 171 [0x76, 0, 0, 0, 0, 0, 0, 0]⟩,
         Page.leaf ⟨3, 0, ascendingSlots 170 170 [0x76, 0, 0, 0, 0, 0, 0, 0]⟩,
         Page.internal ⟨0, 1, [⟨170, 2⟩]⟩]⟩,
         ⟨3, 2, ascendingSlots 0 171 [0x76, 0, 0, 0, 0, 0, 0, 0]⟩,
         ⟨3, 0, ascendingSlots 170 170 [0x76, 0, 0, 0, 0, 0, 0, 0]⟩,
         by decide!, by decide!, by decide!, rfl, rfl, by decide!, by decide!⟩

/-- C15 (evaluation at the failing input): after a bulk load of the single record (1,"a")
into a fresh tree the file has 3 pages (superblock, the empty leaf of `open`, the loaded
leaf), while `page_count` is 2 both in memory and in the superblock on page 0. -/
theorem C15_bulk_load_skips_page_count :
    ∃ t, bulkLoadCSV (BPlusTree.open []) [(1, [0x61])] = BulkResult.ok t ∧
      t.disk.length = 3 ∧ t.sb.page_count = 2 ∧
      t.disk[0]? = some (Page.super ⟨MAGIC, 2, 0, 2⟩) ∧
      (BPlusTree.open []).sb.page_count = 2 ∧ (BPlusTree.open []).disk.length = 2 :=
  ⟨⟨⟨MAGIC, 2, 0, 2⟩, [Page.super ⟨MAGIC, 2, 0, 2⟩, Page.leaf ⟨0, 0, []⟩,
      Page.leaf ⟨0, 0, [⟨1, [0x61, 0, 0, 0, 0, 0, 0, 0]⟩]⟩]⟩,
    by decide!, by decide!, by decide!, by decide!, by decide!, by decide!⟩

/-- C16 (evaluation at the failing input): the tree after inserting 0, 1, ..., 339 in
ascending order has the root `(leftmost 1, [(170, 2)])`; the keys of leaf 1 increase
strictly and are below 170, the keys of leaf 2 increase strictly and are at least 170, and
170 is stored in leaf 2 and not in leaf 1; `findLeaf 170` returns leaf 1. -/
theorem C16_findLeaf_misses_leaf_of_separator_key :
    ∃ t p1 p2, insertAll (BPlusTree.open []) (ascending 0 340 [0x76]) = some t ∧
      t.disk[t.sb.root]? = some (Page.internal ⟨0, 1, [⟨170, 2⟩]⟩) ∧
      t.disk[1]? = some (Page.leaf p1) ∧ t.disk[2]? = some (Page.leaf p2) ∧
      (p1.slots.map LeafEntry.key).Pairwise (· < ·) ∧
      (p2.slots.map LeafEntry.key).Pairwise (· < ·) ∧
      (∀ k ∈ p1.slots.map LeafEntry.key, k < 170) ∧
      (∀ k ∈ p2.slots.map LeafEntry.key, 170 ≤ k) ∧
      (170 : Int) ∈ p2.slots.map LeafEntry.key ∧
      findLeaf t 170 = some 1 := by
  rw [insertAll_ascending_340]
  exact ⟨_, _, _, rfl, rfl, rfl, rfl, by decide!, by decide!, by decide!, by decide!,
    by decide!, by decide!⟩

/-! ## What a leaf split leaves behind -/

/-- An insert into a full leaf that lacks the key completes and restores the invariant;
the two halves of the leaf are on the old and the new page, every other leaf is as
before. -/
theorem split_post (t : Tree) (g : Ghost) (k : Int) (v8 : Bytes) (L nxt : Nat)
    (slots : List LeafEntry) (hinv : Inv t g) (hl : g.live L)
    (hb : bodyAt t.disk L = some (Body.leaf nxt slots)) (h1 : g.lo L < k) (h2 : k ≤ g.hi L)
    (hfull : slots.length = LEAF_CAPACITY) (hnm : ¬ ∃ e ∈ slots, e.key = k) :
    ∃ t1 g1, splitLeafAndInsert t L k v8 = some t1 ∧ Inv t1 g1 ∧
      ((insertSorted ⟨k, v8⟩ slots).map LeafEntry.key).Pairwise (· < ·) ∧
      (g1.live L ∧
        bodyAt t1.disk L = some (Body.leaf t.disk.length
          ((insertSorted ⟨k, v8⟩ slots).take ((insertSorted ⟨k, v8⟩ slots).length / 2))) ∧
        g1.lo L = g.lo L ∧
        g1.hi L = ((insertSorted ⟨k, v8⟩ slots).getD
          ((insertSorted ⟨k, v8⟩ slots).length / 2) default).key) ∧
      (g1.live t.disk.length ∧
        bodyAt t1.disk t.disk.length = some (Body.leaf nxt
          ((insertSorted ⟨k, v8⟩ slots).drop ((insertSorted ⟨k, v8⟩ slots).length / 2))) ∧
        g1.lo t.disk.length = ((insertSorted ⟨k, v8⟩ slots).getD
          ((insertSorted ⟨k, v8⟩ slots).length / 2) default).key ∧
        g1.hi t.disk.length = g.hi L) ∧
      (∀ Y nxt1 slots1, g.live Y → Y ≠ L → bodyAt t.disk Y = some (Body.leaf nxt1 slots1) →
        g1.live Y ∧ bodyAt t1.disk Y = some (Body.leaf nxt1 slots1) ∧
        g1.lo Y = g.lo Y ∧ g1.hi Y = g.hi Y) := by
  obtain ⟨p, hp, hnx, hsl⟩ := bodyAt_leaf_some _ _ _ _ hb
  obtain ⟨sb0, h0⟩ := hinv.core.super0
  have hok := (PageOK_leaf _ _ _ _ _ _ hb).1 (hinv.core.pages L hl)
  subst hsl
  obtain ⟨o1, o2, o3, o4⟩ := hok
  have hrank := lower_bound_leaf_eq_rank p k (o3.imp (fun h => le_of_lt h))
  have hnf : ¬ (rank k (p.slots.map LeafEntry.key) < (p.slots.map LeafEntry.key).length ∧
      (p.slots.map LeafEntry.key).getD (rank k (p.slots.map LeafEntry.key)) 0 = k) := by
    intro h
    apply hnm
    refine (hit_iff_mem p k o3).1 ?_
    rw [hrank, leafKey_getD]
    exact ⟨by simpa [LeafPage.count] using h.1, h.2⟩
  rw [splitLeafAndInsert_eq t L k v8 p hp]
  simp only []
  have hT : insertAt (lower_bound_leaf p k) ⟨k, v8⟩ p.slots = insertSorted ⟨k, v8⟩ p.slots := by
    rw [hrank]; rfl
  rw [hT]
  have htsorted : ((insertSorted ⟨k, v8⟩ p.slots).map LeafEntry.key).Pairwise (· < ·) := by
    rw [← hT, map_key_insertAt, hrank]; exact insertAt_rank_sorted k _ o3 hnf
  have htb : ∀ e ∈ insertSorted ⟨k, v8⟩ p.slots, g.lo L ≤ e.key ∧ e.key ≤ g.hi L := by
    intro e he
    rw [← hT, mem_insertAt] at he
    rcases he with rfl | he
    · exact ⟨le_of_lt h1, h2⟩
    · exact o4 e he
  have htlen : (insertSorted ⟨k, v8⟩ p.slots).length = 340 := by
    rw [← hT, insertAt_length, hfull, LEAF_CAPACITY_eq]
  generalize insertSorted ⟨k, v8⟩ p.slots = tmp at htsorted htb htlen ⊢
  have hlc : tmp.length / 2 = 170 := by rw [htlen]
  have htake : (tmp.drop (tmp.length / 2)).take (tmp.length - tmp.length / 2)
      = tmp.drop (tmp.length / 2) := by
    apply List.take_of_length_le
    rw [List.length_drop]
  rw [htake, getD_drop_zero]
  obtain ⟨s1, s2, s3⟩ := sorted_split tmp (tmp.length / 2) htsorted (by omega)
  have hsep1 : g.lo L < (tmp.getD (tmp.length / 2) default).key := by
    have hm : tmp.getD 0 default ∈ tmp.take (tmp.length / 2) := by
      rw [List.getD_eq_getElem _ _ (by omega), List.mem_take_iff_getElem]
      exact ⟨0, by rw [hlc, htlen]; omega, rfl⟩
    have := s1 _ hm
    have := (htb _ (List.mem_of_mem_take hm)).1
    omega
  have hsep2 : (tmp.getD (tmp.length / 2) default).key < g.hi L := by
    have hm : tmp.getD (tmp.length / 2 + 1) default ∈ tmp.drop (tmp.length / 2 + 1) := by
      rw [List.getD_eq_getElem _ _ (by omega), List.mem_drop_iff_getElem]
      exact ⟨0, by omega, rfl⟩
    have := s3 _ hm
    have := (htb _ (List.mem_of_mem_drop hm)).2
    omega
  obtain ⟨q1, q2, q3, q4⟩ := obs_leaf_split t.disk sb0 L p (tmp.take (tmp.length / 2))
    (tmp.drop (tmp.length / 2)) h0 hp
  have hpend := Pending_leaf_split t
    ⟨⟨t.sb.magic, t.sb.root, t.sb.free_list_head, t.sb.page_count + 1⟩,
      ((t.disk ++ [Page.leaf ⟨p.parent, 0, []⟩]).set L
        (Page.leaf ⟨p.parent, t.disk.length, tmp.take (tmp.length / 2)⟩)).set t.disk.length
        (Page.leaf ⟨p.parent, p.next, tmp.drop (tmp.length / 2)⟩)⟩ g L nxt p.slots
    (tmp.take (tmp.length / 2)) (tmp.drop (tmp.length / 2))
    (tmp.getD (tmp.length / 2) default).key hinv hl hb
    ⟨by rw [List.length_take, LEAF_CAPACITY_eq]; omega, sorted_take _ _ htsorted,
      fun e he => ⟨(htb e (List.mem_of_mem_take he)).1, le_of_lt (s1 e he)⟩⟩
    ⟨by rw [List.length_drop, LEAF_CAPACITY_eq]; omega, sorted_drop _ _ htsorted,
      fun e he => ⟨s2 e he, (htb e (List.mem_of_mem_drop he)).2⟩⟩
    hsep1 hsep2 rfl q1 ⟨_, q2⟩ (fun j => by rw [q3, hnx]) q4
  have hlt : ∀ Y, g.live Y → Y ≠ t.disk.length := fun Y hY => Nat.ne_of_lt (hinv.core.lt Y hY)
  have hLN : L ≠ t.disk.length := hlt L hl
  have hrootN : t.sb.root ≠ t.disk.length := hlt _ hinv.core.rootLive
  have hheight := hinv.core.height
  obtain ⟨t1, g1, e1, hinv1, hgr⟩ := insertIntoParent_inv (t.disk.length + 1) _ _ _ _ _ hpend (by
    simp only [Ghost.add, Ghost.setHi, hrootN, hLN, if_false]
    omega)
  have hlvl0 : ((g.setHi L (tmp.getD (tmp.length / 2) default).key).add t.disk.length 0
      (tmp.getD (tmp.length / 2) default).key (g.hi L)).lvl L = 0 := by
    simp [Ghost.add, Ghost.setHi, hLN, o1]
  refine ⟨t1, g1, e1, hinv1, htsorted, ⟨hgr.live L (Or.inr hl), ?_, ?_, ?_⟩,
    ⟨hgr.live _ (Or.inl rfl), ?_, ?_, ?_⟩, ?_⟩
  · exact hgr.leaf L _ _ (by rw [q3, if_neg hLN, if_pos rfl])
  · rw [hgr.lo L (Or.inr hl)]; simp [Ghost.add, Ghost.setHi, hLN]
  · rw [hgr.hi L (Or.inr hl) le_rfl]; simp [Ghost.add, Ghost.setHi, hLN]
  · exact hgr.leaf _ _ _ (by rw [q3, if_pos rfl, hnx])
  · rw [hgr.lo _ (Or.inl rfl)]; simp [Ghost.add]
  · rw [hgr.hi _ (Or.inl rfl) (by rw [hlvl0]; simp [Ghost.add])]
    simp [Ghost.add]
  · intro Y nxt1 slots1 hY hYL hbY
    have hYN := hlt Y hY
    have hY0 : g.lvl Y = 0 := ((PageOK_leaf _ _ _ _ _ _ hbY).1 (hinv.core.pages Y hY)).1
    refine ⟨hgr.live Y (Or.inr hY), ?_, ?_, ?_⟩
    · exact hgr.leaf Y _ _ (by rw [q3, if_neg hYN, if_neg hYL]; exact hbY)
    · rw [hgr.lo Y (Or.inr hY)]; simp [Ghost.add, Ghost.setHi, hYN]
    · rw [hgr.hi Y (Or.inr hY) (by rw [hlvl0]; simp [Ghost.add, Ghost.setHi, hYN, hY0])]
      simp [Ghost.add, Ghost.setHi, hYN, hYL]

/-! ## The full root leaf -/

theorem reachable_fullRootLeaf : ReachableByInserts fullRootLeaf := by
  refine reachable_insertAll (ascending 0 339 [0x76]) _ _ ReachableByInserts.fresh ?_
    (insertAll_ascending_fresh 0 339 [0x76] (by decide))
  intro kv hkv
  obtain ⟨i, hi, rfl⟩ := List.mem_map.1 hkv
  have := List.mem_range.1 hi
  simp only [inRange, KEY_MIN, KEY_MAX]
  omega

/-! ## The internal split -/

theorem scanPos_eq_rank (s : Int) (slots : List InternalEntry) :
    scanPos s slots = rank s (slots.map InternalEntry.key) := by
  induction slots with
  | nil => rfl
  | cons e es ih => simp only [scanPos, rank, List.map_cons, ih]

theorem intKey_insertAt (n : Nat) (e : InternalEntry) (slots : List InternalEntry) :
    (insertAt n e slots).map InternalEntry.key
      = insertAt n e.key (slots.map InternalEntry.key) := by
  simp [insertAt, List.map_take, List.map_drop]

/-- Putting a separator that the page lacks in at the position the scan finds keeps the
keys strictly increasing. -/
theorem scanPos_sorted (s : Int) (r : Nat) (slots : List InternalEntry)
    (hs : (slots.map InternalEntry.key).Pairwise (· < ·))
    (hn : s ∉ slots.map InternalEntry.key) :
    ((insertAt (scanPos s slots) ⟨s, r⟩ slots).map InternalEntry.key).Pairwise (· < ·) := by
  rw [intKey_insertAt, scanPos_eq_rank]
  apply insertAt_rank_sorted s _ hs
  rintro ⟨h1, h2⟩
  apply hn
  rw [List.getD_eq_getElem _ _ h1] at h2
  rw [← h2]
  exact List.getElem_mem _

/-- The preconditions of the internal split hold at every call of `insertIntoParent` that
a split of a page of the tree leads to. -/
theorem Pending_split_pre (t : Tree) (g : Ghost) (l : Nat) (s : Int) (r : Nat)
    (hp : Pending t g l s r) (hne : t.sb.root ≠ l) (pg : Page) (P : InternalPage)
    (hpg : t.disk[l]? = some pg) (hP : t.disk[pg.parent]? = some (Page.internal P)) :
    (P.slots.map InternalEntry.key).Pairwise (· < ·) ∧ s ∉ P.slots.map InternalEntry.key ∧
    (r :: P.children).Nodup ∧ ∀ c ∈ r :: P.children, isNode t.disk c := by
  have hpar : parentAt t.disk l = pg.parent := parentAt_eq _ _ _ hpg
  obtain ⟨lm, slots, a1, hPl, hlmem⟩ := hp.attached l hp.liveL (fun h => hne h.symm) hp.ne
  rw [hpar] at a1 hPl
  have hb := bodyAt_eq _ _ _ hP
  rw [a1] at hb
  simp only [Page.body, Option.some.injEq, Body.internal.injEq] at hb
  obtain ⟨rfl, rfl⟩ := hb
  have hok := (PageOK_internal _ _ _ _ _ _ a1).1 (hp.core.pages _ hPl)
  obtain ⟨_, hnd, hk, hch⟩ := hok
  have hch2 := Chain_insert g.lo g.hi l s r (g.hi r) P.slots P.leftmost _ _ hch hlmem hnd
    hp.loL hp.hiR hp.hiL hp.loR rfl
  have hs2 := Chain_sorted _ _ _ _ _ _ hch2
  have hfresh := hp.fresh _ _ _ hPl a1
  refine ⟨Chain_sorted _ _ _ _ _ _ hch, ?_, ?_, ?_⟩
  · intro hm
    have hperm := (insertAt_perm (scanPos s P.slots) (⟨s, r⟩ : InternalEntry) P.slots).map
      InternalEntry.key
    have hnd2 : ((insertAt (scanPos s P.slots) (⟨s, r⟩ : InternalEntry) P.slots).map
        InternalEntry.key).Nodup := hs2.imp (fun h => ne_of_lt h)
    rw [hperm.nodup_iff, List.map_cons, List.nodup_cons] at hnd2
    exact hnd2.1 hm
  · exact List.nodup_cons.2 ⟨hfresh, hnd⟩
  · intro c hc
    rcases List.mem_cons.1 hc with rfl | hc
    · exact hp.core.isNode _ hp.liveR
    · exact hp.core.isNode _ (hk c hc).1

/-! ## What `get` returns -/

theorem lookup_none_iff (slots : List LeafEntry) (k : Int) :
    lookup slots k = none ↔ ∀ e ∈ slots, e.key ≠ k := by
  simp [lookup, List.find?_eq_none]

theorem lookup_some_iff (slots : List LeafEntry) (k : Int) (w : Bytes)
    (hs : (slots.map LeafEntry.key).Pairwise (· < ·)) :
    lookup slots k = some w ↔ (⟨k, w⟩ : LeafEntry) ∈ slots := by
  induction slots with
  | nil => simp [lookup]
  | cons a as ih =>
    rw [List.map_cons, List.pairwise_cons] at hs
    by_cases ha : a.key = k
    · have h1 : lookup (a :: as) k = some a.value := by simp [lookup, ha]
      rw [h1, List.mem_cons]
      constructor
      · intro h
        left
        cases a
        simp only [Option.some.injEq] at h
        simp only at ha
        rw [h, ha]
      · rintro (h | h)
        · rw [← h]
        · have := hs.1 k (List.mem_map.2 ⟨_, h, rfl⟩)
          omega
    · have h1 : lookup (a :: as) k = lookup as k := by simp [lookup, ha]
      rw [h1, ih hs.2, List.mem_cons]
      constructor
      · exact Or.inr
      · rintro (h | h)
        · exact absurd (by rw [← h]) ha
        · exact h

/-- Under the invariant `get k` returns what the leaf that is routed `k` holds for `k`. -/
theorem get_routed (t : Tree) (g : Ghost) (hinv : Inv t g) (k : Int) (X nxt : Nat)
    (slots : List LeafEntry) (hl : g.live X)
    (hb : bodyAt t.disk X = some (Body.leaf nxt slots)) (h1 : g.lo X < k) (h2 : k ≤ g.hi X) :
    get t k = some (lookup slots k) := by
  obtain ⟨p, hp, hnx, hsl⟩ := bodyAt_leaf_some _ _ _ _ hb
  have hf := findLeaf_unique t g hinv k X nxt slots hl hb h1 h2
  have hok := (PageOK_leaf _ _ _ _ _ _ hb).1 (hinv.core.pages X hl)
  subst hsl
  rw [get_eq t k X p hf hp]
  by_cases hhit : lower_bound_leaf p k < p.count ∧
      (p.slots.getD (lower_bound_leaf p k) default).key = k
  · rw [if_pos hhit]
    have hm : p.slots.getD (lower_bound_leaf p k) default ∈ p.slots := by
      rw [List.getD_eq_getElem _ _ hhit.1]; exact List.getElem_mem _
    have := (lookup_some_iff p.slots k (p.slots.getD (lower_bound_leaf p k) default).value
      hok.2.2.1).2 (by
        have h3 := hhit.2
        generalize p.slots.getD (lower_bound_leaf p k) default = e at hm h3
        cases e
        simp only at h3
        subst h3
        exact hm)
    rw [this]
  · rw [if_neg hhit]
    have hnm : ∀ e ∈ p.slots, e.key ≠ k :=
      fun e he hk => hhit ((hit_iff_mem p k hok.2.2.1).2 ⟨e, he, hk⟩)
    rw [(lookup_none_iff p.slots k).2 hnm]

theorem lastInsert_snoc (ops : List (Int × Bytes)) (k0 : Int) (v : Bytes) (k : Int) :
    lastInsert (ops ++ [(k0, v)]) k = if k0 = k then some v else lastInsert ops k := by
  unfold lastInsert
  rw [List.reverse_append]
  by_cases h : k0 = k
  · simp [h]
  · simp [h]

theorem lastInsert_none (ops : List (Int × Bytes)) (k : Int) :
    lastInsert ops k = none ↔ ∀ kv ∈ ops, kv.1 ≠ k := by
  simp [lastInsert, List.find?_eq_none]

/-- Overwriting the entry with key `k` of a leaf with strictly increasing keys: the new
entries are the new entry and the old entries with other keys. -/
theorem mem_set_sorted (slots : List LeafEntry) (pos : Nat) (k : Int) (w : Bytes)
    (hs : (slots.map LeafEntry.key).Pairwise (· < ·)) (hpos : pos < slots.length)
    (hk : (slots.getD pos default).key = k) (e : LeafEntry) :
    e ∈ slots.set pos ⟨k, w⟩ ↔ e = ⟨k, w⟩ ∨ (e ∈ slots ∧ e.key ≠ k) := by
  have hdec : slots = slots.take pos ++ slots.getD pos default :: slots.drop (pos + 1) := by
    rw [List.getD_eq_getElem _ _ hpos, ← List.drop_eq_getElem_cons hpos, List.take_append_drop]
  have hk2 := congrArg (List.map LeafEntry.key) hdec
  rw [List.map_append, List.map_cons, hk] at hk2
  rw [hk2, List.pairwise_append, List.pairwise_cons] at hs
  obtain ⟨_, ⟨s2, _⟩, s3⟩ := hs
  have hmem : e ∈ slots ↔ e ∈ slots.take pos ∨ e = slots.getD pos default ∨
      e ∈ slots.drop (pos + 1) := by
    conv_lhs => rw [hdec]
    simp
  rw [List.set_eq_take_append_cons_drop, if_pos hpos, List.mem_append, List.mem_cons, hmem]
  constructor
  · rintro (h | h | h)
    · have := s3 _ (List.mem_map.2 ⟨e, h, rfl⟩) k (List.mem_cons_self _ _)
      exact Or.inr ⟨Or.inl h, by omega⟩
    · exact Or.inl h
    · have := s2 _ (List.mem_map.2 ⟨e, h, rfl⟩)
      exact Or.inr ⟨Or.inr (Or.inr h), by omega⟩
  · rintro (h | ⟨h | h | h, hne⟩)
    · exact Or.inr (Or.inl h)
    · exact Or.inl h
    · exact absurd (by rw [h, hk]) hne
    · exact Or.inr (Or.inr h)

/-- An insert into a leaf that holds the key or has room rewrites that leaf only and keeps
the invariant; the leaf then holds the new entry and the old entries with other keys. -/
theorem insert_in_place_post (t : Tree) (g : Ghost) (k : Int) (v : Bytes) (X nxt : Nat)
    (slots : List LeafEntry) (hinv : Inv t g) (hl : g.live X)
    (hb : bodyAt t.disk X = some (Body.leaf nxt slots)) (h1 : g.lo X < k) (h2 : k ≤ g.hi X)
    (hroom : (∃ e ∈ slots, e.key = k) ∨ slots.length < LEAF_CAPACITY) :
    ∃ t1 slots1, insert t k v = some t1 ∧ Inv t1 g ∧
      bodyAt t1.disk X = some (Body.leaf nxt slots1) ∧
      (∀ j, j ≠ X → bodyAt t1.disk j = bodyAt t.disk j) ∧
      (∀ e, e ∈ slots1 ↔ e = ⟨k, pad8 v⟩ ∨ (e ∈ slots ∧ e.key ≠ k)) := by
  obtain ⟨p, hp, hnx, hsl⟩ := bodyAt_leaf_some _ _ _ _ hb
  have hf := findLeaf_unique t g hinv k X nxt slots hl hb h1 h2
  have hok := (PageOK_leaf _ _ _ _ _ _ hb).1 (hinv.core.pages X hl)
  subst hsl
  obtain ⟨o1, o2, o3, o4⟩ := hok
  have hrank := lower_bound_leaf_eq_rank p k (o3.imp (fun h => le_of_lt h))
  have hlt : X < t.disk.length := bodyAt_lt _ _ _ hb
  have hB : ∀ pg j, j ≠ X → bodyAt (t.disk.set X pg) j = bodyAt t.disk j := by
    intro pg j hj; rw [bodyAt_set _ _ _ _ hlt, if_neg hj]
  have hX : ∀ p1 : LeafPage, bodyAt (t.disk.set X (Page.leaf p1)) X
      = some (Body.leaf p1.next p1.slots) := by
    intro p1; rw [bodyAt_set _ _ _ _ hlt, if_pos rfl]; rfl
  rw [insert_eq t k v X p hf hp]
  by_cases hhit : lower_bound_leaf p k < p.count ∧
      (p.slots.getD (lower_bound_leaf p k) default).key = k
  · rw [if_pos hhit]
    have hkeys := map_key_set p.slots (lower_bound_leaf p k) (pad8 v)
    have hinv1 : Inv ⟨t.sb, t.disk.set X (Page.leaf ⟨p.parent, p.next,
        p.slots.set (lower_bound_leaf p k)
          ⟨(p.slots.getD (lower_bound_leaf p k) default).key, pad8 v⟩⟩)⟩ g :=
      Inv_write_leaf t g X nxt p.slots _ hinv hl hb (parentAt_eq _ _ _ hp).symm
        (LeafOK_of_keys g X p.slots _ hkeys ⟨o1, o2, o3, o4⟩)
    refine ⟨_, _, rfl, hinv1, by rw [hX, hnx], hB _, fun e => ?_⟩
    simp only [hhit.2]
    exact mem_set_sorted p.slots _ k (pad8 v) o3 hhit.1 hhit.2 e
  · rw [if_neg hhit]
    have hnm : ¬ ∃ e ∈ p.slots, e.key = k := fun h => hhit ((hit_iff_mem p k o3).2 h)
    have hcap : p.count < LEAF_CAPACITY := by
      rcases hroom with h | h
      · exact absurd h hnm
      · exact h
    rw [if_pos hcap]
    have hnf : ¬ (rank k (p.slots.map LeafEntry.key) < (p.slots.map LeafEntry.key).length ∧
        (p.slots.map LeafEntry.key).getD (rank k (p.slots.map LeafEntry.key)) 0 = k) := by
      intro h
      apply hhit
      rw [hrank, leafKey_getD]
      exact ⟨by simpa [LeafPage.count] using h.1, h.2⟩
    have hsorted := insertAt_rank_sorted k _ o3 hnf
    have hkeys : (insertAt (lower_bound_leaf p k) ⟨k, pad8 v⟩ p.slots).map LeafEntry.key
        = insertAt (rank k (p.slots.map LeafEntry.key)) k (p.slots.map LeafEntry.key) := by
      rw [map_key_insertAt, hrank]
    have hok1 : LeafOK g X (insertAt (lower_bound_leaf p k) ⟨k, pad8 v⟩ p.slots) := by
      refine ⟨o1, ?_, by rw [hkeys]; exact hsorted, ?_⟩
      · rw [insertAt_length]; exact hcap
      · intro e he
        rw [mem_insertAt] at he
        rcases he with rfl | he
        · exact ⟨le_of_lt h1, h2⟩
        · exact o4 e he
    have hinv1 : Inv ⟨t.sb, t.disk.set X (Page.leaf ⟨p.parent, p.next,
        insertAt (lower_bound_leaf p k) ⟨k, pad8 v⟩ p.slots⟩)⟩ g :=
      Inv_write_leaf t g X nxt p.slots _ hinv hl hb (parentAt_eq _ _ _ hp).symm hok1
    refine ⟨_, _, rfl, hinv1, by rw [hX, hnx], hB _, fun e => ?_⟩
    simp only [mem_insertAt]
    constructor
    · rintro (h | h)
      · exact Or.inl h
      · exact Or.inr ⟨h, fun hk => hnm ⟨e, h, hk⟩⟩
    · rintro (h | h)
      · exact Or.inl h
      · exact Or.inr h.1

theorem entry_eq (k k0 : Int) (w w0 : Bytes) (h : (⟨k, w⟩ : LeafEntry) = ⟨k0, w0⟩) :
    k = k0 ∧ w = w0 := by
  cases h; exact ⟨rfl, rfl⟩

/-- What `get` returns after an insert: for the key inserted the new value (if anything),
for every other key what it returned before (if anything). -/
theorem get_after_insert (t : Tree) (g : Ghost) (k0 : Int) (v : Bytes) (hinv : Inv t g)
    (hk0 : inRange k0) :
    ∃ t1 g1, insert t k0 v = some t1 ∧ Inv t1 g1 ∧
      ∀ k, inRange k → ∀ w, get t1 k = some (some w) →
        (k = k0 ∧ w = pad8 v) ∨ (k ≠ k0 ∧ get t k = some (some w)) := by
  obtain ⟨L, nxt, slots, hf, hl, hb, h1, h2⟩ := findLeaf_inv t g hinv k0 hk0
  have hok := (PageOK_leaf _ _ _ _ _ _ hb).1 (hinv.core.pages L hl)
  by_cases hroom : (∃ e ∈ slots, e.key = k0) ∨ slots.length < LEAF_CAPACITY
  · obtain ⟨t1, slots1, e1, hinv1, bX, bO, hmem⟩ :=
      insert_in_place_post t g k0 v L nxt slots hinv hl hb h1 h2 hroom
    refine ⟨t1, g, e1, hinv1, ?_⟩
    intro k hk w hget
    obtain ⟨Y, nxtY, sY, fY, hlY, hbY, y1, y2⟩ := findLeaf_inv t1 g hinv1 k hk
    have hokY := (PageOK_leaf _ _ _ _ _ _ hbY).1 (hinv1.core.pages Y hlY)
    rw [get_routed t1 g hinv1 k Y nxtY sY hlY hbY y1 y2] at hget
    have hm := (lookup_some_iff sY k w hokY.2.2.1).1 (Option.some.inj hget)
    by_cases hY : Y = L
    · subst hY
      rw [bX] at hbY
      simp only [Option.some.injEq, Body.leaf.injEq] at hbY
      obtain ⟨_, rfl⟩ := hbY
      rcases (hmem _).1 hm with h | ⟨h, hne⟩
      · exact Or.inl (entry_eq _ _ _ _ h)
      · refine Or.inr ⟨hne, ?_⟩
        rw [get_routed t g hinv k Y nxt slots hl hb y1 y2,
          (lookup_some_iff slots k w hok.2.2.1).2 h]
    · have hbY0 : bodyAt t.disk Y = some (Body.leaf nxtY sY) := by rw [← bO Y hY]; exact hbY
      refine Or.inr ⟨?_, ?_⟩
      · rintro rfl
        have f1 := findLeaf_unique t1 g hinv1 k L nxt slots1 hl bX h1 h2
        rw [fY] at f1
        exact hY (Option.some.inj f1)
      · rw [get_routed t g hinv k Y nxtY sY hlY hbY0 y1 y2, hget]
  · have hfull : slots.length = LEAF_CAPACITY := by
      have := hok.2.1
      omega
    have hnm : ¬ ∃ e ∈ slots, e.key = k0 := fun h => hroom (Or.inl h)
    obtain ⟨p, hp, hnx, hsl⟩ := bodyAt_leaf_some _ _ _ _ hb
    have hins : insert t k0 v = splitLeafAndInsert t L k0 (pad8 v) := by
      rw [insert_eq t k0 v L p hf hp, if_neg (fun hh => hnm (by
        rw [← hsl]; exact (hit_iff_mem p k0 (by rw [hsl]; exact hok.2.2.1)).1 hh)),
        if_neg (by unfold LeafPage.count; rw [hsl]; omega)]
    obtain ⟨t1, g1, e1, hinv1, hsorted, ⟨lL, bL, loL, hiL⟩, ⟨lN, bN, loN, hiN⟩, hoth⟩ :=
      split_post t g k0 (pad8 v) L nxt slots hinv hl hb h1 h2 hfull hnm
    refine ⟨t1, g1, hins.trans e1, hinv1, ?_⟩
    intro k hk w hget
    obtain ⟨Y, nxtY, sY, fY, hlY, hbY, y1, y2⟩ := findLeaf_inv t g hinv k hk
    have hTmem : ∀ e, e ∈ insertSorted ⟨k0, pad8 v⟩ slots → e = ⟨k0, pad8 v⟩ ∨ e ∈ slots :=
      fun e he => (mem_insertAt _ _ _ _).1 he
    by_cases hY : Y = L
    · subst hY
      rw [hb] at hbY
      simp only [Option.some.injEq, Body.leaf.injEq] at hbY
      obtain ⟨_, rfl⟩ := hbY
      have hfin : (⟨k, w⟩ : LeafEntry) ∈ insertSorted ⟨k0, pad8 v⟩ slots →
          (k = k0 ∧ w = pad8 v) ∨ (k ≠ k0 ∧ get t k = some (some w)) := by
        intro hm
        rcases hTmem _ hm with h | h
        · exact Or.inl (entry_eq _ _ _ _ h)
        · refine Or.inr ⟨fun hkk => hnm ⟨_, h, hkk⟩, ?_⟩
          rw [get_routed t g hinv k Y nxt slots hl hb y1 y2,
            (lookup_some_iff slots k w hok.2.2.1).2 h]
      by_cases hle : k ≤ ((insertSorted ⟨k0, pad8 v⟩ slots).getD
          ((insertSorted ⟨k0, pad8 v⟩ slots).length / 2) default).key
      · rw [get_routed t1 g1 hinv1 k Y _ _ lL bL (by rw [loL]; exact y1)
          (by rw [hiL]; exact hle)] at hget
        have hm := (lookup_some_iff _ k w (sorted_take _ _ hsorted)).1 (Option.some.inj hget)
        exact hfin (List.mem_of_mem_take hm)
      · rw [get_routed t1 g1 hinv1 k _ _ _ lN bN (by rw [loN]; omega)
          (by rw [hiN]; exact y2)] at hget
        have hm := (lookup_some_iff _ k w (sorted_drop _ _ hsorted)).1 (Option.some.inj hget)
        exact hfin (List.mem_of_mem_drop hm)
    · obtain ⟨lY, bY, loY, hiY⟩ := hoth Y nxtY sY hlY hY hbY
      rw [get_routed t1 g1 hinv1 k Y nxtY sY lY bY (by rw [loY]; exact y1)
        (by rw [hiY]; exact y2)] at hget
      refine Or.inr ⟨?_, ?_⟩
      · rintro rfl
        rw [hf] at fY
        exact hY (Option.some.inj fY).symm
      · rw [get_routed t g hinv k Y nxtY sY hlY hbY y1 y2, hget]

/-- After any sequence of inserts of `int32_t` keys into a fresh file, whatever `get`
returns for a key is the padded value of the most recent insert at that key. -/
theorem get_insertAll (ops : List (Int × Bytes)) :
    (∀ kv ∈ ops, inRange kv.1) →
    ∃ t g, insertAll (BPlusTree.open []) ops = some t ∧ Inv t g ∧
      ∀ k, inRange k → ∀ w, get t k = some (some w) →
        ∃ v, lastInsert ops k = some v ∧ w = pad8 v := by
  induction ops using List.reverseRecOn with
  | nil =>
    intro _
    refine ⟨_, _, rfl, Inv_fresh, ?_⟩
    intro k hk w hget
    obtain ⟨L, nxt, slots, _, hl, hb, y1, y2⟩ := findLeaf_inv _ _ Inv_fresh k hk
    rw [get_routed _ _ Inv_fresh k L nxt slots hl hb y1 y2] at hget
    have hL : L = 1 := hl
    subst hL
    rw [open_empty] at hb
    simp only [bodyAt, List.getElem?_cons_succ, List.getElem?_cons_zero, Option.map_some',
      Page.body, Option.some.injEq, Body.leaf.injEq] at hb
    rw [← hb.2] at hget
    simp [lookup] at hget
  | append_singleton ops kv ih =>
    intro hr
    obtain ⟨k0, v⟩ := kv
    obtain ⟨t, g, ht, hinv, hget⟩ := ih (fun kv hkv => hr kv (by simp [hkv]))
    obtain ⟨t1, g1, e1, hinv1, hstep⟩ := get_after_insert t g k0 v hinv (hr (k0, v) (by simp))
    refine ⟨t1, g1, ?_, hinv1, ?_⟩
    · rw [insertAll_append, ht]
      simp only [Option.some_bind, insertAll, e1]
    · intro k hk w hw
      rw [lastInsert_snoc]
      rcases hstep k hk w hw with ⟨rfl, rfl⟩ | ⟨hne, hold⟩
      · exact ⟨v, by simp, rfl⟩
      · rw [if_neg (fun h => hne h.symm)]
        exact hget k hk w hold

/-- C20: after any sequence of inserts of `int32_t` keys into a fresh file (every such
sequence completes), if `get(k)` returns a value then `k` was inserted and the value is
the 8-byte form of the value passed to the most recent insert at `k`; `get(k)` answers
NotFound for every key that was never inserted. -/
theorem C20_get_returns_last_insert (ops : List (Int × Bytes))
    (hr : ∀ kv ∈ ops, inRange kv.1) :
    ∃ t, insertAll (BPlusTree.open []) ops = some t ∧
      ∀ k, inRange k →
        (∀ w, get t k = some (some w) →
          ∃ v, (k, v) ∈ ops ∧ lastInsert ops k = some v ∧ w = pad8 v) ∧
        ((∀ kv ∈ ops, kv.1 ≠ k) → get t k = some none) := by
  obtain ⟨t, g, ht, hinv, hget⟩ := get_insertAll ops hr
  refine ⟨t, ht, fun k hk => ⟨fun w hw => ?_, fun hnever => ?_⟩⟩
  · obtain ⟨v, hv, hw2⟩ := hget k hk w hw
    refine ⟨v, ?_, hv, hw2⟩
    unfold lastInsert at hv
    obtain ⟨kv, h1, h2⟩ := Option.map_eq_some'.1 hv
    have hm := List.mem_of_find?_eq_some h1
    have hk2 := List.find?_some h1
    simp only [decide_eq_true_eq] at hk2
    rw [List.mem_reverse] at hm
    obtain ⟨a, b⟩ := kv
    simp only at hk2 h2
    subst hk2 h2
    exact hm
  · obtain ⟨L, nxt, slots, _, hl, hb, y1, y2⟩ := findLeaf_inv t g hinv k hk
    have hg := get_routed t g hinv k L nxt slots hl hb y1 y2
    cases hlk : lookup slots k with
    | none => rw [hg, hlk]
    | some w =>
      rw [hlk] at hg
      obtain ⟨v, hv, _⟩ := hget k hk w hg
      rw [(lastInsert_none ops k).2 hnever] at hv
      cases hv

/-- C20 at the sequence 0, 1, ..., 339 (one split): the sequence completes, `get 5`
can only return the padded "v", and `get 1000` answers NotFound. -/
theorem C20_witness :
    ∃ t, insertAll (BPlusTree.open []) (ascending 0 340 [0x76]) = some t ∧
      (∀ w, get t 5 = some (some w) → w = pad8 [0x76]) ∧ get t 1000 = some none := by
  have hr : ∀ kv ∈ ascending 0 340 [0x76], inRange kv.1 := by
    intro kv hkv
    obtain ⟨i, hi, rfl⟩ := List.mem_map.1 hkv
    have := List.mem_range.1 hi
    simp only [inRange, KEY_MIN, KEY_MAX]
    omega
  obtain ⟨t, ht, h⟩ := C20_get_returns_last_insert (ascending 0 340 [0x76]) hr
  refine ⟨t, ht, fun w hw => ?_, (h 1000 ⟨by decide, by decide⟩).2 ?_⟩
  · obtain ⟨v, hm, _, hw2⟩ := (h 5 ⟨by decide, by decide⟩).1 w hw
    obtain ⟨i, _, hi⟩ := List.mem_map.1 hm
    rw [hw2, ← (Prod.mk.inj hi).2]
  · intro kv hkv
    obtain ⟨i, hi, rfl⟩ := List.mem_map.1 hkv
    have := List.mem_range.1 hi
    simp only
    omega

/-! ## Bulk load: the leaves it writes -/

theorem take_drop_append {α : Type} (l r : List α) (i n : Nat) (h : i + n ≤ l.length) :
    ((l ++ r).drop i).take n = (l.drop i).take n := by
  rw [List.drop_append_of_le_length (by omega), List.take_append_of_le_length]
  rw [List.length_drop]; omega

/-- Reading one more record changes nothing about the leaves already written. -/
theorem Written.append {d0 : List Page} {b b1 : BulkState} {E : List LeafEntry} {q : Nat}
    (hw : Written d0 b E q) (e : LeafEntry) (hq : LEAF_CAPACITY * q ≤ E.length)
    (hd : b1.disk = b.disk) (hc : b1.child_list = b.child_list)
    (hp : b1.prevLeafPid = b.prevLeafPid) : Written d0 b1 (E ++ [e]) q where
  len := by rw [hd]; exact hw.len
  old := by rw [hd]; exact hw.old
  leafAt := by
    intro i hi
    have : LEAF_CAPACITY * (i + 1) ≤ LEAF_CAPACITY * q := Nat.mul_le_mul_left _ hi
    rw [hd, hw.leafAt i hi, take_drop_append _ _ _ _ (by rw [Nat.mul_succ] at this; omega)]
  children := by
    rw [hc, hw.children]
    apply List.map_congr_left
    intro i hi
    have hi2 := List.mem_range.1 hi
    have : LEAF_CAPACITY * (i + 1) ≤ LEAF_CAPACITY * q := Nat.mul_le_mul_left _ hi2
    rw [Nat.mul_succ, LEAF_CAPACITY_eq] at this
    rw [LEAF_CAPACITY_eq] at hq ⊢
    rw [List.getD_append _ _ _ _ (by omega)]
  prev := by rw [hp]; exact hw.prev

/-- Flushing the buffered entries writes them to the next page and chains the leaf
written before to it. -/
theorem flush_written (d0 : List Page) (h0 : 0 < d0.length) (b : BulkState)
    (E : List LeafEntry) (q : Nat) (hw : Written d0 b E q)
    (hleaf : b.leaf = ⟨0, 0, E.drop (LEAF_CAPACITY * q)⟩)
    (h1 : LEAF_CAPACITY * q < E.length) (h2 : E.length ≤ LEAF_CAPACITY * q + LEAF_CAPACITY) :
    ∃ b2, flush_leaf b (b.leaf.slots.getD 0 default).key = some b2 ∧ Written d0 b2 E (q + 1) ∧
      b2.leaf = {} ∧ b2.firstKeySet = b.firstKeySet ∧ b2.prevKey = b.prevKey := by
  have htake : (E.drop (LEAF_CAPACITY * q)).take LEAF_CAPACITY = E.drop (LEAF_CAPACITY * q) := by
    apply List.take_of_length_le
    rw [List.length_drop]; omega
  have hkey : (b.leaf.slots.getD 0 default).key = (E.getD (LEAF_CAPACITY * q) default).key := by
    rw [hleaf]; simp only []; rw [getD_drop_zero]
  have hch : b.child_list ++ [((b.leaf.slots.getD 0 default).key, b.disk.length)] =
      (List.range (q + 1)).map fun i =>
        ((E.getD (LEAF_CAPACITY * i) default).key, d0.length + i) := by
    rw [List.range_succ, List.map_append, hw.children, hkey, hw.len]; rfl
  by_cases hq : q = 0
  · subst hq
    have hp0 : b.prevLeafPid = 0 := by rw [hw.prev]; rfl
    refine ⟨_, flush_leaf_first b _ hp0, ⟨?_, ?_, ?_, hch, ?_⟩, rfl, rfl, rfl⟩
    · simp [hw.len]
    · intro j hj
      show (b.disk ++ [Page.leaf b.leaf])[j]? = _
      rw [List.getElem?_append_left (by rw [hw.len]; omega)]
      exact hw.old j hj
    · intro i hi
      have hi0 : i = 0 := by omega
      subst hi0
      show (b.disk ++ [Page.leaf b.leaf])[d0.length + 0]? = _
      have : d0.length + 0 = b.disk.length := by rw [hw.len]
      rw [this, List.getElem?_concat_length, hleaf, htake]
      rfl
    · show b.disk.length = _
      rw [hw.len]; rfl
  · have hp0 : b.prevLeafPid = d0.length + q - 1 := by rw [hw.prev, if_neg hq]
    have hpage := hw.leafAt (q - 1) (by omega)
    have hidx : d0.length + (q - 1) = b.prevLeafPid := by rw [hp0]; omega
    rw [hidx, if_neg (by omega)] at hpage
    have hlt : b.prevLeafPid < b.disk.length := by rw [hp0, hw.len]; omega
    refine ⟨_, flush_leaf_next b _ _ (by rw [hp0]; omega) hpage,
      ⟨?_, ?_, ?_, hch, ?_⟩, rfl, rfl, rfl⟩
    · simp [hw.len]; omega
    · intro j hj
      show ((b.disk ++ [Page.leaf b.leaf]).set b.prevLeafPid _)[j]? = _
      rw [List.getElem?_set_ne (by rw [hp0]; omega),
        List.getElem?_append_left (by rw [hw.len]; omega)]
      exact hw.old j hj
    · intro i hi
      show ((b.disk ++ [Page.leaf b.leaf]).set b.prevLeafPid _)[d0.length + i]? = _
      by_cases hiq : i = q
      · subst hiq
        have : d0.length + i = b.disk.length := by rw [hw.len]
        rw [List.getElem?_set_ne (by rw [hp0]; omega), this, List.getElem?_concat_length,
          hleaf, htake, if_neg (by omega)]
      · by_cases hiq1 : i = q - 1
        · subst hiq1
          have hlen1 : b.disk.length = b.prevLeafPid + 1 := by rw [hp0, hw.len]; omega
          rw [hidx, List.getElem?_set, if_pos rfl,
            if_pos (by rw [List.length_append]; simp; omega), if_pos (by omega), hlen1]
        · rw [List.getElem?_set_ne (by rw [hp0]; omega),
            List.getElem?_append_left (by rw [hw.len]; omega), hw.leafAt i (by omega),
            if_pos (by omega), if_pos (by omega)]
    · show b.disk.length = _
      rw [hw.len, if_neg (by omega)]; omega

/-- The leaf pass on records that it accepts: the leaves written hold the entries read, in
runs of `LEAF_CAPACITY`, and the buffer holds the rest. -/
theorem leafPass_written (d0 : List Page) (h0 : 0 < d0.length) (input : List (Int × Bytes)) :
    ∀ (b : BulkState) (E : List LeafEntry) (q : Nat) (b1 : BulkState),
      Written d0 b E q → b.leaf = ⟨0, 0, E.drop (LEAF_CAPACITY * q)⟩ →
      LEAF_CAPACITY * q ≤ E.length → E.length < LEAF_CAPACITY * q + LEAF_CAPACITY →
      leafPass b input = some (Sum.inr b1) →
      ∃ q1, Written d0 b1 (E ++ input.map entryOf) q1 ∧
        b1.leaf = ⟨0, 0, (E ++ input.map entryOf).drop (LEAF_CAPACITY * q1)⟩ ∧
        LEAF_CAPACITY * q1 ≤ (E ++ input.map entryOf).length ∧
        (E ++ input.map entryOf).length < LEAF_CAPACITY * q1 + LEAF_CAPACITY := by
  induction input with
  | nil =>
    intro b E q b1 hw hleaf h1 h2 h
    simp only [leafPass, Option.some.injEq, Sum.inr.injEq] at h
    subst h
    simp only [List.map_nil, List.append_nil]
    exact ⟨q, hw, hleaf, h1, h2⟩
  | cons r rest ih =>
    intro b E q b1 hw hleaf h1 h2 h
    obtain ⟨key, val⟩ := r
    have hE : E ++ List.map entryOf ((key, val) :: rest)
        = (E ++ [(⟨key, pad8 val⟩ : LeafEntry)]) ++ List.map entryOf rest := by
      simp [entryOf]
    rw [hE]
    have hlen : (E ++ [(⟨key, pad8 val⟩ : LeafEntry)]).length = E.length + 1 := by simp
    have hslots : b.leaf.slots ++ [(⟨key, pad8 val⟩ : LeafEntry)]
        = (E ++ [(⟨key, pad8 val⟩ : LeafEntry)]).drop (LEAF_CAPACITY * q) := by
      rw [hleaf, List.drop_append_of_le_length h1]
    have hleaf1 : ({ b.leaf with slots := b.leaf.slots ++ [⟨key, pad8 val⟩] } : LeafPage)
        = ⟨0, 0, (E ++ [(⟨key, pad8 val⟩ : LeafEntry)]).drop (LEAF_CAPACITY * q)⟩ := by
      rw [← hslots, hleaf]
    have hw1 : Written d0
        { b with firstKeySet := true, prevKey := key,
                 leaf := { b.leaf with slots := b.leaf.slots ++ [⟨key, pad8 val⟩] } }
        (E ++ [(⟨key, pad8 val⟩ : LeafEntry)]) q := hw.append _ h1 rfl rfl rfl
    have hcount : ({ b.leaf with slots := b.leaf.slots ++ [⟨key, pad8 val⟩] } : LeafPage).count
        = E.length + 1 - LEAF_CAPACITY * q := by
      unfold LeafPage.count
      simp only []
      rw [hslots, List.length_drop, hlen]
    simp only [leafPass] at h
    split at h
    · cases h
    · split at h
      · rename_i hfull
        rw [hcount] at hfull
        obtain ⟨b2, e2, hw2, hl2, _, _⟩ := flush_written d0 h0 _ _ q hw1 hleaf1
          (by rw [hlen]; omega) (by rw [hlen]; omega)
        rw [e2] at h
        simp only [Option.some_bind] at h
        refine ih b2 _ (q + 1) b1 hw2 ?_ (by rw [hlen, Nat.mul_succ]; omega)
          (by rw [hlen, Nat.mul_succ]; omega) h
        rw [hl2, List.drop_eq_nil_of_le (by rw [hlen, Nat.mul_succ]; omega)]
      · rename_i hfull
        rw [hcount] at hfull
        exact ih _ _ q b1 hw1 hleaf1 (by rw [hlen]; omega) (by rw [hlen]; omega) h

/-! ## Bulk load: the internal nodes it writes -/

theorem setParent_body (d d1 : List Page) (c par : Nat) (h : setParent d c par = some d1) :
    d1.length = d.length ∧ ∀ j, bodyAt d1 j = bodyAt d j := by
  obtain ⟨pg, hpg, hs, _⟩ := setParent_some d d1 c par h
  obtain ⟨d2, e2, l2, b2, _⟩ := setParent_obs d c par ⟨pg, hpg, hs⟩
  rw [h] at e2
  cases e2
  exact ⟨l2, b2⟩

theorem setParents_body (es : List InternalEntry) (d d1 : List Page) (par : Nat)
    (h : setParents d par es = some d1) :
    d1.length = d.length ∧ ∀ j, bodyAt d1 j = bodyAt d j := by
  induction es generalizing d with
  | nil => simp only [setParents, Option.some.injEq] at h; subst h; exact ⟨rfl, fun _ => rfl⟩
  | cons e es ih =>
    simp only [setParents] at h
    obtain ⟨d2, e2, h⟩ := Option.bind_eq_some.1 h
    obtain ⟨l2, b2⟩ := setParent_body _ _ _ _ e2
    obtain ⟨l3, b3⟩ := ih d2 h
    exact ⟨by rw [l3, l2], fun j => by rw [b3, b2]⟩

theorem fromGroup_succ (first : Int × Nat) (rest : List (Int × Nat)) (j : Nat) :
    fromGroup (first :: rest) (j + 1) = fromGroup (rest.drop INTERNAL_CAPACITY) j := by
  unfold fromGroup
  rw [List.drop_drop]
  have : (INTERNAL_CAPACITY + 1) * (j + 1) = (INTERNAL_CAPACITY + (INTERNAL_CAPACITY + 1) * j) + 1 := by
    rw [Nat.mul_succ]; omega
  rw [this, List.drop_succ_cons]

/-- What a completed `build_level` leaves: the pages of the file are as before up to their
`parent` fields, and the `j`-th new page is the node made of the `j`-th group of the level
below, listed in the level above with its promoted key. -/
theorem build_level_layout (fuel : Nat) :
    ∀ (d : List Page) (lower : List (Int × Nat)) (d1 : List Page) (upper : List (Int × Nat)),
      lower.length ≤ fuel → build_level fuel d lower = some (d1, upper) →
      d1.length = d.length + upper.length ∧
      (∀ pid, pid < d.length → bodyAt d1 pid = bodyAt d pid) ∧
      ∀ j, j < upper.length →
        bodyAt d1 (d.length + j) = some (nodeBody (fromGroup lower j)) ∧
        upper.getD j default = (promoteKey (fromGroup lower j), d.length + j) := by
  induction fuel with
  | zero =>
    intro d lower d1 upper _ h
    simp only [build_level, Option.some.injEq, Prod.mk.injEq] at h
    obtain ⟨rfl, rfl⟩ := h
    exact ⟨rfl, fun _ _ => rfl, fun j hj => by simp at hj⟩
  | succ f ih =>
    intro d lower d1 upper hf h
    cases lower with
    | nil =>
      simp only [build_level, Option.some.injEq, Prod.mk.injEq] at h
      obtain ⟨rfl, rfl⟩ := h
      exact ⟨rfl, fun _ _ => rfl, fun j hj => by simp at hj⟩
    | cons first rest =>
      simp only [build_level, allocatePage_fst] at h
      obtain ⟨da, e1, h⟩ := Option.bind_eq_some.1 h
      obtain ⟨db, e2, h⟩ := Option.bind_eq_some.1 h
      obtain ⟨r, e3, h⟩ := Option.bind_eq_some.1 h
      simp only [Option.some.injEq, Prod.mk.injEq] at h
      obtain ⟨rfl, rfl⟩ := h
      obtain ⟨la, ba⟩ := setParent_body _ _ _ _ e1
      obtain ⟨lb, bb⟩ := setParents_body _ _ _ _ e2
      have hla : da.length = d.length + 1 := by rw [la]; simp [allocatePage]
      have hlb : db.length = d.length + 1 := by rw [lb, hla]
      have hba : ∀ j, bodyAt db j = if j = d.length then some zeroPage.body else bodyAt d j := by
        intro j; rw [bb, ba]; exact bodyAt_append d j zeroPage
      obtain ⟨l3, b3, u3⟩ := ih _ _ _ _ (by simp at hf ⊢; omega) e3
      have hl3 : (writeInternal db d.length
          { parent := 0, leftmost := first.2,
            slots := (rest.take INTERNAL_CAPACITY).map fun e => ⟨e.1, e.2⟩ }).length
          = d.length + 1 := by
        simp [writeInternal, writePage, hlb]
      rw [hl3] at l3 b3 u3
      have hbw : ∀ j, bodyAt (writeInternal db d.length
          { parent := 0, leftmost := first.2,
            slots := (rest.take INTERNAL_CAPACITY).map fun e => ⟨e.1, e.2⟩ }) j
          = if j = d.length then some (Body.internal first.2
              ((rest.take INTERNAL_CAPACITY).map fun e => ⟨e.1, e.2⟩)) else bodyAt d j := by
        intro j
        unfold writeInternal writePage
        rw [bodyAt_set _ _ _ _ (by omega), hba]
        by_cases hj : j = d.length
        · simp [hj, Page.body]
        · simp [hj]
      refine ⟨by rw [l3]; simp; omega, fun pid hp => ?_, fun j hj => ?_⟩
      · rw [b3 pid (by omega), hbw, if_neg (by omega)]
      · cases j with
        | zero =>
          refine ⟨?_, ?_⟩
          · rw [Nat.add_zero, b3 _ (by omega), hbw, if_pos rfl]
            simp [nodeBody, fromGroup]
          · simp only [List.getD_cons_zero, promoteKey, fromGroup, Nat.mul_zero, List.drop_zero,
              List.length_cons, InternalPage.count, List.length_map, List.length_take,
              Nat.add_zero]
            cases rest with
            | nil => simp
            | cons a as => simp [INTERNAL_CAPACITY_eq]
        | succ j =>
          have := u3 j (by simpa using hj)
          rw [fromGroup_succ, List.getD_cons_succ]
          have hidx : d.length + (j + 1) = d.length + 1 + j := by omega
          rw [hidx]
          exact this

theorem nodeBody_internal (g : List (Int × Nat)) :
    ∃ lm sl, nodeBody g = Body.internal lm sl := ⟨_, _, rfl⟩

/-- The upper pass ends with a level of one entry, the root; the pages the file had before
keep their bodies and every page added is an internal page, the last one the root. -/
theorem upperPass_layout (fuel : Nat) :
    ∀ (d : List Page) (level : List (Int × Nat)),
      level.length ≤ fuel → level ≠ [] → (∀ e ∈ level, isNode d e.2) →
      ∃ d1 root, upperPass fuel d level = some (d1, [root]) ∧ d.length ≤ d1.length ∧
        (∀ pid, pid < d.length → bodyAt d1 pid = bodyAt d pid) ∧
        (∀ pid, d.length ≤ pid → pid < d1.length →
          ∃ lm sl, bodyAt d1 pid = some (Body.internal lm sl)) ∧
        (1 < level.length → root.2 + 1 = d1.length) ∧
        (level.length = 1 → d1 = d ∧ [root] = level) := by
  induction fuel with
  | zero =>
    intro d level hf h0 _
    exact absurd (List.length_eq_zero.1 (by omega)) h0
  | succ f ih =>
    intro d level hf h0 hn
    simp only [upperPass]
    by_cases h1 : level.length > 1
    · rw [if_pos h1]
      obtain ⟨da, upper, hb, hu, _, hlen⟩ := build_level_spec level.length d level le_rfl hn
      obtain ⟨la, ba, ua⟩ := build_level_layout _ _ _ _ _ le_rfl hb
      rw [hb]
      simp only [Option.some_bind]
      rw [INTERNAL_CAPACITY_eq] at hlen
      have hune : upper ≠ [] := by
        intro hc; rw [hc] at hlen; simp at hlen; omega
      obtain ⟨d1, root, e1, l1, b1, i1, r1, s1⟩ := ih da upper (by omega) hune hu
      refine ⟨d1, root, e1, by omega, fun pid hp => ?_, fun pid hp1 hp2 => ?_, fun _ => ?_,
        fun h => by omega⟩
      · rw [b1 pid (by omega), ba pid hp]
      · by_cases hp3 : pid < da.length
        · obtain ⟨lm, sl, hnb⟩ := nodeBody_internal (fromGroup level (pid - d.length))
          have := (ua (pid - d.length) (by omega)).1
          rw [hnb] at this
          have hidx : d.length + (pid - d.length) = pid := by omega
          rw [hidx] at this
          exact ⟨lm, sl, by rw [b1 pid hp3, this]⟩
        · exact i1 pid (by omega) hp2
      · by_cases h2 : 1 < upper.length
        · exact r1 h2
        · have h3 : upper.length = 1 := by
            have := List.length_pos.2 hune
            omega
          obtain ⟨rfl, hroot⟩ := s1 h3
          have := (ua 0 (by omega)).2
          rw [← hroot] at this
          simp only [List.getD_cons_zero] at this
          rw [this, la, h3]
          rfl
    · rw [if_neg h1]
      have h2 : level.length = 1 := by
        have := List.length_pos.2 h0
        omega
      obtain ⟨root, hroot⟩ := List.length_eq_one.1 h2
      subst hroot
      exact ⟨d, root, rfl, le_rfl, fun _ _ => rfl, fun pid h3 h4 => by omega,
        fun h => by simp at h, fun _ => ⟨rfl, rfl⟩⟩

theorem Written.childNodes {d0 : List Page} {b : BulkState} {E : List LeafEntry} {q : Nat}
    (hw : Written d0 b E q) : ∀ e ∈ b.child_list, isNode b.disk e.2 := by
  intro e he
  rw [hw.children] at he
  obtain ⟨i, hi, rfl⟩ := List.mem_map.1 he
  exact ⟨_, hw.leafAt i (List.mem_range.1 hi), rfl⟩

theorem Written.init (d0 : List Page) : Written d0 { disk := d0 } [] 0 where
  len := rfl
  old := fun _ _ => rfl
  leafAt := fun i hi => by omega
  children := rfl
  prev := rfl

/-- A bulk load of a non-empty input without descent into a file with at least one page:
the leaf pass writes the entries in runs of `LEAF_CAPACITY` onto new pages, the upper pass
adds internal pages above them and ends with one root. -/
theorem bulk_layout (t : Tree) (input : List (Int × Bytes)) (h0 : 0 < t.disk.length)
    (hne : input ≠ []) (hs : ¬ hasDescent input) :
    ∃ (b : BulkState) (m : Nat) (d1 : List Page) (root : Int × Nat),
      Written t.disk b (input.map entryOf) m ∧ 0 < m ∧
      LEAF_CAPACITY * (m - 1) < input.length ∧ input.length ≤ LEAF_CAPACITY * m ∧
      upperPass m b.disk b.child_list = some (d1, [root]) ∧
      b.child_list.length = m ∧ b.disk.length ≤ d1.length ∧
      (∀ pid, pid < b.disk.length → bodyAt d1 pid = bodyAt b.disk pid) ∧
      (∀ pid, b.disk.length ≤ pid → pid < d1.length →
        ∃ lm sl, bodyAt d1 pid = some (Body.internal lm sl)) ∧
      (1 < m → root.2 + 1 = d1.length) ∧ (m = 1 → d1 = b.disk ∧ [root] = b.child_list) ∧
      bulkLoadCSV t input = BulkResult.ok
        ⟨{ t.sb with root := root.2 }, writeSuper d1 { t.sb with root := root.2 }⟩ := by
  have hv : BulkState.Valid { disk := t.disk } := ⟨fun h => absurd rfl h, by simp⟩
  obtain ⟨b1, hb1, _⟩ := (leafPass_spec input { disk := t.disk } hv).2
    (by simpa [BulkState.prev, hasDescent_iff] using hs)
  obtain ⟨q1, hw1, hl1, c1, c2⟩ := leafPass_written t.disk h0 input { disk := t.disk } [] 0 b1
    (Written.init t.disk) rfl (by simp) (by simp [LEAF_CAPACITY_eq]) hb1
  rw [List.nil_append] at hw1 hl1 c1 c2
  rw [List.length_map] at c1 c2
  have hpos : 0 < input.length := List.length_pos.2 hne
  have hcount : b1.leaf.count = input.length - LEAF_CAPACITY * q1 := by
    unfold LeafPage.count
    rw [hl1]; simp
  have k1 := c1
  have k2 := c2
  have kc := hcount
  rw [LEAF_CAPACITY_eq] at k1 k2 kc
  have hfl : ∃ b2 m, (if b1.leaf.count > 0 then flush_leaf b1 (b1.leaf.slots.getD 0 default).key
      else some b1) = some b2 ∧ Written t.disk b2 (input.map entryOf) m ∧ 0 < m ∧
      LEAF_CAPACITY * (m - 1) < input.length ∧ input.length ≤ LEAF_CAPACITY * m := by
    by_cases hc : b1.leaf.count > 0
    · rw [if_pos hc]
      rw [kc] at hc
      obtain ⟨b2, e2, hw2, _⟩ := flush_written t.disk h0 b1 _ q1 hw1 hl1
        (by rw [List.length_map, LEAF_CAPACITY_eq]; omega)
        (by rw [List.length_map, LEAF_CAPACITY_eq]; omega)
      refine ⟨b2, q1 + 1, e2, hw2, by omega, ?_, ?_⟩
      · simp only [Nat.add_sub_cancel]; rw [LEAF_CAPACITY_eq]; omega
      · rw [Nat.mul_succ, LEAF_CAPACITY_eq]; omega
    · rw [if_neg hc]
      rw [kc] at hc
      have hq : 0 < q1 := by omega
      refine ⟨b1, q1, rfl, hw1, hq, ?_, by rw [LEAF_CAPACITY_eq]; omega⟩
      rw [LEAF_CAPACITY_eq]
      omega
  obtain ⟨b2, m, e2, hw2, hm, hm1, hm2⟩ := hfl
  have hlen : b2.child_list.length = m := by rw [hw2.children]; simp
  have hcne : b2.child_list ≠ [] := by
    intro hc; rw [hc] at hlen; simp at hlen; omega
  have he : ¬ b2.child_list.isEmpty = true := by
    intro hc; exact hcne (List.isEmpty_iff.1 hc)
  obtain ⟨d1, root, e3, l3, b3, i3, r3, s3⟩ :=
    upperPass_layout m b2.disk b2.child_list (by omega) hcne hw2.childNodes
  rw [hlen] at r3 s3
  refine ⟨b2, m, d1, root, hw2, hm, hm1, hm2, e3, hlen, l3, b3, i3, r3, s3, ?_⟩
  rw [← hlen] at e3
  simp only [bulkLoadCSV, hb1, e2, he, e3]
  rfl

/-- Following `next` through leaves that hold consecutive runs of the entries `E` reads
`E` from the first entry of the leaf the walk starts at. -/
theorem leafChain_runs (d : List Page) (n0 m : Nat) (E : List LeafEntry) (hn : 0 < n0)
    (hE : E.length ≤ LEAF_CAPACITY * m)
    (hb : ∀ i, i < m → bodyAt d (n0 + i) = some (Body.leaf
      (if i + 1 < m then n0 + i + 1 else 0) ((E.drop (LEAF_CAPACITY * i)).take LEAF_CAPACITY))) :
    ∀ k i fuel, i + k + 1 = m → k < fuel →
      leafChain d fuel (n0 + i) = some (E.drop (LEAF_CAPACITY * i)) := by
  intro k
  induction k with
  | zero =>
    intro i fuel hi hf
    obtain ⟨f, rfl⟩ : ∃ f, fuel = f + 1 := ⟨fuel - 1, by omega⟩
    obtain ⟨p, hp, hnx, hsl⟩ := bodyAt_leaf_some _ _ _ _ (hb i (by omega))
    rw [if_neg (by omega)] at hnx
    simp only [leafChain, hp, hnx, if_true, hsl]
    rw [List.take_of_length_le]
    rw [List.length_drop]
    have : LEAF_CAPACITY * m = LEAF_CAPACITY * i + LEAF_CAPACITY := by
      rw [← hi, Nat.add_zero, Nat.mul_succ]
    omega
  | succ k ih =>
    intro i fuel hi hf
    obtain ⟨f, rfl⟩ : ∃ f, fuel = f + 1 := ⟨fuel - 1, by omega⟩
    obtain ⟨p, hp, hnx, hsl⟩ := bodyAt_leaf_some _ _ _ _ (hb i (by omega))
    rw [if_pos (by omega)] at hnx
    have hne : p.next ≠ 0 := by omega
    simp only [leafChain, hp, hne, if_false, hsl]
    rw [hnx, Nat.add_assoc, ih (i + 1) f (by omega) (by omega)]
    simp only [Option.map_some', Option.some.injEq]
    have : LEAF_CAPACITY * (i + 1) = LEAF_CAPACITY * i + LEAF_CAPACITY := Nat.mul_succ _ _
    rw [this, ← List.drop_drop, List.take_append_drop]

/-- C14: for every non-empty input whose keys never descend, loaded into a file that has
at least the superblock page, the bulk load completes, and the leaf chain that starts at
the first leaf written (the first page past the old end of the file) and follows `next`
until `next = 0` holds exactly the entries `(key, pad8 value)` of the input, in input
order. -/
theorem C14_bulk_leaf_chain_holds_input (t : Tree) (input : List (Int × Bytes))
    (h0 : 0 < t.disk.length) (hne : input ≠ []) (hs : ¬ hasDescent input) :
    ∃ t1, bulkLoadCSV t input = BulkResult.ok t1 ∧
      leafChain t1.disk t1.disk.length t.disk.length
        = some (input.map fun r => ⟨r.1, pad8 r.2⟩) := by
  obtain ⟨b, m, d1, root, hw, hm, hm1, hm2, _, _, l3, b3, _, _, _, e⟩ :=
    bulk_layout t input h0 hne hs
  refine ⟨_, e, ?_⟩
  have hlt : 0 < d1.length := by have := hw.len; omega
  have hlen : (writeSuper d1 { t.sb with root := root.2 }).length = d1.length := by
    simp [writeSuper, writePage]
  have hbody : ∀ i, i < m → bodyAt (writeSuper d1 { t.sb with root := root.2 })
      (t.disk.length + i) = some (Body.leaf
        (if i + 1 < m then t.disk.length + i + 1 else 0)
        (((input.map entryOf).drop (LEAF_CAPACITY * i)).take LEAF_CAPACITY)) := by
    intro i hi
    unfold writeSuper writePage
    rw [bodyAt_set _ _ _ _ hlt, if_neg (by omega), b3 _ (by rw [hw.len]; omega),
      bodyAt_leaf _ _ _ (hw.leafAt i hi)]
  have := leafChain_runs _ t.disk.length m (input.map entryOf) h0
    (by rw [List.length_map]; exact hm2) hbody (m - 1) 0
    (writeSuper d1 { t.sb with root := root.2 }).length (by omega)
    (by rw [hlen]; have := hw.len; omega)
  rw [Nat.add_zero, Nat.mul_zero, List.drop_zero] at this
  exact this

theorem ascending_getD (first : Int) (n : Nat) (v : Bytes) (i : Nat) (hi : i < n) :
    (ascending first n v).getD i default = (first + (i : Int), v) := by
  simp [ascending, List.getD_eq_getElem?_getD, List.getElem?_range hi]

theorem ascending_length (first : Int) (n : Nat) (v : Bytes) :
    (ascending first n v).length = n := by
  simp [ascending]

theorem ascending_no_descent (first : Int) (n : Nat) (v : Bytes) :
    ¬ hasDescent (ascending first n v) := by
  rintro ⟨i, hi, h⟩
  rw [ascending_length] at hi
  rw [ascending_getD _ _ _ _ hi, ascending_getD _ _ _ _ (by omega)] at h
  simp only at h
  omega

theorem ascending_ne_nil (first : Int) (n : Nat) (v : Bytes) (hn : 0 < n) :
    ascending first n v ≠ [] := by
  intro h
  have := ascending_length first n v
  rw [h] at this
  simp at this
  omega

/-- C14 at the keys 1, 2, ..., 10000 loaded into a fresh file: the chain from page 2 holds
the 10000 entries in order. -/
theorem C14_witness :
    ∃ t1, bulkLoadCSV (BPlusTree.open []) (ascending 1 10000 [0x61]) = BulkResult.ok t1 ∧
      leafChain t1.disk t1.disk.length 2
        = some ((ascending 1 10000 [0x61]).map fun r => ⟨r.1, pad8 r.2⟩) :=
  C14_bulk_leaf_chain_holds_input (BPlusTree.open []) (ascending 1 10000 [0x61]) (by decide)
    (ascending_ne_nil 1 10000 _ (by decide)) (ascending_no_descent 1 10000 _)

/-- The node made of the entries at the head of a non-empty `g` has the first
`INTERNAL_CAPACITY + 1` entries of `g` as children. -/
theorem nodeBody_children (g : List (Int × Nat)) (hg : g ≠ []) :
    kids (g.getD 0 default).2 (((g.drop 1).take INTERNAL_CAPACITY).map fun e => ⟨e.1, e.2⟩)
      = (g.take (INTERNAL_CAPACITY + 1)).map Prod.snd := by
  cases g with
  | nil => exact absurd rfl hg
  | cons a as => simp [kids, List.take_succ_cons, Function.comp_def]

/-- One step of the upper pass on a level of more than one node: the level is cut into
consecutive groups of `INTERNAL_CAPACITY + 1` children, one new internal page per group,
all full except possibly the last, and there are fewer groups than nodes. -/
theorem build_level_groups (d : List Page) (lower : List (Int × Nat)) (h1 : 1 < lower.length)
    (hn : ∀ e ∈ lower, isNode d e.2) :
    ∃ d1 upper, build_level lower.length d lower = some (d1, upper) ∧
      upper.length = (lower.length + INTERNAL_CAPACITY) / (INTERNAL_CAPACITY + 1) ∧
      upper.length < lower.length ∧ d1.length = d.length + upper.length ∧
      ∀ j, j < upper.length → ∃ n, d1[d.length + j]? = some (Page.internal n) ∧
        n.children = ((lower.drop ((INTERNAL_CAPACITY + 1) * j)).take
          (INTERNAL_CAPACITY + 1)).map Prod.snd ∧
        (j + 1 < upper.length → n.count = INTERNAL_CAPACITY) ∧
        n.count ≤ INTERNAL_CAPACITY ∧ (upper.getD j default).2 = d.length + j := by
  obtain ⟨d1, upper, hb, _, _, hlen⟩ := build_level_spec lower.length d lower le_rfl hn
  obtain ⟨la, _, ua⟩ := build_level_layout _ _ _ _ _ le_rfl hb
  have hlen2 := hlen
  rw [INTERNAL_CAPACITY_eq] at hlen2
  refine ⟨d1, upper, hb, hlen, by omega, la, fun j hj => ?_⟩
  obtain ⟨hbody, hup⟩ := ua j hj
  obtain ⟨n, hn1, hlm, hsl⟩ := bodyAt_internal_some _ _ _ _ hbody
  have hglen : (fromGroup lower j).length = lower.length - 340 * j := by
    simp [fromGroup, INTERNAL_CAPACITY_eq]
  have hgne : fromGroup lower j ≠ [] := by
    intro hc; rw [hc] at hglen; simp at hglen; omega
  have hcount : n.count = min 339 (lower.length - 340 * j - 1) := by
    unfold InternalPage.count
    rw [hsl]
    simp [hglen, INTERNAL_CAPACITY_eq]
  refine ⟨n, hn1, ?_, fun hj1 => ?_, ?_, by rw [hup]⟩
  · unfold InternalPage.children
    rw [hlm, hsl, nodeBody_children _ hgne]
    rfl
  · rw [hcount, INTERNAL_CAPACITY_eq]; omega
  · rw [hcount, INTERNAL_CAPACITY_eq]; omega

/-- C19: a bulk load of a non-empty input of `n` records whose keys never descend, into a
file that has at least the superblock page, completes. The leaf pass writes
`ceil(n / LEAF_CAPACITY)` leaves onto the pages after the old end of the file, all but the
last with `LEAF_CAPACITY` entries and the last with between 1 and `LEAF_CAPACITY`; every
page after them is internal and the root is the last page of the file. Each step of the
upper pass on a level of `m > 1` nodes cuts it into consecutive groups of
`INTERNAL_CAPACITY + 1` children, making `ceil(m / (INTERNAL_CAPACITY + 1)) < m` internal
pages, all with `count = INTERNAL_CAPACITY` except possibly the last; and the upper pass
on any non-empty level ends with exactly one root. -/
theorem C19_bulk_load_packing (t : Tree) (input : List (Int × Bytes))
    (h0 : 0 < t.disk.length) (hne : input ≠ []) (hs : ¬ hasDescent input) :
    ∃ t1 m, bulkLoadCSV t input = BulkResult.ok t1 ∧
      m = (input.length + LEAF_CAPACITY - 1) / LEAF_CAPACITY ∧
      (∀ i, i < m → ∃ p, t1.disk[t.disk.length + i]? = some (Page.leaf p) ∧
        (i + 1 < m → p.count = LEAF_CAPACITY) ∧ 1 ≤ p.count ∧ p.count ≤ LEAF_CAPACITY) ∧
      (∀ pid, t.disk.length + m ≤ pid → pid < t1.disk.length →
        ∃ n, t1.disk[pid]? = some (Page.internal n)) ∧
      t1.sb.root + 1 = t1.disk.length ∧
      (∀ (d : List Page) (lower : List (Int × Nat)), 1 < lower.length →
        (∀ e ∈ lower, isNode d e.2) →
        ∃ d1 upper, build_level lower.length d lower = some (d1, upper) ∧
          upper.length = (lower.length + INTERNAL_CAPACITY) / (INTERNAL_CAPACITY + 1) ∧
          upper.length < lower.length ∧ d1.length = d.length + upper.length ∧
          ∀ j, j < upper.length → ∃ n, d1[d.length + j]? = some (Page.internal n) ∧
            n.children = ((lower.drop ((INTERNAL_CAPACITY + 1) * j)).take
              (INTERNAL_CAPACITY + 1)).map Prod.snd ∧
            (j + 1 < upper.length → n.count = INTERNAL_CAPACITY) ∧
            n.count ≤ INTERNAL_CAPACITY ∧ (upper.getD j default).2 = d.length + j) ∧
      (∀ (d : List Page) (level : List (Int × Nat)), level ≠ [] →
        (∀ e ∈ level, isNode d e.2) →
        ∃ d1 root, upperPass level.length d level = some (d1, [root])) := by
  obtain ⟨b, m, d1, root, hw, hm, hm1, hm2, _, hcl, l3, b3, i3, r3, s3, e⟩ :=
    bulk_layout t input h0 hne hs
  have hlt : 0 < d1.length := by have := hw.len; omega
  have hlen : (writeSuper d1 { t.sb with root := root.2 }).length = d1.length := by
    simp [writeSuper, writePage]
  have hbody : ∀ pid, 0 < pid → bodyAt (writeSuper d1 { t.sb with root := root.2 }) pid
      = bodyAt d1 pid := by
    intro pid hp
    unfold writeSuper writePage
    rw [bodyAt_set _ _ _ _ hlt, if_neg (by omega)]
  have k1 := hm1
  have k2 := hm2
  rw [LEAF_CAPACITY_eq] at k1 k2
  refine ⟨_, m, e, ?_, fun i hi => ?_, fun pid hp1 hp2 => ?_, ?_,
    fun d lower h1 hn => build_level_groups d lower h1 hn,
    fun d level hl hn => ?_⟩
  · rw [LEAF_CAPACITY_eq]; omega
  · have hbi : bodyAt (writeSuper d1 { t.sb with root := root.2 }) (t.disk.length + i)
        = some (Body.leaf (if i + 1 < m then t.disk.length + i + 1 else 0)
          (((input.map entryOf).drop (LEAF_CAPACITY * i)).take LEAF_CAPACITY)) := by
      rw [hbody _ (by omega), b3 _ (by rw [hw.len]; omega), bodyAt_leaf _ _ _ (hw.leafAt i hi)]
    obtain ⟨p, hp, _, hsl⟩ := bodyAt_leaf_some _ _ _ _ hbi
    have hcount : p.count = min 339 (input.length - 339 * i) := by
      unfold LeafPage.count
      rw [hsl]
      simp [LEAF_CAPACITY_eq]
    refine ⟨p, hp, fun hi1 => ?_, ?_, ?_⟩
    · rw [hcount, LEAF_CAPACITY_eq]; omega
    · rw [hcount]; omega
    · rw [hcount, LEAF_CAPACITY_eq]; omega
  · rw [hlen] at hp2
    obtain ⟨lm, sl, hb⟩ := i3 pid (by rw [hw.len]; omega) hp2
    rw [← hbody pid (by omega)] at hb
    obtain ⟨n, hn1, _, _⟩ := bodyAt_internal_some _ _ _ _ hb
    exact ⟨n, hn1⟩
  · show root.2 + 1 = (writeSuper d1 { t.sb with root := root.2 }).length
    rw [hlen]
    by_cases h1 : 1 < m
    · exact r3 h1
    · have hm1 : m = 1 := by omega
      obtain ⟨rfl, hroot⟩ := s3 hm1
      rw [hw.children, hm1] at hroot
      have hr1 : List.range 1 = [0] := rfl
      simp only [hr1, List.map_cons, List.map_nil, List.cons.injEq, and_true] at hroot
      rw [hroot, hw.len, hm1]
      rfl
  · obtain ⟨d2, root2, e2, _⟩ := upperPass_layout level.length d level le_rfl hl hn
    exact ⟨d2, root2, e2⟩

/-- C19 at the records 1, 2, ..., 1000 loaded into a fresh file: three leaves on the
pages 2, 3, 4, and one internal page, the root, on page 5. -/
theorem C19_witness :
    ∃ t1, bulkLoadCSV (BPlusTree.open []) (ascending 1 1000 [0x61]) = BulkResult.ok t1 ∧
      (∀ i, i < 3 → ∃ p, t1.disk[2 + i]? = some (Page.leaf p) ∧
        (i + 1 < 3 → p.count = LEAF_CAPACITY) ∧ 1 ≤ p.count ∧ p.count ≤ LEAF_CAPACITY) ∧
      t1.sb.root + 1 = t1.disk.length := by
  obtain ⟨t1, m, e, hm, h1, _, h3, _⟩ :=
    C19_bulk_load_packing (BPlusTree.open []) (ascending 1 1000 [0x61]) (by decide)
      (ascending_ne_nil 1 1000 _ (by decide)) (ascending_no_descent 1 1000 _)
  have hm3 : m = 3 := by rw [hm, ascending_length]; decide
  subst hm3
  exact ⟨t1, e, h1, h3⟩

theorem upperPass_step (f : Nat) (d d1 : List Page) (level upper : List (Int × Nat))
    (h1 : 1 < level.length) (hb : build_level level.length d level = some (d1, upper)) :
    upperPass (f + 1) d level = upperPass f d1 upper := by
  simp only [upperPass, gt_iff_lt, h1, if_true, hb, Option.some_bind]

theorem upperPass_done (f : Nat) (d : List Page) (level : List (Int × Nat))
    (h1 : level.length = 1) : upperPass (f + 1) d level = some (d, level) := by
  simp only [upperPass, h1, gt_iff_lt, lt_irrefl, if_false]

theorem entries_getD (first : Int) (n : Nat) (v : Bytes) (i : Nat) (hi : i < n) :
    ((ascending first n v).map entryOf).getD i default = ⟨first + (i : Int), pad8 v⟩ := by
  simp [ascending, entryOf, List.getD_eq_getElem?_getD, List.getElem?_range hi]

/-- The upper pass over a level of 342 nodes: the first step makes two internal pages, of
the first 340 nodes and of the last two; the second step makes the root over these two.
The separator the root holds for the second page is the key of the last node of the
level, and the leftmost child of the second page is the node before it. -/
theorem upperPass_342 (d : List Page) (level : List (Int × Nat)) (hl : level.length = 342)
    (hn : ∀ e ∈ level, isNode d e.2) :
    ∃ d1 root, upperPass 342 d level = some (d1, [root]) ∧ root.2 = d.length + 2 ∧
      d1.length = d.length + 3 ∧
      (∀ pid, pid < d.length → bodyAt d1 pid = bodyAt d pid) ∧
      bodyAt d1 (d.length + 2) = some (Body.internal (d.length)
        [⟨(level.getD 341 default).1, d.length + 1⟩]) ∧
      bodyAt d1 (d.length + 1) = some (Body.internal (level.getD 340 default).2
        [⟨(level.getD 341 default).1, (level.getD 341 default).2⟩]) := by
  obtain ⟨da, upper, hb, hu, _, hlen⟩ := build_level_spec level.length d level le_rfl hn
  obtain ⟨la, ba, ua⟩ := build_level_layout _ _ _ _ _ le_rfl hb
  rw [hl, INTERNAL_CAPACITY_eq] at hlen
  have hlen2 : upper.length = 2 := by rw [hlen]
  obtain ⟨u0, u1, rfl⟩ := List.length_eq_two.1 hlen2
  obtain ⟨db, upper2, hb2, _, _, hlenb⟩ := build_level_spec [u0, u1].length da [u0, u1] le_rfl hu
  obtain ⟨lb, bb, ub⟩ := build_level_layout _ _ _ _ _ le_rfl hb2
  simp only [List.length_cons, List.length_nil, INTERNAL_CAPACITY_eq] at hlenb
  have hlenb1 : upper2.length = 1 := by rw [hlenb]
  obtain ⟨r0, rfl⟩ := List.length_eq_one.1 hlenb1
  have e1 : upperPass 342 d level = upperPass 341 da [u0, u1] :=
    upperPass_step 341 d da level _ (by rw [hl]; decide) hb
  have e2 : upperPass 341 da [u0, u1] = upperPass 340 db [r0] :=
    upperPass_step 340 da db _ _ (by simp) hb2
  have e3 : upperPass 340 db [r0] = some (db, [r0]) := upperPass_done 339 db _ rfl
  have hu0 := (ua 0 (by simp)).2
  have hu1 := (ua 1 (by simp)).2
  have hbody1 := (ua 1 (by simp)).1
  have hr0 := (ub 0 (by simp)).2
  have hbodyr := (ub 0 (by simp)).1
  simp only [List.getD_cons_zero, List.getD_cons_succ] at hu0 hu1 hr0
  simp only [List.length_cons, List.length_nil] at la lb
  -- the two entries of the last group
  obtain ⟨g0, g1, hg⟩ : ∃ g0 g1, fromGroup level 1 = [g0, g1] := by
    apply List.length_eq_two.1
    simp [fromGroup, INTERNAL_CAPACITY_eq, hl]
  have hg0 : level.getD 340 default = g0 := by
    have := congrArg (fun l => l.getD 0 default) hg
    simpa [fromGroup, INTERNAL_CAPACITY_eq, List.getD_eq_getElem?_getD, List.getElem?_drop]
      using this
  have hg1 : level.getD 341 default = g1 := by
    have := congrArg (fun l => l.getD 1 default) hg
    simpa [fromGroup, INTERNAL_CAPACITY_eq, List.getD_eq_getElem?_getD, List.getElem?_drop]
      using this
  rw [hg] at hu1 hbody1
  have hp1 : promoteKey [g0, g1] = g1.1 := by simp [promoteKey]
  rw [hp1] at hu1
  refine ⟨db, r0, by rw [e1, e2, e3], ?_, by omega, fun pid hp => ?_, ?_, ?_⟩
  · rw [hr0, la]
  · rw [bb pid (by omega), ba pid hp]
  · have : d.length + 2 = da.length + 0 := by omega
    rw [this, hbodyr, hu0, hu1, hg1]
    simp [nodeBody, fromGroup, INTERNAL_CAPACITY_eq]
  · rw [bb _ (by omega), hbody1, hg0, hg1]
    simp [nodeBody, INTERNAL_CAPACITY_eq]

theorem Written.child_getD {d0 : List Page} {b : BulkState} {E : List LeafEntry} {q : Nat}
    (hw : Written d0 b E q) (i : Nat) (hi : i < q) :
    b.child_list.getD i default = ((E.getD (LEAF_CAPACITY * i) default).key, d0.length + i) := by
  rw [hw.children]
  simp [List.getD_eq_getElem?_getD, List.getElem?_range hi]

/-- C13 (evaluation at the failing input): a bulk load of the strictly increasing records
(1,"a"), ..., (115600,"a") into a fresh file makes 342 leaves (pages 2..343), two internal
pages (344, 345) and the root (346). The root holds the entry `(115600, 345)`, but the
subtree of page 345 starts with the leaf on page 342, whose first key is 115261, below
the separator. -/
theorem C13_bulk_separator_above_subtree_key :
    ∃ (t1 : Tree) (rootPage c : InternalPage) (leaf : LeafPage),
      bulkLoadCSV (BPlusTree.open []) (ascending 1 115600 [0x61]) = BulkResult.ok t1 ∧
      t1.disk[t1.sb.root]? = some (Page.internal rootPage) ∧
      rootPage.slots = [⟨115600, 345⟩] ∧
      t1.disk[345]? = some (Page.internal c) ∧ c.leftmost = 342 ∧
      t1.disk[342]? = some (Page.leaf leaf) ∧ (leaf.slots.getD 0 default).key = 115261 := by
  obtain ⟨b, m, d1, root, hw, hm, hm1, hm2, eUp, hcl, _, _, _, _, _, e⟩ :=
    bulk_layout (BPlusTree.open []) (ascending 1 115600 [0x61]) (by decide)
      (ascending_ne_nil 1 115600 _ (by decide)) (ascending_no_descent 1 115600 _)
  rw [ascending_length, LEAF_CAPACITY_eq] at hm1 hm2
  have hm342 : m = 342 := by omega
  subst hm342
  have hN : (BPlusTree.open []).disk.length = 2 := by decide
  have hlen := hw.len
  rw [hN] at hlen
  obtain ⟨d2, root2, eUp2, hroot, l2, b2, br, bc⟩ :=
    upperPass_342 b.disk b.child_list hcl hw.childNodes
  rw [eUp] at eUp2
  simp only [Option.some.injEq, Prod.mk.injEq, List.cons.injEq, and_true] at eUp2
  obtain ⟨rfl, rfl⟩ := eUp2
  have hc341 := hw.child_getD 341 (by decide)
  have hc340 := hw.child_getD 340 (by decide)
  rw [entries_getD 1 115600 _ _ (by rw [LEAF_CAPACITY_eq]; decide), hN] at hc341 hc340
  rw [hc341, hlen] at br bc
  rw [hc340] at bc
  rw [hlen] at hroot l2 b2
  have hlt : 0 < d1.length := by omega
  have hbody : ∀ pid, 0 < pid →
      bodyAt (writeSuper d1 { (BPlusTree.open []).sb with root := root.2 }) pid
        = bodyAt d1 pid := by
    intro pid hp
    unfold writeSuper writePage
    rw [bodyAt_set _ _ _ _ hlt, if_neg (by omega)]
  have hleaf := hw.leafAt 340 (by decide)
  rw [hN] at hleaf
  have bl := bodyAt_leaf _ _ _ hleaf
  rw [← b2 342 (by decide), ← hbody 342 (by decide)] at bl
  rw [← hbody 346 (by decide)] at br
  rw [← hbody 345 (by decide)] at bc
  obtain ⟨rp, hrp, _, hrs⟩ := bodyAt_internal_some _ _ _ _ br
  obtain ⟨c, hc, hcl, _⟩ := bodyAt_internal_some _ _ _ _ bc
  obtain ⟨lf, hlf, _, hls⟩ := bodyAt_leaf_some _ _ _ _ bl
  refine ⟨_, rp, c, lf, e, ?_, ?_, hc, hcl, hlf, ?_⟩
  · have h346 : root.2 = 346 := by rw [hroot]
    rw [← h346] at hrp
    exact hrp
  · rw [hrs]; rfl
  · rw [hls]
    have : ((List.drop (LEAF_CAPACITY * 340) (List.map entryOf (ascending 1 115600 [0x61]))).take
        LEAF_CAPACITY).getD 0 default
        = (List.map entryOf (ascending 1 115600 [0x61])).getD (LEAF_CAPACITY * 340) default := by
      simp [List.getD_eq_getElem?_getD, List.getElem?_take, List.getElem?_drop,
        LEAF_CAPACITY_eq]
    rw [this, entries_getD 1 115600 _ _ (by rw [LEAF_CAPACITY_eq]; decide), LEAF_CAPACITY_eq]
    rfl

/-! ## The page count under inserts -/

theorem insertIntoParent_page_count (f : Nat) (t t1 : Tree) (l : Nat) (s : Int) (r : Nat)
    (hc : t.sb.page_count = t.disk.length) (h : insertIntoParent f t l s r = some t1) :
    t1.sb.page_count = t1.disk.length := by
  induction f generalizing t l s r with
  | zero => simp [insertIntoParent] at h
  | succ f ih =>
    obtain ⟨pg, hl, hs, hcase⟩ := insertIntoParent_some _ _ _ _ _ _ h
    by_cases hroot : pg.parent = 0 ∧ t.sb.root = l
    · rw [insertIntoParent_root f t l s r pg hl hs hroot.1 hroot.2] at h
      obtain ⟨d2, h1, h⟩ := Option.bind_eq_some.1 h
      obtain ⟨d3, h2, h⟩ := Option.bind_eq_some.1 h
      cases h
      have l2 := (setParent_body _ _ _ _ h1).1
      have l3 := (setParent_body _ _ _ _ h2).1
      simp only [writeSuper, writePage, List.length_set, l3, l2, List.length_append,
        List.length_singleton, hc]
    · rcases hcase with hc1 | ⟨P, hP⟩
      · exact absurd hc1 hroot
      · by_cases hfull : P.count = INTERNAL_CAPACITY
        · rw [insertIntoParent_full f t l s r pg P hl hs hroot hP hfull] at h
          obtain ⟨d3, h1, h⟩ := Option.bind_eq_some.1 h
          obtain ⟨d4, h2, h⟩ := Option.bind_eq_some.1 h
          refine ih _ _ _ _ ?_ h
          have l3 := (setParent_body _ _ _ _ h1).1
          have l4 := (setParents_body _ _ _ _ h2).1
          simp only [l4, l3, List.length_set, List.length_append, List.length_singleton, hc]
        · rw [insertIntoParent_room f t l s r pg P hl hs hroot hP hfull] at h
          obtain ⟨d2, h1, h⟩ := Option.bind_eq_some.1 h
          cases h
          have l2 := (setParent_body _ _ _ _ h1).1
          simp only [l2, List.length_set, hc]

theorem insert_page_count (t t1 : Tree) (k : Int) (v : Bytes)
    (hc : t.sb.page_count = t.disk.length) (h : insert t k v = some t1) :
    t1.sb.page_count = t1.disk.length := by
  obtain ⟨L, p, hf, hL⟩ := insert_some t t1 k v h
  rw [insert_eq t k v L p hf hL] at h
  split at h
  · cases h; simp only [List.length_set, hc]
  · split at h
    · cases h; simp only [List.length_set, hc]
    · rw [splitLeafAndInsert_eq t L k (pad8 v) p hL] at h
      refine insertIntoParent_page_count _ _ _ _ _ _ ?_ h
      simp only [List.length_set, List.length_append, List.length_singleton, hc]

/-- After `open` of a fresh file and after every insert, `page_count` in memory is the
number of pages of the file. -/
theorem reachable_page_count (t : Tree) (h : ReachableByInserts t) :
    t.sb.page_count = t.disk.length := by
  induction h with
  | fresh => decide
  | insert k v _ _ hi ih => exact insert_page_count _ _ k v ih hi

/-! ## Balance: consequences of the shape invariant -/

theorem BalPageOK_leaf (d : List Page) (g : Levels) (pid nxt : Nat)
    (slots : List LeafEntry) (hb : bodyAt d pid = some (Body.leaf nxt slots)) :
    BalPageOK d g pid ↔ (g.lvl pid = 0 ∧ slots.length ≤ LEAF_CAPACITY) := by
  simp [BalPageOK, hb]

theorem BalPageOK_internal (d : List Page) (g : Levels) (pid lm : Nat)
    (slots : List InternalEntry) (hb : bodyAt d pid = some (Body.internal lm slots)) :
    BalPageOK d g pid ↔ (slots.length ≤ INTERNAL_CAPACITY ∧ (kids lm slots).Nodup ∧
      ∀ c ∈ kids lm slots, g.live c ∧ parentAt d c = pid ∧ g.lvl c + 1 = g.lvl pid) := by
  simp [BalPageOK, hb]

theorem BalPageOK_cases (d : List Page) (g : Levels) (pid : Nat) (h : BalPageOK d g pid) :
    (∃ nxt slots, bodyAt d pid = some (Body.leaf nxt slots) ∧ g.lvl pid = 0 ∧
      slots.length ≤ LEAF_CAPACITY) ∨
    (∃ lm slots, bodyAt d pid = some (Body.internal lm slots) ∧
      slots.length ≤ INTERNAL_CAPACITY ∧ (kids lm slots).Nodup ∧
      ∀ c ∈ kids lm slots, g.live c ∧ parentAt d c = pid ∧ g.lvl c + 1 = g.lvl pid) := by
  unfold BalPageOK at h
  split at h
  · rename_i nxt slots hb; exact Or.inl ⟨nxt, slots, hb, h⟩
  · rename_i lm slots hb; exact Or.inr ⟨lm, slots, hb, h⟩
  · exact absurd h id

theorem BalPageOK_isNode (d : List Page) (g : Levels) (pid : Nat)
    (h : BalPageOK d g pid) : isNode d pid := by
  rcases BalPageOK_cases d g pid h with ⟨nxt, slots, hb, _⟩ | ⟨lm, slots, hb, _⟩
  · exact isNode_of_body d pid _ hb (by simp)
  · exact isNode_of_body d pid _ hb (by simp)

theorem BalCore.node {t : Tree} {g : Levels} (h : BalCore t g) (pid : Nat)
    (hl : g.live pid) : isNode t.disk pid :=
  BalPageOK_isNode _ _ _ (h.pages pid hl)

theorem BalCore.below {t : Tree} {g : Levels} (h : BalCore t g) (pid : Nat)
    (hl : g.live pid) : pid < t.disk.length :=
  isNode_lt _ _ (h.node pid hl)

theorem BalCore.nonzero {t : Tree} {g : Levels} (h : BalCore t g) (pid : Nat)
    (hl : g.live pid) : pid ≠ 0 := by
  obtain ⟨sb0, h0⟩ := h.super0
  obtain ⟨pg, hpg, hs⟩ := h.node pid hl
  exact node_ne_zero _ sb0 pid pg h0 hpg hs

theorem BalCore.child {t : Tree} {g : Levels} (h : BalCore t g) (pid lm : Nat)
    (slots : List InternalEntry) (hl : g.live pid)
    (hb : bodyAt t.disk pid = some (Body.internal lm slots)) (c : Nat)
    (hc : c ∈ kids lm slots) :
    g.live c ∧ parentAt t.disk c = pid ∧ g.lvl c + 1 = g.lvl pid :=
  ((BalPageOK_internal _ _ _ _ _ hb).1 (h.pages pid hl)).2.2 c hc

/-- The root is nobody's child. -/
theorem BalCore.root_no_child {t : Tree} {g : Levels} (h : BalCore t g)
    (pid lm : Nat) (slots : List InternalEntry) (hl : g.live pid)
    (hb : bodyAt t.disk pid = some (Body.internal lm slots)) :
    t.sb.root ∉ kids lm slots := by
  intro hc
  have := (h.child pid lm slots hl hb _ hc).2.1
  rw [h.rootParent] at this
  exact h.nonzero pid hl this.symm

/-- A page keeps its shape when its body, its height and the facts about its children
are kept. -/
theorem BalPageOK_transfer (d d1 : List Page) (g g1 : Levels) (pid : Nat)
    (hb : bodyAt d1 pid = bodyAt d pid) (hlvl : g1.lvl pid = g.lvl pid)
    (hkids : ∀ lm slots, bodyAt d pid = some (Body.internal lm slots) →
      ∀ c ∈ kids lm slots, g.live c → parentAt d c = pid →
        g1.live c ∧ parentAt d1 c = pid ∧ g1.lvl c = g.lvl c)
    (h : BalPageOK d g pid) : BalPageOK d1 g1 pid := by
  rcases BalPageOK_cases d g pid h with ⟨nxt, slots, hbd, h1, h2⟩ | ⟨lm, slots, hbd, h1, h2, h3⟩
  · rw [BalPageOK_leaf d1 g1 pid nxt slots (by rw [hb, hbd])]
    exact ⟨by rw [hlvl]; exact h1, h2⟩
  · rw [BalPageOK_internal d1 g1 pid lm slots (by rw [hb, hbd])]
    refine ⟨h1, h2, fun c hc => ?_⟩
    obtain ⟨k1, k2, k3⟩ := h3 c hc
    obtain ⟨m1, m2, m3⟩ := hkids lm slots hbd c hc k1 k2
    exact ⟨m1, m2, by rw [m3, hlvl]; exact k3⟩

theorem Balanced_fresh : Balanced (BPlusTree.open []) Levels.fresh := by
  rw [open_empty]
  refine ⟨⟨⟨_, rfl⟩, rfl, rfl, by simp [Levels.fresh], fun _ _ => le_rfl, ?_⟩, ?_⟩
  · intro pid hl
    have : pid = 1 := hl
    subst this
    refine (BalPageOK_leaf _ _ 1 0 [] ?_).2 ⟨rfl, by simp⟩
    rfl
  · intro pid hl hne
    exact absurd hl hne

/-- Rewriting a leaf of the tree with at most `LEAF_CAPACITY` entries keeps the shape. -/
theorem Balanced_write_leaf (t : Tree) (g : Levels) (L nxt : Nat) (slots : List LeafEntry)
    (p1 : LeafPage) (hinv : Balanced t g) (hl : g.live L)
    (hb : bodyAt t.disk L = some (Body.leaf nxt slots))
    (hpar : p1.parent = parentAt t.disk L) (hok : p1.slots.length ≤ LEAF_CAPACITY) :
    Balanced ⟨t.sb, t.disk.set L (Page.leaf p1)⟩ g := by
  have hlt : L < t.disk.length := bodyAt_lt _ _ _ hb
  have hL0 : L ≠ 0 := hinv.core.nonzero L hl
  have hlv : g.lvl L = 0 := ((BalPageOK_leaf _ _ _ _ _ hb).1 (hinv.core.pages L hl)).1
  have hB : ∀ j, j ≠ L → bodyAt (t.disk.set L (Page.leaf p1)) j = bodyAt t.disk j := by
    intro j hj; rw [bodyAt_set _ _ _ _ hlt, if_neg hj]
  have hP : ∀ j, parentAt (t.disk.set L (Page.leaf p1)) j = parentAt t.disk j := by
    intro j
    rw [parentAt_set _ _ _ _ hlt]
    split
    · rename_i h; subst h; exact hpar
    · rfl
  obtain ⟨sb0, h0⟩ := hinv.core.super0
  refine ⟨⟨⟨sb0, ?_⟩, hinv.core.rootLive, ?_, ?_, hinv.core.lvlLe, ?_⟩, ?_⟩
  · show (t.disk.set L _)[0]? = _
    rw [List.getElem?_set_ne hL0]; exact h0
  · show parentAt (t.disk.set L _) t.sb.root = 0
    rw [hP]; exact hinv.core.rootParent
  · show g.lvl t.sb.root + 2 ≤ (t.disk.set L _).length
    rw [List.length_set]; exact hinv.core.height
  · intro pid hpl
    show BalPageOK (t.disk.set L _) g pid
    by_cases hpid : pid = L
    · subst hpid
      rw [BalPageOK_leaf _ _ pid p1.next p1.slots (by rw [bodyAt_set _ _ _ _ hlt, if_pos rfl]; rfl)]
      exact ⟨hlv, hok⟩
    · refine BalPageOK_transfer t.disk _ g g pid (hB pid hpid) rfl ?_ (hinv.core.pages pid hpl)
      intro lm sl _ c _ hcl hcp
      exact ⟨hcl, by rw [hP]; exact hcp, rfl⟩
  · intro pid hpl hne
    obtain ⟨lm, sl, h1, h2, h3⟩ := hinv.attached pid hpl hne
    refine ⟨lm, sl, ?_, ?_, h3⟩
    · show bodyAt (t.disk.set L _) (parentAt (t.disk.set L _) pid) = _
      rw [hP, hB _ ?_]
      · exact h1
      · intro hc
        rw [hc, hb] at h1
        cases h1
    · show g.live (parentAt (t.disk.set L _) pid)
      rw [hP]; exact h2

/-! ## Balance: `insertIntoParent` at the root -/

theorem Balanced_new_root (t t1 : Tree) (g : Levels) (l : Nat) (s : Int) (r : Nat)
    (hp : BalPending t g l r) (hl : t.sb.root = l)
    (hroot : t1.sb.root = t.disk.length) (hlen : t1.disk.length = t.disk.length + 1)
    (h0 : ∃ sb0, t1.disk[0]? = some (Page.super sb0))
    (hB : ∀ j, bodyAt t1.disk j =
      if j = t.disk.length then some (Body.internal l [⟨s, r⟩]) else bodyAt t.disk j)
    (hP : ∀ j, parentAt t1.disk j =
      if j = l ∨ j = r then t.disk.length
      else if j = t.disk.length then 0 else parentAt t.disk j) :
    Balanced t1 (g.add t.disk.length (g.lvl l + 1)) := by
  have hlt : ∀ pid, g.live pid → pid ≠ t.disk.length :=
    fun pid h => Nat.ne_of_lt (hp.core.below pid h)
  have hlN := hlt l hp.liveL
  have hrN := hlt r hp.liveR
  have hheight := hp.core.height
  rw [hl] at hheight
  refine ⟨⟨h0, ?_, ?_, ?_, ?_, ?_⟩, ?_⟩
  · rw [hroot]; exact Or.inl rfl
  · rw [hroot, hP]
    rw [if_neg (by intro h; rcases h with h | h; exact hlN h.symm; exact hrN h.symm), if_pos rfl]
  · rw [hroot, hlen]; simp only [Levels.add, if_true]; omega
  · intro pid hpl
    rw [hroot]
    rcases hpl with rfl | hpl
    · exact le_rfl
    · have := hp.core.lvlLe pid hpl
      rw [hl] at this
      simp only [Levels.add, hlt pid hpl, if_false, if_true]
      omega
  · intro pid hpl
    by_cases hN : pid = t.disk.length
    · subst hN
      refine (BalPageOK_internal _ _ _ l [⟨s, r⟩] (by rw [hB, if_pos rfl])).2 ?_
      refine ⟨by simp [INTERNAL_CAPACITY_eq], ?_, ?_⟩
      · simp [kids, hp.ne]
      · intro c hc
        simp only [kids, List.map_cons, List.map_nil, List.mem_cons, List.mem_singleton,
          List.not_mem_nil, or_false] at hc
        rcases hc with rfl | rfl
        · refine ⟨Or.inr hp.liveL, by rw [hP]; simp, ?_⟩
          simp [Levels.add, hlN]
        · refine ⟨Or.inr hp.liveR, by rw [hP]; simp, ?_⟩
          simp [Levels.add, hrN, hp.lvlR]
    · have hpl' : g.live pid := by
        rcases hpl with h | h
        · exact absurd h hN
        · exact h
      refine BalPageOK_transfer t.disk t1.disk g _ pid (by rw [hB, if_neg hN])
        (by simp [Levels.add, hN]) ?_ (hp.core.pages pid hpl')
      intro lm slots hb c hc hcl hcp
      have hcl' : c ≠ l := by
        rintro rfl
        exact hp.core.root_no_child pid lm slots hpl' hb (by rw [hl]; exact hc)
      have hcr : c ≠ r := by
        rintro rfl
        exact hp.fresh pid lm slots hpl' hb hc
      have hcN := hlt c hcl
      refine ⟨Or.inr hcl, ?_, ?_⟩
      · rw [hP, if_neg (by tauto), if_neg hcN]; exact hcp
      · simp [Levels.add, hcN]
  · intro pid hpl hne
    rw [hroot] at hne
    have hpl' : g.live pid := by
      rcases hpl with h | h
      · exact absurd h hne
      · exact h
    by_cases hlr : pid = l ∨ pid = r
    · refine ⟨l, [⟨s, r⟩], ?_, ?_, ?_⟩
      · rw [hP, if_pos hlr, hB, if_pos rfl]
      · rw [hP, if_pos hlr]; exact Or.inl rfl
      · simp only [kids, List.map_cons, List.map_nil, List.mem_cons, List.mem_singleton,
          List.not_mem_nil, or_false]
        exact hlr
    · have h1 : pid ≠ t.sb.root := by rw [hl]; tauto
      obtain ⟨lm, slots, a1, a2, a3⟩ := hp.attached pid hpl' h1 (by tauto)
      have hpar : parentAt t1.disk pid = parentAt t.disk pid := by
        rw [hP, if_neg hlr, if_neg hne]
      refine ⟨lm, slots, ?_, ?_, a3⟩
      · rw [hpar, hB, if_neg (hlt _ a2)]; exact a1
      · rw [hpar]; exact Or.inr a2

/-! ## Balance: `insertIntoParent` into a parent with room -/

theorem Balanced_parent_room (t t1 : Tree) (g : Levels) (l r : Nat) (e : InternalEntry)
    (pos lm : Nat) (slots : List InternalEntry) (he : e.right_child = r)
    (hp : BalPending t g l r) (hne : t.sb.root ≠ l)
    (hPb : bodyAt t.disk (parentAt t.disk l) = some (Body.internal lm slots))
    (hc : slots.length < INTERNAL_CAPACITY)
    (hroot : t1.sb.root = t.sb.root) (hlen : t1.disk.length = t.disk.length)
    (h0 : ∃ sb0, t1.disk[0]? = some (Page.super sb0))
    (hB : ∀ j, bodyAt t1.disk j =
      if j = parentAt t.disk l
      then some (Body.internal lm (insertAt pos e slots))
      else bodyAt t.disk j)
    (hP : ∀ j, parentAt t1.disk j = parentAt t.disk j) :
    Balanced t1 g := by
  subst he
  obtain ⟨lm1, slots1, a1, hPl, hlmem⟩ := hp.attached l hp.liveL (fun h => hne h.symm) hp.ne
  rw [hPb] at a1
  cases a1
  obtain ⟨k1, k2, k3⟩ := (BalPageOK_internal _ _ _ _ _ hPb).1 (hp.core.pages _ hPl)
  have hrfresh := hp.fresh _ lm slots hPl hPb
  refine ⟨⟨h0, ?_, ?_, ?_, ?_, ?_⟩, ?_⟩
  · rw [hroot]; exact hp.core.rootLive
  · rw [hroot, hP]; exact hp.core.rootParent
  · rw [hroot, hlen]; exact hp.core.height
  · rw [hroot]; exact hp.core.lvlLe
  · intro pid hpl
    by_cases hpid : pid = parentAt t.disk l
    · subst hpid
      refine (BalPageOK_internal _ _ _ lm _ (by rw [hB, if_pos rfl])).2 ⟨?_, ?_, ?_⟩
      · rw [insertAt_length]; omega
      · rw [(kids_insertAt_perm _ _ _ _).nodup_iff]
        exact List.nodup_cons.2 ⟨hrfresh, k2⟩
      · intro c hc
        rw [mem_kids_insertAt] at hc
        rcases hc with rfl | hc
        · refine ⟨hp.liveR, by rw [hP]; exact hp.parentR, ?_⟩
          rw [hp.lvlR]; exact (k3 l hlmem).2.2
        · obtain ⟨m1, m2, m3⟩ := k3 c hc
          exact ⟨m1, by rw [hP]; exact m2, m3⟩
    · refine BalPageOK_transfer t.disk t1.disk g g pid (by rw [hB, if_neg hpid])
        rfl ?_ (hp.core.pages pid hpl)
      intro lm2 slots2 _ c _ hcl hcp
      exact ⟨hcl, by rw [hP]; exact hcp, rfl⟩
  · intro pid hpl hner
    rw [hroot] at hner
    by_cases hr : pid = e.right_child
    · rw [hr]
      refine ⟨lm, insertAt pos e slots, ?_, ?_, ?_⟩
      · rw [hP, hp.parentR, hB, if_pos rfl]
      · rw [hP, hp.parentR]; exact hPl
      · rw [mem_kids_insertAt]; exact Or.inl rfl
    · obtain ⟨lm2, slots2, b1, b2, b3⟩ := hp.attached pid hpl hner hr
      by_cases hq : parentAt t.disk pid = parentAt t.disk l
      · rw [hq, hPb] at b1
        cases b1
        refine ⟨lm, insertAt pos e slots, ?_, ?_, ?_⟩
        · rw [hP, hq, hB, if_pos rfl]
        · rw [hP]; exact b2
        · rw [mem_kids_insertAt]; exact Or.inr b3
      · refine ⟨lm2, slots2, ?_, ?_, b3⟩
        · rw [hP, hB, if_neg hq]; exact b1
        · rw [hP]; exact b2

/-! ## Balance: `insertIntoParent` into a full parent -/

theorem BalPending_parent_split (t t1 : Tree) (g : Levels) (l r : Nat) (e : InternalEntry)
    (pos P lm : Nat) (slots lslots : List InternalEntry) (mid : InternalEntry)
    (rslots : List InternalEntry) (he : e.right_child = r)
    (hp : BalPending t g l r) (hne : t.sb.root ≠ l) (hPar : parentAt t.disk l = P)
    (hPb : bodyAt t.disk P = some (Body.internal lm slots))
    (hsplit : insertAt pos e slots = lslots ++ mid :: rslots)
    (hl1 : lslots.length ≤ INTERNAL_CAPACITY) (hl2 : rslots.length ≤ INTERNAL_CAPACITY)
    (hroot : t1.sb.root = t.sb.root) (hlen : t1.disk.length = t.disk.length + 1)
    (h0 : ∃ sb0, t1.disk[0]? = some (Page.super sb0))
    (hB : ∀ j, bodyAt t1.disk j =
      if j = t.disk.length then some (Body.internal mid.right_child rslots)
      else if j = P then some (Body.internal lm lslots) else bodyAt t.disk j)
    (hP : ∀ j, parentAt t1.disk j =
      if j ∈ kids mid.right_child rslots then t.disk.length
      else if j = t.disk.length then parentAt t.disk P else parentAt t.disk j) :
    BalPending t1 (g.add t.disk.length (g.lvl P)) P t.disk.length := by
  subst he
  obtain ⟨lm1, slots1, a1, hPl, hlmem⟩ := hp.attached l hp.liveL (fun h => hne h.symm) hp.ne
  rw [hPar] at a1 hPl
  rw [hPb] at a1
  cases a1
  obtain ⟨k1, k2, k3⟩ := (BalPageOK_internal _ _ _ _ _ hPb).1 (hp.core.pages _ hPl)
  have hrfresh := hp.fresh _ lm slots hPl hPb
  have hlt : ∀ pid, g.live pid → pid ≠ t.disk.length :=
    fun pid h => Nat.ne_of_lt (hp.core.below pid h)
  have hPQ : P ≠ t.disk.length := hlt P hPl
  have hrootQ : t.sb.root ≠ t.disk.length := hlt _ hp.core.rootLive
  have hkmem : ∀ c, c ∈ kids lm lslots ∨ c ∈ kids mid.right_child rslots ↔
      c = e.right_child ∨ c ∈ kids lm slots := by
    intro c
    rw [← List.mem_append, ← kids_append, ← hsplit, mem_kids_insertAt]
  have hknd : (kids lm lslots ++ kids mid.right_child rslots).Nodup := by
    rw [← kids_append, ← hsplit, (kids_insertAt_perm _ _ _ _).nodup_iff]
    exact List.nodup_cons.2 ⟨hrfresh, k2⟩
  obtain ⟨hndL, hndR, hdisj⟩ := List.nodup_append.1 hknd
  have hkid : ∀ c, c = e.right_child ∨ c ∈ kids lm slots →
      g.live c ∧ parentAt t.disk c = P ∧ g.lvl c + 1 = g.lvl P := by
    intro c hc
    rcases hc with rfl | hc
    · exact ⟨hp.liveR, by rw [hp.parentR, hPar], by rw [hp.lvlR]; exact (k3 l hlmem).2.2⟩
    · exact k3 c hc
  have hkidP : ∀ c, c = e.right_child ∨ c ∈ kids lm slots → c ≠ P := by
    intro c hc h
    have := (hkid c hc).2.2
    rw [h] at this
    omega
  have hrootkid : ¬ (t.sb.root = e.right_child ∨ t.sb.root ∈ kids lm slots) := by
    intro h
    rcases h with h | h
    · exact hp.neRoot h.symm
    · exact hp.core.root_no_child P lm slots hPl hPb h
  have glvl : ∀ c, c ≠ t.disk.length → (g.add t.disk.length (g.lvl P)).lvl c = g.lvl c := by
    intro c hc; simp [Levels.add, hc]
  refine ⟨⟨h0, ?_, ?_, ?_, ?_, ?_⟩, ?_, ?_, ?_, ?_, ?_, ?_, ?_, ?_⟩
  · rw [hroot]; exact Or.inr hp.core.rootLive
  · rw [hroot, hP, if_neg, if_neg hrootQ]
    · exact hp.core.rootParent
    · intro h; exact hrootkid ((hkmem _).1 (Or.inr h))
  · rw [hroot, hlen, glvl _ hrootQ]; have := hp.core.height; omega
  · intro pid hpl
    rw [hroot, glvl _ hrootQ]
    rcases hpl with rfl | hpl
    · simp only [Levels.add, if_true]; exact hp.core.lvlLe P hPl
    · rw [glvl _ (hlt pid hpl)]; exact hp.core.lvlLe pid hpl
  · intro pid hpl
    by_cases hQ : pid = t.disk.length
    · subst hQ
      refine (BalPageOK_internal _ _ _ mid.right_child rslots (by rw [hB, if_pos rfl])).2
        ⟨hl2, hndR, ?_⟩
      intro c hc
      have hc' := (hkmem c).1 (Or.inr hc)
      obtain ⟨m1, m2, m3⟩ := hkid c hc'
      refine ⟨Or.inr m1, by rw [hP, if_pos hc], ?_⟩
      rw [glvl _ (hlt c m1)]
      simp only [Levels.add, if_true]; exact m3
    · have hpl' : g.live pid := by
        rcases hpl with h | h
        · exact absurd h hQ
        · exact h
      by_cases hPp : pid = P
      · subst hPp
        refine (BalPageOK_internal _ _ _ lm lslots (by rw [hB, if_neg hQ, if_pos rfl])).2
          ⟨hl1, hndL, ?_⟩
        intro c hc
        have hc' := (hkmem c).1 (Or.inl hc)
        obtain ⟨m1, m2, m3⟩ := hkid c hc'
        refine ⟨Or.inr m1, ?_, ?_⟩
        · rw [hP, if_neg (fun h => hdisj hc h), if_neg (hlt c m1)]; exact m2
        · rw [glvl _ (hlt c m1), glvl _ hQ]; exact m3
      · refine BalPageOK_transfer t.disk t1.disk g _ pid
          (by rw [hB, if_neg hQ, if_neg hPp]) (glvl _ hQ) ?_ (hp.core.pages pid hpl')
        intro lm2 slots2 hb2 c hc hcl hcp
        have hnk : c ∉ kids mid.right_child rslots := by
          intro h
          rcases (hkmem c).1 (Or.inr h) with h | h
          · subst h; exact hp.fresh pid lm2 slots2 hpl' hb2 hc
          · exact hPp (by rw [← hcp]; exact (k3 c h).2.1)
        refine ⟨Or.inr hcl, ?_, glvl _ (hlt c hcl)⟩
        rw [hP, if_neg hnk, if_neg (hlt c hcl)]; exact hcp
  · intro pid hpl hner hneQ
    rw [hroot] at hner
    have hpl' : g.live pid := by
      rcases hpl with h | h
      · exact absurd h hneQ
      · exact h
    by_cases hkR : pid ∈ kids mid.right_child rslots
    · refine ⟨mid.right_child, rslots, ?_, ?_, hkR⟩
      · rw [hP, if_pos hkR, hB, if_pos rfl]
      · rw [hP, if_pos hkR]; exact Or.inl rfl
    · by_cases hkL : pid ∈ kids lm lslots
      · have hpp : parentAt t1.disk pid = P := by
          rw [hP, if_neg hkR, if_neg hneQ]
          exact (hkid pid ((hkmem pid).1 (Or.inl hkL))).2.1
        refine ⟨lm, lslots, ?_, ?_, hkL⟩
        · rw [hpp, hB, if_neg hPQ, if_pos rfl]
        · rw [hpp]; exact Or.inr hPl
      · have hnk : ¬ (pid = e.right_child ∨ pid ∈ kids lm slots) := by
          intro h
          rcases (hkmem pid).2 h with h | h
          · exact hkL h
          · exact hkR h
        obtain ⟨lm2, slots2, b1, b2, b3⟩ := hp.attached pid hpl' hner (fun h => hnk (Or.inl h))
        have hqP : parentAt t.disk pid ≠ P := by
          intro h
          rw [h, hPb] at b1
          cases b1
          exact hnk (Or.inr b3)
        have hpp : parentAt t1.disk pid = parentAt t.disk pid := by
          rw [hP, if_neg hkR, if_neg hneQ]
        refine ⟨lm2, slots2, ?_, ?_, b3⟩
        · rw [hpp, hB, if_neg (hlt _ b2), if_neg hqP]; exact b1
        · rw [hpp]; exact Or.inr b2
  · exact Or.inr hPl
  · exact Or.inl rfl
  · rw [hroot]; exact fun h => hrootQ h.symm
  · exact hPQ
  · have hQk : t.disk.length ∉ kids mid.right_child rslots := by
      intro h
      exact hlt _ (hkid _ ((hkmem _).1 (Or.inr h))).1 rfl
    have hPk : P ∉ kids mid.right_child rslots := by
      intro h
      exact hkidP _ ((hkmem _).1 (Or.inr h)) rfl
    rw [hP, if_neg hQk, if_pos rfl, hP, if_neg hPk, if_neg hPQ]
  · rw [glvl _ hPQ]; simp [Levels.add]
  · intro pid lm2 slots2 hpl hb2 hmem
    have hold : ∀ c, c = e.right_child ∨ c ∈ kids lm slots → c ≠ t.disk.length :=
      fun c hc => hlt c (hkid c hc).1
    rw [hB] at hb2
    by_cases hQ : pid = t.disk.length
    · rw [if_pos hQ] at hb2
      cases hb2
      exact hold _ ((hkmem _).1 (Or.inr hmem)) rfl
    · rw [if_neg hQ] at hb2
      have hpl' : g.live pid := by
        rcases hpl with h | h
        · exact absurd h hQ
        · exact h
      by_cases hPp : pid = P
      · rw [if_pos hPp] at hb2
        cases hb2
        exact hold _ ((hkmem _).1 (Or.inl hmem)) rfl
      · rw [if_neg hPp] at hb2
        exact hlt _ (hp.core.child pid lm2 slots2 hpl' hb2 _ hmem).1 rfl

/-! ## Balance: the cascade of parent updates -/

/-- A step that keeps the root, followed by more steps. -/
theorem BalGrows.after {N : Nat} {t t1 t2 : Tree} {g g1 g2 : Levels}
    (h1 : BalGrows N t g t1 g1) (hr : t1.sb.root = t.sb.root) (hrl : g.live t.sb.root)
    (h2 : BalGrows N t1 g1 t2 g2) : BalGrows N t g t2 g2 where
  live := fun pid h => h2.live pid (h1.live pid h)
  lvl := fun pid h => by rw [h2.lvl pid (h1.live pid h), h1.lvl pid h]
  len := le_trans h1.len h2.len
  root := by
    rcases h2.root with h | ⟨a1, a2, s, r, a0, a3⟩
    · exact Or.inl (h.trans hr)
    · refine Or.inr ⟨a1, ?_, s, r, a0, ?_⟩
      · rw [a2, hr, h1.lvl _ hrl]
      · rw [a3, hr]

/-- `insertIntoParent`, called in the shape a split leaves, completes and restores the
shape invariant. -/
theorem insertIntoParent_bal (f : Nat) :
    ∀ (N : Nat) (t : Tree) (g : Levels) (l : Nat) (s : Int) (r : Nat),
      BalPending t g l r → N ≤ r → g.lvl t.sb.root - g.lvl l < f →
      ∃ t1 g1, insertIntoParent f t l s r = some t1 ∧ Balanced t1 g1 ∧
        BalGrows N t g t1 g1 := by
  induction f with
  | zero => intro N t g l s r _ _ hf; omega
  | succ f ih =>
    intro N t g l s r hp hN hf
    have hrlt : r < t.disk.length := hp.core.below r hp.liveR
    obtain ⟨sb0, h0⟩ := hp.core.super0
    obtain ⟨pg, hpg, hs⟩ := hp.core.node l hp.liveL
    have hpar : parentAt t.disk l = pg.parent := parentAt_eq _ _ _ hpg
    have hlt : ∀ pid, g.live pid → pid ≠ t.disk.length :=
      fun pid h => Nat.ne_of_lt (hp.core.below pid h)
    by_cases hroot : t.sb.root = l
    · have hp0 : pg.parent = 0 := by rw [← hpar, ← hroot]; exact hp.core.rootParent
      rw [insertIntoParent_root f t l s r pg hpg hs hp0 hroot]
      obtain ⟨d3, e3, l3, z3, b3, p3⟩ := obs_new_root t.disk sb0 l r s h0
        (hp.core.node l hp.liveL) (hp.core.node r hp.liveR)
      obtain ⟨d2, h1, h2⟩ := Option.bind_eq_some.1 e3
      simp only [h1, h2, Option.some_bind]
      obtain ⟨w1, w2, w3, w4⟩ := writeSuper_obs d3
        ⟨t.sb.magic, t.disk.length, t.sb.free_list_head, t.sb.page_count + 1⟩ sb0 z3
      refine ⟨_, g.add t.disk.length (g.lvl l + 1), rfl, ?_, ?_⟩
      · exact Balanced_new_root t _ g l s r hp hroot rfl (by rw [w1, l3]) ⟨_, w2⟩
          (fun j => by rw [w3, b3]) (fun j => by rw [w4, p3])
      · refine ⟨fun pid h => Or.inr h, fun pid h => ?_, ?_,
          Or.inr ⟨show N ≤ t.disk.length by omega, ?_, s, r, hN, ?_⟩⟩
        · simp [Levels.add, hlt pid h]
        · show t.disk.length ≤ (writeSuper d3 _).length
          rw [w1, l3]; omega
        · show (g.add t.disk.length (g.lvl l + 1)).lvl t.disk.length = _
          simp [Levels.add, hroot]
        · show bodyAt (writeSuper d3 _) t.disk.length = _
          rw [w3, b3, if_pos rfl, hroot]
    · obtain ⟨lm, slots, a1, hPl, hlmem⟩ :=
        hp.attached l hp.liveL (fun h => hroot h.symm) hp.ne
      obtain ⟨Pp, hPp, hlm, hsl⟩ := bodyAt_internal_some _ _ _ _ a1
      rw [hpar] at hPp
      have hnr : ¬ (pg.parent = 0 ∧ t.sb.root = l) := fun h => hroot h.2
      have hkid := hp.core.child _ lm slots hPl a1
      by_cases hfull : Pp.count = INTERNAL_CAPACITY
      · rw [insertIntoParent_full f t l s r pg Pp hpg hs hnr hPp hfull]
        have hlen : (insertAt (scanPos s Pp.slots) ⟨s, r⟩ Pp.slots).length
            = INTERNAL_CAPACITY + 1 := by
          rw [insertAt_length]; exact congrArg (· + 1) hfull
        rw [INTERNAL_CAPACITY_eq] at hlen
        have hlc : (insertAt (scanPos s Pp.slots) ⟨s, r⟩ Pp.slots).length / 2
            < (insertAt (scanPos s Pp.slots) ⟨s, r⟩ Pp.slots).length := by omega
        have hdec := split_at_index _ _ hlc
        have htake : ((insertAt (scanPos s Pp.slots) ⟨s, r⟩ Pp.slots).drop
            ((insertAt (scanPos s Pp.slots) ⟨s, r⟩ Pp.slots).length / 2 + 1)).take
            ((insertAt (scanPos s Pp.slots) ⟨s, r⟩ Pp.slots).length -
              (insertAt (scanPos s Pp.slots) ⟨s, r⟩ Pp.slots).length / 2 - 1)
            = (insertAt (scanPos s Pp.slots) ⟨s, r⟩ Pp.slots).drop
              ((insertAt (scanPos s Pp.slots) ⟨s, r⟩ Pp.slots).length / 2 + 1) := by
          apply List.take_of_length_le
          rw [List.length_drop]; omega
        simp only [htake]
        generalize htmp : insertAt (scanPos s Pp.slots) ⟨s, r⟩ Pp.slots = tmp at hlen hlc hdec
        have hmem : ∀ c, c ∈ kids Pp.leftmost tmp → g.live c := by
          intro c hc
          rw [← htmp, mem_kids_insertAt] at hc
          rcases hc with rfl | hc
          · exact hp.liveR
          · rw [hlm, hsl] at hc; exact (hkid c hc).1
        have hkidsR : ∀ c, c ∈ kids (tmp.getD (tmp.length / 2) default).right_child
            (tmp.drop (tmp.length / 2 + 1)) → c ∈ kids Pp.leftmost tmp := by
          intro c hc
          rw [hdec, kids_append]
          exact List.mem_append_right _ hc
        obtain ⟨d4, e4, l4, z4, b4, p4⟩ := obs_split t.disk sb0 pg.parent Pp
          (tmp.take (tmp.length / 2)) (tmp.drop (tmp.length / 2 + 1))
          (tmp.getD (tmp.length / 2) default).right_child h0 hPp
          (hp.core.node _ (hmem _ (hkidsR _ (by simp [kids]))))
          (fun e he => hp.core.node _ (hmem _ (hkidsR _ (by
            simp only [kids, List.mem_cons, List.mem_map]
            exact Or.inr ⟨e, he, rfl⟩))))
        obtain ⟨d3, h1, h2⟩ := Option.bind_eq_some.1 e4
        simp only [h1, h2, Option.some_bind]
        have hpend := BalPending_parent_split t
          ⟨⟨t.sb.magic, t.sb.root, t.sb.free_list_head, t.sb.page_count + 1⟩, d4⟩ g l r
          ⟨s, r⟩ (scanPos s slots) pg.parent lm slots (tmp.take (tmp.length / 2))
          (tmp.getD (tmp.length / 2) default) (tmp.drop (tmp.length / 2 + 1)) rfl hp hroot hpar
          (by rw [← hpar]; exact a1)
          (by rw [← hsl, htmp]; exact hdec)
          (by rw [List.length_take, INTERNAL_CAPACITY_eq]; omega)
          (by rw [List.length_drop, INTERNAL_CAPACITY_eq]; omega)
          rfl l4 ⟨_, z4⟩ (fun j => by rw [b4, hlm]) (fun j => by rw [p4])
        have hlvP : g.lvl pg.parent = g.lvl l + 1 := by
          have := (hkid l hlmem).2.2
          rw [hpar] at this
          omega
        have hPlive : g.live pg.parent := by rw [← hpar]; exact hPl
        have hPQ : pg.parent ≠ t.disk.length := hlt _ hPlive
        have hrootQ : t.sb.root ≠ t.disk.length := hlt _ hp.core.rootLive
        have hlvroot := hp.core.lvlLe _ hPlive
        obtain ⟨t1, g1, e1, hinv, hgr⟩ := ih N _ _ _ _ _ hpend (by omega) (by
          simp only [Levels.add, hrootQ, hPQ, if_false]
          omega)
        have hstep : BalGrows N t g
            ⟨⟨t.sb.magic, t.sb.root, t.sb.free_list_head, t.sb.page_count + 1⟩, d4⟩
            (g.add t.disk.length (g.lvl pg.parent)) := by
          refine ⟨fun pid h => Or.inr h, fun pid h => ?_, ?_, Or.inl rfl⟩
          · simp [Levels.add, hlt pid h]
          · show t.disk.length ≤ d4.length
            omega
        exact ⟨t1, g1, e1, hinv, BalGrows.after hstep rfl hp.core.rootLive hgr⟩
      · rw [insertIntoParent_room f t l s r pg Pp hpg hs hnr hPp hfull]
        obtain ⟨d2, e2, l2, z2, b2, p2⟩ := obs_room t.disk sb0 pg.parent r Pp
          (insertAt (scanPos s Pp.slots) ⟨s, r⟩ Pp.slots) h0 hPp
          (hp.core.node r hp.liveR) (by rw [hp.parentR, hpar])
        simp only [e2, Option.some_bind]
        have hcap : slots.length < INTERNAL_CAPACITY := by
          have := ((BalPageOK_internal _ _ _ _ _ a1).1 (hp.core.pages _ hPl)).1
          have h2 : slots.length ≠ INTERNAL_CAPACITY := by rw [← hsl]; exact hfull
          omega
        refine ⟨_, g, rfl, ?_, ?_⟩
        · exact Balanced_parent_room t _ g l r ⟨s, r⟩ (scanPos s slots) lm slots rfl hp hroot
            a1 hcap rfl l2 ⟨_, z2⟩ (fun j => by rw [b2, hpar, hlm, hsl]) p2
        · exact ⟨fun pid h => h, fun pid h => rfl, by show t.disk.length ≤ d2.length; omega,
            Or.inl rfl⟩

/-! ## Balance: descending to a leaf -/

theorem childIndexLoop_le (slots : List InternalEntry) (key : Int) (fuel : Nat) :
    ∀ lo hi, lo ≤ hi → childIndexLoop slots key fuel lo hi ≤ hi := by
  induction fuel with
  | zero => intro lo hi h; exact h
  | succ f ih =>
    intro lo hi h
    simp only [childIndexLoop]
    split
    · split
      · exact le_trans (ih _ _ (by omega)) (by omega)
      · exact ih _ _ (by omega)
    · exact h

/-- Whatever the keys are, `findLeaf` goes from an internal page to one of its
children. -/
theorem childFor_mem (n : InternalPage) (key : Int) : childFor n key ∈ n.children := by
  have hle : child_index n key ≤ n.slots.length := childIndexLoop_le _ _ _ _ _ (Nat.zero_le _)
  unfold childFor InternalPage.children kids
  simp only []
  split
  · exact List.mem_cons_self _ _
  · rename_i h
    refine List.mem_cons_of_mem _ (List.mem_map.2 ⟨_, ?_, rfl⟩)
    rw [List.getD_eq_getElem _ _ (by omega)]
    exact List.getElem_mem _

/-- Under the shape invariant the descent from a page of the tree ends in a leaf of the
tree. -/
theorem findLeafLoop_bal (t : Tree) (g : Levels) (hinv : Balanced t g) (k : Int) (f : Nat) :
    ∀ pid, g.live pid → g.lvl pid < f →
      ∃ L nxt slots, findLeafLoop t.disk k f pid = some L ∧ g.live L ∧
        bodyAt t.disk L = some (Body.leaf nxt slots) := by
  induction f with
  | zero => intro pid _ h; omega
  | succ f ih =>
    intro pid hl hf
    rcases BalPageOK_cases _ _ _ (hinv.core.pages pid hl) with
      ⟨nxt, slots, hb, _⟩ | ⟨lm, slots, hb, _, _, k3⟩
    · exact ⟨pid, nxt, slots, findLeafLoop_leaf _ _ _ _ _ _ hb, hl, hb⟩
    · obtain ⟨p, hp, rfl, rfl⟩ := bodyAt_internal_some _ _ _ _ hb
      have hstep : findLeafLoop t.disk k (f + 1) pid = findLeafLoop t.disk k f (childFor p k) := by
        simp [findLeafLoop, readPage, hp]
      rw [hstep]
      obtain ⟨m1, _, m3⟩ := k3 _ (childFor_mem p k)
      exact ih _ m1 (by omega)

theorem findLeaf_bal (t : Tree) (g : Levels) (hinv : Balanced t g) (k : Int) :
    ∃ L nxt slots, findLeaf t k = some L ∧ g.live L ∧
      bodyAt t.disk L = some (Body.leaf nxt slots) := by
  unfold findLeaf
  apply findLeafLoop_bal t g hinv k _ _ hinv.core.rootLive
  have := hinv.core.height; omega

/-! ## Balance: splitting a leaf -/

theorem BalPending_leaf_split (t t1 : Tree) (g : Levels) (L nxt : Nat)
    (slots left right : List LeafEntry)
    (hinv : Balanced t g) (hl : g.live L) (hb : bodyAt t.disk L = some (Body.leaf nxt slots))
    (hleft : left.length ≤ LEAF_CAPACITY) (hright : right.length ≤ LEAF_CAPACITY)
    (hroot : t1.sb.root = t.sb.root) (hlen : t1.disk.length = t.disk.length + 1)
    (h0 : ∃ sb0, t1.disk[0]? = some (Page.super sb0))
    (hB : ∀ j, bodyAt t1.disk j =
      if j = t.disk.length then some (Body.leaf nxt right)
      else if j = L then some (Body.leaf t.disk.length left) else bodyAt t.disk j)
    (hP : ∀ j, parentAt t1.disk j =
      if j = t.disk.length then parentAt t.disk L else parentAt t.disk j) :
    BalPending t1 (g.add t.disk.length 0) L t.disk.length := by
  have hlt : ∀ pid, g.live pid → pid ≠ t.disk.length :=
    fun pid h => Nat.ne_of_lt (hinv.core.below pid h)
  have hLN := hlt L hl
  have hrootN := hlt _ hinv.core.rootLive
  have hLlvl : g.lvl L = 0 := ((BalPageOK_leaf _ _ _ _ _ hb).1 (hinv.core.pages L hl)).1
  have glvl : ∀ c, c ≠ t.disk.length → (g.add t.disk.length 0).lvl c = g.lvl c := by
    intro c hc; simp [Levels.add, hc]
  refine ⟨⟨h0, ?_, ?_, ?_, ?_, ?_⟩, ?_, ?_, ?_, ?_, ?_, ?_, ?_, ?_⟩
  · rw [hroot]; exact Or.inr hinv.core.rootLive
  · rw [hroot, hP, if_neg hrootN]; exact hinv.core.rootParent
  · rw [hroot, hlen, glvl _ hrootN]; have := hinv.core.height; omega
  · intro pid hpl
    rw [hroot, glvl _ hrootN]
    rcases hpl with rfl | hpl
    · simp [Levels.add]
    · rw [glvl _ (hlt pid hpl)]; exact hinv.core.lvlLe pid hpl
  · intro pid hpl
    by_cases hN : pid = t.disk.length
    · subst hN
      exact (BalPageOK_leaf _ _ _ nxt right (by rw [hB, if_pos rfl])).2
        ⟨by simp [Levels.add], hright⟩
    · have hpl' : g.live pid := by
        rcases hpl with h | h
        · exact absurd h hN
        · exact h
      by_cases hLp : pid = L
      · subst hLp
        exact (BalPageOK_leaf _ _ _ t.disk.length left (by rw [hB, if_neg hN, if_pos rfl])).2
          ⟨by rw [glvl _ hN]; exact hLlvl, hleft⟩
      · refine BalPageOK_transfer t.disk t1.disk g _ pid
          (by rw [hB, if_neg hN, if_neg hLp]) (glvl _ hN) ?_ (hinv.core.pages pid hpl')
        intro lm2 slots2 _ c _ hcl hcp
        refine ⟨Or.inr hcl, ?_, glvl _ (hlt c hcl)⟩
        rw [hP, if_neg (hlt c hcl)]; exact hcp
  · intro pid hpl hner hneN
    rw [hroot] at hner
    have hpl' : g.live pid := by
      rcases hpl with h | h
      · exact absurd h hneN
      · exact h
    obtain ⟨lm2, slots2, b1, b2, b3⟩ := hinv.attached pid hpl' hner
    have hqL : parentAt t.disk pid ≠ L := by
      intro h
      rw [h, hb] at b1
      cases b1
    have hpp : parentAt t1.disk pid = parentAt t.disk pid := by rw [hP, if_neg hneN]
    refine ⟨lm2, slots2, ?_, ?_, b3⟩
    · rw [hpp, hB, if_neg (hlt _ b2), if_neg hqL]; exact b1
    · rw [hpp]; exact Or.inr b2
  · exact Or.inr hl
  · exact Or.inl rfl
  · rw [hroot]; exact fun h => hrootN h.symm
  · exact hLN
  · rw [hP, if_pos rfl, hP, if_neg hLN]
  · rw [glvl _ hLN, hLlvl]; simp [Levels.add]
  · intro pid lm2 slots2 hpl hb2 hmem
    rw [hB] at hb2
    by_cases hN : pid = t.disk.length
    · rw [if_pos hN] at hb2; cases hb2
    · rw [if_neg hN] at hb2
      by_cases hLp : pid = L
      · rw [if_pos hLp] at hb2; cases hb2
      · rw [if_neg hLp] at hb2
        have hpl' : g.live pid := by
          rcases hpl with h | h
          · exact absurd h hN
          · exact h
        exact hlt _ (hinv.core.child pid lm2 slots2 hpl' hb2 _ hmem).1 rfl

/-! ## Balance: every insert -/

theorem BalGrows.same (N : Nat) (t : Tree) (g : Levels) (t1 : Tree)
    (hr : t1.sb.root = t.sb.root) (hlen : t.disk.length ≤ t1.disk.length) :
    BalGrows N t g t1 g :=
  ⟨fun _ h => h, fun _ _ => rfl, hlen, Or.inl hr⟩

/-- Every insert completes on a tree with the shape invariant and keeps it; the root
either stays, or is replaced by a new internal page one level higher whose children are
the old root and one more new page. -/
theorem insert_bal (t : Tree) (g : Levels) (k : Int) (v : Bytes) (hinv : Balanced t g) :
    ∃ t1 g1, insert t k v = some t1 ∧ Balanced t1 g1 ∧ BalGrows t.disk.length t g t1 g1 := by
  obtain ⟨L, nxt, slots, hf, hl, hb⟩ := findLeaf_bal t g hinv k
  obtain ⟨p, hp, hnx, hsl⟩ := bodyAt_leaf_some _ _ _ _ hb
  have hpar : parentAt t.disk L = p.parent := parentAt_eq _ _ _ hp
  have hcap : p.slots.length ≤ LEAF_CAPACITY := by
    rw [hsl]; exact ((BalPageOK_leaf _ _ _ _ _ hb).1 (hinv.core.pages L hl)).2
  rw [insert_eq t k v L p hf hp]
  split
  · refine ⟨_, g, rfl, ?_, BalGrows.same _ _ _ _ rfl (by simp)⟩
    exact Balanced_write_leaf t g L nxt slots _ hinv hl hb hpar.symm
      (by simp only [List.length_set]; exact hcap)
  · split
    · rename_i hlt
      refine ⟨_, g, rfl, ?_, BalGrows.same _ _ _ _ rfl (by simp)⟩
      refine Balanced_write_leaf t g L nxt slots _ hinv hl hb hpar.symm ?_
      simp only [insertAt_length]
      exact hlt
    · rename_i hfull
      have hcnt : p.slots.length = LEAF_CAPACITY := by
        have : ¬ p.slots.length < LEAF_CAPACITY := hfull
        omega
      rw [splitLeafAndInsert_eq t L k (pad8 v) p hp]
      simp only []
      have hlen : (insertAt (lower_bound_leaf p k) ⟨k, pad8 v⟩ p.slots).length = 340 := by
        rw [insertAt_length, hcnt, LEAF_CAPACITY_eq]
      generalize insertAt (lower_bound_leaf p k) ⟨k, pad8 v⟩ p.slots = tmp at hlen
      obtain ⟨sb0, h0⟩ := hinv.core.super0
      obtain ⟨l4, z4, b4, p4⟩ := obs_leaf_split t.disk sb0 L p (tmp.take (tmp.length / 2))
        ((tmp.drop (tmp.length / 2)).take (tmp.length - tmp.length / 2)) h0 hp
      have hpend := BalPending_leaf_split t
        ⟨⟨t.sb.magic, t.sb.root, t.sb.free_list_head, t.sb.page_count + 1⟩,
          ((t.disk ++ [Page.leaf ⟨p.parent, 0, []⟩]).set L
            (Page.leaf ⟨p.parent, t.disk.length, tmp.take (tmp.length / 2)⟩)).set t.disk.length
            (Page.leaf ⟨p.parent, p.next,
              (tmp.drop (tmp.length / 2)).take (tmp.length - tmp.length / 2)⟩)⟩
        g L nxt slots (tmp.take (tmp.length / 2))
        ((tmp.drop (tmp.length / 2)).take (tmp.length - tmp.length / 2)) hinv hl hb
        (by rw [List.length_take, LEAF_CAPACITY_eq]; omega)
        (by rw [List.length_take, List.length_drop, LEAF_CAPACITY_eq]; omega)
        rfl l4 ⟨_, z4⟩ (fun j => by rw [b4, hnx]) p4
      have hrootQ : t.sb.root ≠ t.disk.length :=
        Nat.ne_of_lt (hinv.core.below _ hinv.core.rootLive)
      have hh := hinv.core.height
      obtain ⟨t1, g1, e1, hinv1, hgr⟩ := insertIntoParent_bal (t.disk.length + 1)
        t.disk.length _ _ L
        (((tmp.drop (tmp.length / 2)).take (tmp.length - tmp.length / 2)).getD 0 default).key
        t.disk.length hpend le_rfl (by
          simp only [Levels.add, hrootQ, if_false]
          omega)
      have hstep : BalGrows t.disk.length t g
          ⟨⟨t.sb.magic, t.sb.root, t.sb.free_list_head, t.sb.page_count + 1⟩,
            ((t.disk ++ [Page.leaf ⟨p.parent, 0, []⟩]).set L
              (Page.leaf ⟨p.parent, t.disk.length, tmp.take (tmp.length / 2)⟩)).set
              t.disk.length
              (Page.leaf ⟨p.parent, p.next,
                (tmp.drop (tmp.length / 2)).take (tmp.length - tmp.length / 2)⟩)⟩
          (g.add t.disk.length 0) := by
        refine ⟨fun pid h => Or.inr h, fun pid h => ?_, ?_, Or.inl rfl⟩
        · simp [Levels.add, Nat.ne_of_lt (hinv.core.below pid h)]
        · simp
      exact ⟨t1, g1, e1, hinv1, BalGrows.after hstep rfl hinv.core.rootLive hgr⟩

/-! ## Balance: what the shape invariant says about depth -/

/-- A page reached from the root in `dep` steps is a page of the tree, `dep` levels below
the root. -/
theorem ReachAt_lvl (t : Tree) (g : Levels) (hinv : Balanced t g) (dep pid : Nat)
    (h : ReachAt t dep pid) : g.live pid ∧ g.lvl pid + dep = g.lvl t.sb.root := by
  induction h with
  | root => exact ⟨hinv.core.rootLive, rfl⟩
  | child _ hn hc ih =>
    obtain ⟨a1, a2⟩ := ih
    obtain ⟨b1, _, b3⟩ := hinv.core.child _ _ _ a1 (bodyAt_internal _ _ _ hn) _ hc
    exact ⟨b1, by omega⟩

/-- Every leaf reached from the root lies `g.lvl root` steps below it. -/
theorem ReachAt_leaf (t : Tree) (g : Levels) (hinv : Balanced t g) (dep pid : Nat)
    (h : ReachAt t dep pid) (p : LeafPage) (hp : t.disk[pid]? = some (Page.leaf p)) :
    dep = g.lvl t.sb.root := by
  obtain ⟨a1, a2⟩ := ReachAt_lvl t g hinv dep pid h
  have := ((BalPageOK_leaf _ _ _ _ _ (bodyAt_leaf _ _ _ hp)).1 (hinv.core.pages pid a1)).1
  omega

theorem statsLoop_bal (t : Tree) (g : Levels) (hinv : Balanced t g) (f : Nat) :
    ∀ pid h, g.live pid → g.lvl pid < f →
      statsLoop t.disk f pid h = some (h + g.lvl pid + 1) := by
  induction f with
  | zero => intro pid h _ hf; omega
  | succ f ih =>
    intro pid h hl hf
    have hne : pid ≠ 0 := hinv.core.nonzero pid hl
    rcases BalPageOK_cases _ _ _ (hinv.core.pages pid hl) with
      ⟨nxt, slots, hb, hlv, _⟩ | ⟨lm, slots, hb, _, _, k3⟩
    · obtain ⟨p, hp, _, _⟩ := bodyAt_leaf_some _ _ _ _ hb
      simp [statsLoop, hne, readPage, hp, hlv]
    · obtain ⟨p, hp, rfl, rfl⟩ := bodyAt_internal_some _ _ _ _ hb
      obtain ⟨m1, _, m3⟩ := k3 p.leftmost (by simp [kids])
      have := ih p.leftmost (h + 1) m1 (by omega)
      simp only [statsLoop, hne, readPage, hp, if_false, this]
      congr 1
      omega

/-- The height that `stats` counts is one more than the level of the root. -/
theorem stats_bal (t : Tree) (g : Levels) (hinv : Balanced t g) :
    stats t = some (g.lvl t.sb.root + 1) := by
  unfold stats
  rw [statsLoop_bal t g hinv _ _ 0 hinv.core.rootLive (by have := hinv.core.height; omega)]
  simp

/-! ## Balance: the forest a bulk load builds -/

theorem super0_of_body (d : List Page) (h : bodyAt d 0 = some Body.super) :
    ∃ sb0, d[0]? = some (Page.super sb0) := by
  obtain ⟨pg, hpg, hb⟩ := bodyAt_some d 0 _ h
  cases pg with
  | super sb => exact ⟨sb, hpg⟩
  | leaf p => cases hb
  | internal p => cases hb

theorem body_of_super0 (d : List Page) (sb0 : SuperBlock) (h : d[0]? = some (Page.super sb0)) :
    bodyAt d 0 = some Body.super := bodyAt_eq d 0 _ h

theorem Forest.perm {d : List Page} {g : Levels} {R R1 : List Nat} (h : Forest d g R)
    (hp : R.Perm R1) : Forest d g R1 where
  super0 := h.super0
  nodup := hp.nodup_iff.1 h.nodup
  rootLive := fun r hr => h.rootLive r (hp.mem_iff.2 hr)
  rootParent := fun r hr => h.rootParent r (hp.mem_iff.2 hr)
  pages := h.pages
  attached := fun pid hl hn => h.attached pid hl (fun hm => hn (hp.mem_iff.1 hm))

theorem Forest.isNode_live {d : List Page} {g : Levels} {R : List Nat} (h : Forest d g R)
    (pid : Nat) (hl : g.live pid) : isNode d pid :=
  BalPageOK_isNode _ _ _ (h.pages pid hl)

theorem Forest.lt_length {d : List Page} {g : Levels} {R : List Nat} (h : Forest d g R)
    (pid : Nat) (hl : g.live pid) : pid < d.length :=
  isNode_lt _ _ (h.isNode_live pid hl)

theorem Forest.live_ne_zero {d : List Page} {g : Levels} {R : List Nat} (h : Forest d g R)
    (pid : Nat) (hl : g.live pid) : pid ≠ 0 := by
  obtain ⟨sb0, h0⟩ := h.super0
  obtain ⟨pg, hpg, hs⟩ := h.isNode_live pid hl
  exact node_ne_zero _ sb0 pid pg h0 hpg hs

theorem Forest.kid_of_live {d : List Page} {g : Levels} {R : List Nat} (h : Forest d g R)
    (pid lm : Nat) (slots : List InternalEntry) (hl : g.live pid)
    (hb : bodyAt d pid = some (Body.internal lm slots)) (c : Nat) (hc : c ∈ kids lm slots) :
    g.live c ∧ parentAt d c = pid ∧ g.lvl c + 1 = g.lvl pid :=
  ((BalPageOK_internal _ _ _ _ _ hb).1 (h.pages pid hl)).2.2 c hc

theorem Forest_empty (d : List Page) (h0 : ∃ sb0, d[0]? = some (Page.super sb0)) :
    Forest d Levels.empty [] where
  super0 := h0
  nodup := List.nodup_nil
  rootLive := fun _ h => absurd h (List.not_mem_nil _)
  rootParent := fun _ h => absurd h (List.not_mem_nil _)
  pages := fun _ h => absurd h id
  attached := fun _ h => absurd h id

/-- A new leaf with `parent = 0` at the end of the file is one more subtree. -/
theorem Forest_new_leaf (d d1 : List Page) (g : Levels) (R : List Nat) (nxt : Nat)
    (slots : List LeafEntry) (h : Forest d g R) (hcap : slots.length ≤ LEAF_CAPACITY)
    (h0 : ∃ sb0, d1[0]? = some (Page.super sb0))
    (hB : ∀ j, bodyAt d1 j = if j = d.length then some (Body.leaf nxt slots) else bodyAt d j)
    (hP : ∀ j, parentAt d1 j = if j = d.length then 0 else parentAt d j) :
    Forest d1 (g.add d.length 0) (R ++ [d.length]) := by
  have hlt : ∀ pid, g.live pid → pid ≠ d.length := fun pid hl => Nat.ne_of_lt (h.lt_length pid hl)
  have glvl : ∀ c, c ≠ d.length → (g.add d.length 0).lvl c = g.lvl c := by
    intro c hc; simp [Levels.add, hc]
  refine ⟨h0, ?_, ?_, ?_, ?_, ?_⟩
  · rw [List.nodup_append]
    refine ⟨h.nodup, List.nodup_singleton _, ?_⟩
    intro a ha hb
    rw [List.mem_singleton] at hb
    exact hlt a (h.rootLive a ha) hb
  · intro r hr
    rw [List.mem_append, List.mem_singleton] at hr
    rcases hr with hr | rfl
    · exact Or.inr (h.rootLive r hr)
    · exact Or.inl rfl
  · intro r hr
    rw [List.mem_append, List.mem_singleton] at hr
    rw [hP]
    rcases hr with hr | rfl
    · rw [if_neg (hlt r (h.rootLive r hr))]; exact h.rootParent r hr
    · rw [if_pos rfl]
  · intro pid hpl
    by_cases hN : pid = d.length
    · subst hN
      exact (BalPageOK_leaf _ _ _ nxt slots (by rw [hB, if_pos rfl])).2
        ⟨by simp [Levels.add], hcap⟩
    · have hpl1 : g.live pid := by
        rcases hpl with hh | hh
        · exact absurd hh hN
        · exact hh
      refine BalPageOK_transfer d d1 g _ pid (by rw [hB, if_neg hN]) (glvl _ hN) ?_
        (h.pages pid hpl1)
      intro lm2 slots2 _ c _ hcl hcp
      refine ⟨Or.inr hcl, ?_, glvl _ (hlt c hcl)⟩
      rw [hP, if_neg (hlt c hcl)]; exact hcp
  · intro pid hpl hnR
    have hN : pid ≠ d.length := fun hh => hnR (by rw [hh]; simp)
    have hpl1 : g.live pid := by
      rcases hpl with hh | hh
      · exact absurd hh hN
      · exact hh
    obtain ⟨lm2, slots2, b1, b2, b3⟩ := h.attached pid hpl1
      (fun hh => hnR (List.mem_append_left _ hh))
    have hpp : parentAt d1 pid = parentAt d pid := by rw [hP, if_neg hN]
    refine ⟨lm2, slots2, ?_, ?_, b3⟩
    · rw [hpp, hB, if_neg (hlt _ b2)]; exact b1
    · rw [hpp]; exact Or.inr b2

/-- Rewriting the `next` field of a leaf changes nothing in the forest. -/
theorem Forest_relink (d : List Page) (g : Levels) (R : List Nat) (q x : Nat) (p : LeafPage)
    (h : Forest d g R) (hq : d[q]? = some (Page.leaf p)) :
    Forest (d.set q (Page.leaf { p with next := x })) g R := by
  have hqlt : q < d.length := (List.getElem?_eq_some_iff.1 hq).1
  obtain ⟨sb0, h0⟩ := h.super0
  have hq0 : q ≠ 0 := node_ne_zero d sb0 q _ h0 hq rfl
  have hP : ∀ j, parentAt (d.set q (Page.leaf { p with next := x })) j = parentAt d j := by
    intro j
    rw [parentAt_set _ _ _ _ hqlt]
    split
    · rename_i hj; rw [hj, parentAt_eq _ _ _ hq]; rfl
    · rfl
  have hB : ∀ j, j ≠ q → bodyAt (d.set q (Page.leaf { p with next := x })) j = bodyAt d j := by
    intro j hj; rw [bodyAt_set _ _ _ _ hqlt, if_neg hj]
  have hBq : bodyAt (d.set q (Page.leaf { p with next := x })) q
      = some (Body.leaf x p.slots) := by
    rw [bodyAt_set _ _ _ _ hqlt, if_pos rfl]; rfl
  refine ⟨⟨sb0, ?_⟩, h.nodup, h.rootLive, ?_, ?_, ?_⟩
  · rw [List.getElem?_set_ne (fun hh => hq0 hh)]; exact h0
  · intro r hr; rw [hP]; exact h.rootParent r hr
  · intro pid hl
    by_cases hpq : pid = q
    · subst hpq
      have := (BalPageOK_leaf _ _ _ _ _ (bodyAt_leaf _ _ _ hq)).1 (h.pages pid hl)
      exact (BalPageOK_leaf _ _ _ _ _ hBq).2 this
    · refine BalPageOK_transfer d _ g g pid (hB pid hpq) rfl ?_ (h.pages pid hl)
      intro lm2 slots2 _ c _ hcl hcp
      exact ⟨hcl, by rw [hP]; exact hcp, rfl⟩
  · intro pid hl hnR
    obtain ⟨lm2, slots2, b1, b2, b3⟩ := h.attached pid hl hnR
    have hne : parentAt d pid ≠ q := by
      intro hh
      rw [hh, bodyAt_leaf _ _ _ hq] at b1
      cases b1
    refine ⟨lm2, slots2, ?_, ?_, b3⟩
    · rw [hP, hB _ hne]; exact b1
    · rw [hP]; exact b2

/-- A new internal page over some of the subtrees, all of the same height, makes them one
subtree. -/
theorem Forest_group (d d3 : List Page) (g : Levels) (lm : Nat) (slots : List InternalEntry)
    (R : List Nat) (L : Nat) (h : Forest d g (kids lm slots ++ R))
    (hlv : ∀ c ∈ kids lm slots, g.lvl c = L) (hcap : slots.length ≤ INTERNAL_CAPACITY)
    (h0 : ∃ sb0, d3[0]? = some (Page.super sb0))
    (hB : ∀ j, bodyAt d3 j =
      if j = d.length then some (Body.internal lm slots) else bodyAt d j)
    (hP : ∀ j, parentAt d3 j =
      if j = d.length then 0 else if j ∈ kids lm slots then d.length else parentAt d j) :
    Forest d3 (g.add d.length (L + 1)) (d.length :: R) := by
  have hlt : ∀ pid, g.live pid → pid ≠ d.length := fun pid hl => Nat.ne_of_lt (h.lt_length pid hl)
  have glvl : ∀ c, c ≠ d.length → (g.add d.length (L + 1)).lvl c = g.lvl c := by
    intro c hc; simp [Levels.add, hc]
  obtain ⟨nd1, nd2, nd3⟩ := List.nodup_append.1 h.nodup
  have hkl : ∀ c ∈ kids lm slots, g.live c :=
    fun c hc => h.rootLive c (List.mem_append_left _ hc)
  have hRl : ∀ r ∈ R, g.live r := fun r hr => h.rootLive r (List.mem_append_right _ hr)
  -- a child of a page written before is not one of the tops
  have hnk : ∀ pid lm2 slots2, g.live pid → bodyAt d pid = some (Body.internal lm2 slots2) →
      ∀ c ∈ kids lm2 slots2, c ∉ kids lm slots := by
    intro pid lm2 slots2 hl hb c hc hck
    have h1 := (h.kid_of_live pid lm2 slots2 hl hb c hc).2.1
    rw [h.rootParent c (List.mem_append_left _ hck)] at h1
    exact h.live_ne_zero pid hl h1.symm
  refine ⟨h0, ?_, ?_, ?_, ?_, ?_⟩
  · rw [List.nodup_cons]
    exact ⟨fun hh => hlt _ (hRl _ hh) rfl, nd2⟩
  · intro r hr
    rcases List.mem_cons.1 hr with rfl | hr
    · exact Or.inl rfl
    · exact Or.inr (hRl r hr)
  · intro r hr
    rw [hP]
    rcases List.mem_cons.1 hr with rfl | hr
    · rw [if_pos rfl]
    · rw [if_neg (hlt r (hRl r hr)), if_neg (fun hk => nd3 hk hr)]
      exact h.rootParent r (List.mem_append_right _ hr)
  · intro pid hpl
    by_cases hN : pid = d.length
    · subst hN
      refine (BalPageOK_internal _ _ _ lm slots (by rw [hB, if_pos rfl])).2 ⟨hcap, nd1, ?_⟩
      intro c hc
      have hcN := hlt c (hkl c hc)
      refine ⟨Or.inr (hkl c hc), ?_, ?_⟩
      · rw [hP, if_neg hcN, if_pos hc]
      · rw [glvl c hcN, hlv c hc]; simp [Levels.add]
    · have hpl1 : g.live pid := by
        rcases hpl with hh | hh
        · exact absurd hh hN
        · exact hh
      refine BalPageOK_transfer d d3 g _ pid (by rw [hB, if_neg hN]) (glvl _ hN) ?_
        (h.pages pid hpl1)
      intro lm2 slots2 hb2 c hc hcl hcp
      refine ⟨Or.inr hcl, ?_, glvl _ (hlt c hcl)⟩
      rw [hP, if_neg (hlt c hcl), if_neg (hnk pid lm2 slots2 hpl1 hb2 c hc)]; exact hcp
  · intro pid hpl hnR
    have hN : pid ≠ d.length := fun hh => hnR (by rw [hh]; exact List.mem_cons_self _ _)
    have hpR : pid ∉ R := fun hh => hnR (List.mem_cons_of_mem _ hh)
    have hpl1 : g.live pid := by
      rcases hpl with hh | hh
      · exact absurd hh hN
      · exact hh
    by_cases hk : pid ∈ kids lm slots
    · have hpp : parentAt d3 pid = d.length := by rw [hP, if_neg hN, if_pos hk]
      refine ⟨lm, slots, ?_, ?_, hk⟩
      · rw [hpp, hB, if_pos rfl]
      · rw [hpp]; exact Or.inl rfl
    · obtain ⟨lm2, slots2, b1, b2, b3⟩ := h.attached pid hpl1 (by
        rw [List.mem_append]; exact fun hh => hh.elim hk hpR)
      have hpp : parentAt d3 pid = parentAt d pid := by rw [hP, if_neg hN, if_neg hk]
      refine ⟨lm2, slots2, ?_, ?_, b3⟩
      · rw [hpp, hB, if_neg (hlt _ b2)]; exact b1
      · rw [hpp]; exact Or.inr b2

/-! ## Balance: the upper pass of a bulk load -/

/-- What one round of `build_level` writes: a new internal page `⟨0, lm, slots⟩` at the end
of the file, with the `parent` field of each of its children set to it. -/
theorem obs_group (d : List Page) (lm : Nat) (slots : List InternalEntry)
    (h0 : ∃ sb0, d[0]? = some (Page.super sb0))
    (hn : ∀ c ∈ kids lm slots, isNode d c) :
    ∃ d3, ((setParent (allocatePage d).2 lm d.length).bind fun d1 =>
        (setParents d1 d.length slots).bind fun d2 =>
        some (writeInternal d2 d.length ⟨0, lm, slots⟩)) = some d3 ∧
      d3.length = d.length + 1 ∧ (∃ sb0, d3[0]? = some (Page.super sb0)) ∧
      (∀ j, bodyAt d3 j =
        if j = d.length then some (Body.internal lm slots) else bodyAt d j) ∧
      (∀ j, parentAt d3 j =
        if j = d.length then 0 else if j ∈ kids lm slots then d.length else parentAt d j) := by
  obtain ⟨sb0, h0⟩ := h0
  have hpos : 0 < d.length := (List.getElem?_eq_some_iff.1 h0).1
  have hn1 : ∀ c ∈ kids lm slots, isNode (d ++ [zeroPage]) c :=
    fun c hc => isNode_append _ _ _ (hn c hc)
  obtain ⟨da, ea, la, ba, pa⟩ := setParent_obs (d ++ [zeroPage]) lm d.length
    (hn1 lm (List.mem_cons_self _ _))
  obtain ⟨db, eb, lb, bb, pb⟩ := setParents_obs slots da d.length (fun e he =>
    isNode_setParent _ _ _ _ _ ea (hn1 _ (List.mem_cons_of_mem _ (List.mem_map.2 ⟨e, he, rfl⟩))))
  have hlen : d.length < db.length := by rw [lb, la]; simp
  have hB : ∀ j, bodyAt (writeInternal db d.length ⟨0, lm, slots⟩) j =
      if j = d.length then some (Body.internal lm slots) else bodyAt d j := by
    intro j
    show bodyAt (db.set d.length _) j = _
    rw [bodyAt_set _ _ _ _ hlen]
    by_cases hj : j = d.length
    · simp [hj, Page.body]
    · rw [if_neg hj, if_neg hj, bb, ba, bodyAt_append, if_neg hj]
  refine ⟨writeInternal db d.length ⟨0, lm, slots⟩, ?_, ?_, ?_, hB, ?_⟩
  · show ((setParent (d ++ [zeroPage]) lm d.length).bind _) = _
    simp only [ea, Option.some_bind, eb]
  · show (db.set d.length _).length = _
    rw [List.length_set, lb, la]; simp
  · apply super0_of_body
    rw [hB, if_neg (by omega)]
    exact body_of_super0 d sb0 h0
  · intro j
    show parentAt (db.set d.length _) j = _
    rw [parentAt_set _ _ _ _ hlen]
    by_cases hj : j = d.length
    · simp [hj, Page.parent]
    · rw [if_neg hj, if_neg hj, pb, pa, parentAt_append, if_neg hj]
      by_cases h1 : j = lm
      · simp [h1, kids]
      · by_cases h2 : j ∈ slots.map InternalEntry.right_child
        · simp [h2, kids]
        · simp [h1, h2, kids]

theorem group_kids (first : Int × Nat) (rest : List (Int × Nat)) (others : List Nat) :
    ((first :: rest).map Prod.snd ++ others) =
      kids first.2 ((rest.take INTERNAL_CAPACITY).map fun e => (⟨e.1, e.2⟩ : InternalEntry)) ++
        ((rest.drop INTERNAL_CAPACITY).map Prod.snd ++ others) := by
  have h1 : ((rest.take INTERNAL_CAPACITY).map
      fun e => (⟨e.1, e.2⟩ : InternalEntry)).map InternalEntry.right_child
      = (rest.take INTERNAL_CAPACITY).map Prod.snd := by
    rw [List.map_map]; rfl
  unfold kids
  rw [h1, List.map_cons, List.cons_append, List.cons_append, ← List.append_assoc,
    ← List.map_append, List.take_append_drop]

/-- One call of `build_level` on subtrees of one height returns, and leaves subtrees one
level higher in their place. -/
theorem build_level_forest (fuel : Nat) :
    ∀ (d : List Page) (g : Levels) (lower : List (Int × Nat)) (others : List Nat) (L : Nat),
      lower.length ≤ fuel → Forest d g (lower.map Prod.snd ++ others) →
      (∀ e ∈ lower, g.lvl e.2 = L) →
      ∃ d1 upper g1, build_level fuel d lower = some (d1, upper) ∧
        Forest d1 g1 (upper.map Prod.snd ++ others) ∧
        (∀ e ∈ upper, g1.lvl e.2 = L + 1) ∧
        (∀ pid, g.live pid → g1.live pid ∧ g1.lvl pid = g.lvl pid) ∧
        (∀ pid, g1.live pid → g.live pid ∨ g1.lvl pid = L + 1) ∧
        d1.length = d.length + upper.length ∧
        (lower ≠ [] → upper ≠ []) ∧ upper.length ≤ lower.length ∧
        (1 < lower.length → upper.length < lower.length) := by
  induction fuel with
  | zero =>
    intro d g lower others L hf hF _
    have : lower = [] := List.length_eq_zero.1 (by omega)
    subst this
    exact ⟨d, [], g, rfl, hF, by simp, fun _ h => ⟨h, rfl⟩, fun _ h => Or.inl h, by simp,
      by simp, by simp, by simp⟩
  | succ f ih =>
    intro d g lower others L hf hF hlv
    cases lower with
    | nil =>
      exact ⟨d, [], g, rfl, hF, by simp, fun _ h => ⟨h, rfl⟩, fun _ h => Or.inl h, by simp,
        by simp, by simp, by simp⟩
    | cons first rest =>
      rw [group_kids] at hF
      have hkl : ∀ c ∈ kids first.2
          ((rest.take INTERNAL_CAPACITY).map fun e => (⟨e.1, e.2⟩ : InternalEntry)),
          g.live c := fun c hc => hF.rootLive c (List.mem_append_left _ hc)
      have hklv : ∀ c ∈ kids first.2
          ((rest.take INTERNAL_CAPACITY).map fun e => (⟨e.1, e.2⟩ : InternalEntry)),
          g.lvl c = L := by
        intro c hc
        simp only [kids, List.mem_cons, List.mem_map] at hc
        rcases hc with rfl | ⟨e, ⟨e1, he1, rfl⟩, rfl⟩
        · exact hlv first (List.mem_cons_self _ _)
        · exact hlv e1 (List.mem_cons_of_mem _ (List.mem_of_mem_take he1))
      obtain ⟨d3, e3, l3, z3, b3, p3⟩ := obs_group d first.2
        ((rest.take INTERNAL_CAPACITY).map fun e => (⟨e.1, e.2⟩ : InternalEntry)) hF.super0
        (fun c hc => hF.isNode_live c (hkl c hc))
      have hF3 := Forest_group d d3 g first.2 _ _ L hF hklv
        (by rw [List.length_map, List.length_take]; exact Nat.min_le_left _ _) z3 b3 p3
      have hlt : ∀ pid, g.live pid → pid ≠ d.length :=
        fun pid hl => Nat.ne_of_lt (hF.lt_length pid hl)
      have hlive_rest : ∀ e ∈ rest.drop INTERNAL_CAPACITY, g.live e.2 := fun e he =>
        hF.rootLive e.2 (List.mem_append_right _ (List.mem_append_left _
          (List.mem_map.2 ⟨e, he, rfl⟩)))
      obtain ⟨d1, upper, g1, e1, hF1, u1, k1, k2, l1, _, n2, _⟩ :=
        ih d3 (g.add d.length (L + 1)) (rest.drop INTERNAL_CAPACITY) (d.length :: others) L
          (by rw [List.length_drop]; simp only [List.length_cons] at hf; omega)
          (hF3.perm List.perm_middle.symm)
          (fun e he => by
            simp only [Levels.add, hlt _ (hlive_rest e he), if_false]
            exact hlv e (List.mem_cons_of_mem _ (List.mem_of_mem_drop he)))
      refine ⟨d1, (if 0 < ((rest.take INTERNAL_CAPACITY).map
          fun e => (⟨e.1, e.2⟩ : InternalEntry)).length
          then (((rest.take INTERNAL_CAPACITY).map
            fun e => (⟨e.1, e.2⟩ : InternalEntry)).getD 0 default).key
          else first.1, d.length) :: upper, g1, ?_, ?_, ?_, ?_, ?_, ?_, by simp, ?_, ?_⟩
      · simp only [build_level, allocatePage_fst, InternalPage.count, gt_iff_lt]
        have e3b := Option.bind_eq_some.1 e3
        obtain ⟨da, ha1, ha2⟩ := e3b
        obtain ⟨db, hb1, hb2⟩ := Option.bind_eq_some.1 ha2
        cases hb2
        simp only [ha1, hb1, Option.some_bind, e1]
      · exact hF1.perm List.perm_middle
      · intro e he
        rcases List.mem_cons.1 he with rfl | he
        · have := (k1 d.length (Or.inl rfl)).2
          rw [this]; simp [Levels.add]
        · exact u1 e he
      · intro pid hl
        obtain ⟨a1, a2⟩ := k1 pid (Or.inr hl)
        refine ⟨a1, ?_⟩
        rw [a2]; simp [Levels.add, hlt pid hl]
      · intro pid hl
        rcases k2 pid hl with h | h
        · rcases h with rfl | h
          · right
            rw [(k1 d.length (Or.inl rfl)).2]; simp [Levels.add]
          · exact Or.inl h
        · exact Or.inr h
      · rw [l1, l3, List.length_cons]; omega
      · simp only [List.length_cons, List.length_drop] at n2 ⊢; omega
      · intro h1
        simp only [List.length_cons, List.length_drop] at n2 h1 ⊢
        rw [INTERNAL_CAPACITY_eq] at n2
        omega

/-- The upper pass on subtrees of one height returns one root, over a balanced tree. -/
theorem upperPass_forest (fuel : Nat) :
    ∀ (d : List Page) (g : Levels) (level : List (Int × Nat)) (L : Nat),
      level.length ≤ fuel → level ≠ [] → Forest d g (level.map Prod.snd) →
      (∀ e ∈ level, g.lvl e.2 = L) → (∀ pid, g.live pid → g.lvl pid ≤ L) →
      L + 2 ≤ d.length →
      ∃ d1 root g1, upperPass fuel d level = some (d1, [root]) ∧ Forest d1 g1 [root.2] ∧
        (∀ pid, g1.live pid → g1.lvl pid ≤ g1.lvl root.2) ∧
        g1.lvl root.2 + 2 ≤ d1.length := by
  induction fuel with
  | zero =>
    intro d g level L hf hne
    exact absurd (List.length_eq_zero.1 (by omega)) hne
  | succ f ih =>
    intro d g level L hf hne hF hlv hle hsz
    by_cases h1 : 1 < level.length
    · obtain ⟨d1, upper, g1, e1, hF1, u1, k1, k2, l1, n1, _, n3⟩ :=
        build_level_forest level.length d g level [] L le_rfl (by simpa using hF) hlv
      obtain ⟨d2, root, g2, e2, hF2, a1, a2⟩ := ih d1 g1 upper (L + 1)
        (by have := n3 h1; omega) (n1 hne) (by simpa using hF1) u1
        (fun pid hl => by
          rcases k2 pid hl with h | h
          · rw [(k1 pid h).2]; exact Nat.le_succ_of_le (hle pid h)
          · rw [h])
        (by
          have : 0 < upper.length := List.length_pos.2 (n1 hne)
          omega)
      refine ⟨d2, root, g2, ?_, hF2, a1, a2⟩
      simp only [upperPass, gt_iff_lt, h1, if_true, e1, Option.some_bind, e2]
    · obtain ⟨root, rfl⟩ : ∃ root, level = [root] := by
        cases level with
        | nil => exact absurd rfl hne
        | cons a l =>
          cases l with
          | nil => exact ⟨a, rfl⟩
          | cons b l => simp at h1
      refine ⟨d, root, g, ?_, by simpa using hF, ?_, ?_⟩
      · simp [upperPass]
      · intro pid hl
        rw [hlv root (List.mem_singleton_self _)]; exact hle pid hl
      · rw [hlv root (List.mem_singleton_self _)]; exact hsz

/-! ## Balance: the leaf pass of a bulk load -/

theorem flush_forest (b : BulkState) (g : Levels) (firstKey : Int) (h : LeafForest b g)
    (hcap : b.leaf.slots.length ≤ LEAF_CAPACITY) :
    ∃ b2, flush_leaf b firstKey = some b2 ∧ LeafForest b2 (g.add b.disk.length 0) ∧
      b2.leaf = {} ∧ b2.firstKeySet = b.firstKeySet ∧ b2.prevKey = b.prevKey ∧
      b2.child_list ≠ [] := by
  obtain ⟨sb0, h0⟩ := h.forest.super0
  have hF1 : Forest (b.disk ++ [Page.leaf b.leaf]) (g.add b.disk.length 0)
      (b.child_list.map Prod.snd ++ [b.disk.length]) := by
    refine Forest_new_leaf b.disk _ g _ b.leaf.next b.leaf.slots h.forest hcap
      ⟨sb0, page0_append _ sb0 _ h0⟩ (fun j => ?_) (fun j => ?_)
    · rw [bodyAt_append]; rfl
    · rw [parentAt_append]
      split
      · exact h.parent0
      · rfl
  have hflat : ∀ pid, (g.add b.disk.length 0).live pid → (g.add b.disk.length 0).lvl pid = 0 := by
    intro pid hl
    rcases hl with rfl | hl
    · simp [Levels.add]
    · simp only [Levels.add]
      split
      · rfl
      · exact h.flat pid hl
  by_cases hp0 : b.prevLeafPid = 0
  · refine ⟨_, flush_leaf_first b firstKey hp0, ⟨?_, hflat, rfl, ?_⟩, rfl, rfl, rfl, by simp⟩
    · simpa using hF1
    · intro _
      exact ⟨b.leaf, by simp⟩
  · obtain ⟨p, hp⟩ := h.prev hp0
    have hlt : b.prevLeafPid < b.disk.length := (List.getElem?_eq_some_iff.1 hp).1
    refine ⟨_, flush_leaf_next b firstKey p hp0 hp, ⟨?_, hflat, rfl, ?_⟩, rfl, rfl, rfl,
      by simp⟩
    · have := Forest_relink _ _ _ b.prevLeafPid b.disk.length p hF1
        (by rw [List.getElem?_append_left hlt]; exact hp)
      simpa using this
    · intro _
      refine ⟨b.leaf, ?_⟩
      show ((b.disk ++ [Page.leaf b.leaf]).set b.prevLeafPid _)[b.disk.length]? = _
      rw [List.getElem?_set_ne (by omega)]
      exact List.getElem?_concat_length _ _

theorem leafPass_forest (input : List (Int × Bytes)) :
    ∀ (b : BulkState) (g : Levels), LeafForest b g → b.leaf.slots.length < LEAF_CAPACITY →
      ∀ b1, leafPass b input = some (Sum.inr b1) →
        ∃ g1, LeafForest b1 g1 ∧ b1.leaf.slots.length < LEAF_CAPACITY := by
  induction input with
  | nil =>
    intro b g h hc b1 he
    simp only [leafPass, Option.some.injEq, Sum.inr.injEq] at he
    subst he
    exact ⟨g, h, hc⟩
  | cons r rest ih =>
    intro b g h hc b1 he
    obtain ⟨key, val⟩ := r
    by_cases hd : b.firstKeySet = true ∧ key < b.prevKey
    · simp [leafPass, hd] at he
    · simp only [leafPass, hd, if_false, LeafPage.count, List.length_append,
        List.length_singleton] at he
      have hL1 : LeafForest
          { b with firstKeySet := true, prevKey := key,
                   leaf := { b.leaf with slots := b.leaf.slots ++ [⟨key, pad8 val⟩] } } g :=
        ⟨h.forest, h.flat, h.parent0, h.prev⟩
      by_cases hfull : b.leaf.slots.length + 1 = LEAF_CAPACITY
      · rw [if_pos hfull] at he
        obtain ⟨b2, e2, hL2, hl2, _, _, _⟩ := flush_forest _ g
          (({ b.leaf with slots := b.leaf.slots ++ [⟨key, pad8 val⟩] } : LeafPage).slots.getD 0
            default).key hL1 (by simp; omega)
        rw [e2, Option.some_bind] at he
        exact ih b2 _ hL2 (by rw [hl2, LEAF_CAPACITY_eq]; simp) b1 he
      · rw [if_neg hfull] at he
        exact ih _ g hL1 (by simp; omega) b1 he

/-! ## Balance: a bulk load that stops at unsorted input -/

theorem flush_frame (d0 : List Page) (b b2 : BulkState) (firstKey : Int)
    (h : flush_leaf b firstKey = some b2) (hf : LeafFrame d0 b) : LeafFrame d0 b2 := by
  unfold flush_leaf at h
  simp only [allocatePage_fst, writeLeaf_alloc] at h
  obtain ⟨d3, h3, h4⟩ := Option.bind_eq_some.1 h
  cases h4
  by_cases hp0 : b.prevLeafPid = 0
  · simp only [hp0, ne_eq, not_true_eq_false, if_false, Option.some.injEq] at h3
    subst h3
    refine ⟨?_, fun j hj => ?_, Or.inr hf.len⟩
    · show d0.length ≤ (b.disk ++ _).length
      have := hf.len; simp; omega
    · show (b.disk ++ _)[j]? = _
      rw [List.getElem?_append_left (lt_of_lt_of_le hj hf.len)]; exact hf.old j hj
  · simp only [ne_eq, hp0, not_false_eq_true, if_true] at h3
    obtain ⟨prev, _, h5⟩ := Option.bind_eq_some.1 h3
    cases h5
    have hge : d0.length ≤ b.prevLeafPid := hf.prev.resolve_left hp0
    refine ⟨?_, fun j hj => ?_, Or.inr hf.len⟩
    · show d0.length ≤ (writeLeaf (b.disk ++ _) _ _).length
      have := hf.len; simp [writeLeaf, writePage]; omega
    · show (writeLeaf (b.disk ++ _) _ _)[j]? = _
      unfold writeLeaf writePage
      rw [List.getElem?_set_ne (by omega),
        List.getElem?_append_left (lt_of_lt_of_le hj hf.len)]
      exact hf.old j hj

/-- However the leaf pass ends, the pages the file had before are as before. -/
theorem leafPass_frame (d0 : List Page) (input : List (Int × Bytes)) :
    ∀ (b : BulkState), LeafFrame d0 b →
      ∀ r, leafPass b input = some r → LeafFrame d0 (r.elim id id) := by
  induction input with
  | nil =>
    intro b hf r he
    simp only [leafPass, Option.some.injEq] at he
    subst he
    exact hf
  | cons rec rest ih =>
    intro b hf r he
    obtain ⟨key, val⟩ := rec
    by_cases hd : b.firstKeySet = true ∧ key < b.prevKey
    · simp only [leafPass, hd, and_self, if_true, Option.some.injEq] at he
      subst he
      exact hf
    · simp only [leafPass, hd, if_false] at he
      have hf1 : LeafFrame d0
          { b with firstKeySet := true, prevKey := key,
                   leaf := { b.leaf with slots := b.leaf.slots ++ [⟨key, pad8 val⟩] } } :=
        ⟨hf.len, hf.old, hf.prev⟩
      split at he
      · obtain ⟨b2, e2, he2⟩ := Option.bind_eq_some.1 he
        exact ih b2 (flush_frame d0 _ b2 _ e2 hf1) r he2
      · exact ih _ hf1 r he

/-- New pages behind the end of the file, the old pages left as they are, keep the tree
what it is. -/
theorem Balanced_frame (t : Tree) (g : Levels) (d1 : List Page) (hinv : Balanced t g)
    (hlen : t.disk.length ≤ d1.length) (hold : ∀ j, j < t.disk.length → d1[j]? = t.disk[j]?) :
    Balanced ⟨t.sb, d1⟩ g := by
  have hB : ∀ j, j < t.disk.length → bodyAt d1 j = bodyAt t.disk j := by
    intro j hj; unfold bodyAt; rw [hold j hj]
  have hP : ∀ j, j < t.disk.length → parentAt d1 j = parentAt t.disk j := by
    intro j hj; unfold parentAt; rw [hold j hj]
  have hlt := hinv.core.below
  obtain ⟨sb0, h0⟩ := hinv.core.super0
  have hpos : 0 < t.disk.length := (List.getElem?_eq_some_iff.1 h0).1
  refine ⟨⟨⟨sb0, ?_⟩, hinv.core.rootLive, ?_, ?_, hinv.core.lvlLe, ?_⟩, ?_⟩
  · show d1[0]? = _
    rw [hold 0 hpos]; exact h0
  · show parentAt d1 t.sb.root = 0
    rw [hP _ (hlt _ hinv.core.rootLive)]; exact hinv.core.rootParent
  · show g.lvl t.sb.root + 2 ≤ d1.length
    have := hinv.core.height; omega
  · intro pid hl
    refine BalPageOK_transfer t.disk d1 g g pid (hB pid (hlt pid hl)) rfl ?_
      (hinv.core.pages pid hl)
    intro lm slots _ c _ hcl hcp
    exact ⟨hcl, by rw [hP c (hlt c hcl)]; exact hcp, rfl⟩
  · intro pid hl hne
    obtain ⟨lm, slots, b1, b2, b3⟩ := hinv.attached pid hl hne
    refine ⟨lm, slots, ?_, ?_, b3⟩
    · show bodyAt d1 (parentAt d1 pid) = _
      rw [hP pid (hlt pid hl), hB _ (hlt _ b2)]; exact b1
    · show g.live (parentAt d1 pid)
      rw [hP pid (hlt pid hl)]; exact b2

/-- A bulk load that stops at unsorted input leaves the tree it was given. -/
theorem bulk_unsorted_balanced (t t1 : Tree) (g : Levels) (input : List (Int × Bytes))
    (hinv : Balanced t g) (h : bulkLoadCSV t input = BulkResult.unsortedInput t1) :
    Balanced t1 g ∧ t1.sb = t.sb := by
  unfold bulkLoadCSV at h
  have hf0 : LeafFrame t.disk { disk := t.disk } := ⟨le_rfl, fun _ _ => rfl, Or.inl rfl⟩
  cases hlp : leafPass { disk := t.disk } input with
  | none => rw [hlp] at h; cases h
  | some r =>
    rw [hlp] at h
    have hfr := leafPass_frame t.disk input _ hf0 r hlp
    cases r with
    | inl b =>
      simp only [BulkResult.unsortedInput.injEq] at h
      subst h
      exact ⟨Balanced_frame t g b.disk hinv hfr.len hfr.old, rfl⟩
    | inr b =>
      exfalso
      simp only at h
      split at h
      · cases h
      · split at h
        · cases h
        · split at h
          · cases h
          · cases h

/-! ## Balance: a completed bulk load -/

/-- One subtree left, with the root of the superblock on top, is a balanced tree. -/
theorem Balanced_of_forest (d : List Page) (g : Levels) (sb : SuperBlock)
    (hF : Forest d g [sb.root]) (hle : ∀ pid, g.live pid → g.lvl pid ≤ g.lvl sb.root)
    (hsz : g.lvl sb.root + 2 ≤ d.length) : Balanced ⟨sb, writeSuper d sb⟩ g := by
  obtain ⟨sb0, h0⟩ := hF.super0
  obtain ⟨w1, w2, w3, w4⟩ := writeSuper_obs d sb sb0 h0
  refine ⟨⟨⟨sb, w2⟩, hF.rootLive _ (List.mem_singleton_self _), ?_, ?_, hle, ?_⟩, ?_⟩
  · show parentAt (writeSuper d sb) sb.root = 0
    rw [w4]; exact hF.rootParent _ (List.mem_singleton_self _)
  · show g.lvl sb.root + 2 ≤ (writeSuper d sb).length
    rw [w1]; exact hsz
  · intro pid hl
    refine BalPageOK_transfer d _ g g pid (w3 pid) rfl ?_ (hF.pages pid hl)
    intro lm slots _ c _ hcl hcp
    exact ⟨hcl, by rw [w4]; exact hcp, rfl⟩
  · intro pid hl hne
    obtain ⟨lm, slots, b1, b2, b3⟩ := hF.attached pid hl (by
      rw [List.mem_singleton]; exact hne)
    refine ⟨lm, slots, ?_, ?_, b3⟩
    · show bodyAt (writeSuper d sb) (parentAt (writeSuper d sb) pid) = _
      rw [w4, w3]; exact b1
    · show g.live (parentAt (writeSuper d sb) pid)
      rw [w4]; exact b2

/-- The upper pass over the leaves of the leaf pass returns, and the root it returns is
the root of a balanced tree. -/
theorem leafForest_upper (sb : SuperBlock) (b : BulkState) (g : Levels) (h : LeafForest b g)
    (hne : b.child_list ≠ []) :
    ∃ r g1, upperPass b.child_list.length b.disk b.child_list = some r ∧
      Balanced ⟨{ sb with root := (r.2.getD 0 default).2 },
        writeSuper r.1 { sb with root := (r.2.getD 0 default).2 }⟩ g1 := by
  have hsz : 0 + 2 ≤ b.disk.length := by
    obtain ⟨e, he⟩ := List.exists_mem_of_ne_nil _ hne
    have hl := h.forest.rootLive e.2 (List.mem_map.2 ⟨e, he, rfl⟩)
    have h1 := h.forest.live_ne_zero _ hl
    have h2 := h.forest.lt_length _ hl
    omega
  obtain ⟨d1, root, g1, e1, hF1, a1, a2⟩ := upperPass_forest b.child_list.length b.disk g
    b.child_list 0 le_rfl hne h.forest
    (fun e he => h.flat _ (h.forest.rootLive e.2 (List.mem_map.2 ⟨e, he, rfl⟩)))
    (fun pid hl => by rw [h.flat pid hl]) hsz
  exact ⟨(d1, [root]), g1, e1, Balanced_of_forest d1 g1 { sb with root := root.2 } hF1 a1 a2⟩

/-- With no leaf written, the new empty leaf is the root of a balanced tree. -/
theorem leafForest_empty (t : Tree) (b : BulkState) (g : Levels) (h : LeafForest b g)
    (he : b.child_list = []) :
    ∃ g1, Balanced
      ⟨{ (newLeaf { t with disk := b.disk } 0).2.sb with
          root := (newLeaf { t with disk := b.disk } 0).1 },
        writeSuper (newLeaf { t with disk := b.disk } 0).2.disk
          { (newLeaf { t with disk := b.disk } 0).2.sb with
            root := (newLeaf { t with disk := b.disk } 0).1 }⟩ g1 := by
  obtain ⟨sb0, h0⟩ := h.forest.super0
  have hpos : 0 < b.disk.length := (List.getElem?_eq_some_iff.1 h0).1
  have hF := h.forest
  rw [he] at hF
  have hF1 : Forest (b.disk ++ [Page.leaf ⟨0, 0, []⟩]) (g.add b.disk.length 0)
      [b.disk.length] := by
    have := Forest_new_leaf b.disk (b.disk ++ [Page.leaf ⟨0, 0, []⟩]) g [] 0 [] hF
      (by simp) ⟨sb0, page0_append _ sb0 _ h0⟩
      (fun j => by rw [bodyAt_append]; rfl) (fun j => by rw [parentAt_append]; rfl)
    simpa using this
  rw [newLeaf_disk, newLeaf_fst, newLeaf_sb]
  refine ⟨g.add b.disk.length 0, Balanced_of_forest _ _ _ hF1 ?_ ?_⟩
  · intro pid hl
    show (g.add b.disk.length 0).lvl pid ≤ (g.add b.disk.length 0).lvl b.disk.length
    rcases hl with rfl | hl
    · exact le_rfl
    · simp only [Levels.add, if_true]
      split
      · exact le_rfl
      · rw [h.flat pid hl]
  · show (g.add b.disk.length 0).lvl b.disk.length + 2 ≤ (b.disk ++ _).length
    simp [Levels.add]
    omega

/-- A bulk load that returns normally leaves a balanced tree, whatever the file held. -/
theorem bulk_balanced (t t1 : Tree) (input : List (Int × Bytes))
    (h0 : ∃ sb0, t.disk[0]? = some (Page.super sb0))
    (h : bulkLoadCSV t input = BulkResult.ok t1) : ∃ g1, Balanced t1 g1 := by
  unfold bulkLoadCSV at h
  have hL0 : LeafForest { disk := t.disk } Levels.empty :=
    ⟨Forest_empty t.disk h0, fun _ hl => absurd hl id, rfl, fun hh => absurd rfl hh⟩
  cases hlp : leafPass { disk := t.disk } input with
  | none => rw [hlp] at h; cases h
  | some r =>
    rw [hlp] at h
    cases r with
    | inl b => cases h
    | inr b =>
      obtain ⟨g, hL, hc⟩ := leafPass_forest input _ _ hL0
        (by rw [LEAF_CAPACITY_eq]; simp) b hlp
      simp only at h
      by_cases hcnt : b.leaf.count > 0
      · obtain ⟨b2, e2, hL2, _, _, _, hne⟩ := flush_forest b g
          (b.leaf.slots.getD 0 default).key hL (le_of_lt hc)
        rw [if_pos hcnt, e2] at h
        simp only at h
        have hie : b2.child_list.isEmpty = false := by
          cases hcl : b2.child_list with
          | nil => exact absurd hcl hne
          | cons a l => rfl
        rw [hie] at h
        obtain ⟨r, g1, e1, hB⟩ := leafForest_upper t.sb b2 _ hL2 hne
        rw [e1] at h
        simp only [Bool.false_eq_true, if_false, BulkResult.ok.injEq] at h
        subst h
        exact ⟨g1, hB⟩
      · rw [if_neg hcnt] at h
        simp only at h
        by_cases hemp : b.child_list = []
        · have hie : b.child_list.isEmpty = true := by rw [hemp]; rfl
          rw [hie] at h
          simp only [if_true, BulkResult.ok.injEq] at h
          subst h
          exact leafForest_empty t b g hL hemp
        · have hie : b.child_list.isEmpty = false := by
            cases hcl : b.child_list with
            | nil => exact absurd hcl hemp
            | cons a l => rfl
          rw [hie] at h
          obtain ⟨r, g1, e1, hB⟩ := leafForest_upper t.sb b _ hL hemp
          rw [e1] at h
          simp only [Bool.false_eq_true, if_false, BulkResult.ok.injEq] at h
          subst h
          exact ⟨g1, hB⟩

/-! ## Balance: every state the operations reach -/

theorem reachable_balanced (t : Tree) (h : ReachableByOps t) : ∃ g, Balanced t g := by
  induction h with
  | fresh => exact ⟨_, Balanced_fresh⟩
  | insert k v _ hi ih =>
    obtain ⟨g, hg⟩ := ih
    obtain ⟨t1, g1, e1, hinv1, _⟩ := insert_bal _ g k v hg
    rw [hi] at e1
    cases e1
    exact ⟨g1, hinv1⟩
  | bulk input _ hb ih =>
    obtain ⟨g, hg⟩ := ih
    exact bulk_balanced _ _ input hg.core.super0 hb
  | bulkUnsorted input _ hb ih =>
    obtain ⟨g, hg⟩ := ih
    exact ⟨g, (bulk_unsorted_balanced _ _ g input hg hb).1⟩

/-! ## Balance: the claim -/

theorem ReachableByOps.of_inserts (t : Tree) (h : ReachableByInserts t) : ReachableByOps t := by
  induction h with
  | fresh => exact ReachableByOps.fresh
  | insert k v _ _ hi ih => exact ReachableByOps.insert k v ih hi

/-- C21: in every state reached from a tree opened on a new file by any sequence of
inserts and bulk loads (bulk loads that return, and bulk loads stopped by unsorted input),
there is a depth `H` at which every leaf reachable from the root lies, and `stats` reports
the height `H + 1`; every insert into such a state completes, all leaves of the tree it
leaves lie at one depth `H1`, and either `H1 = H` and the root page is the same, or
`H1 = H + 1` and the root is a new internal page whose leftmost child is the old root and
whose single entry points to another new page, the right half of the split root.  Keys
are arbitrary integers here, the `int32_t` keys of the program among them. -/
theorem C21_tree_always_balanced (t : Tree) (h : ReachableByOps t) :
    ∃ H, stats t = some (H + 1) ∧
      (∀ dep pid p, ReachAt t dep pid → t.disk[pid]? = some (Page.leaf p) → dep = H) ∧
      ∀ (k : Int) (v : Bytes), ∃ t1 H1, insert t k v = some t1 ∧ stats t1 = some (H1 + 1) ∧
        (∀ dep pid p, ReachAt t1 dep pid → t1.disk[pid]? = some (Page.leaf p) → dep = H1) ∧
        ((H1 = H ∧ t1.sb.root = t.sb.root) ∨
          (H1 = H + 1 ∧ t.disk.length ≤ t1.sb.root ∧
            ∃ (n : InternalPage) (s : Int) (r : Nat),
              t1.disk[t1.sb.root]? = some (Page.internal n) ∧ n.leftmost = t.sb.root ∧
              n.slots = [⟨s, r⟩] ∧ t.disk.length ≤ r)) := by
  obtain ⟨g, hinv⟩ := reachable_balanced t h
  refine ⟨g.lvl t.sb.root, stats_bal t g hinv,
    fun dep pid p hr hp => ReachAt_leaf t g hinv dep pid hr p hp, fun k v => ?_⟩
  obtain ⟨t1, g1, e1, hinv1, hgr⟩ := insert_bal t g k v hinv
  refine ⟨t1, g1.lvl t1.sb.root, e1, stats_bal t1 g1 hinv1,
    fun dep pid p hr hp => ReachAt_leaf t1 g1 hinv1 dep pid hr p hp, ?_⟩
  rcases hgr.root with hr | ⟨a1, a2, s, r, a3, a4⟩
  · left
    exact ⟨by rw [hr, hgr.lvl _ hinv.core.rootLive], hr⟩
  · right
    obtain ⟨n, hn, h1, h2⟩ := bodyAt_internal_some _ _ _ _ a4
    exact ⟨a2, a1, n, s, r, hn, h1, h2, a3⟩

/-- C21 at the tree with a full root leaf (keys 0..338): its leaves lie at depth 0, and
the insert of key 339 splits the root, after which `stats` reports height 2. -/
theorem C21_witness :
    ReachableByOps fullRootLeaf ∧ stats fullRootLeaf = some 1 ∧
    (∃ t1, insert fullRootLeaf 339 [0x76] = some t1 ∧ stats t1 = some 2) ∧
    ∃ H, stats fullRootLeaf = some (H + 1) ∧
      (∀ dep pid p, ReachAt fullRootLeaf dep pid →
        fullRootLeaf.disk[pid]? = some (Page.leaf p) → dep = H) ∧
      ∀ (k : Int) (v : Bytes), ∃ t1 H1, insert fullRootLeaf k v = some t1 ∧
        stats t1 = some (H1 + 1) ∧
        (∀ dep pid p, ReachAt t1 dep pid → t1.disk[pid]? = some (Page.leaf p) → dep = H1) ∧
        ((H1 = H ∧ t1.sb.root = fullRootLeaf.sb.root) ∨
          (H1 = H + 1 ∧ fullRootLeaf.disk.length ≤ t1.sb.root ∧
            ∃ (n : InternalPage) (s : Int) (r : Nat),
              t1.disk[t1.sb.root]? = some (Page.internal n) ∧
              n.leftmost = fullRootLeaf.sb.root ∧
              n.slots = [⟨s, r⟩] ∧ fullRootLeaf.disk.length ≤ r)) := by
  have hre := ReachableByOps.of_inserts fullRootLeaf reachable_fullRootLeaf
  have hC := C21_tree_always_balanced fullRootLeaf hre
  refine ⟨hre, by decide!, ?_, hC⟩
  obtain ⟨H, hs, _, hins⟩ := hC
  have hH : H = 0 := by
    have h1 : stats fullRootLeaf = some 1 := by decide!
    rw [h1] at hs
    simpa using hs.symm
  obtain ⟨t1, H1, e1, s1, _, hcase⟩ := hins 339 [0x76]
  refine ⟨t1, e1, ?_⟩
  have hroot : t1.sb.root = 3 := by
    have h340 := insertAll_ascending_340
    have h : (340 : Nat) = 339 + 1 := rfl
    rw [h, ascending_succ, insertAll_append, insertAll_ascending_fresh 0 339 _ (by decide)]
      at h340
    simp only [Option.some_bind, insertAll] at h340
    change (insert fullRootLeaf 339 [0x76]).bind _ = _ at h340
    rw [e1] at h340
    simp only [Option.some_bind, Option.some.injEq] at h340
    rw [h340]
  rcases hcase with ⟨_, hr⟩ | ⟨h1, _⟩
  · rw [hroot] at hr
    exact absurd hr (by decide)
  · rw [s1, h1, hH]

/-! ## Key order in the leaves -/

theorem insertAt_rank_sorted_le (k : Int) (keys : List Int) (hs : keys.Pairwise (· ≤ ·)) :
    (insertAt (rank k keys) k keys).Pairwise (· ≤ ·) := by
  induction keys with
  | nil => simp [rank, insertAt]
  | cons a as ih =>
    rw [List.pairwise_cons] at hs
    by_cases hak : a < k
    · have hr : rank k (a :: as) = rank k as + 1 := by simp [rank, hak]
      rw [hr, insertAt_succ, List.pairwise_cons]
      refine ⟨fun b hb => ?_, ih hs.2⟩
      rcases (mem_insertAt _ _ _ _).1 hb with rfl | hb
      · exact le_of_lt hak
      · exact hs.1 b hb
    · have hr : rank k (a :: as) = 0 := by simp [rank, hak]
      rw [hr, insertAt_zero, List.pairwise_cons, List.pairwise_cons]
      refine ⟨fun b hb => ?_, hs⟩
      rcases List.mem_cons.1 hb with rfl | hb
      · exact not_lt.1 hak
      · exact le_trans (not_lt.1 hak) (hs.1 b hb)

theorem LeafSlotsKept.of_bodies (d d1 : List Page) (h : ∀ j, bodyAt d1 j = bodyAt d j) :
    LeafSlotsKept d d1 :=
  fun pid nxt slots hb => ⟨nxt, by rw [← h]; exact hb⟩

theorem LeafSlotsKept.chain {d d1 d2 : List Page} (h1 : LeafSlotsKept d d1)
    (h2 : LeafSlotsKept d1 d2) : LeafSlotsKept d d2 := by
  intro pid nxt slots hb
  obtain ⟨n1, hb1⟩ := h2 pid nxt slots hb
  exact h1 pid n1 slots hb1

theorem LeavesSorted.kept {d d1 : List Page} (h : LeavesSorted d) (hk : LeafSlotsKept d d1) :
    LeavesSorted d1 := by
  intro pid nxt slots hb
  obtain ⟨n0, hb0⟩ := hk pid nxt slots hb
  exact h pid n0 slots hb0

theorem LeafSlotsKept_setParent (d d1 : List Page) (c par : Nat)
    (h : setParent d c par = some d1) : LeafSlotsKept d d1 :=
  LeafSlotsKept.of_bodies _ _ (setParent_body _ _ _ _ h).2

theorem LeafSlotsKept_setParents (es : List InternalEntry) (d d1 : List Page) (par : Nat)
    (h : setParents d par es = some d1) : LeafSlotsKept d d1 :=
  LeafSlotsKept.of_bodies _ _ (setParents_body _ _ _ _ h).2

theorem LeafSlotsKept_append_internal (d : List Page) (n : InternalPage) :
    LeafSlotsKept d (d ++ [Page.internal n]) := by
  intro pid nxt slots hb
  rw [bodyAt_append] at hb
  split at hb
  · cases hb
  · exact ⟨nxt, hb⟩

theorem LeafSlotsKept_set_internal (d : List Page) (i : Nat) (n : InternalPage) :
    LeafSlotsKept d (d.set i (Page.internal n)) := by
  intro pid nxt slots hb
  by_cases hi : i < d.length
  · rw [bodyAt_set _ _ _ _ hi] at hb
    split at hb
    · cases hb
    · exact ⟨nxt, hb⟩
  · rw [List.set_eq_of_length_le (not_lt.1 hi)] at hb
    exact ⟨nxt, hb⟩

theorem LeafSlotsKept_writeSuper (d : List Page) (sb : SuperBlock) :
    LeafSlotsKept d (writeSuper d sb) := by
  intro pid nxt slots hb
  unfold writeSuper writePage at hb
  by_cases hi : 0 < d.length
  · rw [bodyAt_set _ _ _ _ hi] at hb
    split at hb
    · cases hb
    · exact ⟨nxt, hb⟩
  · rw [List.set_eq_of_length_le (not_lt.1 hi)] at hb
    exact ⟨nxt, hb⟩

/-- The cascade of `insertIntoParent` writes no entry into a leaf. -/
theorem insertIntoParent_leafSlots (f : Nat) (t t1 : Tree) (l : Nat) (s : Int) (r : Nat)
    (h : insertIntoParent f t l s r = some t1) : LeafSlotsKept t.disk t1.disk := by
  induction f generalizing t l s r with
  | zero => simp [insertIntoParent] at h
  | succ f ih =>
    obtain ⟨pg, hl, hs, hcase⟩ := insertIntoParent_some _ _ _ _ _ _ h
    by_cases hroot : pg.parent = 0 ∧ t.sb.root = l
    · rw [insertIntoParent_root f t l s r pg hl hs hroot.1 hroot.2] at h
      obtain ⟨d2, h1, h⟩ := Option.bind_eq_some.1 h
      obtain ⟨d3, h2, h⟩ := Option.bind_eq_some.1 h
      cases h
      exact (((LeafSlotsKept_append_internal _ _).chain (LeafSlotsKept_setParent _ _ _ _ h1)).chain
        (LeafSlotsKept_setParent _ _ _ _ h2)).chain (LeafSlotsKept_writeSuper _ _)
    · rcases hcase with hc1 | ⟨P, hP⟩
      · exact absurd hc1 hroot
      · by_cases hfull : P.count = INTERNAL_CAPACITY
        · rw [insertIntoParent_full f t l s r pg P hl hs hroot hP hfull] at h
          obtain ⟨d3, h1, h⟩ := Option.bind_eq_some.1 h
          obtain ⟨d4, h2, h⟩ := Option.bind_eq_some.1 h
          have := ih _ _ _ _ h
          exact (((((LeafSlotsKept_append_internal _ _).chain
            (LeafSlotsKept_set_internal _ _ _)).chain (LeafSlotsKept_set_internal _ _ _)).chain
            (LeafSlotsKept_setParent _ _ _ _ h1)).chain
            (LeafSlotsKept_setParents _ _ _ _ h2)).chain this
        · rw [insertIntoParent_room f t l s r pg P hl hs hroot hP hfull] at h
          obtain ⟨d2, h1, h⟩ := Option.bind_eq_some.1 h
          cases h
          exact (LeafSlotsKept_set_internal _ _ _).chain (LeafSlotsKept_setParent _ _ _ _ h1)

theorem LeavesSorted_set_leaf (d : List Page) (i : Nat) (p : LeafPage) (h : LeavesSorted d)
    (hp : (p.slots.map LeafEntry.key).Pairwise (· ≤ ·)) :
    LeavesSorted (d.set i (Page.leaf p)) := by
  intro pid nxt slots hb
  by_cases hi : i < d.length
  · rw [bodyAt_set _ _ _ _ hi] at hb
    split at hb
    · simp only [Page.body, Option.some.injEq, Body.leaf.injEq] at hb
      rw [← hb.2]; exact hp
    · exact h pid nxt slots hb
  · rw [List.set_eq_of_length_le (not_lt.1 hi)] at hb
    exact h pid nxt slots hb

theorem LeavesSorted_append_leaf (d : List Page) (p : LeafPage) (h : LeavesSorted d)
    (hp : (p.slots.map LeafEntry.key).Pairwise (· ≤ ·)) :
    LeavesSorted (d ++ [Page.leaf p]) := by
  intro pid nxt slots hb
  rw [bodyAt_append] at hb
  split at hb
  · simp only [Page.body, Option.some.injEq, Body.leaf.injEq] at hb
    rw [← hb.2]; exact hp
  · exact h pid nxt slots hb

/-- The entries of a sorted leaf with a new entry put in where `lower_bound_leaf` says are
sorted. -/
theorem insertAt_lower_bound_sorted (p : LeafPage) (k : Int) (v8 : Bytes)
    (hp : (p.slots.map LeafEntry.key).Pairwise (· ≤ ·)) :
    ((insertAt (lower_bound_leaf p k) ⟨k, v8⟩ p.slots).map LeafEntry.key).Pairwise (· ≤ ·) := by
  rw [map_key_insertAt, lower_bound_leaf_eq_rank p k hp]
  exact insertAt_rank_sorted_le k _ hp

/-- Every insert keeps the leaves sorted. -/
theorem insert_leavesSorted (t t1 : Tree) (k : Int) (v : Bytes) (hs : LeavesSorted t.disk)
    (h : insert t k v = some t1) : LeavesSorted t1.disk := by
  obtain ⟨L, p, hf, hL⟩ := insert_some t t1 k v h
  have hp := hs L p.next p.slots (bodyAt_leaf _ _ _ hL)
  rw [insert_eq t k v L p hf hL] at h
  split at h
  · cases h
    exact LeavesSorted_set_leaf _ _ _ hs (by rw [map_key_set]; exact hp)
  · split at h
    · cases h
      exact LeavesSorted_set_leaf _ _ _ hs (insertAt_lower_bound_sorted p k _ hp)
    · rw [splitLeafAndInsert_eq t L k (pad8 v) p hL] at h
      have hT := insertAt_lower_bound_sorted p k (pad8 v) hp
      refine LeavesSorted.kept ?_ (insertIntoParent_leafSlots _ _ _ _ _ _ h)
      refine LeavesSorted_set_leaf _ _ _ (LeavesSorted_set_leaf _ _ _
        (LeavesSorted_append_leaf _ _ hs (by simp)) ?_) ?_
      · rw [List.map_take]
        exact hT.sublist (List.take_sublist _ _)
      · rw [List.map_take, List.map_drop]
        exact hT.sublist ((List.take_sublist _ _).trans (List.drop_sublist _ _))

/-! ## Key order in the leaves: bulk load -/

theorem flush_leaf_sorted (b b2 : BulkState) (firstKey : Int)
    (h : flush_leaf b firstKey = some b2) (hs : LeavesSorted b.disk)
    (hleaf : (b.leaf.slots.map LeafEntry.key).Pairwise (· ≤ ·)) :
    LeavesSorted b2.disk ∧ b2.leaf = {} ∧ b2.firstKeySet = b.firstKeySet ∧
      b2.prevKey = b.prevKey := by
  unfold flush_leaf at h
  simp only [allocatePage_fst, writeLeaf_alloc] at h
  obtain ⟨d3, h3, h4⟩ := Option.bind_eq_some.1 h
  cases h4
  have hs1 : LeavesSorted (b.disk ++ [Page.leaf b.leaf]) :=
    LeavesSorted_append_leaf _ _ hs hleaf
  refine ⟨?_, rfl, rfl, rfl⟩
  show LeavesSorted d3
  by_cases hp0 : b.prevLeafPid = 0
  · simp only [hp0, ne_eq, not_true_eq_false, if_false, Option.some.injEq] at h3
    subst h3
    exact hs1
  · simp only [ne_eq, hp0, not_false_eq_true, if_true] at h3
    obtain ⟨prev, hprev, h5⟩ := Option.bind_eq_some.1 h3
    cases h5
    have hp := hs1 _ _ _ (bodyAt_leaf _ _ _ (readLeaf_some _ _ _ hprev))
    exact LeavesSorted_set_leaf _ _ _ hs1 hp

theorem leafPass_sorted (input : List (Int × Bytes)) :
    ∀ (b : BulkState), LeavesSorted b.disk →
      (b.leaf.slots.map LeafEntry.key).Pairwise (· ≤ ·) →
      (∀ e ∈ b.leaf.slots, e.key ≤ b.prevKey) → (b.firstKeySet = false → b.leaf.slots = []) →
      ∀ r, leafPass b input = some r →
        LeavesSorted (r.elim id id).disk ∧
        ((r.elim id id).leaf.slots.map LeafEntry.key).Pairwise (· ≤ ·) := by
  induction input with
  | nil =>
    intro b hs hl _ _ r he
    simp only [leafPass, Option.some.injEq] at he
    subst he
    exact ⟨hs, hl⟩
  | cons rec rest ih =>
    intro b hs hl hle hfk r he
    obtain ⟨key, val⟩ := rec
    by_cases hd : b.firstKeySet = true ∧ key < b.prevKey
    · simp only [leafPass, hd, and_self, if_true, Option.some.injEq] at he
      subst he
      exact ⟨hs, hl⟩
    · simp only [leafPass, hd, if_false] at he
      have hall : ∀ e ∈ b.leaf.slots, e.key ≤ key := by
        intro e he1
        by_cases hfs : b.firstKeySet = true
        · have : ¬ key < b.prevKey := fun hh => hd ⟨hfs, hh⟩
          exact le_trans (hle e he1) (not_lt.1 this)
        · rw [hfk (by simpa using hfs)] at he1
          cases he1
      have hl1 : ((b.leaf.slots ++ [(⟨key, pad8 val⟩ : LeafEntry)]).map
          LeafEntry.key).Pairwise (· ≤ ·) := by
        rw [List.map_append, List.pairwise_append]
        refine ⟨hl, by simp, ?_⟩
        intro a ha c hc
        simp only [List.map_cons, List.map_nil, List.mem_singleton] at hc
        obtain ⟨e, he1, rfl⟩ := List.mem_map.1 ha
        rw [hc]; exact hall e he1
      have hle1 : ∀ e ∈ b.leaf.slots ++ [(⟨key, pad8 val⟩ : LeafEntry)], e.key ≤ key := by
        intro e he1
        rcases List.mem_append.1 he1 with h1 | h1
        · exact hall e h1
        · rw [List.mem_singleton.1 h1]
      split at he
      · obtain ⟨b2, e2, he2⟩ := Option.bind_eq_some.1 he
        obtain ⟨a1, a2, a3, a4⟩ := flush_leaf_sorted _ b2 _ e2 hs hl1
        exact ih b2 a1 (by rw [a2]; simp) (by rw [a2]; simp) (by rw [a2]; simp) r he2
      · exact ih { b with firstKeySet := true, prevKey := key,
                          leaf := { b.leaf with slots := b.leaf.slots ++ [⟨key, pad8 val⟩] } }
          hs hl1 hle1 (fun hh => by cases hh) r he

theorem build_level_leafSlots (fuel : Nat) (d d1 : List Page) (lower upper : List (Int × Nat))
    (hf : lower.length ≤ fuel) (h : build_level fuel d lower = some (d1, upper)) :
    LeafSlotsKept d d1 := by
  obtain ⟨l1, b1, u1⟩ := build_level_layout fuel d lower d1 upper hf h
  intro pid nxt slots hb
  have hlt := bodyAt_lt _ _ _ hb
  by_cases hp : pid < d.length
  · exact ⟨nxt, by rw [← b1 pid hp]; exact hb⟩
  · exfalso
    have hj := (u1 (pid - d.length) (by omega)).1
    have : d.length + (pid - d.length) = pid := by omega
    rw [this, hb] at hj
    obtain ⟨lm, sl, hn⟩ := nodeBody_internal (fromGroup lower (pid - d.length))
    rw [hn] at hj
    cases hj

theorem upperPass_leafSlots (fuel : Nat) :
    ∀ (d : List Page) (level : List (Int × Nat)) (r : List Page × List (Int × Nat)),
      upperPass fuel d level = some r → LeafSlotsKept d r.1 := by
  induction fuel with
  | zero => intro d level r h; simp [upperPass] at h
  | succ f ih =>
    intro d level r h
    unfold upperPass at h
    split at h
    · obtain ⟨r1, h1, h2⟩ := Option.bind_eq_some.1 h
      exact (build_level_leafSlots _ _ _ _ _ le_rfl h1).chain (ih _ _ _ h2)
    · cases h
      exact fun pid nxt slots hb => ⟨nxt, hb⟩

theorem bulk_result_sorted (t t1 : Tree) (input : List (Int × Bytes)) (res : BulkResult)
    (hs : LeavesSorted t.disk) (hres : bulkLoadCSV t input = res)
    (h : res = BulkResult.ok t1 ∨ res = BulkResult.unsortedInput t1) :
    LeavesSorted t1.disk := by
  unfold bulkLoadCSV at hres
  cases hlp : leafPass { disk := t.disk } input with
  | none => rw [hlp] at hres; subst hres; rcases h with h | h <;> cases h
  | some r =>
    rw [hlp] at hres
    obtain ⟨a1, a2⟩ := leafPass_sorted input { disk := t.disk } hs (by simp) (by simp)
      (fun _ => rfl) r hlp
    cases r with
    | inl b =>
      subst hres
      rcases h with h | h
      · cases h
      · simp only [BulkResult.unsortedInput.injEq] at h
        subst h
        exact a1
    | inr b =>
      simp only [Sum.elim_inr, id] at a1 a2
      simp only at hres
      have key : ∀ b2 : BulkState, LeavesSorted b2.disk →
          (if b2.child_list.isEmpty then
            BulkResult.ok
              { sb := { (newLeaf { t with disk := b2.disk } 0).2.sb with
                  root := (newLeaf { t with disk := b2.disk } 0).1 },
                disk := writeSuper (newLeaf { t with disk := b2.disk } 0).2.disk
                  { (newLeaf { t with disk := b2.disk } 0).2.sb with
                    root := (newLeaf { t with disk := b2.disk } 0).1 } }
          else
            match upperPass b2.child_list.length b2.disk b2.child_list with
            | none => BulkResult.failed
            | some r =>
              BulkResult.ok
                { sb := { t.sb with root := (r.2.getD 0 default).2 },
                  disk := writeSuper r.1 { t.sb with root := (r.2.getD 0 default).2 } })
            = res → LeavesSorted t1.disk := by
        intro b2 hb2 hh
        subst hh
        split at h
        · rcases h with hh | hh
          · simp only [BulkResult.ok.injEq] at hh
            subst hh
            rw [newLeaf_disk]
            exact (LeavesSorted_append_leaf _ _ hb2 (by simp)).kept
              (LeafSlotsKept_writeSuper _ _)
          · cases hh
        · cases hup : upperPass b2.child_list.length b2.disk b2.child_list with
          | none => rw [hup] at h; rcases h with hh | hh <;> cases hh
          | some r =>
            rw [hup] at h
            rcases h with hh | hh
            · simp only [BulkResult.ok.injEq] at hh
              subst hh
              exact (hb2.kept (upperPass_leafSlots _ _ _ _ hup)).kept
                (LeafSlotsKept_writeSuper _ _)
            · cases hh
      by_cases hcnt : b.leaf.count > 0
      · rw [if_pos hcnt] at hres
        cases hfl : flush_leaf b (b.leaf.slots.getD 0 default).key with
        | none => rw [hfl] at hres; subst hres; rcases h with h | h <;> cases h
        | some b2 =>
          rw [hfl] at hres
          exact key b2 (flush_leaf_sorted b b2 _ hfl a1 a2).1 hres
      · rw [if_neg hcnt] at hres
        exact key b a1 hres

/-- A bulk load, completed or stopped at unsorted input, leaves every leaf sorted. -/
theorem bulk_leavesSorted (t t1 : Tree) (input : List (Int × Bytes))
    (hs : LeavesSorted t.disk)
    (h : bulkLoadCSV t input = BulkResult.ok t1 ∨
      bulkLoadCSV t input = BulkResult.unsortedInput t1) : LeavesSorted t1.disk :=
  bulk_result_sorted t t1 input _ hs rfl h

/-- In every state the operations reach, every leaf page has its keys in non-decreasing
order. -/
theorem reachable_leavesSorted (t : Tree) (h : ReachableByOps t) : LeavesSorted t.disk := by
  induction h with
  | fresh =>
    rw [open_empty]
    intro pid nxt slots hb
    have hlt := bodyAt_lt _ _ _ hb
    simp only [List.length_cons, List.length_nil] at hlt
    have : pid = 0 ∨ pid = 1 := by omega
    rcases this with rfl | rfl
    · cases hb
    · simp only [bodyAt, Page.body] at hb
      cases hb
      simp
  | insert k v _ hi ih => exact insert_leavesSorted _ _ k v ih hi
  | bulk input _ hb ih => exact bulk_leavesSorted _ _ input ih (Or.inl hb)
  | bulkUnsorted input _ hb ih => exact bulk_leavesSorted _ _ input ih (Or.inr hb)

/-! ## What the cascade of `insertIntoParent` leaves as it is -/

/-- The cascade of `insertIntoParent(l, _, r)` changes no page of the tree at the height
of `l` or below: it writes to pages above `l` and to new pages only. -/
theorem insertIntoParent_low (f : Nat) :
    ∀ (t : Tree) (g : Levels) (l : Nat) (s : Int) (r : Nat) (t1 : Tree),
      BalPending t g l r → insertIntoParent f t l s r = some t1 →
      ∀ pid, g.live pid → g.lvl pid ≤ g.lvl l → bodyAt t1.disk pid = bodyAt t.disk pid := by
  induction f with
  | zero => intro t g l s r t1 _ h; simp [insertIntoParent] at h
  | succ f ih =>
    intro t g l s r t1 hp h pid hpl hlv
    obtain ⟨sb0, h0⟩ := hp.core.super0
    obtain ⟨pg, hpg, hs⟩ := hp.core.node l hp.liveL
    have hpar : parentAt t.disk l = pg.parent := parentAt_eq _ _ _ hpg
    have hlt : ∀ q, g.live q → q ≠ t.disk.length :=
      fun q hq => Nat.ne_of_lt (hp.core.below q hq)
    by_cases hroot : t.sb.root = l
    · have hp0 : pg.parent = 0 := by rw [← hpar, ← hroot]; exact hp.core.rootParent
      rw [insertIntoParent_root f t l s r pg hpg hs hp0 hroot] at h
      obtain ⟨d3, e3, l3, z3, b3, p3⟩ := obs_new_root t.disk sb0 l r s h0
        (hp.core.node l hp.liveL) (hp.core.node r hp.liveR)
      obtain ⟨d2, h1, h2⟩ := Option.bind_eq_some.1 e3
      simp only [h1, h2, Option.some_bind, Option.some.injEq] at h
      subst h
      obtain ⟨w1, w2, w3, w4⟩ := writeSuper_obs d3
        ⟨t.sb.magic, t.disk.length, t.sb.free_list_head, t.sb.page_count + 1⟩ sb0 z3
      show bodyAt (writeSuper d3 _) pid = _
      rw [w3, b3, if_neg (hlt pid hpl)]
    · obtain ⟨lm, slots, a1, hPl, hlmem⟩ :=
        hp.attached l hp.liveL (fun hh => hroot hh.symm) hp.ne
      obtain ⟨Pp, hPp, hlm, hsl⟩ := bodyAt_internal_some _ _ _ _ a1
      rw [hpar] at hPp
      have hnr : ¬ (pg.parent = 0 ∧ t.sb.root = l) := fun hh => hroot hh.2
      have hkid := hp.core.child _ lm slots hPl a1
      have hlvP : g.lvl pg.parent = g.lvl l + 1 := by
        have := (hkid l hlmem).2.2
        rw [hpar] at this
        omega
      have hpidP : pid ≠ pg.parent := by
        intro hh
        rw [hh] at hlv
        omega
      by_cases hfull : Pp.count = INTERNAL_CAPACITY
      · rw [insertIntoParent_full f t l s r pg Pp hpg hs hnr hPp hfull] at h
        have hlen : (insertAt (scanPos s Pp.slots) ⟨s, r⟩ Pp.slots).length
            = INTERNAL_CAPACITY + 1 := by
          rw [insertAt_length]; exact congrArg (· + 1) hfull
        rw [INTERNAL_CAPACITY_eq] at hlen
        have hlc : (insertAt (scanPos s Pp.slots) ⟨s, r⟩ Pp.slots).length / 2
            < (insertAt (scanPos s Pp.slots) ⟨s, r⟩ Pp.slots).length := by omega
        have hdec := split_at_index _ _ hlc
        have htake : ((insertAt (scanPos s Pp.slots) ⟨s, r⟩ Pp.slots).drop
            ((insertAt (scanPos s Pp.slots) ⟨s, r⟩ Pp.slots).length / 2 + 1)).take
            ((insertAt (scanPos s Pp.slots) ⟨s, r⟩ Pp.slots).length -
              (insertAt (scanPos s Pp.slots) ⟨s, r⟩ Pp.slots).length / 2 - 1)
            = (insertAt (scanPos s Pp.slots) ⟨s, r⟩ Pp.slots).drop
              ((insertAt (scanPos s Pp.slots) ⟨s, r⟩ Pp.slots).length / 2 + 1) := by
          apply List.take_of_length_le
          rw [List.length_drop]; omega
        simp only [htake] at h
        generalize htmp : insertAt (scanPos s Pp.slots) ⟨s, r⟩ Pp.slots = tmp
          at hlen hlc hdec h
        have hmem : ∀ c, c ∈ kids Pp.leftmost tmp → g.live c := by
          intro c hc
          rw [← htmp, mem_kids_insertAt] at hc
          rcases hc with rfl | hc
          · exact hp.liveR
          · rw [hlm, hsl] at hc; exact (hkid c hc).1
        have hkidsR : ∀ c, c ∈ kids (tmp.getD (tmp.length / 2) default).right_child
            (tmp.drop (tmp.length / 2 + 1)) → c ∈ kids Pp.leftmost tmp := by
          intro c hc
          rw [hdec, kids_append]
          exact List.mem_append_right _ hc
        obtain ⟨d4, e4, l4, z4, b4, p4⟩ := obs_split t.disk sb0 pg.parent Pp
          (tmp.take (tmp.length / 2)) (tmp.drop (tmp.length / 2 + 1))
          (tmp.getD (tmp.length / 2) default).right_child h0 hPp
          (hp.core.node _ (hmem _ (hkidsR _ (by simp [kids]))))
          (fun e he => hp.core.node _ (hmem _ (hkidsR _ (by
            simp only [kids, List.mem_cons, List.mem_map]
            exact Or.inr ⟨e, he, rfl⟩))))
        obtain ⟨d3, h1, h2⟩ := Option.bind_eq_some.1 e4
        simp only [h1, h2, Option.some_bind] at h
        have hpend := BalPending_parent_split t
          ⟨⟨t.sb.magic, t.sb.root, t.sb.free_list_head, t.sb.page_count + 1⟩, d4⟩ g l r
          ⟨s, r⟩ (scanPos s slots) pg.parent lm slots (tmp.take (tmp.length / 2))
          (tmp.getD (tmp.length / 2) default) (tmp.drop (tmp.length / 2 + 1)) rfl hp hroot hpar
          (by rw [← hpar]; exact a1)
          (by rw [← hsl, htmp]; exact hdec)
          (by rw [List.length_take, INTERNAL_CAPACITY_eq]; omega)
          (by rw [List.length_drop, INTERNAL_CAPACITY_eq]; omega)
          rfl l4 ⟨_, z4⟩ (fun j => by rw [b4, hlm]) (fun j => by rw [p4])
        have hPlive : g.live pg.parent := by rw [← hpar]; exact hPl
        have hPQ : pg.parent ≠ t.disk.length := hlt _ hPlive
        have hpidQ : pid ≠ t.disk.length := hlt pid hpl
        have := ih _ _ _ _ _ t1 hpend h pid (Or.inr hpl) (by
          simp only [Levels.add, hPQ, hpidQ, if_false]
          omega)
        rw [this]
        show bodyAt d4 pid = _
        rw [b4, if_neg hpidQ, if_neg hpidP]
      · rw [insertIntoParent_room f t l s r pg Pp hpg hs hnr hPp hfull] at h
        obtain ⟨d2, e2, l2, z2, b2, p2⟩ := obs_room t.disk sb0 pg.parent r Pp
          (insertAt (scanPos s Pp.slots) ⟨s, r⟩ Pp.slots) h0 hPp
          (hp.core.node r hp.liveR) (by rw [hp.parentR, hpar])
        simp only [e2, Option.some_bind, Option.some.injEq] at h
        subst h
        show bodyAt d2 pid = _
        rw [b2, if_neg hpidP]

/-! ## The leaf split -/

theorem bulkLoad_339 :
    bulkLoadCSV (BPlusTree.open []) (ascending 1 339 [0x61]) = BulkResult.ok bulkFullLeaf := by
  decide!

theorem reachable_bulkFullLeaf : ReachableByOps bulkFullLeaf :=
  ReachableByOps.bulk (ascending 1 339 [0x61]) ReachableByOps.fresh bulkLoad_339

/-- C17: in every state reached from a fresh file by inserts and bulk loads, when
`insert(k, v)` reaches a full leaf `L` that lacks `k`, let `T` be the old entries with
`(k, pad8 v)` put in at the place `lower_bound_leaf` finds (`LEAF_CAPACITY + 1` entries, in
non-decreasing key order, strictly increasing if the old keys were).  At the call of
`insertIntoParent` and in the state the insert returns, page `L` holds the first
`total / 2` entries of `T` and its `next` is the new page, the new page holds the
remaining entries and its `next` is the old `next` of `L`, and the separator handed to
`insertIntoParent` is the first key of the new leaf. -/
theorem C17_leaf_split_postcondition (t : Tree) (h : ReachableByOps t) (k : Int)
    (v : Bytes) (L : Nat) (p : LeafPage)
    (hf : findLeaf t k = some L) (hL : t.disk[L]? = some (Page.leaf p))
    (hfull : p.count = LEAF_CAPACITY) (hnm : ∀ e ∈ p.slots, e.key ≠ k) :
    ∃ (T : List LeafEntry) (tm t1 : Tree) (pl pr ql qr : LeafPage),
      T = insertAt (lower_bound_leaf p k) ⟨k, pad8 v⟩ p.slots ∧
      T.Perm (⟨k, pad8 v⟩ :: p.slots) ∧ (T.map LeafEntry.key).Pairwise (· ≤ ·) ∧
      ((p.slots.map LeafEntry.key).Pairwise (· < ·) →
        (T.map LeafEntry.key).Pairwise (· < ·)) ∧
      T.length = LEAF_CAPACITY + 1 ∧
      insert t k v =
        insertIntoParent (t.disk.length + 1) tm L (pr.slots.getD 0 default).key t.disk.length ∧
      tm.disk[L]? = some (Page.leaf pl) ∧ tm.disk[t.disk.length]? = some (Page.leaf pr) ∧
      pl.slots = T.take (T.length / 2) ∧ pr.slots = T.drop (T.length / 2) ∧
      pl.count = (LEAF_CAPACITY + 1) / 2 ∧
      pr.count = LEAF_CAPACITY + 1 - (LEAF_CAPACITY + 1) / 2 ∧
      pl.next = t.disk.length ∧ pr.next = p.next ∧
      insert t k v = some t1 ∧
      t1.disk[L]? = some (Page.leaf ql) ∧ t1.disk[t.disk.length]? = some (Page.leaf qr) ∧
      ql.slots = T.take (T.length / 2) ∧ qr.slots = T.drop (T.length / 2) ∧
      ql.next = t.disk.length ∧ qr.next = p.next := by
  obtain ⟨g, hinv⟩ := reachable_balanced t h
  have hsorted := reachable_leavesSorted t h L p.next p.slots (bodyAt_leaf _ _ _ hL)
  obtain ⟨L1, nxt, slots, hf1, hl, hb⟩ := findLeaf_bal t g hinv k
  rw [hf] at hf1
  cases hf1
  obtain ⟨sb0, h0⟩ := hinv.core.super0
  have hcnt : p.slots.length = LEAF_CAPACITY := hfull
  have hnhit : ¬ (lower_bound_leaf p k < p.count ∧
      (p.slots.getD (lower_bound_leaf p k) default).key = k) := by
    rintro ⟨h1, h2⟩
    refine hnm _ ?_ h2
    rw [List.getD_eq_getElem _ _ h1]
    exact List.getElem_mem _
  have hins : insert t k v = splitLeafAndInsert t L k (pad8 v) := by
    rw [insert_eq t k v L p hf hL, if_neg hnhit, if_neg (by omega)]
  have hTs := insertAt_lower_bound_sorted p k (pad8 v) hsorted
  have hTstrict : (p.slots.map LeafEntry.key).Pairwise (· < ·) →
      ((insertAt (lower_bound_leaf p k) ⟨k, pad8 v⟩ p.slots).map LeafEntry.key).Pairwise
        (· < ·) := by
    intro hst
    rw [map_key_insertAt, lower_bound_leaf_eq_rank p k hsorted]
    refine insertAt_rank_sorted k _ hst ?_
    rintro ⟨h1, h2⟩
    have hlt : rank k (p.slots.map LeafEntry.key) < p.slots.length := by simpa using h1
    refine hnm (p.slots.getD (rank k (p.slots.map LeafEntry.key)) default) ?_ ?_
    · rw [List.getD_eq_getElem _ _ hlt]
      exact List.getElem_mem _
    · rw [leafKey_getD]; exact h2
  have hlen : (insertAt (lower_bound_leaf p k) ⟨k, pad8 v⟩ p.slots).length
      = LEAF_CAPACITY + 1 := by
    rw [insertAt_length, hcnt]
  have hperm := insertAt_perm (lower_bound_leaf p k) (⟨k, pad8 v⟩ : LeafEntry) p.slots
  have heq := splitLeafAndInsert_eq t L k (pad8 v) p hL
  simp only [] at heq
  generalize insertAt (lower_bound_leaf p k) ⟨k, pad8 v⟩ p.slots = T
    at hTs hTstrict hlen hperm heq
  have hlen1 : T.length = 340 := by rw [hlen, LEAF_CAPACITY_eq]
  have htake : (T.drop (T.length / 2)).take (T.length - T.length / 2)
      = T.drop (T.length / 2) := by
    apply List.take_of_length_le
    rw [List.length_drop]
  rw [htake] at heq
  obtain ⟨q1, q2, q3, q4⟩ := obs_leaf_split t.disk sb0 L p (T.take (T.length / 2))
    (T.drop (T.length / 2)) h0 hL
  have hpend := BalPending_leaf_split t
    ⟨⟨t.sb.magic, t.sb.root, t.sb.free_list_head, t.sb.page_count + 1⟩,
      ((t.disk ++ [Page.leaf ⟨p.parent, 0, []⟩]).set L
        (Page.leaf ⟨p.parent, t.disk.length, T.take (T.length / 2)⟩)).set t.disk.length
        (Page.leaf ⟨p.parent, p.next, T.drop (T.length / 2)⟩)⟩
    g L p.next p.slots (T.take (T.length / 2)) (T.drop (T.length / 2)) hinv hl
    (bodyAt_leaf _ _ _ hL)
    (by rw [List.length_take, LEAF_CAPACITY_eq]; omega)
    (by rw [List.length_drop, LEAF_CAPACITY_eq]; omega)
    rfl q1 ⟨_, q2⟩ q3 q4
  have hLN : L ≠ t.disk.length := Nat.ne_of_lt (hinv.core.below L hl)
  have hrootQ : t.sb.root ≠ t.disk.length :=
    Nat.ne_of_lt (hinv.core.below _ hinv.core.rootLive)
  have hh := hinv.core.height
  obtain ⟨t1, g1, e1, _, _⟩ := insertIntoParent_bal (t.disk.length + 1) t.disk.length _ _ L
    ((T.drop (T.length / 2)).getD 0 default).key t.disk.length hpend le_rfl (by
      simp only [Levels.add, hrootQ, if_false]
      omega)
  have hlow := insertIntoParent_low _ _ _ _ _ _ t1 hpend e1
  have cL := q3 L
  rw [if_neg hLN, if_pos rfl] at cL
  have cN := q3 t.disk.length
  rw [if_pos rfl] at cN
  have bL := hlow L (Or.inr hl) le_rfl
  have bN := hlow t.disk.length (Or.inl rfl) (le_of_eq hpend.lvlR)
  rw [cL] at bL
  rw [cN] at bN
  obtain ⟨pl, hpl, pl1, pl2⟩ := bodyAt_leaf_some _ _ _ _ cL
  obtain ⟨pr, hpr, pr1, pr2⟩ := bodyAt_leaf_some _ _ _ _ cN
  obtain ⟨ql, hql, ql1, ql2⟩ := bodyAt_leaf_some _ _ _ _ bL
  obtain ⟨qr, hqr, qr1, qr2⟩ := bodyAt_leaf_some _ _ _ _ bN
  refine ⟨T,
    ⟨⟨t.sb.magic, t.sb.root, t.sb.free_list_head, t.sb.page_count + 1⟩,
      ((t.disk ++ [Page.leaf ⟨p.parent, 0, []⟩]).set L
        (Page.leaf ⟨p.parent, t.disk.length, T.take (T.length / 2)⟩)).set t.disk.length
        (Page.leaf ⟨p.parent, p.next, T.drop (T.length / 2)⟩)⟩,
    t1, pl, pr, ql, qr, rfl, hperm, hTs, hTstrict, hlen, ?_,
    hpl, hpr, pl2, pr2, ?_, ?_, pl1, pr1, ?_, hql, hqr, ql2, qr2, ql1, qr1⟩
  · rw [hins, heq, pr2]
  · unfold LeafPage.count
    rw [pl2, List.length_take, hlen, LEAF_CAPACITY_eq]
    decide
  · unfold LeafPage.count
    rw [pr2, List.length_drop, hlen]
  · rw [hins, heq]; exact e1

/-- C17 at the tree a bulk load of the keys 1..339 leaves, and the new key 340: the insert
reaches the full leaf on page 2 and splits it, the halves are on pages 2 and 3, page 2
points to page 3 and page 3 ends the chain.  And the sequence of inserts 0..339 into a
fresh file ends with four pages, the last one the internal root `(leftmost 1, [(170, 2)])`
over the two halves of the one leaf that was split. -/
theorem C17_witness :
    ReachableByOps bulkFullLeaf ∧ findLeaf bulkFullLeaf 340 = some 2 ∧
    (∃ (T : List LeafEntry) (t1 : Tree) (ql qr : LeafPage),
      T.Perm (⟨340, pad8 [0x61]⟩ :: ascendingSlots 1 339 [0x61, 0, 0, 0, 0, 0, 0, 0]) ∧
      (T.map LeafEntry.key).Pairwise (· < ·) ∧
      insert bulkFullLeaf 340 [0x61] = some t1 ∧
      t1.disk[2]? = some (Page.leaf ql) ∧ t1.disk[3]? = some (Page.leaf qr) ∧
      ql.slots = T.take (T.length / 2) ∧ qr.slots = T.drop (T.length / 2) ∧
      ql.next = 3 ∧ qr.next = 0) ∧
    (∃ t, insertAll (BPlusTree.open []) (ascending 0 340 [0x76]) = some t ∧
      t.disk.length = 4 ∧
      t.disk[t.sb.root]? = some (Page.internal ⟨0, 1, [⟨170, 2⟩]⟩)) := by
  have hf : findLeaf bulkFullLeaf 340 = some 2 := by decide!
  obtain ⟨T, _, t1, _, _, ql, qr, _, a1, _, a2, _, _, _, _, _, _, _, _, _, _, a3, a4, a5, a6,
      a7, a8, a9⟩ :=
    C17_leaf_split_postcondition bulkFullLeaf reachable_bulkFullLeaf 340
      [0x61] 2 ⟨0, 0, ascendingSlots 1 339 [0x61, 0, 0, 0, 0, 0, 0, 0]⟩ hf rfl (by decide!)
      (fun e he => ne_of_lt (by simpa using ascendingSlots_keys_lt 1 339 _ e he))
  exact ⟨reachable_bulkFullLeaf, hf,
    ⟨T, t1, ql, qr, a1, a2 (ascendingSlots_sorted 1 339 _), a3, a4, a5, a6, a7, a8, a9⟩,
    ⟨_, insertAll_ascending_340, rfl, rfl⟩⟩

/-! ## The calls of `insertIntoParent` -/

theorem splitLeafCall_eq (t : Tree) (L : Nat) (p : LeafPage) (k : Int) (v8 : Bytes) :
    splitLeafCall t L p k v8 =
      let tmp := insertAt (lower_bound_leaf p k) ⟨k, v8⟩ p.slots
      let leftCount := tmp.length / 2
      let rightSlots := (tmp.drop leftCount).take (tmp.length - leftCount)
      some (⟨⟨t.sb.magic, t.sb.root, t.sb.free_list_head, t.sb.page_count + 1⟩,
          ((t.disk ++ [Page.leaf ⟨p.parent, 0, []⟩]).set L
            (Page.leaf ⟨p.parent, t.disk.length, tmp.take leftCount⟩)).set t.disk.length
            (Page.leaf ⟨p.parent, p.next, rightSlots⟩)⟩,
        (rightSlots.getD 0 default).key, t.disk.length) := by
  have hrl : readLeaf (t.disk ++ [Page.leaf ⟨p.parent, 0, []⟩]) t.disk.length
      = some ⟨p.parent, 0, []⟩ := readLeaf_eq _ _ _ (List.getElem?_concat_length _ _)
  simp only [splitLeafCall, Option.some_bind, newLeaf_fst,
    newLeaf_disk, newLeaf_sb, hrl, writeLeaf, writePage, insertAt, List.length_set,
    List.length_append, List.length_singleton]

/-- `splitLeafAndInsert` is the call that `splitLeafCall` describes. -/
theorem splitLeafAndInsert_call (t : Tree) (L : Nat) (k : Int) (v8 : Bytes) :
    splitLeafAndInsert t L k v8 =
      (readLeaf t.disk L).bind fun leaf =>
      (splitLeafCall t L leaf k v8).bind fun c =>
      insertIntoParent c.1.disk.length c.1 L c.2.1 c.2.2 := by
  cases hr : readLeaf t.disk L with
  | none => simp [splitLeafAndInsert, hr]
  | some p =>
    rw [splitLeafAndInsert_eq t L k v8 p (readLeaf_some _ _ _ hr), Option.some_bind,
      splitLeafCall_eq]
    simp only [Option.some_bind, List.length_set, List.length_append, List.length_singleton]

theorem splitParentCall_eq (t : Tree) (pid : Nat) (P : InternalPage) (s : Int) (r : Nat) :
    splitParentCall t pid P s r =
      let tmp := insertAt (scanPos s P.slots) ⟨s, r⟩ P.slots
      let leftCount := tmp.length / 2
      let rightSlots := (tmp.drop (leftCount + 1)).take (tmp.length - leftCount - 1)
      let rightLeftmost := (tmp.getD leftCount default).right_child
      (setParent (((t.disk ++ [Page.internal ⟨P.parent, 0, []⟩]).set pid
            (Page.internal ⟨P.parent, P.leftmost, tmp.take leftCount⟩)).set t.disk.length
            (Page.internal ⟨P.parent, rightLeftmost, rightSlots⟩))
          rightLeftmost t.disk.length).bind fun d3 =>
      (setParents d3 t.disk.length rightSlots).bind fun d4 =>
      some (⟨⟨t.sb.magic, t.sb.root, t.sb.free_list_head, t.sb.page_count + 1⟩, d4⟩,
        (tmp.getD leftCount default).key, t.disk.length) := by
  have hri : readInternal (t.disk ++ [Page.internal ⟨P.parent, 0, []⟩]) t.disk.length
      = some ⟨P.parent, 0, []⟩ := readInternal_eq _ _ _ (List.getElem?_concat_length _ _)
  simp only [splitParentCall, Option.some_bind, writeInternal, writePage, insertAt,
    newInternal_fst, newInternal_disk, newInternal_sb, hri]

/-- `insertIntoParent` at a full parent is the recursive call that `splitParentCall`
describes. -/
theorem insertIntoParent_call (f : Nat) (t : Tree) (l : Nat) (s : Int) (r : Nat) (pg : Page)
    (P : InternalPage) (h : t.disk[l]? = some pg) (hs : pg.isSuper = false)
    (hnr : ¬ (pg.parent = 0 ∧ t.sb.root = l))
    (hP : t.disk[pg.parent]? = some (Page.internal P)) (hc : P.count = INTERNAL_CAPACITY) :
    insertIntoParent (f + 1) t l s r =
      (splitParentCall t pg.parent P s r).bind fun c =>
      insertIntoParent f c.1 pg.parent c.2.1 c.2.2 := by
  rw [insertIntoParent_full f t l s r pg P h hs hnr hP hc, splitParentCall_eq]
  simp only [Option.bind_assoc, Option.some_bind]

/-! ## The split of a full parent, at a call of `insertIntoParent` -/

/-- At a call of `insertIntoParent(l, s, r)` whose parent page `P` is full: the recursive
call is made, in a state of the shape a split leaves, in which the old page keeps the
entries before index `total / 2` of the provisional list and the new page holds the
entries after it. -/
theorem parent_split_step (tm : Tree) (g : Levels) (l : Nat) (s : Int) (r : Nat) (pg : Page)
    (P : InternalPage) (hp : BalPending tm g l r) (hl : tm.disk[l]? = some pg)
    (hP : tm.disk[pg.parent]? = some (Page.internal P)) (hc : P.count = INTERNAL_CAPACITY) :
    ∃ tn, splitParentCall tm pg.parent P s r =
        some (tn, ((insertAt (scanPos s P.slots) ⟨s, r⟩ P.slots).getD
          ((insertAt (scanPos s P.slots) ⟨s, r⟩ P.slots).length / 2) default).key,
          tm.disk.length) ∧
      pg.isSuper = false ∧ ¬ (pg.parent = 0 ∧ tm.sb.root = l) ∧
      BalPending tn (g.add tm.disk.length (g.lvl pg.parent)) pg.parent tm.disk.length ∧
      g.lvl pg.parent = g.lvl l + 1 ∧ g.live pg.parent ∧
      bodyAt tn.disk pg.parent = some (Body.internal P.leftmost
        ((insertAt (scanPos s P.slots) ⟨s, r⟩ P.slots).take
          ((insertAt (scanPos s P.slots) ⟨s, r⟩ P.slots).length / 2))) ∧
      bodyAt tn.disk tm.disk.length = some (Body.internal
        ((insertAt (scanPos s P.slots) ⟨s, r⟩ P.slots).getD
          ((insertAt (scanPos s P.slots) ⟨s, r⟩ P.slots).length / 2) default).right_child
        ((insertAt (scanPos s P.slots) ⟨s, r⟩ P.slots).drop
          ((insertAt (scanPos s P.slots) ⟨s, r⟩ P.slots).length / 2 + 1))) ∧
      tn.sb.root = tm.sb.root ∧
      (kids P.leftmost P.slots).Nodup ∧ r ∉ kids P.leftmost P.slots := by
  obtain ⟨sb0, h0⟩ := hp.core.super0
  obtain ⟨pg1, hpg1, hs⟩ := hp.core.node l hp.liveL
  rw [hl] at hpg1
  cases hpg1
  have hpar : parentAt tm.disk l = pg.parent := parentAt_eq _ _ _ hl
  have hlt : ∀ q, g.live q → q ≠ tm.disk.length :=
    fun q hq => Nat.ne_of_lt (hp.core.below q hq)
  have hP0 : pg.parent ≠ 0 := by
    intro hh
    rw [hh, h0] at hP
    cases hP
  have hnr : ¬ (pg.parent = 0 ∧ tm.sb.root = l) := fun hh => hP0 hh.1
  have hroot : tm.sb.root ≠ l := by
    intro hh
    apply hP0
    rw [← hpar, ← hh]; exact hp.core.rootParent
  obtain ⟨lm, slots, a1, hPl, hlmem⟩ :=
    hp.attached l hp.liveL (fun hh => hroot hh.symm) hp.ne
  obtain ⟨Pp, hPp, hlm, hsl⟩ := bodyAt_internal_some _ _ _ _ a1
  rw [hpar, hP] at hPp
  cases hPp
  subst hlm hsl
  rw [hpar] at hPl a1
  have hkid := hp.core.child _ _ _ hPl a1
  have hlvP : g.lvl pg.parent = g.lvl l + 1 := by
    have := (hkid l hlmem).2.2
    omega
  have hnodup := ((BalPageOK_internal _ _ _ _ _ a1).1 (hp.core.pages _ hPl)).2.1
  have hfresh := hp.fresh _ _ _ hPl a1
  rw [splitParentCall_eq]
  simp only []
  have hlen : (insertAt (scanPos s P.slots) ⟨s, r⟩ P.slots).length
      = INTERNAL_CAPACITY + 1 := by
    rw [insertAt_length]; exact congrArg (· + 1) hc
  rw [INTERNAL_CAPACITY_eq] at hlen
  have hlc : (insertAt (scanPos s P.slots) ⟨s, r⟩ P.slots).length / 2
      < (insertAt (scanPos s P.slots) ⟨s, r⟩ P.slots).length := by omega
  have hdec := split_at_index _ _ hlc
  have htake : ((insertAt (scanPos s P.slots) ⟨s, r⟩ P.slots).drop
      ((insertAt (scanPos s P.slots) ⟨s, r⟩ P.slots).length / 2 + 1)).take
      ((insertAt (scanPos s P.slots) ⟨s, r⟩ P.slots).length -
        (insertAt (scanPos s P.slots) ⟨s, r⟩ P.slots).length / 2 - 1)
      = (insertAt (scanPos s P.slots) ⟨s, r⟩ P.slots).drop
        ((insertAt (scanPos s P.slots) ⟨s, r⟩ P.slots).length / 2 + 1) := by
    apply List.take_of_length_le
    rw [List.length_drop]; omega
  simp only [htake]
  generalize htmp : insertAt (scanPos s P.slots) ⟨s, r⟩ P.slots = tmp at hlen hlc hdec
  have hmem : ∀ c, c ∈ kids P.leftmost tmp → g.live c := by
    intro c hc
    rw [← htmp, mem_kids_insertAt] at hc
    rcases hc with rfl | hc
    · exact hp.liveR
    · exact (hkid c hc).1
  have hkidsR : ∀ c, c ∈ kids (tmp.getD (tmp.length / 2) default).right_child
      (tmp.drop (tmp.length / 2 + 1)) → c ∈ kids P.leftmost tmp := by
    intro c hc
    rw [hdec, kids_append]
    exact List.mem_append_right _ hc
  obtain ⟨d4, e4, l4, z4, b4, p4⟩ := obs_split tm.disk sb0 pg.parent P
    (tmp.take (tmp.length / 2)) (tmp.drop (tmp.length / 2 + 1))
    (tmp.getD (tmp.length / 2) default).right_child h0 hP
    (hp.core.node _ (hmem _ (hkidsR _ (by simp [kids]))))
    (fun e he => hp.core.node _ (hmem _ (hkidsR _ (by
      simp only [kids, List.mem_cons, List.mem_map]
      exact Or.inr ⟨e, he, rfl⟩))))
  obtain ⟨d3, h1, h2⟩ := Option.bind_eq_some.1 e4
  simp only [h1, h2, Option.some_bind]
  have hpend := BalPending_parent_split tm
    ⟨⟨tm.sb.magic, tm.sb.root, tm.sb.free_list_head, tm.sb.page_count + 1⟩, d4⟩ g l r
    ⟨s, r⟩ (scanPos s P.slots) pg.parent P.leftmost P.slots (tmp.take (tmp.length / 2))
    (tmp.getD (tmp.length / 2) default) (tmp.drop (tmp.length / 2 + 1)) rfl hp hroot hpar
    a1 (by rw [htmp]; exact hdec)
    (by rw [List.length_take, INTERNAL_CAPACITY_eq]; omega)
    (by rw [List.length_drop, INTERNAL_CAPACITY_eq]; omega)
    rfl l4 ⟨_, z4⟩ (fun j => by rw [b4]) (fun j => by rw [p4])
  have hPQ : pg.parent ≠ tm.disk.length := hlt _ hPl
  refine ⟨_, rfl, hs, hnr, hpend, hlvP, hPl, ?_, ?_, rfl, hnodup, hfresh⟩
  · show bodyAt d4 pg.parent = _
    rw [b4, if_neg hPQ, if_pos rfl]
  · show bodyAt d4 tm.disk.length = _
    rw [b4, if_pos rfl]

/-- Every call of `insertIntoParent` during an insert into a balanced tree is made in the
shape a split leaves, with enough fuel, on a page created by this insert, and the insert
returns what the call returns. -/
theorem ParentCall_shape (t : Tree) (g : Levels) (k : Int) (v : Bytes)
    (hinv : Balanced t g) (tm : Tree) (l : Nat) (s : Int) (r : Nat)
    (hcall : ParentCall t k v tm l s r) :
    ∃ g1 f, BalPending tm g1 l r ∧ t.disk.length ≤ r ∧
      g1.lvl tm.sb.root - g1.lvl l < f ∧ insert t k v = insertIntoParent f tm l s r := by
  induction hcall with
  | @leaf L p c hf hr hnhit hnroom hcl =>
    have hL := readLeaf_some _ _ _ hr
    obtain ⟨L1, nxt, slots, hf1, hl, hb⟩ := findLeaf_bal t g hinv k
    rw [hf] at hf1
    cases hf1
    obtain ⟨sb0, h0⟩ := hinv.core.super0
    have hcap : p.slots.length ≤ LEAF_CAPACITY :=
      ((BalPageOK_leaf _ _ _ _ _ (bodyAt_leaf _ _ _ hL)).1 (hinv.core.pages L hl)).2
    have hcnt : p.slots.length = LEAF_CAPACITY := by
      have : ¬ p.slots.length < LEAF_CAPACITY := hnroom
      omega
    have hins : insert t k v = splitLeafAndInsert t L k (pad8 v) := by
      rw [insert_eq t k v L p hf hL, if_neg hnhit, if_neg hnroom]
    rw [splitLeafCall_eq] at hcl
    simp only [Option.some.injEq] at hcl
    subst hcl
    have heq := splitLeafAndInsert_eq t L k (pad8 v) p hL
    simp only [] at heq
    have hlen : (insertAt (lower_bound_leaf p k) ⟨k, pad8 v⟩ p.slots).length = 340 := by
      rw [insertAt_length, hcnt, LEAF_CAPACITY_eq]
    generalize insertAt (lower_bound_leaf p k) ⟨k, pad8 v⟩ p.slots = T at hlen heq ⊢
    obtain ⟨q1, q2, q3, q4⟩ := obs_leaf_split t.disk sb0 L p (T.take (T.length / 2))
      ((T.drop (T.length / 2)).take (T.length - T.length / 2)) h0 hL
    have hpend := BalPending_leaf_split t
      ⟨⟨t.sb.magic, t.sb.root, t.sb.free_list_head, t.sb.page_count + 1⟩,
        ((t.disk ++ [Page.leaf ⟨p.parent, 0, []⟩]).set L
          (Page.leaf ⟨p.parent, t.disk.length, T.take (T.length / 2)⟩)).set t.disk.length
          (Page.leaf ⟨p.parent, p.next,
            (T.drop (T.length / 2)).take (T.length - T.length / 2)⟩)⟩
      g L p.next p.slots (T.take (T.length / 2))
      ((T.drop (T.length / 2)).take (T.length - T.length / 2)) hinv hl
      (bodyAt_leaf _ _ _ hL)
      (by rw [List.length_take, LEAF_CAPACITY_eq]; omega)
      (by rw [List.length_take, List.length_drop, LEAF_CAPACITY_eq]; omega)
      rfl q1 ⟨_, q2⟩ q3 q4
    have hrootQ : t.sb.root ≠ t.disk.length :=
      Nat.ne_of_lt (hinv.core.below _ hinv.core.rootLive)
    have hh := hinv.core.height
    refine ⟨g.add t.disk.length 0, t.disk.length + 1, hpend, le_rfl, ?_, ?_⟩
    · show (g.add t.disk.length 0).lvl t.sb.root - (g.add t.disk.length 0).lvl L < _
      simp only [Levels.add, hrootQ, if_false]
      omega
    · rw [hins, heq]
  | @up tm l s r pg P c hprev hrp hs hnr hri hfull hcl ih =>
    obtain ⟨g1, f, hp, hN, hfuel, hins⟩ := ih
    have hl : tm.disk[l]? = some pg := hrp
    have hP := readInternal_some _ _ _ hri
    obtain ⟨tn, e1, _, _, hpend, hlvP, hPl, _, _, hrt, _, _⟩ :=
      parent_split_step tm g1 l s r pg P hp hl hP hfull
    rw [e1] at hcl
    simp only [Option.some.injEq] at hcl
    subst hcl
    have hrlt : r < tm.disk.length := hp.core.below r hp.liveR
    have hPQ : pg.parent ≠ tm.disk.length := Nat.ne_of_lt (hp.core.below _ hPl)
    have hrootQ : tm.sb.root ≠ tm.disk.length :=
      Nat.ne_of_lt (hp.core.below _ hp.core.rootLive)
    have hle := hp.core.lvlLe _ hPl
    obtain ⟨f1, rfl⟩ : ∃ f1, f = f1 + 1 := ⟨f - 1, by omega⟩
    refine ⟨_, f1, hpend, by show t.disk.length ≤ tm.disk.length; omega, ?_, ?_⟩
    · show (g1.add tm.disk.length (g1.lvl pg.parent)).lvl tn.sb.root -
        (g1.add tm.disk.length (g1.lvl pg.parent)).lvl pg.parent < f1
      rw [hrt]
      simp only [Levels.add, hrootQ, hPQ, if_false]
      omega
    · rw [hins, insertIntoParent_call f1 tm l s r pg P hl hs hnr hP hfull, e1]
      rfl

/-! ## The calls of `insertIntoParent` in a tree built by inserts -/

/-- In a tree with the key invariant, every call of `insertIntoParent` during the insert
of an `int32_t` key is made in the state `Pending` describes: the separator lies strictly
between the bounds of the two halves. -/
theorem ParentCall_keyed (t : Tree) (g : Ghost) (k : Int) (v : Bytes) (hinv : Inv t g)
    (hk : inRange k) (tm : Tree) (l : Nat) (s : Int) (r : Nat)
    (hcall : ParentCall t k v tm l s r) : ∃ g1, Pending tm g1 l s r := by
  induction hcall with
  | @leaf L p c hf hr hnhit hnroom hcl =>
    have hL := readLeaf_some _ _ _ hr
    obtain ⟨L1, nxt, slots, hf1, hl, hb, h1, h2⟩ := findLeaf_inv t g hinv k hk
    rw [hf] at hf1
    cases hf1
    have hbp := bodyAt_eq _ _ _ hL
    rw [hb] at hbp
    simp only [Page.body, Option.some.injEq, Body.leaf.injEq] at hbp
    obtain ⟨rfl, rfl⟩ := hbp
    obtain ⟨sb0, h0⟩ := hinv.core.super0
    obtain ⟨o1, o2, o3, o4⟩ := (PageOK_leaf _ _ _ _ _ _ hb).1 (hinv.core.pages L hl)
    have hfull : p.slots.length = LEAF_CAPACITY := by
      have : ¬ p.slots.length < LEAF_CAPACITY := hnroom
      omega
    have hrank := lower_bound_leaf_eq_rank p k (o3.imp (fun h => le_of_lt h))
    have hnf : ¬ (rank k (p.slots.map LeafEntry.key) < (p.slots.map LeafEntry.key).length ∧
        (p.slots.map LeafEntry.key).getD (rank k (p.slots.map LeafEntry.key)) 0 = k) := by
      intro h
      apply hnhit
      rw [hrank, leafKey_getD]
      exact ⟨by simpa [LeafPage.count] using h.1, h.2⟩
    rw [splitLeafCall_eq] at hcl
    simp only [Option.some.injEq] at hcl
    subst hcl
    have htsorted : ((insertAt (lower_bound_leaf p k) ⟨k, pad8 v⟩ p.slots).map
        LeafEntry.key).Pairwise (· < ·) := by
      rw [map_key_insertAt, hrank]; exact insertAt_rank_sorted k _ o3 hnf
    have htb : ∀ e ∈ insertAt (lower_bound_leaf p k) ⟨k, pad8 v⟩ p.slots,
        g.lo L ≤ e.key ∧ e.key ≤ g.hi L := by
      intro e he
      rw [mem_insertAt] at he
      rcases he with rfl | he
      · exact ⟨le_of_lt h1, h2⟩
      · exact o4 e he
    have htlen : (insertAt (lower_bound_leaf p k) ⟨k, pad8 v⟩ p.slots).length = 340 := by
      rw [insertAt_length, hfull, LEAF_CAPACITY_eq]
    generalize insertAt (lower_bound_leaf p k) ⟨k, pad8 v⟩ p.slots = tmp
      at htsorted htb htlen ⊢
    have hlc : tmp.length / 2 = 170 := by rw [htlen]
    have htake : (tmp.drop (tmp.length / 2)).take (tmp.length - tmp.length / 2)
        = tmp.drop (tmp.length / 2) := by
      apply List.take_of_length_le
      rw [List.length_drop]
    simp only [htake, getD_drop_zero]
    obtain ⟨s1, s2, s3⟩ := sorted_split tmp (tmp.length / 2) htsorted (by omega)
    have hsep1 : g.lo L < (tmp.getD (tmp.length / 2) default).key := by
      have hm : tmp.getD 0 default ∈ tmp.take (tmp.length / 2) := by
        rw [List.getD_eq_getElem _ _ (by omega), List.mem_take_iff_getElem]
        exact ⟨0, by rw [hlc, htlen]; omega, rfl⟩
      have := s1 _ hm
      have := (htb _ (List.mem_of_mem_take hm)).1
      omega
    have hsep2 : (tmp.getD (tmp.length / 2) default).key < g.hi L := by
      have hm : tmp.getD (tmp.length / 2 + 1) default ∈ tmp.drop (tmp.length / 2 + 1) := by
        rw [List.getD_eq_getElem _ _ (by omega), List.mem_drop_iff_getElem]
        exact ⟨0, by omega, rfl⟩
      have := s3 _ hm
      have := (htb _ (List.mem_of_mem_drop hm)).2
      omega
    obtain ⟨q1, q2, q3, q4⟩ := obs_leaf_split t.disk sb0 L p (tmp.take (tmp.length / 2))
      (tmp.drop (tmp.length / 2)) h0 hL
    exact ⟨_, Pending_leaf_split t
      ⟨⟨t.sb.magic, t.sb.root, t.sb.free_list_head, t.sb.page_count + 1⟩,
        ((t.disk ++ [Page.leaf ⟨p.parent, 0, []⟩]).set L
          (Page.leaf ⟨p.parent, t.disk.length, tmp.take (tmp.length / 2)⟩)).set
          t.disk.length
          (Page.leaf ⟨p.parent, p.next, tmp.drop (tmp.length / 2)⟩)⟩ g L p.next p.slots
      (tmp.take (tmp.length / 2)) (tmp.drop (tmp.length / 2))
      (tmp.getD (tmp.length / 2) default).key hinv hl hb
      ⟨by rw [List.length_take, LEAF_CAPACITY_eq]; omega, sorted_take _ _ htsorted,
        fun e he => ⟨(htb e (List.mem_of_mem_take he)).1, le_of_lt (s1 e he)⟩⟩
      ⟨by rw [List.length_drop, LEAF_CAPACITY_eq]; omega, sorted_drop _ _ htsorted,
        fun e he => ⟨s2 e he, (htb e (List.mem_of_mem_drop he)).2⟩⟩
      hsep1 hsep2 rfl q1 ⟨_, q2⟩ q3 q4⟩
  | @up tm l s r pg P c hprev hrp hs hnr hri hfull hcl ih =>
    obtain ⟨g1, hp⟩ := ih
    have hpg : tm.disk[l]? = some pg := hrp
    have hP := readInternal_some _ _ _ hri
    obtain ⟨sb0, h0⟩ := hp.core.super0
    have hpar : parentAt tm.disk l = pg.parent := parentAt_eq _ _ _ hpg
    have hP0 : pg.parent ≠ 0 := by
      intro hh
      rw [hh, h0] at hP
      cases hP
    have hroot : tm.sb.root ≠ l := by
      intro hh
      apply hP0
      rw [← hpar, ← hh]; exact hp.core.rootParent
    obtain ⟨lm, slots, a1, hPl, hlmem⟩ :=
      hp.attached l hp.liveL (fun h => hroot h.symm) hp.ne
    obtain ⟨Pp, hPp, hlm, hsl⟩ := bodyAt_internal_some _ _ _ _ a1
    rw [hpar, hP] at hPp
    cases hPp
    subst hlm hsl
    rw [hpar] at hPl a1
    have hkid := hp.core.kid _ _ _ hPl a1
    rw [splitParentCall_eq] at hcl
    simp only [] at hcl
    have hlen : (insertAt (scanPos s P.slots) ⟨s, r⟩ P.slots).length
        = INTERNAL_CAPACITY + 1 := by
      rw [insertAt_length]; exact congrArg (· + 1) hfull
    rw [INTERNAL_CAPACITY_eq] at hlen
    have hlc : (insertAt (scanPos s P.slots) ⟨s, r⟩ P.slots).length / 2
        < (insertAt (scanPos s P.slots) ⟨s, r⟩ P.slots).length := by omega
    have hdec := split_at_index _ _ hlc
    have htake : ((insertAt (scanPos s P.slots) ⟨s, r⟩ P.slots).drop
        ((insertAt (scanPos s P.slots) ⟨s, r⟩ P.slots).length / 2 + 1)).take
        ((insertAt (scanPos s P.slots) ⟨s, r⟩ P.slots).length -
          (insertAt (scanPos s P.slots) ⟨s, r⟩ P.slots).length / 2 - 1)
        = (insertAt (scanPos s P.slots) ⟨s, r⟩ P.slots).drop
          ((insertAt (scanPos s P.slots) ⟨s, r⟩ P.slots).length / 2 + 1) := by
      apply List.take_of_length_le
      rw [List.length_drop]; omega
    simp only [htake] at hcl
    generalize htmp : insertAt (scanPos s P.slots) ⟨s, r⟩ P.slots = tmp
      at hlen hlc hdec hcl
    have hmem : ∀ c, c ∈ kids P.leftmost tmp → g1.live c := by
      intro c hc
      rw [← htmp, mem_kids_insertAt] at hc
      rcases hc with rfl | hc
      · exact hp.liveR
      · exact (hkid c hc).1
    have hkidsR : ∀ c, c ∈ kids (tmp.getD (tmp.length / 2) default).right_child
        (tmp.drop (tmp.length / 2 + 1)) → c ∈ kids P.leftmost tmp := by
      intro c hc
      rw [hdec, kids_append]
      exact List.mem_append_right _ hc
    obtain ⟨d4, e4, l4, z4, b4, p4⟩ := obs_split tm.disk sb0 pg.parent P
      (tmp.take (tmp.length / 2)) (tmp.drop (tmp.length / 2 + 1))
      (tmp.getD (tmp.length / 2) default).right_child h0 hP
      (hp.core.isNode _ (hmem _ (hkidsR _ (by simp [kids]))))
      (fun e he => hp.core.isNode _ (hmem _ (hkidsR _ (by
        simp only [kids, List.mem_cons, List.mem_map]
        exact Or.inr ⟨e, he, rfl⟩))))
    obtain ⟨d3, h1, h2⟩ := Option.bind_eq_some.1 e4
    simp only [h1, h2, Option.some_bind, Option.some.injEq] at hcl
    subst hcl
    exact ⟨_, Pending_parent_split tm
      ⟨⟨tm.sb.magic, tm.sb.root, tm.sb.free_list_head, tm.sb.page_count + 1⟩, d4⟩ g1 l s r
      pg.parent P.leftmost P.slots (tmp.take (tmp.length / 2))
      (tmp.getD (tmp.length / 2) default)
      (tmp.drop (tmp.length / 2 + 1)) hp hroot hpar a1
      (by rw [htmp]; exact hdec)
      (by rw [List.length_take, INTERNAL_CAPACITY_eq]; omega)
      (by rw [List.length_drop, INTERNAL_CAPACITY_eq]; omega)
      rfl l4 ⟨_, z4⟩ (fun j => by rw [b4]) (fun j => by rw [p4])⟩

/-- In a tree built by inserts, a call of `insertIntoParent(l, s, r)` finds the keys of
the parent strictly increasing and without `s`. -/
theorem ParentCall_keys (t : Tree) (h : ReachableByInserts t) (k : Int) (hk : inRange k)
    (v : Bytes) (tm : Tree) (l : Nat) (s : Int) (r : Nat)
    (hcall : ParentCall t k v tm l s r) (pg : Page) (P : InternalPage)
    (hl : tm.disk[l]? = some pg) (hP : tm.disk[pg.parent]? = some (Page.internal P)) :
    (P.slots.map InternalEntry.key).Pairwise (· < ·) ∧
      s ∉ P.slots.map InternalEntry.key := by
  obtain ⟨g, hinv⟩ := reachable_inv t h
  obtain ⟨g1, hp⟩ := ParentCall_keyed t g k v hinv hk tm l s r hcall
  obtain ⟨sb0, h0⟩ := hp.core.super0
  have hroot : tm.sb.root ≠ l := by
    intro hh
    have hpar : parentAt tm.disk l = pg.parent := parentAt_eq _ _ _ hl
    have : pg.parent = 0 := by rw [← hpar, ← hh]; exact hp.core.rootParent
    rw [this, h0] at hP
    cases hP
  obtain ⟨a1, a2, _, _⟩ := Pending_split_pre tm g1 l s r hp hroot pg P hl hP
  exact ⟨a1, a2⟩

/-! ## The internal split -/

/-- C18 (amended): in every state reached from a fresh file by inserts and bulk loads,
at every call of `insertIntoParent(l, s, r)` that an insert makes and that finds the
parent page `P` of `l` full, let `T` be the provisional list (`P.slots` with `(s, r)` put
in where the scan stops, `INTERNAL_CAPACITY + 1` entries) and `m = total / 2`.  Then
`T = T[0..m) ++ T[m] :: T[m+1..total)`; the recursive call is made one level up with the
key `T[m].key` and the new page; at that call and in the state the insert returns (it
does return) the parent page keeps `T[0..m)` and its `leftmost`, and the new page has
`leftmost = T[m].right_child` and the entries `T[m+1..total)`; the children of the two
pages are the old children and `r`, each once.  The key `T[m].key` is in neither half
whenever the keys of `P` increase strictly and lack `s`, which is so in every state
reached by inserts of `int32_t` keys alone; with duplicate keys from a bulk load it can
be in both. -/
theorem C18_internal_split_postcondition (t : Tree) (h : ReachableByOps t) (k : Int)
    (v : Bytes) (tm : Tree) (l : Nat) (s : Int) (r : Nat)
    (hcall : ParentCall t k v tm l s r) (pg : Page) (P : InternalPage)
    (hl : tm.disk[l]? = some pg) (hP : tm.disk[pg.parent]? = some (Page.internal P))
    (hc : P.count = INTERNAL_CAPACITY) :
    ∃ (T : List InternalEntry) (m : Nat) (tn t1 : Tree) (pl pr ql qr : InternalPage),
      T = insertAt (scanPos s P.slots) ⟨s, r⟩ P.slots ∧
      T.Perm (⟨s, r⟩ :: P.slots) ∧ T.length = INTERNAL_CAPACITY + 1 ∧ m = T.length / 2 ∧
      T = T.take m ++ T.getD m default :: T.drop (m + 1) ∧
      splitParentCall tm pg.parent P s r =
        some (tn, (T.getD m default).key, tm.disk.length) ∧
      ParentCall t k v tn pg.parent (T.getD m default).key tm.disk.length ∧
      tn.disk[pg.parent]? = some (Page.internal pl) ∧
      tn.disk[tm.disk.length]? = some (Page.internal pr) ∧
      pl.leftmost = P.leftmost ∧ pl.slots = T.take m ∧
      pr.leftmost = (T.getD m default).right_child ∧ pr.slots = T.drop (m + 1) ∧
      pr.count = T.length - m - 1 ∧
      insert t k v = some t1 ∧
      t1.disk[pg.parent]? = some (Page.internal ql) ∧
      t1.disk[tm.disk.length]? = some (Page.internal qr) ∧
      ql.leftmost = P.leftmost ∧ ql.slots = T.take m ∧
      qr.leftmost = (T.getD m default).right_child ∧ qr.slots = T.drop (m + 1) ∧
      (pl.children ++ pr.children).Perm (r :: P.children) ∧
      (pl.children ++ pr.children).Nodup ∧
      ((P.slots.map InternalEntry.key).Pairwise (· < ·) →
        s ∉ P.slots.map InternalEntry.key →
        (T.map InternalEntry.key).Pairwise (· < ·) ∧
        (T.getD m default).key ∉ pl.slots.map InternalEntry.key ∧
        (T.getD m default).key ∉ pr.slots.map InternalEntry.key) ∧
      (ReachableByInserts t → inRange k →
        (P.slots.map InternalEntry.key).Pairwise (· < ·) ∧
        s ∉ P.slots.map InternalEntry.key) := by
  obtain ⟨g, hinv⟩ := reachable_balanced t h
  obtain ⟨g1, f, hp, _, hfuel, hins⟩ := ParentCall_shape t g k v hinv tm l s r hcall
  obtain ⟨tn, e1, hs, hnr, hpend, hlvP, hPl, bP, bN, hrt, hnodup, hfresh⟩ :=
    parent_split_step tm g1 l s r pg P hp hl hP hc
  obtain ⟨t1, g2, e2, _, _⟩ := insertIntoParent_bal f 0 tm g1 l s r hp (Nat.zero_le _) hfuel
  obtain ⟨f1, rfl⟩ : ∃ f1, f = f1 + 1 := ⟨f - 1, by omega⟩
  have e3 := e2
  rw [insertIntoParent_call f1 tm l s r pg P hl hs hnr hP hc, e1, Option.some_bind] at e3
  have hlow := insertIntoParent_low f1 tn _ pg.parent _ tm.disk.length t1 hpend e3
  have cP := hlow pg.parent (Or.inr hPl) le_rfl
  have cN := hlow tm.disk.length (Or.inl rfl) (le_of_eq hpend.lvlR)
  rw [bP] at cP
  rw [bN] at cN
  have hnext : ParentCall t k v tn pg.parent
      ((insertAt (scanPos s P.slots) ⟨s, r⟩ P.slots).getD
        ((insertAt (scanPos s P.slots) ⟨s, r⟩ P.slots).length / 2) default).key
      tm.disk.length :=
    ParentCall.up hcall hl hs hnr (readInternal_eq _ _ _ hP) hc e1
  have hperm := insertAt_perm (scanPos s P.slots) (⟨s, r⟩ : InternalEntry) P.slots
  have hkp := kids_insertAt_perm P.leftmost (scanPos s P.slots) ⟨s, r⟩ P.slots
  have hlen : (insertAt (scanPos s P.slots) ⟨s, r⟩ P.slots).length
      = INTERNAL_CAPACITY + 1 := by
    rw [insertAt_length]; exact congrArg (· + 1) hc
  have hstrict : (P.slots.map InternalEntry.key).Pairwise (· < ·) →
      s ∉ P.slots.map InternalEntry.key →
      ((insertAt (scanPos s P.slots) ⟨s, r⟩ P.slots).map InternalEntry.key).Pairwise
        (· < ·) := fun h1 h2 => scanPos_sorted s r P.slots h1 h2
  generalize insertAt (scanPos s P.slots) ⟨s, r⟩ P.slots = T
    at e1 bP bN cP cN hnext hperm hkp hlen hstrict
  have hlen1 := hlen
  rw [INTERNAL_CAPACITY_eq] at hlen1
  have hdec := split_at_index T (T.length / 2) (by omega)
  obtain ⟨pl, hpl, pl1, pl2⟩ := bodyAt_internal_some _ _ _ _ bP
  obtain ⟨pr, hpr, pr1, pr2⟩ := bodyAt_internal_some _ _ _ _ bN
  obtain ⟨ql, hql, ql1, ql2⟩ := bodyAt_internal_some _ _ _ _ cP
  obtain ⟨qr, hqr, qr1, qr2⟩ := bodyAt_internal_some _ _ _ _ cN
  have hch : pl.children ++ pr.children = kids P.leftmost T := by
    unfold InternalPage.children
    rw [pl1, pl2, pr1, pr2, ← kids_append, ← hdec]
  refine ⟨T, T.length / 2, tn, t1, pl, pr, ql, qr, rfl, hperm, hlen, rfl, hdec, e1, hnext,
    hpl, hpr, pl1, pl2, pr1, pr2, ?_, hins.trans e2, hql, hqr, ql1, ql2, qr1, qr2, ?_, ?_,
    ?_, ?_⟩
  · unfold InternalPage.count
    rw [pr2, List.length_drop]; omega
  · rw [hch]; exact hkp
  · rw [hch]
    exact (hkp.nodup_iff).2 (List.nodup_cons.2 ⟨hfresh, hnodup⟩)
  · intro h1 h2
    have hT := hstrict h1 h2
    have hs2 : ((T.take (T.length / 2)).map InternalEntry.key ++
        (T.getD (T.length / 2) default).key ::
          (T.drop (T.length / 2 + 1)).map InternalEntry.key).Pairwise (· < ·) := by
      have hk := congrArg (List.map InternalEntry.key) hdec
      rw [List.map_append, List.map_cons] at hk
      rw [← hk]; exact hT
    rw [List.pairwise_append, List.pairwise_cons] at hs2
    refine ⟨hT, ?_, ?_⟩
    · rw [pl2]
      intro hm
      exact lt_irrefl _ (hs2.2.2 _ hm _ (List.mem_cons_self _ _))
    · rw [pr2]
      intro hm
      exact lt_irrefl _ (hs2.2.1.1 _ hm)
  · intro hri hk
    exact ParentCall_keys t hri k hk v tm l s r hcall pg P hl hP

/-! ## A full parent with equal keys -/

theorem replicate_no_descent (n : Nat) (r : Int × Bytes) :
    ¬ hasDescent (List.replicate n r) := by
  rintro ⟨i, hi, hlt⟩
  rw [List.length_replicate] at hi
  simp only [List.getD_eq_getElem?_getD, List.getElem?_replicate, hi,
    show i < n by omega, if_true, Option.getD_some] at hlt
  exact lt_irrefl _ hlt

theorem rank_zero_of_ge (k : Int) (keys : List Int) (h : ∀ a ∈ keys, k ≤ a) :
    rank k keys = 0 := by
  cases keys with
  | nil => rfl
  | cons a as =>
    have := h a (List.mem_cons_self _ _)
    simp [rank, not_lt.2 this]

theorem findLeafLoop_step (d : List Page) (k : Int) (f pid : Nat) (n : InternalPage)
    (h : d[pid]? = some (Page.internal n)) :
    findLeafLoop d k (f + 1) pid = findLeafLoop d k f (childFor n k) := by
  simp [findLeafLoop, readPage, h]

/-- A bulk load of 340 * 339 records with the key 5 into a fresh file: 340 full leaves on
the pages 2..341 under the full root on page 342, whose 339 separators are all 5; the
descent for the key 4 ends in the first leaf. -/
theorem fives_bulk (n : Nat) (hn : n = 115260) :
    ∃ (t : Tree) (P : InternalPage) (lf : LeafPage),
      bulkLoadCSV (BPlusTree.open []) (List.replicate n (5, [0x61])) = BulkResult.ok t ∧
      t.disk.length = 343 ∧ t.sb.root = 342 ∧
      t.disk[342]? = some (Page.internal P) ∧ P.leftmost = 2 ∧ P.slots.length = 339 ∧
      (∀ e ∈ P.slots, e.key = 5) ∧
      t.disk[2]? = some (Page.leaf lf) ∧ lf.parent = 342 ∧
      lf.slots = List.replicate LEAF_CAPACITY ⟨5, pad8 [0x61]⟩ ∧
      findLeaf t 4 = some 2 := by
  obtain ⟨b, m, d1, root, hw, hm, hm1, hm2, eUp, hcl, _, _, _, _, _, e⟩ :=
    bulk_layout (BPlusTree.open []) (List.replicate n (5, [0x61])) (by decide)
      (by intro hh; have := congrArg List.length hh; simp at this; omega)
      (replicate_no_descent _ _)
  rw [List.length_replicate, LEAF_CAPACITY_eq, hn] at hm1 hm2
  have hm340 : m = 340 := by omega
  subst hm340
  have hN : (BPlusTree.open []).disk.length = 2 := by decide
  have hlen := hw.len
  rw [hN] at hlen
  have hE : (List.replicate n ((5 : Int), ([0x61] : Bytes))).map entryOf
      = List.replicate n ⟨5, pad8 [0x61]⟩ := by
    rw [List.map_replicate]; rfl
  rw [hE] at hw
  -- one round of build_level makes the root
  obtain ⟨da, upper, hb, hu, _, hlenu⟩ :=
    build_level_spec b.child_list.length b.disk b.child_list le_rfl hw.childNodes
  obtain ⟨la, ba, ua⟩ := build_level_layout _ _ _ _ _ le_rfl hb
  rw [hcl, INTERNAL_CAPACITY_eq] at hlenu
  have hlenu1 : upper.length = 1 := by rw [hlenu]
  obtain ⟨u0, rfl⟩ := List.length_eq_one.1 hlenu1
  have e1 : upperPass 340 b.disk b.child_list = upperPass 339 da [u0] :=
    upperPass_step 339 b.disk da b.child_list _ (by rw [hcl]; decide) hb
  have e2 : upperPass 339 da [u0] = some (da, [u0]) := upperPass_done 338 da _ rfl
  rw [e1, e2] at eUp
  simp only [Option.some.injEq, Prod.mk.injEq, List.cons.injEq, and_true] at eUp
  obtain ⟨rfl, rfl⟩ := eUp
  have hu0 := (ua 0 (by simp)).2
  have hbody := (ua 0 (by simp)).1
  simp only [List.getD_cons_zero, Nat.add_zero] at hu0 hbody
  have hroot : u0.2 = 342 := by rw [hu0, hlen]
  simp only [List.length_cons, List.length_nil] at la
  have hlen1 : da.length = 343 := by omega
  -- the children of the level
  have hchild : ∀ i, i < 340 → b.child_list.getD i default = ((5 : Int), 2 + i) := by
    intro i hi
    rw [hw.child_getD i hi, hN]
    simp [List.getD_eq_getElem?_getD, List.getElem?_replicate, LEAF_CAPACITY_eq,
      show 339 * i < n by omega]
  have hkeys : ∀ c ∈ b.child_list, c.1 = 5 := by
    intro c hc
    obtain ⟨i, hi, hci⟩ := List.getElem_of_mem hc
    rw [hcl] at hi
    have := hchild i hi
    rw [List.getD_eq_getElem _ _ (by rw [hcl]; exact hi), hci] at this
    rw [this]
  have hfg : fromGroup b.child_list 0 = b.child_list := by simp [fromGroup]
  rw [hfg, hlen] at hbody
  -- the pages of the tree the load returns
  have hlt : 0 < da.length := by omega
  have hbw : ∀ pid, 0 < pid →
      bodyAt (writeSuper da { (BPlusTree.open []).sb with root := u0.2 }) pid
        = bodyAt da pid := by
    intro pid hp
    unfold writeSuper writePage
    rw [bodyAt_set _ _ _ _ hlt, if_neg (by omega)]
  have hleaf := hw.leafAt 0 (by decide)
  rw [hN] at hleaf
  have bl := bodyAt_leaf _ _ _ hleaf
  rw [← ba 2 (by omega), ← hbw 2 (by decide)] at bl
  have br := hbody
  rw [← hbw 342 (by decide)] at br
  unfold nodeBody at br
  rw [hchild 0 (by decide)] at br
  obtain ⟨rp, hrp, hrl, hrs⟩ := bodyAt_internal_some _ _ _ _ br
  obtain ⟨lf, hlf, _, hls⟩ := bodyAt_leaf_some _ _ _ _ bl
  have hrkeys : ∀ e ∈ rp.slots, e.key = 5 := by
    intro e0 he0
    rw [hrs] at he0
    obtain ⟨c, hc, rfl⟩ := List.mem_map.1 he0
    exact hkeys c (List.mem_of_mem_drop (List.mem_of_mem_take hc))
  have hrlen : rp.slots.length = 339 := by
    rw [hrs, List.length_map, List.length_take, List.length_drop, hcl, INTERNAL_CAPACITY_eq]
    decide
  obtain ⟨g, hinv⟩ := bulk_balanced _ _ _ ⟨_, (rfl : (BPlusTree.open []).disk[0]? = _)⟩ e
  generalize ht : (⟨{ (BPlusTree.open []).sb with root := u0.2 },
      writeSuper da { (BPlusTree.open []).sb with root := u0.2 }⟩ : Tree) = t at e hinv
  have htd : t.disk = writeSuper da { (BPlusTree.open []).sb with root := u0.2 } := by
    rw [← ht]
  have htr : t.sb.root = 342 := by rw [← ht]; exact hroot
  rw [← htd] at hrp hlf
  have hb342 : bodyAt t.disk 342 = some (Body.internal 2 rp.slots) := by
    have := bodyAt_internal _ _ _ hrp
    rw [hrl] at this
    exact this
  have hrlive : g.live 342 := by
    have := hinv.core.rootLive
    rw [htr] at this
    exact this
  have hkid := hinv.core.child 342 2 rp.slots hrlive hb342 2 (List.mem_cons_self _ _)
  have hpar : lf.parent = 342 := by
    have h1 : parentAt t.disk 2 = lf.parent := parentAt_eq _ _ _ hlf
    rw [← h1]; exact hkid.2.1
  have hci : child_index rp 4 = 0 := by
    rw [child_index_eq_rank rp 4 (by
      refine List.pairwise_iff_getElem.2 fun i j hi hj _ => ?_
      simp only [List.getElem_map]
      rw [hrkeys _ (List.getElem_mem _), hrkeys _ (List.getElem_mem _)])]
    refine rank_zero_of_ge _ _ fun a ha => ?_
    obtain ⟨e0, he0, rfl⟩ := List.mem_map.1 ha
    rw [hrkeys e0 he0]; decide
  have htl : t.disk.length = 343 := by
    rw [htd]
    simp only [writeSuper, writePage, List.length_set]
    exact hlen1
  refine ⟨t, rp, lf, e, htl, htr, hrp, hrl, hrlen, hrkeys, hlf, hpar, ?_, ?_⟩
  · have hmin : min LEAF_CAPACITY n = LEAF_CAPACITY := by
      rw [LEAF_CAPACITY_eq]; omega
    rw [hls, Nat.mul_zero, List.drop_zero, List.take_replicate, hmin]
  · unfold findLeaf
    rw [htl, htr, findLeafLoop_step t.disk 4 342 342 rp hrp]
    have hcf : childFor rp 4 = 2 := by simp [childFor, hci, hrl]
    rw [hcf]
    exact findLeafLoop_leaf _ _ 341 _ _ _ (bodyAt_leaf _ _ _ hlf)

/-- After the bulk load of 340 * 339 records with the key 5, `insert(4, "a")` reaches the
full first leaf (page 2), splits it and calls `insertIntoParent(2, 5, 343)`; the parent is
the full root on page 342, whose separators are all 5. -/
theorem fives_call (n : Nat) (hn : n = 115260) :
    ∃ (t tm : Tree) (pg : Page) (P : InternalPage),
      bulkLoadCSV (BPlusTree.open []) (List.replicate n (5, [0x61])) = BulkResult.ok t ∧
      ParentCall t 4 [0x61] tm 2 5 343 ∧ tm.disk[2]? = some pg ∧ pg.parent = 342 ∧
      tm.disk[342]? = some (Page.internal P) ∧ P.count = INTERNAL_CAPACITY ∧
      (∀ e ∈ P.slots, e.key = 5) ∧ P.leftmost = 2 ∧ tm.disk.length = 344 := by
  obtain ⟨t, P, lf, e, htl, htr, hP, hPl, hPn, hPk, hlf, hpar, hls, hf⟩ := fives_bulk n hn
  have hsorted : (lf.slots.map LeafEntry.key).Pairwise (· ≤ ·) := by
    rw [hls, List.map_replicate]
    exact List.pairwise_replicate.2 (Or.inr le_rfl)
  have hlb : lower_bound_leaf lf 4 = 0 := by
    rw [lower_bound_leaf_eq_rank lf 4 hsorted]
    refine rank_zero_of_ge _ _ fun a ha => ?_
    rw [hls, List.map_replicate] at ha
    rw [(List.mem_replicate.1 ha).2]
    decide
  have hcnt : lf.count = LEAF_CAPACITY := by
    unfold LeafPage.count
    rw [hls, List.length_replicate]
  have hkeys : ∀ e ∈ lf.slots, e.key = 5 := by
    intro e0 he0
    rw [hls] at he0
    rw [(List.mem_replicate.1 he0).2]
  have hnhit : ¬ (lower_bound_leaf lf 4 < lf.count ∧
      (lf.slots.getD (lower_bound_leaf lf 4) default).key = 4) := by
    rintro ⟨h1, h2⟩
    have hm : lf.slots.getD (lower_bound_leaf lf 4) default ∈ lf.slots := by
      rw [List.getD_eq_getElem _ _ h1]
      exact List.getElem_mem _
    rw [hkeys _ hm] at h2
    exact absurd h2 (by decide)
  have hnroom : ¬ lf.count < LEAF_CAPACITY := by rw [hcnt]; exact lt_irrefl _
  have hcl := splitLeafCall_eq t 2 lf 4 (pad8 [0x61])
  simp only [] at hcl
  have hT : insertAt (lower_bound_leaf lf 4) (⟨4, pad8 [0x61]⟩ : LeafEntry) lf.slots
      = ⟨4, pad8 [0x61]⟩ :: lf.slots := by
    rw [hlb, insertAt_zero]
  have hTl : (insertAt (lower_bound_leaf lf 4) (⟨4, pad8 [0x61]⟩ : LeafEntry)
      lf.slots).length = 340 := by
    rw [insertAt_length]
    have : lf.slots.length = LEAF_CAPACITY := hcnt
    rw [this, LEAF_CAPACITY_eq]
  have hTk : ∀ e ∈ (insertAt (lower_bound_leaf lf 4) (⟨4, pad8 [0x61]⟩ : LeafEntry)
      lf.slots).drop 1, e.key = 5 := by
    intro e0 he0
    rw [hT, List.drop_one, List.tail_cons] at he0
    exact hkeys e0 he0
  generalize insertAt (lower_bound_leaf lf 4) (⟨4, pad8 [0x61]⟩ : LeafEntry) lf.slots = T
    at hcl hTl hTk
  have htake : (T.drop (T.length / 2)).take (T.length - T.length / 2)
      = T.drop (T.length / 2) := by
    apply List.take_of_length_le
    rw [List.length_drop]
  rw [htake] at hcl
  have hsep : ((T.drop (T.length / 2)).getD 0 default).key = 5 := by
    apply hTk
    have h1 : 0 < (T.drop (T.length / 2)).length := by
      rw [List.length_drop]; omega
    rw [List.getD_eq_getElem _ _ h1]
    have h2 : (T.drop (T.length / 2))[0] ∈ T.drop (T.length / 2) := List.getElem_mem _
    have h3 : T.drop (T.length / 2) = (T.drop 1).drop (T.length / 2 - 1) := by
      rw [List.drop_drop]
      congr 1
      omega
    have hsub : (T.drop (T.length / 2)).Sublist (T.drop 1) := by
      rw [h3]; exact List.drop_sublist _ _
    exact hsub.subset h2
  rw [hsep, htl] at hcl
  have hcall : ParentCall t 4 [0x61] _ 2 _ _ :=
    ParentCall.leaf hf (readLeaf_eq _ _ _ hlf) hnhit hnroom hcl
  have h2lt : 2 < t.disk.length := by omega
  refine ⟨t, _, Page.leaf ⟨lf.parent, 343, T.take (T.length / 2)⟩, P, e, hcall, ?_, hpar, ?_,
    ?_, hPk, hPl, ?_⟩
  · show (((t.disk ++ [Page.leaf ⟨lf.parent, 0, []⟩]).set 2 _).set 343 _)[2]? = _
    rw [List.getElem?_set_ne (by decide), List.getElem?_set_self (by simp; omega)]
  · show (((t.disk ++ [Page.leaf ⟨lf.parent, 0, []⟩]).set 2 _).set 343 _)[342]? = _
    rw [List.getElem?_set_ne (by decide), List.getElem?_set_ne (by decide),
      List.getElem?_append_left (by omega)]
    exact hP
  · unfold InternalPage.count
    rw [hPn, INTERNAL_CAPACITY_eq]
  · show (((t.disk ++ [Page.leaf ⟨lf.parent, 0, []⟩]).set 2 _).set 343 _).length = 344
    simp only [List.length_set, List.length_append, List.length_singleton, htl]

theorem reachable_fives (n : Nat) (t : Tree)
    (h : bulkLoadCSV (BPlusTree.open []) (List.replicate n (5, [0x61])) = BulkResult.ok t) :
    ReachableByOps t :=
  ReachableByOps.bulk _ ReachableByOps.fresh h

/-- C18 (counterexample to "the promoted key occurs in neither half"): after a bulk load
of 340 * 339 records with the key 5 into a fresh file, `insert(4, "a")` splits the first
leaf and calls `insertIntoParent(2, 5, 343)` on the full root (page 342); the key at index
`total / 2` of the provisional list, which is promoted, is the key of an entry before that
index and of an entry after it. -/
theorem C18_promoted_key_in_both_halves :
    ∃ (t tm : Tree) (pg : Page) (P : InternalPage) (T : List InternalEntry),
      bulkLoadCSV (BPlusTree.open []) (List.replicate 115260 (5, [0x61])) = BulkResult.ok t ∧
      ReachableByOps t ∧
      ParentCall t 4 [0x61] tm 2 5 343 ∧ tm.disk[2]? = some pg ∧
      tm.disk[pg.parent]? = some (Page.internal P) ∧ P.count = INTERNAL_CAPACITY ∧
      T = insertAt (scanPos 5 P.slots) ⟨5, 343⟩ P.slots ∧
      (T.getD (T.length / 2) default).key ∈
        (T.take (T.length / 2)).map InternalEntry.key ∧
      (T.getD (T.length / 2) default).key ∈
        (T.drop (T.length / 2 + 1)).map InternalEntry.key := by
  obtain ⟨t, tm, pg, P, e, hcall, hl, hpp, hP, hc, hk, _, _⟩ := fives_call 115260 rfl
  have hkT : ∀ e ∈ insertAt (scanPos 5 P.slots) (⟨5, 343⟩ : InternalEntry) P.slots,
      e.key = 5 := by
    intro e0 he0
    rcases (mem_insertAt _ _ _ _).1 he0 with rfl | h1
    · rfl
    · exact hk e0 h1
  have hlen : (insertAt (scanPos 5 P.slots) (⟨5, 343⟩ : InternalEntry) P.slots).length
      = 340 := by
    rw [insertAt_length]
    have : P.slots.length = INTERNAL_CAPACITY := hc
    rw [this, INTERNAL_CAPACITY_eq]
  refine ⟨t, tm, pg, P, _, e, reachable_fives _ t e, hcall, hl, by rw [hpp]; exact hP, hc,
    rfl, ?_, ?_⟩
  · generalize insertAt (scanPos 5 P.slots) (⟨5, 343⟩ : InternalEntry) P.slots = T
      at hkT hlen
    have hmid : (T.getD (T.length / 2) default).key = 5 := by
      apply hkT
      rw [List.getD_eq_getElem _ _ (by omega)]
      exact List.getElem_mem _
    rw [hmid]
    have h0 : 0 < (T.take (T.length / 2)).length := by
      rw [List.length_take]; omega
    refine List.mem_map.2 ⟨(T.take (T.length / 2))[0], List.getElem_mem _, ?_⟩
    exact hkT _ (List.mem_of_mem_take (List.getElem_mem _))
  · generalize insertAt (scanPos 5 P.slots) (⟨5, 343⟩ : InternalEntry) P.slots = T
      at hkT hlen
    have hmid : (T.getD (T.length / 2) default).key = 5 := by
      apply hkT
      rw [List.getD_eq_getElem _ _ (by omega)]
      exact List.getElem_mem _
    rw [hmid]
    have h0 : 0 < (T.drop (T.length / 2 + 1)).length := by
      rw [List.length_drop]; omega
    refine List.mem_map.2 ⟨(T.drop (T.length / 2 + 1))[0], List.getElem_mem _, ?_⟩
    exact hkT _ (List.mem_of_mem_drop (List.getElem_mem _))

/-- C18 at the call `insertIntoParent(2, 5, 343)` that `insert(4, "a")` makes after the
bulk load of 340 * 339 records with the key 5, when the root on page 342 is full: the
insert returns, page 342 keeps `leftmost = 2` and 170 entries, the new page 344 has 169
entries, the recursive call is made for the new page 344, and the 341 children of the two
pages are distinct. -/
theorem C18_witness :
    ∃ (t tm tn t1 : Tree) (pg : Page) (P ql qr : InternalPage) (key : Int),
      bulkLoadCSV (BPlusTree.open []) (List.replicate 115260 (5, [0x61])) = BulkResult.ok t ∧
      ReachableByOps t ∧ ParentCall t 4 [0x61] tm 2 5 343 ∧ tm.disk[2]? = some pg ∧
      tm.disk[pg.parent]? = some (Page.internal P) ∧ P.count = INTERNAL_CAPACITY ∧
      pg.parent = 342 ∧
      ParentCall t 4 [0x61] tn 342 key 344 ∧
      insert t 4 [0x61] = some t1 ∧
      t1.disk[342]? = some (Page.internal ql) ∧ t1.disk[344]? = some (Page.internal qr) ∧
      ql.leftmost = 2 ∧ ql.count = 170 ∧ qr.count = 169 ∧
      (ql.children ++ qr.children).length = 341 ∧ (ql.children ++ qr.children).Nodup := by
  obtain ⟨t, tm, pg, P, e, hcall, hl, hpp, hP, hc, hk, hlm, html⟩ := fives_call 115260 rfl
  have hP1 : tm.disk[pg.parent]? = some (Page.internal P) := by rw [hpp]; exact hP
  obtain ⟨T, m, tn, t1, pl, pr, ql, qr, hT, a1, a2, a3, _, _, a4, _, _, b1, b2, b3, b4, _,
      c0, c1, c2, c3, c4, c5, c6, d1, d2, _⟩ :=
    C18_internal_split_postcondition t (reachable_fives _ t e) 4 [0x61] tm 2 5 343 hcall
      pg P hl hP1 hc
  have hm : m = 170 := by rw [a3, a2, INTERNAL_CAPACITY_eq]
  rw [hpp] at a4 c1
  rw [html] at a4 c2
  have hch : ql.children ++ qr.children = pl.children ++ pr.children := by
    unfold InternalPage.children
    rw [c3, c4, c5, c6, b1, b2, b3, b4]
  refine ⟨t, tm, tn, t1, pg, P, ql, qr, _, e, reachable_fives _ t e, hcall, hl, hP1, hc,
    hpp, a4, c0, c1, c2, by rw [c3, hlm], ?_, ?_, ?_, ?_⟩
  · unfold InternalPage.count
    rw [c4, List.length_take, a2, hm, INTERNAL_CAPACITY_eq]
    decide
  · unfold InternalPage.count
    rw [c6, List.length_drop, a2, hm, INTERNAL_CAPACITY_eq]
  · rw [hch, d1.length_eq]
    unfold InternalPage.children kids
    have : P.slots.length = INTERNAL_CAPACITY := hc
    simp only [List.length_cons, List.length_map, this, INTERNAL_CAPACITY_eq]
  · rw [hch]; exact d2

end BPTree
